import Mathlib

/-! # SyntaxTutor backend: FIRST / FOLLOW, LL(1) table and LR(0) closure

A shallow embedding of the grammar engine of `src/backend` (symbol table,
grammar, `LL1Parser`, `Lr0Item`, `SLR1Parser::Closure`) together with the
properties proved about it.

Modelling conventions.

* A symbol is a `String`; a production is a `List String`.
* `std::unordered_set<std::string>` is a `Finset String`.  A `for` loop over
  such a set whose body only inserts into other sets is modelled by the set
  operation it computes (union, difference).
* `std::unordered_map<std::string, V>` is a `UMap V`: the finite set of keys
  together with the values.  `operator[]` inserts a value-initialised entry for
  a missing key; this side effect is modelled (`UMap.touch`) because
  `ComputeFirstSets` compares whole maps.
* The rule map `g_` is the list of its entries in iteration order; theorems
  quantify over every such list, hence over every iteration order.
* Loops that run until nothing changes take a fuel argument and return
  `none` when the fuel is exhausted; `Returns f r` says that the
  computation `f` yields `r` for every sufficiently large fuel.
-/

namespace SyntaxTutor

/-! ## Containers -/

/-- An unordered map with string keys: its key set and its values.  Only the
values at keys are meaningful; they are read through `UMap.get`. -/
structure UMap (V : Type) where
  keys : Finset String
  val : String → V

/-- The empty map. -/
def UMap.empty {V : Type} [Inhabited V] : UMap V := ⟨∅, fun _ => default⟩

/-- The value stored at `k`, or the value-initialised default when `k` is not
a key. -/
def UMap.get {V : Type} [Inhabited V] (m : UMap V) (k : String) : V :=
  if k ∈ m.keys then m.val k else default

/-- The side effect of `m[k]` used as an lvalue that is only read: a missing
key is inserted with a value-initialised entry. -/
def UMap.touch {V : Type} [Inhabited V] (m : UMap V) (k : String) : UMap V :=
  ⟨insert k m.keys, fun x => m.get x⟩

/-- The assignment `m[k] = v`. -/
def UMap.set {V : Type} [Inhabited V] (m : UMap V) (k : String) (v : V) : UMap V :=
  ⟨insert k m.keys, Function.update (fun x => m.get x) k v⟩

/-- The call `m.insert({k, v})`, which keeps an existing entry. -/
def UMap.insertNew {V : Type} [Inhabited V] (m : UMap V) (k : String) (v : V) : UMap V :=
  if k ∈ m.keys then m else m.set k v

/-- The lookup `m.find(k)`. -/
def UMap.find? {V : Type} (m : UMap V) (k : String) : Option V :=
  if k ∈ m.keys then some (m.val k) else none

/-- The comparison `a == b` of two unordered maps: same keys, equal values at
every key. -/
def UMap.Same {V : Type} (a b : UMap V) : Prop :=
  a.keys = b.keys ∧ ∀ k ∈ a.keys, a.val k = b.val k

instance {V : Type} [DecidableEq V] (a b : UMap V) : Decidable (UMap.Same a b) := by
  unfold UMap.Same; infer_instance

instance {V : Type} [Inhabited V] : Inhabited (UMap V) := ⟨UMap.empty⟩

/-- A map from symbols to sets of symbols (`first_sets_`, `follow_sets_`). -/
abbrev SetMap := UMap (Finset String)

/-- A production: the symbols of a right-hand side. -/
abbrev production := List String

/-! ## symbol_table.hpp / symbol_table.cpp -/

/-- The end-of-line symbol `EOL_`. -/
def EOL_ : String := "$"

/-- The empty-string symbol `EPSILON_`. -/
def EPSILON_ : String := "EPSILON"

/-- The classification `enum symbol_type`. -/
inductive symbol_type where
  | NO_TERMINAL
  | TERMINAL
  deriving DecidableEq, Repr

instance : Inhabited symbol_type := ⟨symbol_type.NO_TERMINAL⟩

/-- The `struct SymbolTable`. -/
structure SymbolTable where
  st_ : UMap symbol_type
  terminals_ : Finset String
  terminals_wtho_eol_ : Finset String
  non_terminals_ : Finset String

/-- The default member initialisers of `SymbolTable`. -/
def SymbolTable.init : SymbolTable where
  st_ := (UMap.empty.insertNew EOL_ symbol_type.TERMINAL).insertNew EPSILON_ symbol_type.TERMINAL
  terminals_ := {EOL_}
  terminals_wtho_eol_ := ∅
  non_terminals_ := ∅

/-- The method `SymbolTable::PutSymbol`. -/
def SymbolTable.PutSymbol (t : SymbolTable) (identifier : String) (isTerminal : Bool) : SymbolTable :=
  if isTerminal then
    { t with
      st_ := t.st_.insertNew identifier symbol_type.TERMINAL
      terminals_ := insert identifier t.terminals_
      terminals_wtho_eol_ := insert identifier t.terminals_wtho_eol_ }
  else
    { t with
      st_ := t.st_.insertNew identifier symbol_type.NO_TERMINAL
      non_terminals_ := insert identifier t.non_terminals_ }

/-- The method `SymbolTable::In`. -/
def SymbolTable.In (t : SymbolTable) (s : String) : Bool := decide (s ∈ t.st_.keys)

/-- The method `SymbolTable::IsTerminal`. -/
def SymbolTable.IsTerminal (t : SymbolTable) (s : String) : Bool := decide (s ∈ t.terminals_)

/-- The method `SymbolTable::IsTerminalWthoEol`. -/
def SymbolTable.IsTerminalWthoEol (t : SymbolTable) (s : String) : Bool :=
  decide (s ≠ EPSILON_) && decide (s ∈ t.terminals_)

/-- A symbol table obtained from the default one by calls of `PutSymbol`. -/
inductive SymbolTable.Reachable : SymbolTable → Prop where
  | init : SymbolTable.Reachable SymbolTable.init
  | put (t : SymbolTable) (s : String) (b : Bool) :
      SymbolTable.Reachable t → SymbolTable.Reachable (t.PutSymbol s b)

/-! ## grammar.hpp -/

/-- The `struct Grammar`: the rule map (its entries in iteration order), the
axiom and the symbol table. -/
structure Grammar where
  g_ : List (String × List production)
  axiom_ : String
  st_ : SymbolTable

/-- The keys of the rule map. -/
def Grammar.keys (gr : Grammar) : List String := gr.g_.map Prod.fst

/-- The lookup `g_.at(k)`, which throws `std::out_of_range` (here `none`) on a
missing key. -/
def Grammar.at? (gr : Grammar) (k : String) : Option (List production) :=
  (gr.g_.find? (fun r => r.1 == k)).map Prod.snd

/-- The method `Grammar::AddProduction`: `g_[antecedent].push_back(consequent)`. -/
def Grammar.AddProduction (gr : Grammar) (antecedent : String) (consequent : production) : Grammar :=
  if antecedent ∈ gr.keys then
    { gr with g_ := gr.g_.map (fun r => if r.1 = antecedent then (r.1, r.2 ++ [consequent]) else r) }
  else
    { gr with g_ := gr.g_ ++ [(antecedent, [consequent])] }

/-! ## Computations with fuel -/

/-- The fuel-indexed computation `f` returns `r`: every sufficiently large
fuel yields `some r`. -/
def Returns {α : Type} (f : Nat → Option α) (r : α) : Prop :=
  ∃ N, ∀ n, N ≤ n → f n = some r

/-! ## ll1_parser.cpp -/

/-- The method `LL1Parser::First(rule, result)`: returns the updated `result`
and the updated `first_sets_` (whose key set `operator[]` may enlarge). -/
def First (gr : Grammar) : List String → SetMap → Finset String → Finset String × SetMap
  | [], fs, result => (insert EPSILON_ result, fs)
  | x :: rest, fs, result =>
    if (x :: rest).length = 1 ∧ x = EPSILON_ then
      (insert EPSILON_ result, fs)
    else if 1 < (x :: rest).length ∧ x = EPSILON_ then
      First gr rest fs result
    else if gr.st_.IsTerminal x then
      if x = EOL_ then (insert EPSILON_ result, fs)
      else (insert x result, fs)
    else
      let fs1 := fs.touch x
      let fii := fs1.get x
      let result1 := result ∪ fii.erase EPSILON_
      if EPSILON_ ∉ fii then (result1, fs1)
      else First gr rest fs1 result1

/-- The first loop of `ComputeFirstSets`: `first_sets_[nonTerminal] = {}` for
every key of the rule map. -/
def firstReset (gr : Grammar) (fs : SetMap) : SetMap :=
  gr.g_.foldl (fun m r => m.set r.1 ∅) fs

/-- The replacement of `EOL_` by `EPSILON_` in a computed set. -/
def eolToEpsilon (t : Finset String) : Finset String :=
  if EOL_ ∈ t then insert EPSILON_ (t.erase EOL_) else t

/-- The body of the inner loop of `ComputeFirstSets` for one production. -/
def firstProd (gr : Grammar) (nonTerminal : String) (fs : SetMap) (prod : production) :
    SetMap :=
  let r := First gr prod fs ∅
  let tempFirst := eolToEpsilon r.1
  let fs1 := r.2.touch nonTerminal
  fs1.set nonTerminal (fs1.get nonTerminal ∪ tempFirst)

/-- One pass of the `do` loop of `ComputeFirstSets` over all rules. -/
def firstPass (gr : Grammar) (fs : SetMap) : SetMap :=
  gr.g_.foldl (fun m r => r.2.foldl (firstProd gr r.1) m) fs

/-- The `do ... while (changed)` loop of `ComputeFirstSets`. -/
def firstLoop (gr : Grammar) : Nat → SetMap → Option SetMap
  | 0, _ => none
  | n + 1, fs =>
    let old_first_sets := fs
    let fs1 := firstPass gr fs
    if ¬ UMap.Same old_first_sets fs1 then firstLoop gr n fs1 else some fs1

/-- The method `LL1Parser::ComputeFirstSets` acting on `first_sets_`. -/
def ComputeFirstSets (gr : Grammar) (fs : SetMap) (fuel : Nat) : Option SetMap :=
  firstLoop gr fuel (firstReset gr fs)

/-- The mutable state of the loop of `ComputeFollowSets`: `first_sets_` (whose
keys `First` may enlarge), `follow_sets_` and the flag `changed`. -/
structure FollowState where
  first : SetMap
  follow : SetMap
  changed : Bool

/-- The loop `for (terminal : ts) if (follow_sets_[symbol].insert(terminal).second)
changed = true;` for a set `ts` of symbols to insert. -/
def followInsert (symbol : String) (ts : Finset String) (s : FollowState) : FollowState :=
  if ts = ∅ then s
  else
    let fo := s.follow.touch symbol
    { s with
      follow := fo.set symbol (fo.get symbol ∪ ts)
      changed := s.changed || decide (¬ ts ⊆ fo.get symbol) }

/-- The body of the loop over the positions of `rhs` in `ComputeFollowSets`,
for the position holding `symbol` and followed by `rest`. -/
def followAt (gr : Grammar) (lhs symbol : String) (rest : List String) (s : FollowState) :
    FollowState :=
  if ¬ gr.st_.IsTerminal symbol then
    let r : Finset String × SetMap :=
      if rest ≠ [] then First gr rest s.first ∅ else (insert EPSILON_ ∅, s.first)
    let first_remaining := r.1
    let s1 := followInsert symbol (first_remaining.erase EPSILON_) { s with first := r.2 }
    if EPSILON_ ∈ first_remaining then
      let fo := s1.follow.touch lhs
      followInsert symbol (fo.get lhs) { s1 with follow := fo }
    else s1
  else s

/-- The loop `for (i = 0; i < rhs.size(); ++i)` of `ComputeFollowSets`, by
recursion on the part of `rhs` from position `i` on. -/
def followProd (gr : Grammar) (lhs : String) : List String → FollowState → FollowState
  | [], s => s
  | symbol :: rest, s => followProd gr lhs rest (followAt gr lhs symbol rest s)

/-- One pass of the `do` loop of `ComputeFollowSets` over all rules. -/
def followPass (gr : Grammar) (s : FollowState) : FollowState :=
  gr.g_.foldl (fun s1 r => r.2.foldl (fun s2 rhs => followProd gr r.1 rhs s2) s1) s

/-- The initialisation of `ComputeFollowSets`: every key of the rule map gets
the empty set, then `EOL_` is inserted into the set of the axiom. -/
def followReset (gr : Grammar) (fo : SetMap) : SetMap :=
  let fo1 := gr.g_.foldl (fun m r => m.set r.1 ∅) fo
  let fo2 := fo1.touch gr.axiom_
  fo2.set gr.axiom_ (insert EOL_ (fo2.get gr.axiom_))

/-- The `do ... while (changed)` loop of `ComputeFollowSets`. -/
def followLoop (gr : Grammar) : Nat → SetMap → SetMap → Option (SetMap × SetMap)
  | 0, _, _ => none
  | n + 1, fi, fo =>
    let s := followPass gr ⟨fi, fo, false⟩
    if s.changed then followLoop gr n s.first s.follow else some (s.first, s.follow)

/-- The method `LL1Parser::ComputeFollowSets` acting on `first_sets_` and
`follow_sets_`. -/
def ComputeFollowSets (gr : Grammar) (fi fo : SetMap) (fuel : Nat) :
    Option (SetMap × SetMap) :=
  followLoop gr fuel fi (followReset gr fo)

/-- The method `LL1Parser::Follow`. -/
def Follow (fo : SetMap) (arg : String) : Finset String :=
  match fo.find? arg with
  | none => ∅
  | some s => s

/-- The method `LL1Parser::PredictionSymbols`, returning also the updated
`first_sets_`. -/
def PredictionSymbols (gr : Grammar) (fi fo : SetMap) (antecedent : String)
    (consequent : List String) : Finset String × SetMap :=
  let r := First gr consequent fi ∅
  let hd := r.1
  if EPSILON_ ∉ hd then (hd, r.2)
  else (hd.erase EPSILON_ ∪ Follow fo antecedent, r.2)

/-- The type `ll1_table`. -/
abbrev ll1_table := UMap (UMap (List production))

/-- The `class LL1Parser`. -/
structure LL1Parser where
  ll1_t_ : ll1_table
  gr_ : Grammar
  first_sets_ : SetMap
  follow_sets_ : SetMap

/-- The state of the loops of `CreateLL1Table`: `first_sets_`, the column
under construction and `has_conflict`. -/
structure ColumnState where
  first : SetMap
  column : UMap (List production)
  has_conflict : Bool

/-- The loop `for (symbol : ds)` of `CreateLL1Table`: `p` is appended to the
cell of every symbol of `ds`, and a cell that was not empty raises the flag. -/
def columnWrite (ds : Finset String) (p : production) (column : UMap (List production))
    (has_conflict : Bool) : UMap (List production) × Bool :=
  (⟨column.keys ∪ ds, fun s => if s ∈ ds then column.get s ++ [p] else column.get s⟩,
   has_conflict || decide (∃ s ∈ ds, column.get s ≠ []))

/-- The body of the loop over the productions of one rule in `CreateLL1Table`. -/
def columnProd (gr : Grammar) (fo : SetMap) (antecedent : String) (s : ColumnState)
    (p : production) : ColumnState :=
  let r := PredictionSymbols gr s.first fo antecedent p
  let w := columnWrite r.1 p s.column s.has_conflict
  ⟨r.2, w.1, w.2⟩

/-- The state of the outer loop of `CreateLL1Table`. -/
structure TableState where
  first : SetMap
  table : ll1_table
  has_conflict : Bool

/-- The body of the loop over the rules in `CreateLL1Table`. -/
def tableRule (gr : Grammar) (fo : SetMap) (s : TableState) (rule : String × List production) :
    TableState :=
  let c := rule.2.foldl (columnProd gr fo rule.1) ⟨s.first, UMap.empty, s.has_conflict⟩
  ⟨c.first, s.table.insertNew rule.1 c.column, c.has_conflict⟩

/-- The constructor `LL1Parser::LL1Parser(Grammar gr)`. -/
def LL1Parser.create (gr : Grammar) (fuel : Nat) : Option LL1Parser :=
  (ComputeFirstSets gr UMap.empty fuel).bind fun fi =>
  (ComputeFollowSets gr fi UMap.empty fuel).bind fun r =>
  some ⟨UMap.empty, gr, r.1, r.2⟩

/-- The recomputation at the start of `CreateLL1Table`, done when one of the
caches is empty. -/
def LL1Parser.refresh (p : LL1Parser) (fuel : Nat) : Option LL1Parser :=
  if p.first_sets_.keys = ∅ ∨ p.follow_sets_.keys = ∅ then
    (ComputeFirstSets p.gr_ p.first_sets_ fuel).bind fun fi =>
    (ComputeFollowSets p.gr_ fi p.follow_sets_ fuel).bind fun r =>
    some { p with first_sets_ := r.1, follow_sets_ := r.2 }
  else some p

/-- The method `LL1Parser::CreateLL1Table`: the returned flag and the parser
afterwards. -/
def CreateLL1Table (p : LL1Parser) (fuel : Nat) : Option (Bool × LL1Parser) :=
  (p.refresh fuel).bind fun p1 =>
  let s := p1.gr_.g_.foldl (tableRule p1.gr_ p1.follow_sets_)
    ⟨p1.first_sets_, p1.ll1_t_, false⟩
  some (!s.has_conflict, { p1 with first_sets_ := s.first, ll1_t_ := s.table })

/-! ## lr0_item.hpp / lr0_item.cpp -/

/-- The `struct Lr0Item`.  The members `epsilon_` and `eol_` are not fields:
every item the parsers build carries `st_.EPSILON_` and `st_.EOL_`, and
`operator==` and the hash ignore the two members. -/
structure Lr0Item where
  antecedent_ : String
  consequent_ : List String
  dot_ : Nat
  deriving DecidableEq, Repr

/-- The constructor `Lr0Item(antecedent, consequent, epsilon, eol)`. -/
def Lr0Item.create (antecedent : String) (consequent : List String) : Lr0Item :=
  if consequent.length = 1 ∧ consequent.head? = some EPSILON_ then ⟨antecedent, consequent, 1⟩
  else ⟨antecedent, consequent, 0⟩

/-- The method `Lr0Item::NextToDot`. -/
def Lr0Item.NextToDot (item : Lr0Item) : String :=
  if item.dot_ ≥ item.consequent_.length then EPSILON_
  else item.consequent_.getD item.dot_ EPSILON_

/-- The method `Lr0Item::AdvanceDot`. -/
def Lr0Item.AdvanceDot (item : Lr0Item) : Lr0Item :=
  if item.dot_ < item.consequent_.length then { item with dot_ := item.dot_ + 1 } else item

/-- The method `Lr0Item::IsComplete`. -/
def Lr0Item.IsComplete (item : Lr0Item) : Bool :=
  decide (item.dot_ ≥ item.consequent_.length) ||
    decide (item.consequent_.length = 1 ∧ item.consequent_.head? = some EPSILON_)

/-! ## slr1_parser.cpp: closure -/

/-- The symbols expanded by one call of `ClosureUtil`: the symbols next to the
dot of an item that are not `EPSILON_`, not terminals and not yet visited.  The
first item met with such a symbol expands it and marks it visited, so the
set does not depend on the iteration order of `items`. -/
def closureTargets (gr : Grammar) (items : Finset Lr0Item) (visited : Finset String) :
    Finset String :=
  (items.image Lr0Item.NextToDot).filter fun next =>
    next ≠ EPSILON_ ∧ ¬ gr.st_.IsTerminal next ∧ next ∉ visited

/-- The items inserted for one expanded symbol: one per rule of `g_.at(next)`. -/
def closureExpand (gr : Grammar) (next : String) : Finset Lr0Item :=
  match gr.at? next with
  | none => ∅
  | some rules => (rules.map fun rule => Lr0Item.create next rule).toFinset

/-- The method `SLR1Parser::ClosureUtil`.  The outer `none` is exhausted
fuel, the inner `none` is the exception `std::out_of_range` thrown by
`g_.at(next)`; otherwise the final contents of `items`. -/
def ClosureUtil (gr : Grammar) :
    Nat → Finset Lr0Item → Nat → Finset String → Option (Option (Finset Lr0Item))
  | 0, _, _, _ => none
  | n + 1, items, size, visited =>
    let targets := closureTargets gr items visited
    if ∃ next ∈ targets, gr.at? next = none then some none
    else
      let newItems := targets.biUnion (closureExpand gr)
      let items1 := items ∪ newItems
      if size ≠ items1.card then ClosureUtil gr n items1 items1.card (visited ∪ targets)
      else some (some items1)

/-- The method `SLR1Parser::Closure`. -/
def Closure (gr : Grammar) (items : Finset Lr0Item) (fuel : Nat) :
    Option (Option (Finset Lr0Item)) :=
  ClosureUtil gr fuel items items.card ∅

/-! ## Abstract view of the fixed-point loops -/

/-- A family of symbol sets indexed by symbols. -/
abbrev Family := String → Finset String

/-- The abstract view of a `SetMap`: its key set and its values. -/
abbrev AState := Finset String × Family

/-- The abstract view of a map. -/
def UMap.abs (m : SetMap) : AState := (m.keys, m.get)

/-- The order on abstract states: fewer keys, smaller values. -/
def AState.le (x y : AState) : Prop := x.1 ⊆ y.1 ∧ ∀ k, x.2 k ⊆ y.2 k

/-- An elementary update of a map: the keys `tk` are touched and the set `add`
is merged into the value at `target`; both may depend on the current values. -/
structure AStep where
  tk : Family → Finset String
  target : String
  add : Family → Finset String

/-- The update performed by a step. -/
def astep (s : AStep) (x : AState) : AState :=
  (x.1 ∪ s.tk x.2, Function.update x.2 s.target (x.2 s.target ∪ s.add x.2))

/-- A sequence of steps performed in order. -/
def apass (S : List AStep) (x : AState) : AState := S.foldl (fun y s => astep s y) x

/-- The step is monotone in the values it reads. -/
def AStep.Mono (s : AStep) : Prop :=
  ∀ v w : Family, (∀ k, v k ⊆ w k) → s.tk v ⊆ s.tk w ∧ s.add v ⊆ s.add w

/-- The step changes nothing at `y`. -/
def AStep.Sat (s : AStep) (y : AState) : Prop :=
  s.tk y.2 ⊆ y.1 ∧ s.add y.2 ⊆ y.2 s.target

/-- The size of an abstract state, counting values at the symbols of `K`. -/
def AState.size (K : Finset String) (x : AState) : Nat :=
  x.1.card + ∑ k in K, (x.2 k).card

/-- Values outside the key set are empty. -/
def AState.WF (x : AState) : Prop := ∀ k, k ∉ x.1 → x.2 k = ∅

/-- The set computed by `First` for `rule` when the cached table holds the
values `v`. -/
def firstOf (gr : Grammar) (v : Family) : List String → Finset String
  | [] => {EPSILON_}
  | x :: rest =>
    if rest = [] ∧ x = EPSILON_ then {EPSILON_}
    else if x = EPSILON_ then firstOf gr v rest
    else if gr.st_.IsTerminal x then
      if x = EOL_ then {EPSILON_} else {x}
    else (v x).erase EPSILON_ ∪ (if EPSILON_ ∈ v x then firstOf gr v rest else ∅)

/-- The symbols whose cached sets `First` reads for `rule`. -/
def firstKeys (gr : Grammar) (v : Family) : List String → Finset String
  | [] => ∅
  | x :: rest =>
    if rest = [] ∧ x = EPSILON_ then ∅
    else if x = EPSILON_ then firstKeys gr v rest
    else if gr.st_.IsTerminal x then ∅
    else insert x (if EPSILON_ ∈ v x then firstKeys gr v rest else ∅)

/-- The abstract step of `firstProd`. -/
def firstAStep (gr : Grammar) (nonTerminal : String) (prod : production) : AStep where
  tk := fun v => insert nonTerminal (firstKeys gr v prod)
  target := nonTerminal
  add := fun v => eolToEpsilon (firstOf gr v prod)

/-- The abstract steps of one pass of `ComputeFirstSets`, in order. -/
def firstSteps (gr : Grammar) : List AStep :=
  gr.g_.flatMap fun r => r.2.map fun p => firstAStep gr r.1 p

/-- All symbols of the grammar: rule keys and symbols of productions. -/
def Grammar.syms (gr : Grammar) : Finset String :=
  (gr.g_.flatMap fun r => r.1 :: r.2.flatMap id).toFinset

/-- The state is closed under the updates of `ComputeFirstSets`. -/
def FirstClosed (gr : Grammar) (y : AState) : Prop := ∀ s ∈ firstSteps gr, s.Sat y

/-- The abstract step of the first insertion loop of `followAt`. -/
def followAStep1 (gr : Grammar) (W : Family) (symbol : String) (rest : List String) : AStep where
  tk := fun _ => if (firstOf gr W rest).erase EPSILON_ = ∅ then ∅ else {symbol}
  target := symbol
  add := fun _ => (firstOf gr W rest).erase EPSILON_

/-- The abstract step of the second insertion loop of `followAt`. -/
def followAStep2 (lhs symbol : String) : AStep where
  tk := fun v => insert lhs (if v lhs = ∅ then ∅ else {symbol})
  target := symbol
  add := fun v => v lhs

/-- The abstract steps of `followAt`. -/
def followAtSteps (gr : Grammar) (W : Family) (lhs symbol : String) (rest : List String) :
    List AStep :=
  if gr.st_.IsTerminal symbol then []
  else followAStep1 gr W symbol rest ::
    (if EPSILON_ ∈ firstOf gr W rest then [followAStep2 lhs symbol] else [])

/-- The abstract steps of `followProd`. -/
def followProdSteps (gr : Grammar) (W : Family) (lhs : String) : List String → List AStep
  | [] => []
  | symbol :: rest => followAtSteps gr W lhs symbol rest ++ followProdSteps gr W lhs rest

/-- The abstract steps of one pass of `ComputeFollowSets`. -/
def followSteps (gr : Grammar) (W : Family) : List AStep :=
  gr.g_.flatMap fun r => r.2.flatMap fun rhs => followProdSteps gr W r.1 rhs

/-- The state `t` is obtained from `s` by performing the steps `S` on
`follow_sets_`, leaving the values of `first_sets_` alone and raising `changed`
exactly when a follow set grew. -/
def FollowSim (S : List AStep) (s t : FollowState) : Prop :=
  t.first.get = s.first.get ∧ t.follow.abs = apass S s.follow.abs ∧
    (t.changed = true ↔ s.changed = true ∨ t.follow.get ≠ s.follow.get)

/-- The state is closed under the updates of `ComputeFollowSets` for the
FIRST values `W`. -/
def FollowClosed (gr : Grammar) (W : Family) (y : AState) : Prop :=
  ∀ s ∈ followSteps gr W, s.Sat y

/-- The grammar `S -> A $`, `A -> a A | b` with its symbols registered. -/
def classicGrammar : Grammar where
  g_ := [("S", [["A", "$"]]), ("A", [["a", "A"], ["b"]])]
  axiom_ := "S"
  st_ := (((SymbolTable.init.PutSymbol "S" false).PutSymbol "A" false).PutSymbol "a" true).PutSymbol
    "b" true

/-- The conditions of the FOLLOW computation on a family `F`: `EOL_` belongs
to `F(axiom)` and, for every occurrence of a non-terminal `B` in a production
`A -> alpha B beta`, `First(beta)` minus `EPSILON_` is contained in `F(B)`, and
`F(A)` is contained in `F(B)` whenever `EPSILON_` is in `First(beta)` or `beta`
is empty.  `First` is evaluated against the cached table `fi`. -/
def FollowConditions (gr : Grammar) (fi : SetMap) (F : Family) : Prop :=
  EOL_ ∈ F gr.axiom_ ∧
  ∀ r ∈ gr.g_, ∀ p ∈ r.2, ∀ α B β, p = α ++ B :: β → gr.st_.IsTerminal B = false →
    (First gr β fi ∅).1.erase EPSILON_ ⊆ F B ∧
    ((EPSILON_ ∈ (First gr β fi ∅).1 ∨ β = []) → F r.1 ⊆ F B)

/-- The string a production stands for: the production `[EPSILON_]` is the
empty string. -/
def Grammar.body (p : production) : List String := if p = [EPSILON_] then [] else p

/-- One derivation step: a non-terminal (a rule key that is not a registered
terminal) inside a sentential form is replaced by one of its productions. -/
inductive Grammar.Produces (gr : Grammar) : List String → List String → Prop where
  | step (u v : List String) (r : String × List production) (p : production) :
      r ∈ gr.g_ → p ∈ r.2 → gr.st_.IsTerminal r.1 = false →
      Grammar.Produces gr (u ++ r.1 :: v) (u ++ Grammar.body p ++ v)

/-- Derivation: zero or more derivation steps. -/
def Grammar.Derives (gr : Grammar) : List String → List String → Prop :=
  Relation.ReflTransGen gr.Produces

/-- A sentential form without `EPSILON_` and without `EOL_`. -/
def CleanForm (α : List String) : Prop := EPSILON_ ∉ α ∧ EOL_ ∉ α

/-- What membership of `x` in a FIRST set of the sequence `α` means in terms
of derivations. -/
def FirstMeaning (gr : Grammar) (α : List String) (x : String) : Prop :=
  (x = EPSILON_ ∧ gr.Derives α []) ∨
  (x ≠ EPSILON_ ∧ gr.st_.IsTerminal x = true ∧ ∃ γ, gr.Derives α (x :: γ))

/-- The grammar hypotheses of C1: `EOL_` occurs in no production and
`EPSILON_` occurs only as the sole symbol of a production. -/
def Grammar.Plain (gr : Grammar) : Prop :=
  (∀ r ∈ gr.g_, ∀ p ∈ r.2, EOL_ ∉ p) ∧ (∀ r ∈ gr.g_, ∀ p ∈ r.2, EPSILON_ ∈ p → p = [EPSILON_])

/-- The grammar `A -> a A b | EPSILON` with its symbols registered; it has the
axiom `A` and no production mentions `EOL_`. -/
def nestedGrammar : Grammar where
  g_ := [("A", [["a", "A", "b"], ["EPSILON"]])]
  axiom_ := "A"
  st_ := (((SymbolTable.init.PutSymbol "A" false).PutSymbol "a" true).PutSymbol "b" true).PutSymbol
    "EPSILON" true

/-- The prediction symbols of the production `A -> p` when the cached FIRST
table holds the values `W`. -/
def predOf (gr : Grammar) (W : Family) (fo : SetMap) (A : String) (p : List String) :
    Finset String :=
  if EPSILON_ ∉ firstOf gr W p then firstOf gr W p
  else (firstOf gr W p).erase EPSILON_ ∪ Follow fo A

/-- The cells of `column` are the cells of the rule `rule`: the cell of `t`
lists the productions of the rule with `t` among their prediction symbols, in
the order of the rule, and is absent when there is none. -/
def ColumnOf (gr : Grammar) (W : Family) (fo : SetMap) (rule : String × List production)
    (column : UMap (List production)) : Prop :=
  ∀ t, column.find? t =
    if (rule.2.filter fun p => t ∈ predOf gr W fo rule.1 p) = [] then none
    else some (rule.2.filter fun p => t ∈ predOf gr W fo rule.1 p)

/-- No two production entries of the rule share a prediction symbol. -/
def RuleDisjoint (gr : Grammar) (W : Family) (fo : SetMap) (rule : String × List production) :
    Prop :=
  rule.2.Pairwise fun p q => Disjoint (predOf gr W fo rule.1 p) (predOf gr W fo rule.1 q)

/-- A result obtained with some fuel is obtained with any larger fuel. -/
def FuelMono {α : Type} (f : Nat → Option α) : Prop :=
  ∀ n a, f n = some a → ∀ k, n ≤ k → f k = some a

/-- A parser for `S -> A $`, `A -> a A | b` on which nothing has been
computed yet. -/
def classicParser : LL1Parser := ⟨UMap.empty, classicGrammar, UMap.empty, UMap.empty⟩

/-- The grammar `A -> a A | a` with its symbols registered. -/
def ambiguousGrammar : Grammar where
  g_ := [("A", [["a", "A"], ["a"]])]
  axiom_ := "A"
  st_ := (SymbolTable.init.PutSymbol "A" false).PutSymbol "a" true

/-- The item set `J` is closed: whenever an item of `J` has a non-terminal
`B` (neither `EPSILON_` nor a registered terminal) immediately after its dot,
`J` contains the initial item of every production of `B`. -/
def ClosedItems (gr : Grammar) (J : Finset Lr0Item) : Prop :=
  ∀ it ∈ J, it.NextToDot ≠ EPSILON_ → gr.st_.IsTerminal it.NextToDot = false →
    ∀ rules, gr.at? it.NextToDot = some rules → ∀ rule ∈ rules,
      Lr0Item.create it.NextToDot rule ∈ J

/-- Every non-terminal immediately after the dot of an item of `I` is a key
of the rule map. -/
def KnownNext (gr : Grammar) (I : Finset Lr0Item) : Prop :=
  ∀ it ∈ I, it.NextToDot ≠ EPSILON_ → gr.st_.IsTerminal it.NextToDot = false →
    it.NextToDot ∈ gr.keys

/-- Every non-terminal occurring in a production is a key of the rule map. -/
def Grammar.Defined (gr : Grammar) : Prop :=
  ∀ r ∈ gr.g_, ∀ p ∈ r.2, ∀ B ∈ p, B ≠ EPSILON_ → gr.st_.IsTerminal B = false → B ∈ gr.keys

/-- The invariant of the recursion of `ClosureUtil`: the visited symbols have
been expanded into `items`, every non-terminal after a dot is a rule key, and
`items` stays inside the finite set `U`. -/
def ClosureInv (gr : Grammar) (U items : Finset Lr0Item) (visited : Finset String) : Prop :=
  (∀ B ∈ visited, closureExpand gr B ⊆ items) ∧ KnownNext gr items ∧ items ⊆ U ∧
    ∀ B, closureExpand gr B ⊆ U

/-- All initial items of the grammar. -/
def Grammar.initialItems (gr : Grammar) : Finset Lr0Item :=
  (gr.g_.flatMap fun r => r.2.map fun rule => Lr0Item.create r.1 rule).toFinset

/-! ## Idempotence of the closure (C11) -/

/-- Every non-terminal immediately after the dot of an item of `J` has
productions, and their initial items are in `J`. -/
def ExpandedItems (gr : Grammar) (J : Finset Lr0Item) : Prop :=
  ∀ it ∈ J, it.NextToDot ≠ EPSILON_ → gr.st_.IsTerminal it.NextToDot = false →
    gr.at? it.NextToDot ≠ none ∧ closureExpand gr it.NextToDot ⊆ J

/-- The closure of the initial item `S -> . A $` of the grammar `S -> A $`,
`A -> a A | b`. -/
def classicInitialClosure : Finset Lr0Item :=
  {⟨"S", ["A", "$"], 0⟩, ⟨"A", ["a", "A"], 0⟩, ⟨"A", ["b"], 0⟩}

/-! ## grammar.cpp: `Split` -/

/-- The value of an `unsigned` expression: arithmetic is modulo `2^32`. -/
def u32 (n : Nat) : Nat := n % 2 ^ 32

/-- The call `s.substr(pos, len)`; it throws `std::out_of_range` (here
`none`) when `pos` exceeds the size of `s`.  A `Char` stands for a `char` of
the source string. -/
def substr (s : String) (pos len : Nat) : Option String :=
  if s.length < pos then none else some ⟨(s.data.drop pos).take len⟩

/-- The inner loop `while (lookahead <= s.size())` of `Split`: returns the
final value of `end`.  The outer `none` is exhausted fuel, the inner `none` an
exception. -/
def splitLookahead (t : SymbolTable) (s : String) (start : Nat) :
    Nat → Nat → Nat → Option (Option Nat)
  | 0, _, _ => none
  | n + 1, end_, lookahead =>
    if lookahead ≤ s.length then
      match substr s start (u32 (lookahead + 2 ^ 32 - start)) with
      | none => some none
      | some extended =>
        splitLookahead t s start n (if t.In extended then lookahead else end_)
          (u32 (lookahead + 1))
    else some (some end_)

/-- The outer loop `while (end <= s.size())` of `Split`: returns `splitted`,
`start` and `end` at the exit of the loop. -/
def splitLoop (t : SymbolTable) (s : String) (fuel : Nat) :
    Nat → Nat → Nat → List String → Option (Option (List String × Nat × Nat))
  | 0, _, _, _ => none
  | n + 1, start, end_, splitted =>
    if end_ ≤ s.length then
      match substr s start (u32 (end_ + 2 ^ 32 - start)) with
      | none => some none
      | some str =>
        if t.In str then
          match splitLookahead t s start fuel end_ (u32 (end_ + 1)) with
          | none => none
          | some none => some none
          | some (some end1) =>
            match substr s start (u32 (end1 + 2 ^ 32 - start)) with
            | none => some none
            | some token => splitLoop t s fuel n end1 (u32 (end1 + 1)) (splitted ++ [token])
        else splitLoop t s fuel n start (u32 (end_ + 1)) splitted
    else some (some (splitted, start, end_))

/-- The method `Grammar::Split`.  The outer `none` is exhausted fuel, the
inner `none` an exception. -/
def Grammar.Split (gr : Grammar) (s : String) (fuel : Nat) : Option (Option (List String)) :=
  if s = EPSILON_ then some (some [EPSILON_])
  else
    match splitLoop gr.st_ s fuel fuel 0 1 [] with
    | none => none
    | some none => some none
    | some (some r) => if r.2.1 < u32 (r.2.2 + 2 ^ 32 - 1) then some (some []) else some (some r.1)

/-- `k` is the length of the longest non-empty registered prefix of `r`. -/
def LongestMatch (t : SymbolTable) (r : List Char) (k : Nat) : Prop :=
  1 ≤ k ∧ k ≤ r.length ∧ t.In ⟨r.take k⟩ = true ∧
    ∀ j, k < j → j ≤ r.length → t.In ⟨r.take j⟩ = false

/-- The greedy scan of the text `r`: `toks` are the tokens taken, each the
longest non-empty registered prefix of the text remaining at its position, and
`ok` tells whether the scan reached the end of the text (otherwise it stopped
at a position where no non-empty prefix of the rest is registered). -/
inductive GreedyScan (t : SymbolTable) : List Char → List String → Bool → Prop where
  | done : GreedyScan t [] [] true
  | stuck (r : List Char) : r ≠ [] →
      (∀ j, 1 ≤ j → j ≤ r.length → t.In ⟨r.take j⟩ = false) → GreedyScan t r [] false
  | token (r : List Char) (k : Nat) (toks : List String) (ok : Bool) :
      LongestMatch t r k → GreedyScan t (r.drop k) toks ok →
      GreedyScan t r (⟨r.take k⟩ :: toks) ok

/-- A symbol table with the symbols `a`, `ab` and `bc` registered. -/
def greedyTable : SymbolTable :=
  ((SymbolTable.init.PutSymbol "a" true).PutSymbol "ab" true).PutSymbol "bc" true

/-- A grammar over `greedyTable`. -/
def greedyGrammar : Grammar := ⟨[], "S", greedyTable⟩

/-- A symbol table with the symbols `a` and `b` registered. -/
def plainTable : SymbolTable := (SymbolTable.init.PutSymbol "a" true).PutSymbol "b" true

/-- A grammar over `plainTable`. -/
def plainGrammar : Grammar := ⟨[], "S", plainTable⟩

/-! ## grammar_factory.cpp: `IsInfinite` -/

/-- The loop over the symbols of `prod` in `IsInfinite`: the final value of
`all_generating`. -/
def allGenerating (gr : Grammar) (generating : Finset String) (prod : production) : Bool :=
  prod.all fun symbol => gr.st_.IsTerminal symbol || decide (symbol ∈ generating)

/-- The body of the loop over the rules in `IsInfinite`, acting on
`generating` and `changed`. -/
def generatingRule (gr : Grammar) (s : Finset String × Bool) (r : String × List production) :
    Finset String × Bool :=
  if r.1 ∈ s.1 then s
  else if r.2.any (allGenerating gr s.1) then (insert r.1 s.1, true)
  else s

/-- The loop `while (changed)` of `IsInfinite`: returns the final set
`generating`. -/
def generatingLoop (gr : Grammar) : Nat → Finset String → Option (Finset String)
  | 0, _ => none
  | n + 1, generating =>
    let s := gr.g_.foldl (generatingRule gr) (generating, false)
    if s.2 then generatingLoop gr n s.1 else some s.1

/-- The method `GrammarFactory::IsInfinite`. -/
def IsInfinite (grammar : Grammar) (fuel : Nat) : Option Bool :=
  (generatingLoop grammar fuel ∅).map fun generating =>
    decide (generating ≠ grammar.st_.non_terminals_)

/-- The property `P` of symbols is closed under the rule of generating
symbols: a rule key is in `P` when one of its productions consists only of
registered terminals and members of `P`. -/
def GenClosed (gr : Grammar) (P : String → Prop) : Prop :=
  ∀ r ∈ gr.g_, ∀ p ∈ r.2, (∀ x ∈ p, gr.st_.IsTerminal x = true ∨ P x) → P r.1

/-- The symbol table of the tests of `IsInfinite`. -/
def infiniteTable : SymbolTable :=
  ((((SymbolTable.init.PutSymbol "S" false).PutSymbol "A" false).PutSymbol "a" true).PutSymbol
    "b" true).PutSymbol "c" true

/-- The grammar `S -> A $`, `A -> a A`. -/
def infiniteGrammar : Grammar := ⟨[("S", [["A", "$"]]), ("A", [["a", "A"]])], "S", infiniteTable⟩

/-- The grammar `S -> A $`, `A -> a A | b`. -/
def finiteGrammar : Grammar :=
  ⟨[("S", [["A", "$"]]), ("A", [["a", "A"], ["b"]])], "S", infiniteTable⟩

/-- The symbol `x` derives some string of registered terminals. -/
def DerivesTerminals (gr : Grammar) (x : String) : Prop :=
  ∃ w, gr.Derives [x] w ∧ ∀ y ∈ w, gr.st_.IsTerminal y = true

/-! ## state.hpp / slr1_parser.hpp -/

/-- The `struct state`: a set of items and an id.  `operator==` and the hash
look at the items only. -/
structure state where
  items_ : Finset Lr0Item
  id_ : Nat
  deriving DecidableEq

/-- The `enum class Action`. -/
inductive Action where
  | Shift
  | Reduce
  | Accept
  | Empty
  deriving DecidableEq, Repr

/-- The `struct s_action`; `item` is the item pointed to, `none` for
`nullptr`. -/
structure s_action where
  item : Option Lr0Item
  action : Action
  deriving DecidableEq

instance : Inhabited s_action := ⟨⟨none, Action.Shift⟩⟩

/-- A `std::map` with `unsigned int` keys: its key set and its values. -/
structure IdMap (V : Type) where
  keys : Finset Nat
  val : Nat → V

/-- The empty map. -/
def IdMap.empty {V : Type} [Inhabited V] : IdMap V := ⟨∅, fun _ => default⟩

/-- The value stored at `k`, or the value-initialised default when `k` is not
a key. -/
def IdMap.get {V : Type} [Inhabited V] (m : IdMap V) (k : Nat) : V :=
  if k ∈ m.keys then m.val k else default

/-- The side effect of `m[k]` used to reach the entry of `k`: a missing key
is inserted with a value-initialised entry. -/
def IdMap.touch {V : Type} [Inhabited V] (m : IdMap V) (k : Nat) : IdMap V :=
  ⟨insert k m.keys, fun x => m.get x⟩

/-- The assignment `m[k] = v`. -/
def IdMap.set {V : Type} [Inhabited V] (m : IdMap V) (k : Nat) (v : V) : IdMap V :=
  ⟨insert k m.keys, Function.update (fun x => m.get x) k v⟩

/-- The lookup `m.find(k)`. -/
def IdMap.find? {V : Type} (m : IdMap V) (k : Nat) : Option V :=
  if k ∈ m.keys then some (m.val k) else none

instance {V : Type} [Inhabited V] : Inhabited (IdMap V) := ⟨IdMap.empty⟩

/-- The type `SLR1Parser::action_table`. -/
abbrev action_table := IdMap (UMap s_action)

/-- The type `SLR1Parser::transition_table`. -/
abbrev transition_table := IdMap (UMap Nat)

/-- The `class SLR1Parser`.  The set `states_` is the list of its elements in
the order of their insertion; the order in which the hash set is traversed is
given by a `HashOrder`. -/
structure SLR1Parser where
  gr_ : Grammar
  first_sets_ : SetMap
  follow_sets_ : SetMap
  actions_ : action_table
  transitions_ : transition_table
  states_ : List state

/-- The orders in which the hash containers of `MakeParser` are traversed:
`symbols c` for the set `nextSymbols` built for the state with id `c`,
`follows c item` for the set `follows` of a complete item of the state with id
`c`, `items c` for the items of the state with id `c` in `SolveLRConflicts`,
and `states` for `states_`. -/
structure HashOrder where
  symbols : Nat → Finset String → List String
  follows : Nat → Lr0Item → Finset String → List String
  items : Nat → Finset Lr0Item → List Lr0Item
  states : List state → List state

/-- Every traversal visits each element of the container exactly once. -/
def HashOrder.Valid (o : HashOrder) : Prop :=
  (∀ c s, (o.symbols c s).Nodup ∧ ∀ x, x ∈ o.symbols c s ↔ x ∈ s) ∧
  (∀ c it s, (o.follows c it s).Nodup ∧ ∀ x, x ∈ o.follows c it s ↔ x ∈ s) ∧
  (∀ c s, (o.items c s).Nodup ∧ ∀ x, x ∈ o.items c s ↔ x ∈ s) ∧
  ∀ l, (o.states l).Perm l

/-- Sequencing of computations that may run out of fuel (outer `none`) or
throw (inner `none`). -/
def andThen {α β : Type} (x : Option (Option α)) (f : α → Option (Option β)) :
    Option (Option β) :=
  match x with
  | none => none
  | some none => some none
  | some (some a) => f a

/-- A loop over `l` whose body may run out of fuel or throw. -/
def forEach {σ α : Type} (step : σ → α → Option (Option σ)) : List α → σ → Option (Option σ)
  | [], s => some (some s)
  | x :: xs, s => andThen (step s x) (forEach step xs)

/-- A loop over `l` whose body may `return false`: the flag tells whether the
loop ran to its end. -/
def forUntilFalse {σ α : Type} (step : σ → α → Bool × σ) : List α → σ → Bool × σ
  | [], s => (true, s)
  | x :: xs, s => if (step s x).1 then forUntilFalse step xs (step s x).2 else (false, (step s x).2)

/-! ## slr1_parser.cpp: FIRST and FOLLOW -/

/-- The method `SLR1Parser::First(rule, result)`: returns the updated `result`
and the updated `first_sets_` (whose key set `operator[]` may enlarge).  Unlike
`LL1Parser::First` it has no case for `EPSILON_` at the head of a longer
sequence. -/
def SLR1Parser.First (gr : Grammar) : List String → SetMap → Finset String → Finset String × SetMap
  | [], fs, result => (insert EPSILON_ result, fs)
  | x :: rest, fs, result =>
    if (x :: rest).length = 1 ∧ x = EPSILON_ then
      (insert EPSILON_ result, fs)
    else if gr.st_.IsTerminal x then
      if x = EOL_ then (insert EPSILON_ result, fs)
      else (insert x result, fs)
    else
      let fs1 := fs.touch x
      let fii := fs1.get x
      let result1 := result ∪ fii.erase EPSILON_
      if EPSILON_ ∉ fii then (result1, fs1)
      else SLR1Parser.First gr rest fs1 result1

/-- The body of the inner loop of `SLR1Parser::ComputeFirstSets` for one production. -/
def SLR1Parser.firstProd (gr : Grammar) (nonTerminal : String) (fs : SetMap) (prod : production) :
    SetMap :=
  let r := SLR1Parser.First gr prod fs ∅
  let tempFirst := eolToEpsilon r.1
  let fs1 := r.2.touch nonTerminal
  fs1.set nonTerminal (fs1.get nonTerminal ∪ tempFirst)

/-- One pass of the `do` loop of `SLR1Parser::ComputeFirstSets` over all rules. -/
def SLR1Parser.firstPass (gr : Grammar) (fs : SetMap) : SetMap :=
  gr.g_.foldl (fun m r => r.2.foldl (SLR1Parser.firstProd gr r.1) m) fs

/-- The `do ... while (changed)` loop of `SLR1Parser::ComputeFirstSets`. -/
def SLR1Parser.firstLoop (gr : Grammar) : Nat → SetMap → Option SetMap
  | 0, _ => none
  | n + 1, fs =>
    let old_first_sets := fs
    let fs1 := SLR1Parser.firstPass gr fs
    if ¬ UMap.Same old_first_sets fs1 then SLR1Parser.firstLoop gr n fs1 else some fs1

/-- The method `SLR1Parser::ComputeFirstSets` acting on `first_sets_`. -/
def SLR1Parser.ComputeFirstSets (gr : Grammar) (fs : SetMap) (fuel : Nat) : Option SetMap :=
  SLR1Parser.firstLoop gr fuel (firstReset gr fs)

/-- The body of the loop over the positions of `rhs` in `SLR1Parser::ComputeFollowSets`,
for the position holding `symbol` and followed by `rest`. -/
def SLR1Parser.followAt (gr : Grammar) (lhs symbol : String) (rest : List String) (s : FollowState) :
    FollowState :=
  if ¬ gr.st_.IsTerminal symbol then
    let r : Finset String × SetMap :=
      if rest ≠ [] then SLR1Parser.First gr rest s.first ∅ else (insert EPSILON_ ∅, s.first)
    let first_remaining := r.1
    let s1 := followInsert symbol (first_remaining.erase EPSILON_) { s with first := r.2 }
    if EPSILON_ ∈ first_remaining then
      let fo := s1.follow.touch lhs
      followInsert symbol (fo.get lhs) { s1 with follow := fo }
    else s1
  else s

/-- The loop `for (i = 0; i < rhs.size(); ++i)` of `SLR1Parser::ComputeFollowSets`, by
recursion on the part of `rhs` from position `i` on. -/
def SLR1Parser.followProd (gr : Grammar) (lhs : String) : List String → FollowState → FollowState
  | [], s => s
  | symbol :: rest, s => SLR1Parser.followProd gr lhs rest (SLR1Parser.followAt gr lhs symbol rest s)

/-- One pass of the `do` loop of `SLR1Parser::ComputeFollowSets` over all rules. -/
def SLR1Parser.followPass (gr : Grammar) (s : FollowState) : FollowState :=
  gr.g_.foldl (fun s1 r => r.2.foldl (fun s2 rhs => SLR1Parser.followProd gr r.1 rhs s2) s1) s

/-- The `do ... while (changed)` loop of `SLR1Parser::ComputeFollowSets`. -/
def SLR1Parser.followLoop (gr : Grammar) : Nat → SetMap → SetMap → Option (SetMap × SetMap)
  | 0, _, _ => none
  | n + 1, fi, fo =>
    let s := SLR1Parser.followPass gr ⟨fi, fo, false⟩
    if s.changed then SLR1Parser.followLoop gr n s.first s.follow else some (s.first, s.follow)

/-- The method `SLR1Parser::ComputeFollowSets` acting on `first_sets_` and
`follow_sets_`. -/
def SLR1Parser.ComputeFollowSets (gr : Grammar) (fi fo : SetMap) (fuel : Nat) :
    Option (SetMap × SetMap) :=
  SLR1Parser.followLoop gr fuel fi (followReset gr fo)

/-- The set computed by `SLR1Parser::First` for `rule` when the cached table holds the
values `v`. -/
def slrFirstOf (gr : Grammar) (v : Family) : List String → Finset String
  | [] => {EPSILON_}
  | x :: rest =>
    if rest = [] ∧ x = EPSILON_ then {EPSILON_}
    else if gr.st_.IsTerminal x then
      if x = EOL_ then {EPSILON_} else {x}
    else (v x).erase EPSILON_ ∪ (if EPSILON_ ∈ v x then slrFirstOf gr v rest else ∅)

/-- The symbols whose cached sets `SLR1Parser::First` reads for `rule`. -/
def slrFirstKeys (gr : Grammar) (v : Family) : List String → Finset String
  | [] => ∅
  | x :: rest =>
    if rest = [] ∧ x = EPSILON_ then ∅
    else if gr.st_.IsTerminal x then ∅
    else insert x (if EPSILON_ ∈ v x then slrFirstKeys gr v rest else ∅)

/-- The abstract step of `SLR1Parser.firstProd`. -/
def slrFirstAStep (gr : Grammar) (nonTerminal : String) (prod : production) : AStep where
  tk := fun v => insert nonTerminal (slrFirstKeys gr v prod)
  target := nonTerminal
  add := fun v => eolToEpsilon (slrFirstOf gr v prod)

/-- The abstract steps of one pass of `SLR1Parser::ComputeFirstSets`, in order. -/
def slrFirstSteps (gr : Grammar) : List AStep :=
  gr.g_.flatMap fun r => r.2.map fun p => slrFirstAStep gr r.1 p

/-- The state is closed under the updates of `SLR1Parser::ComputeFirstSets`. -/
def SlrFirstClosed (gr : Grammar) (y : AState) : Prop := ∀ s ∈ slrFirstSteps gr, s.Sat y

/-- The abstract step of the first insertion loop of `SLR1Parser.followAt`. -/
def slrFollowAStep1 (gr : Grammar) (W : Family) (symbol : String) (rest : List String) : AStep where
  tk := fun _ => if (slrFirstOf gr W rest).erase EPSILON_ = ∅ then ∅ else {symbol}
  target := symbol
  add := fun _ => (slrFirstOf gr W rest).erase EPSILON_

/-- The abstract steps of `SLR1Parser.followAt`. -/
def slrFollowAtSteps (gr : Grammar) (W : Family) (lhs symbol : String) (rest : List String) :
    List AStep :=
  if gr.st_.IsTerminal symbol then []
  else slrFollowAStep1 gr W symbol rest ::
    (if EPSILON_ ∈ slrFirstOf gr W rest then [followAStep2 lhs symbol] else [])

/-- The abstract steps of `SLR1Parser.followProd`. -/
def slrFollowProdSteps (gr : Grammar) (W : Family) (lhs : String) : List String → List AStep
  | [] => []
  | symbol :: rest => slrFollowAtSteps gr W lhs symbol rest ++ slrFollowProdSteps gr W lhs rest

/-- The abstract steps of one pass of `SLR1Parser::ComputeFollowSets`. -/
def slrFollowSteps (gr : Grammar) (W : Family) : List AStep :=
  gr.g_.flatMap fun r => r.2.flatMap fun rhs => slrFollowProdSteps gr W r.1 rhs

/-- The state is closed under the updates of `SLR1Parser::ComputeFollowSets` for the
FIRST values `W`. -/
def SlrFollowClosed (gr : Grammar) (W : Family) (y : AState) : Prop :=
  ∀ s ∈ slrFollowSteps gr W, s.Sat y

/-! ## slr1_parser.cpp: the canonical collection -/

/-- The method `SLR1Parser::AllItems`. -/
def SLR1Parser.AllItems (gr : Grammar) : Finset Lr0Item :=
  (gr.g_.flatMap fun rule => rule.2.flatMap fun production =>
    (List.range (production.length + 1)).map fun i => ⟨rule.1, production, i⟩).toFinset

/-- The call `states_.insert(s)`: the set afterwards, the element equal to
`s` that it holds, and whether `s` was inserted. -/
def statesInsert (states : List state) (s : state) : List state × state × Bool :=
  match states.find? (fun q => q.items_ = s.items_) with
  | some q => (states, q, false)
  | none => (states ++ [s], s, true)

/-- The recording of a transition in `MakeParser`: `{symbol, target}` is
inserted into the row of `current`, which is created when missing. -/
def transInsert (t : transition_table) (current : Nat) (symbol : String) (target : Nat) :
    transition_table :=
  match t.find? current with
  | some column => t.set current (column.insertNew symbol target)
  | none => t.set current ((UMap.empty : UMap Nat).insertNew symbol target)

/-- The method `SLR1Parser::MakeInitialState`.  The lookup `g_.at(axiom_)`
throws when the axiom has no rule; `axiom[0]` on an empty rule list is
undefined behaviour and is treated like an exception. -/
def SLR1Parser.MakeInitialState (P : SLR1Parser) (fuel : Nat) : Option (Option SLR1Parser) :=
  match P.gr_.at? P.gr_.axiom_ with
  | none => some none
  | some [] => some none
  | some (p0 :: _) =>
    andThen (Closure P.gr_ {Lr0Item.create P.gr_.axiom_ p0} fuel) fun items =>
      some (some { P with states_ := (statesInsert P.states_ ⟨items, 0⟩).1 })

/-- The variables of the loop of `MakeParser`: `states_`, `transitions_`,
the queue `pending` and the counter `i`. -/
structure MakeState where
  states : List state
  transitions : transition_table
  pending : List Nat
  i : Nat

/-- The items of `newState` before its closure: the items of `qi` with
`symbol` next to the dot, each with the dot advanced. -/
def kernelItems (qi : Finset Lr0Item) (symbol : String) : Finset Lr0Item :=
  (qi.filter fun item => item.NextToDot = symbol).image Lr0Item.AdvanceDot

/-- The body of the loop `for (symbol : nextSymbols)` of `MakeParser`.  The
counter `i` is a `size_t`; the ids, the queue and the transition table hold
`unsigned int`, so they receive `i` modulo `2^32`. -/
def expandSymbol (gr : Grammar) (fuel : Nat) (current : Nat) (qi : state) (s : MakeState)
    (symbol : String) : Option (Option MakeState) :=
  andThen (Closure gr (kernelItems qi.items_ symbol) fuel) fun items =>
    let newState : state := ⟨items, u32 s.i⟩
    let result := statesInsert s.states newState
    if result.2.2 then
      some (some
        { states := result.1
          transitions := transInsert s.transitions current symbol (u32 s.i)
          pending := s.pending ++ [u32 s.i]
          i := s.i + 1 })
    else
      some (some { s with transitions := transInsert s.transitions current symbol result.2.1.id_ })

/-- The set `nextSymbols` built for the state `qi`. -/
def nextSymbols (qi : Finset Lr0Item) : Finset String :=
  (qi.image Lr0Item.NextToDot).filter fun next => next ≠ EPSILON_

/-- The `do ... while (!pending.empty())` loop of `MakeParser`, entered with
`current` taken from the front of the queue and `s.pending` the rest of the
queue.  A `current` that is the id of no state leaves the loop (`break`). -/
def makeLoop (gr : Grammar) (o : HashOrder) (fuel : Nat) :
    Nat → Nat → MakeState → Option (Option MakeState)
  | 0, _, _ => none
  | n + 1, current, s =>
    match (o.states s.states).find? (fun st => st.id_ = current) with
    | none => some (some s)
    | some qi =>
      andThen (forEach (expandSymbol gr fuel current qi)
          (o.symbols current (nextSymbols qi.items_)) s) fun s1 =>
        match s1.pending with
        | [] => some (some s1)
        | c :: rest => makeLoop gr o fuel n c { s1 with pending := rest }

/-- The method `SLR1Parser::Follow`. -/
def SLR1Parser.Follow (fo : SetMap) (arg : String) : Finset String :=
  match fo.find? arg with
  | none => ∅
  | some s => s

/-- The loop `for (sym : follows)` of `SolveLRConflicts` for the complete
item `item`: one step.  A `Reduce` entry whose item pointer is null cannot be
compared and counts as a different rule. -/
def reduceStep (id : Nat) (item : Lr0Item) (a : action_table) (sym : String) :
    Bool × action_table :=
  let a1 := a.touch id
  match (a1.get id).find? sym with
  | some e =>
    if e.action = Action.Reduce then
      if ¬ (e.item.map (fun i => i.antecedent_) = some item.antecedent_ ∧
          e.item.map (fun i => i.consequent_) = some item.consequent_) then (false, a1)
      else (true, a1.set id ((a1.get id).set sym ⟨some item, Action.Reduce⟩))
    else (false, a1)
  | none => (true, a1.set id ((a1.get id).set sym ⟨some item, Action.Reduce⟩))

/-- The body of the loop over the items of a state in `SolveLRConflicts`. -/
def solveItem (gr : Grammar) (fo : SetMap) (o : HashOrder) (id : Nat) (a : action_table)
    (item : Lr0Item) : Bool × action_table :=
  if item.IsComplete then
    if item.antecedent_ = gr.axiom_ then
      let a1 := a.touch id
      (true, a1.set id ((a1.get id).set EOL_ ⟨none, Action.Accept⟩))
    else
      forUntilFalse (reduceStep id item) (o.follows id item (SLR1Parser.Follow fo item.antecedent_)) a
  else
    let nextToDot := item.NextToDot
    if gr.st_.IsTerminal nextToDot then
      let a1 := a.touch id
      match (a1.get id).find? nextToDot with
      | some e =>
        if e.action = Action.Reduce then (false, a1)
        else (true, a1.set id ((a1.get id).set nextToDot ⟨none, Action.Shift⟩))
      | none => (true, a1.set id ((a1.get id).set nextToDot ⟨none, Action.Shift⟩))
    else (true, a)

/-- The method `SLR1Parser::SolveLRConflicts`, acting on `actions_`. -/
def SLR1Parser.SolveLRConflicts (gr : Grammar) (fo : SetMap) (o : HashOrder) (a : action_table)
    (st : state) : Bool × action_table :=
  forUntilFalse (solveItem gr fo o st.id_) (o.items st.id_ st.items_) a

/-- The constructor `SLR1Parser::SLR1Parser(Grammar gr)`. -/
def SLR1Parser.create (gr : Grammar) (fuel : Nat) : Option SLR1Parser :=
  (SLR1Parser.ComputeFirstSets gr UMap.empty fuel).bind fun fi =>
  (SLR1Parser.ComputeFollowSets gr fi UMap.empty fuel).bind fun r =>
  some ⟨gr, r.1, r.2, IdMap.empty, IdMap.empty, []⟩

/-- The method `SLR1Parser::MakeParser`: the returned flag and the parser
afterwards.  The outer `none` is exhausted fuel, the inner `none` an
exception. -/
def SLR1Parser.MakeParser (P : SLR1Parser) (o : HashOrder) (fuel : Nat) :
    Option (Option (Bool × SLR1Parser)) :=
  match SLR1Parser.ComputeFirstSets P.gr_ P.first_sets_ fuel with
  | none => none
  | some fi =>
    match SLR1Parser.ComputeFollowSets P.gr_ fi P.follow_sets_ fuel with
    | none => none
    | some r =>
      andThen (SLR1Parser.MakeInitialState { P with first_sets_ := r.1, follow_sets_ := r.2 } fuel)
        fun P1 =>
      andThen (makeLoop P1.gr_ o fuel fuel 0 ⟨P1.states_, P1.transitions_, [], 1⟩) fun s =>
        let res := forUntilFalse (SLR1Parser.SolveLRConflicts P1.gr_ P1.follow_sets_ o)
          (o.states s.states) P1.actions_
        some (some (res.1,
          { P1 with states_ := s.states, transitions_ := s.transitions, actions_ := res.2 }))

/-- The entry `transitions_[k][X]`, when it is defined. -/
def transLookup (t : transition_table) (k : Nat) (X : String) : Option Nat :=
  (t.find? k).bind fun column => column.find? X

/-- The item sets of the canonical collection: the closure of the initial
item of the first production of the axiom, and the closure of the kernel
reached from such a set on a symbol next to a dot. -/
inductive ReachableItems (gr : Grammar) : Finset Lr0Item → Prop where
  | initial (p0 : production) (ps : List production) (I : Finset Lr0Item) :
      gr.at? gr.axiom_ = some (p0 :: ps) →
      Returns (Closure gr {Lr0Item.create gr.axiom_ p0}) (some I) → ReachableItems gr I
  | goto (I J : Finset Lr0Item) (X : String) :
      ReachableItems gr I → X ∈ nextSymbols I →
      Returns (Closure gr (kernelItems I X)) (some J) → ReachableItems gr J

/-- The states have pairwise different item sets, which are reachable sets of
items of the grammar. -/
def StatesOk (gr : Grammar) (states : List state) : Prop :=
  (states.map fun q => q.items_).Nodup ∧
    ∀ q ∈ states, q.items_ ⊆ SLR1Parser.AllItems gr ∧ ReachableItems gr q.items_

/-- The entry `t` of the transition table for the state at position `k` and
the symbol `X` is right: `X` is next to a dot in that state and the state at
position `t` is the closure of its kernel on `X`. -/
def TransitionOk (gr : Grammar) (states : List state) (k : Nat) (X : String) (t : Nat) : Prop :=
  ∃ q q', states[k]? = some q ∧ states[t]? = some q' ∧ X ∈ nextSymbols q.items_ ∧
    Returns (Closure gr (kernelItems q.items_ X)) (some q'.items_)

/-- The invariant of the loop of `MakeParser` while the state with id `c` is
expanded and the symbols `D` have been treated: ids are positions, the queue
holds the ids after `c`, and the transition table is right and complete for
the states before `c` and for `c` on `D`. -/
structure LoopOk (gr : Grammar) (c : Nat) (D : Finset String) (s : MakeState) : Prop where
  count : s.i = s.states.length
  ids : ∀ (k : Nat) (q : state), s.states[k]? = some q → q.id_ = k
  current : c < s.i
  pending : s.pending = List.range' (c + 1) (s.i - (c + 1))
  sound : ∀ k X t, transLookup s.transitions k X = some t →
    k ≤ c ∧ TransitionOk gr s.states k X t
  complete : ∀ (k : Nat) (X : String) (q : state), (k < c ∨ (k = c ∧ X ∈ D)) →
    s.states[k]? = some q →
    X ∈ nextSymbols q.items_ → ∃ t, transLookup s.transitions k X = some t

/-- The state set and the transition table at the end of the loop of
`MakeParser`: ids are positions, every recorded transition is right, and a
transition is recorded for every state and every symbol next to a dot in
it. -/
structure FinalOk (gr : Grammar) (states : List state) (transitions : transition_table) :
    Prop where
  ids : ∀ (k : Nat) (q : state), states[k]? = some q → q.id_ = k
  sound : ∀ k X t, transLookup transitions k X = some t → TransitionOk gr states k X t
  complete : ∀ (k : Nat) (X : String) (q : state), states[k]? = some q →
    X ∈ nextSymbols q.items_ → ∃ t, transLookup transitions k X = some t

/-- The entry `actions_[id][sym]`, when it is defined. -/
def actLookup (a : action_table) (id : Nat) (sym : String) : Option s_action :=
  (a.get id).find? sym

/-- The complete item `it` of a non-terminal other than the axiom demands
`Reduce` by its production on `t`, a symbol of the FOLLOW set of its
antecedent. -/
def Reduces (gr : Grammar) (fo : SetMap) (it : Lr0Item) (t : String) : Prop :=
  it.IsComplete = true ∧ it.antecedent_ ≠ gr.axiom_ ∧ t ∈ SLR1Parser.Follow fo it.antecedent_

/-- The incomplete item `it` demands `Shift` on `t`, the registered terminal
after its dot. -/
def Shifts (gr : Grammar) (it : Lr0Item) (t : String) : Prop :=
  it.IsComplete = false ∧ gr.st_.IsTerminal it.NextToDot = true ∧ it.NextToDot = t

/-- The complete item `it` of the axiom demands `Accept` on `t`, the end
marker. -/
def Accepts (gr : Grammar) (it : Lr0Item) (t : String) : Prop :=
  it.IsComplete = true ∧ it.antecedent_ = gr.axiom_ ∧ t = EOL_

/-- The items `a` and `b` have the same production. -/
def SameRule (a b : Lr0Item) : Prop :=
  a.antecedent_ = b.antecedent_ ∧ a.consequent_ = b.consequent_

/-- The item set holds a shift/reduce or a reduce/reduce conflict on `t`: an
item that demands `Reduce` on `t` and an item that demands `Shift` on `t` or
`Reduce` by another production on `t`. -/
def ReduceConflictOn (gr : Grammar) (fo : SetMap) (I : Finset Lr0Item) (t : String) : Prop :=
  ∃ a ∈ I, ∃ b ∈ I, Reduces gr fo a t ∧ (Shifts gr b t ∨ (Reduces gr fo b t ∧ ¬ SameRule a b))

/-- The item set holds an item that demands `Accept` and an item that demands
`Reduce` on the end marker. -/
def AcceptReduceConflict (gr : Grammar) (fo : SetMap) (I : Finset Lr0Item) : Prop :=
  ∃ a ∈ I, ∃ b ∈ I, Accepts gr a EOL_ ∧ Reduces gr fo b EOL_

/-- The item set holds an item that demands `Accept` and an item that demands
`Shift` on the end marker. -/
def AcceptShiftConflict (gr : Grammar) (I : Finset Lr0Item) : Prop :=
  ∃ a ∈ I, ∃ b ∈ I, Accepts gr a EOL_ ∧ Shifts gr b EOL_

/-- The entry `e` of the action table records a demand of the item `it` on
`t`. -/
def WrittenBy (gr : Grammar) (fo : SetMap) (e : s_action) (it : Lr0Item) (t : String) : Prop :=
  (e.action = Action.Reduce ∧ e.item = some it ∧ Reduces gr fo it t) ∨
  (e.action = Action.Shift ∧ Shifts gr it t) ∨
  (e.action = Action.Accept ∧ Accepts gr it t)

/-- The entry of `t` in the row agrees with the demand of the item `it` on
`t`. -/
def AgreesWith (gr : Grammar) (fo : SetMap) (a : action_table) (id : Nat) (it : Lr0Item)
    (t : String) : Prop :=
  (Reduces gr fo it t → ∃ e it', actLookup a id t = some e ∧ e.action = Action.Reduce ∧
    e.item = some it' ∧ SameRule it' it) ∧
  (Shifts gr it t → ∃ e, actLookup a id t = some e ∧ e.action = Action.Shift)

/-- The existing entry `e` lets a `Reduce` by the production of `item`
through: it is a `Reduce` by the same production. -/
def ReduceCompatible (e : s_action) (item : Lr0Item) : Prop :=
  e.action = Action.Reduce ∧ e.item.map (fun i => i.antecedent_) = some item.antecedent_ ∧
    e.item.map (fun i => i.consequent_) = some item.consequent_

/-- The invariant of the loop of `SolveLRConflicts` over the items of the set
`I` for the state with id `id`, after the items `done`, started on the table
`a0`: the other rows are untouched, every entry of the row was written for an
item treated, and on every symbol on which no `Accept` is written the entry
agrees with the demands of all items treated. -/
structure RowOk (gr : Grammar) (fo : SetMap) (I : Finset Lr0Item) (id : Nat)
    (done : List Lr0Item) (a0 a : action_table) : Prop where
  others : ∀ j, j ≠ id → ∀ y, actLookup a j y = actLookup a0 j y
  written : ∀ y e, actLookup a id y = some e → ∃ it ∈ done, WrittenBy gr fo e it y
  agrees : ∀ y, (y ≠ EOL_ ∨ ∀ it ∈ I, ¬ Accepts gr it EOL_) →
    ∀ it ∈ done, AgreesWith gr fo a id it y

/-- What a `return false` of `SolveLRConflicts` at the item `x` tells: an item
treated before demands something else on a symbol, and one of the two
demands is a `Reduce`. -/
def DetectedAt (gr : Grammar) (fo : SetMap) (done : List Lr0Item) (x : Lr0Item) : Prop :=
  ∃ it ∈ done, ∃ t,
    (Reduces gr fo x t ∧
      (Shifts gr it t ∨ Accepts gr it t ∨ (Reduces gr fo it t ∧ ¬ SameRule it x))) ∨
    (Shifts gr x t ∧ Reduces gr fo it t)

/-- What a `return false` of `SolveLRConflicts` tells about the item set: an
item demands `Reduce` on a symbol on which another item demands `Shift`,
`Accept` or `Reduce` by another production. -/
def DetectedConflict (gr : Grammar) (fo : SetMap) (I : Finset Lr0Item) : Prop :=
  ∃ a ∈ I, ∃ b ∈ I, ∃ t, Reduces gr fo a t ∧
    (Shifts gr b t ∨ Accepts gr b t ∨ (Reduces gr fo b t ∧ ¬ SameRule a b))

/-- A parser on which `MakeParser` has not run: no states, no transitions, no
actions. -/
def SLR1Parser.Fresh (P : SLR1Parser) : Prop :=
  P.states_ = [] ∧ P.transitions_.keys = ∅ ∧ P.actions_.keys = ∅

/-- The key by which the items are sorted in `sortedOrder`. -/
def Lr0Item.key (it : Lr0Item) : String ×ₗ (List String ×ₗ Nat) :=
  toLex (it.antecedent_, toLex (it.consequent_, it.dot_))

instance : LinearOrder Lr0Item :=
  LinearOrder.lift' Lr0Item.key (by
    intro a b h
    cases a; cases b
    simp only [Lr0Item.key] at h
    have h1 := congrArg (fun x => (ofLex x)) h
    simp only [ofLex_toLex, Prod.mk.injEq] at h1
    obtain ⟨rfl, h2⟩ := h1
    have h3 := congrArg (fun x => (ofLex x)) h2
    simp only [ofLex_toLex, Prod.mk.injEq] at h3
    obtain ⟨rfl, rfl⟩ := h3
    rfl)

/-- The traversal of every container in increasing order, and of the states
in the order of their insertion. -/
def sortedOrder : HashOrder where
  symbols := fun _ s => s.sort (· ≤ ·)
  follows := fun _ _ s => s.sort (· ≤ ·)
  items := fun _ s => s.sort (· ≤ ·)
  states := fun l => l

/-- The parser for `S -> A $`, `A -> a A | b` before anything is computed. -/
def classicSLR : SLR1Parser := ⟨classicGrammar, UMap.empty, UMap.empty, IdMap.empty, IdMap.empty, []⟩

instance (gr : Grammar) (it : Lr0Item) (t : String) : Decidable (Shifts gr it t) :=
  inferInstanceAs (Decidable (_ ∧ _ ∧ _))

instance (gr : Grammar) (it : Lr0Item) (t : String) : Decidable (Accepts gr it t) :=
  inferInstanceAs (Decidable (_ ∧ _ ∧ _))

instance (a b : Lr0Item) : Decidable (SameRule a b) :=
  inferInstanceAs (Decidable (_ ∧ _))

/-- The conflicts of `DetectedConflict`, with the FOLLOW sets read from the
family `F`. -/
def DetectedWith (gr : Grammar) (F : Family) (I : Finset Lr0Item) : Prop :=
  ∃ a ∈ I, ∃ b ∈ I, (a.IsComplete = true ∧ a.antecedent_ ≠ gr.axiom_) ∧ ∃ t ∈ F a.antecedent_,
    (Shifts gr b t ∨ Accepts gr b t ∨
      ((b.IsComplete = true ∧ b.antecedent_ ≠ gr.axiom_ ∧ t ∈ F b.antecedent_) ∧ ¬ SameRule a b))

instance (gr : Grammar) (F : Family) (I : Finset Lr0Item) : Decidable (DetectedWith gr F I) :=
  inferInstanceAs (Decidable (∃ a ∈ I, ∃ b ∈ I, _ ∧ ∃ t ∈ F a.antecedent_, _))

/-- The symbol table of the grammar `S -> A`, `A -> A $ | a`. -/
def acceptShiftTable : SymbolTable :=
  ((SymbolTable.init.PutSymbol "S" false).PutSymbol "A" false).PutSymbol "a" true

/-- The grammar `S -> A`, `A -> A $ | a` with axiom `S`. -/
def acceptShiftGrammar : Grammar :=
  ⟨[("S", [["A"]]), ("A", [["A", "$"], ["a"]])], "S", acceptShiftTable⟩

/-- The parser for `acceptShiftGrammar` before anything is computed. -/
def acceptShiftSLR : SLR1Parser :=
  ⟨acceptShiftGrammar, UMap.empty, UMap.empty, IdMap.empty, IdMap.empty, []⟩

/-- The item sets of the canonical collection of `acceptShiftGrammar`. -/
def acceptShiftStates : List (Finset Lr0Item) :=
  [{⟨"A", ["A", "$"], 0⟩, ⟨"A", ["a"], 0⟩, ⟨"S", ["A"], 0⟩},
   {⟨"A", ["A", "$"], 1⟩, ⟨"S", ["A"], 1⟩},
   {⟨"A", ["a"], 1⟩},
   {⟨"A", ["A", "$"], 2⟩}]

/-- The FOLLOW sets of `acceptShiftGrammar`. -/
def acceptShiftFollow : Family := fun _ => {"$"}

/-- The symbol table of the expression grammar. -/
def exprTable : SymbolTable :=
  ["+", "(", ")", "n"].foldl (fun t s => t.PutSymbol s true)
    (["S", "E", "E'", "T"].foldl (fun t s => t.PutSymbol s false) SymbolTable.init)

/-- The expression grammar `S -> E $`, `E -> T E'`, `E' -> + T E' | EPSILON`,
`T -> ( E ) | n`. -/
def exprGrammar : Grammar :=
  ⟨[("S", [["E", "$"]]), ("E", [["T", "E'"]]), ("E'", [["+", "T", "E'"], ["EPSILON"]]),
    ("T", [["(", "E", ")"], ["n"]])], "S", exprTable⟩

/-- The symbol table of the expression grammar with `EPSILON_` registered as
a terminal too, as the constructor of `Grammar` does. -/
def exprEpsilonTable : SymbolTable := exprTable.PutSymbol EPSILON_ true

/-- The expression grammar over `exprEpsilonTable`. -/
def exprEpsilonGrammar : Grammar := { exprGrammar with st_ := exprEpsilonTable }

/-- The parser for `exprEpsilonGrammar` before anything is computed. -/
def exprEpsilonSLR : SLR1Parser :=
  ⟨exprEpsilonGrammar, UMap.empty, UMap.empty, IdMap.empty, IdMap.empty, []⟩

/-- The parser for `exprGrammar` before anything is computed. -/
def exprSLR : SLR1Parser := ⟨exprGrammar, UMap.empty, UMap.empty, IdMap.empty, IdMap.empty, []⟩

/-- The item sets of the canonical collection of `exprGrammar`. -/
def exprStates : List (Finset Lr0Item) :=
  [{⟨"E", ["T", "E'"], 0⟩, ⟨"S", ["E", "$"], 0⟩, ⟨"T", ["(", "E", ")"], 0⟩, ⟨"T", ["n"], 0⟩},
   {⟨"E", ["T", "E'"], 0⟩, ⟨"T", ["(", "E", ")"], 0⟩, ⟨"T", ["(", "E", ")"], 1⟩, ⟨"T", ["n"], 0⟩},
   {⟨"S", ["E", "$"], 1⟩},
   {⟨"E", ["T", "E'"], 1⟩, ⟨"E'", ["+", "T", "E'"], 0⟩, ⟨"E'", ["EPSILON"], 1⟩},
   {⟨"T", ["n"], 1⟩},
   {⟨"T", ["(", "E", ")"], 2⟩},
   {⟨"S", ["E", "$"], 2⟩},
   {⟨"E'", ["+", "T", "E'"], 1⟩, ⟨"T", ["(", "E", ")"], 0⟩, ⟨"T", ["n"], 0⟩},
   {⟨"E", ["T", "E'"], 2⟩},
   {⟨"T", ["(", "E", ")"], 3⟩},
   {⟨"E'", ["+", "T", "E'"], 0⟩, ⟨"E'", ["+", "T", "E'"], 2⟩, ⟨"E'", ["EPSILON"], 1⟩},
   {⟨"E'", ["+", "T", "E'"], 3⟩}]

/-- The FOLLOW sets of `exprGrammar`. -/
def exprFollow : Family := fun A =>
  if A = "S" then {"$"} else if A = "E" then {"$", ")"} else if A = "E'" then {"$", ")"}
  else if A = "T" then {"$", ")", "+"} else ∅

set_option maxRecDepth 100000

/-! ## grammar_factory.cpp: `NullableSymbols` -/

/-- The loop over the symbols of `prod` in `NullableSymbols`: the final value
of `all_nullable`.  The end marker never clears the flag. -/
def allNullable (nullable : Finset String) (prod : production) : Bool :=
  prod.all fun sym => decide (sym ∈ nullable) || decide (sym = EOL_)

/-- The body of the loop over the productions of `nt` in `NullableSymbols`,
acting on `nullable` and `changed`. -/
def nullableProd (nt : String) (s : Finset String × Bool) (prod : production) :
    Finset String × Bool :=
  if prod.length = 1 ∧ prod.head? = some EPSILON_ then (insert nt s.1, true)
  else if allNullable s.1 prod then (insert nt s.1, true)
  else s

/-- The body of the loop over the rules in `NullableSymbols`. -/
def nullableRule (s : Finset String × Bool) (r : String × List production) :
    Finset String × Bool :=
  if r.1 ∈ s.1 then s else r.2.foldl (nullableProd r.1) s

/-- The loop `do ... while (changed)` of `NullableSymbols`: returns the final
set `nullable`. -/
def nullableLoop (gr : Grammar) : Nat → Finset String → Option (Finset String)
  | 0, _ => none
  | n + 1, nullable =>
    let s := gr.g_.foldl nullableRule (nullable, false)
    if s.2 then nullableLoop gr n s.1 else some s.1

/-- The method `GrammarFactory::NullableSymbols`. -/
def NullableSymbols (grammar : Grammar) (fuel : Nat) : Option (Finset String) :=
  nullableLoop grammar fuel ∅

/-- The property `P` of symbols is closed under the rule of `NullableSymbols`:
a rule key is in `P` when it has the production `EPSILON_` or a production
every symbol of which is in `P` or is the end marker. -/
def NullClosed (gr : Grammar) (P : String → Prop) : Prop :=
  ∀ r ∈ gr.g_, ∀ p ∈ r.2, (p = [EPSILON_] ∨ ∀ sym ∈ p, P sym ∨ sym = EOL_) → P r.1

/-- The property `P` of symbols is closed under the rule of nullable symbols
that gives the end marker no special part: a rule key is in `P` when it has
the production `EPSILON_` or a production every symbol of which is in `P`. -/
def NullClosedPlain (gr : Grammar) (P : String → Prop) : Prop :=
  ∀ r ∈ gr.g_, ∀ p ∈ r.2, (p = [EPSILON_] ∨ ∀ sym ∈ p, P sym) → P r.1

/-- The symbol table of the grammar `S -> A $`, `A -> EPSILON`. -/
def nullTable : SymbolTable :=
  ((SymbolTable.init.PutSymbol "S" false).PutSymbol "A" false).PutSymbol EPSILON_ true

/-- The grammar `S -> A $`, `A -> EPSILON`. -/
def nullGrammar : Grammar :=
  ⟨[("S", [["A", "$"]]), ("A", [["EPSILON"]])], "S", nullTable⟩

/-! ## grammar_factory.cpp: `HasUnreachableSymbols` -/

/-- The body of the loop over the symbols of a production in
`HasUnreachableSymbols`, acting on `reachable` and on the queue `pending`. -/
def reachSymbol (gr : Grammar) (s : Finset String × List String) (symbol : String) :
    Finset String × List String :=
  if gr.st_.IsTerminal symbol = false ∧ symbol ∉ s.1 then (insert symbol s.1, s.2 ++ [symbol])
  else s

/-- The body of the loop `while (!pending.empty())` of `HasUnreachableSymbols`
after `current` has been taken from the queue. -/
def reachExpand (gr : Grammar) (current : String) (s : Finset String × List String) :
    Finset String × List String :=
  match gr.at? current with
  | some productions =>
    productions.foldl (fun s production => production.foldl (reachSymbol gr) s) s
  | none => s

/-- The loop `while (!pending.empty())` of `HasUnreachableSymbols`: returns
the final set `reachable`. -/
def reachLoop (gr : Grammar) : Nat → Finset String × List String → Option (Finset String)
  | 0, _ => none
  | _ + 1, (reachable, []) => some reachable
  | n + 1, (reachable, current :: pending) =>
    reachLoop gr n (reachExpand gr current (reachable, pending))

/-- The method `GrammarFactory::HasUnreachableSymbols`. -/
def HasUnreachableSymbols (grammar : Grammar) (fuel : Nat) : Option Bool :=
  (reachLoop grammar fuel ({grammar.axiom_}, [grammar.axiom_])).map fun reachable =>
    decide (∃ nt ∈ grammar.st_.non_terminals_, nt ∉ reachable)

/-- The symbol `B` is reachable from the axiom: it is the axiom, or it is not
a registered terminal and occurs in a production of a reachable symbol. -/
inductive Reach (gr : Grammar) : String → Prop where
  | start : Reach gr gr.axiom_
  | step (A B : String) (productions : List production) (p : production) :
      Reach gr A → gr.at? A = some productions → p ∈ productions → B ∈ p →
      gr.st_.IsTerminal B = false → Reach gr B

/-- The symbol table of the tests of `HasUnreachableSymbols`. -/
def unreachTable : SymbolTable :=
  (((((SymbolTable.init.PutSymbol "S" false).PutSymbol "A" false).PutSymbol "B" false).PutSymbol
    "a" true).PutSymbol "b" true).PutSymbol "c" true

/-- The grammar `S -> A $`, `A -> a b`, `B -> c` of the tests. -/
def unreachGrammar : Grammar :=
  ((({ g_ := [], axiom_ := "S", st_ := unreachTable } : Grammar).AddProduction "S"
    ["A", "$"]).AddProduction "A" ["a", "b"]).AddProduction "B" ["c"]

/-- The grammar `S -> A $`, `A -> a b B`, `B -> c` of the tests. -/
def reachGrammar : Grammar :=
  ((({ g_ := [], axiom_ := "S", st_ := unreachTable } : Grammar).AddProduction "S"
    ["A", "$"]).AddProduction "A" ["a", "b", "B"]).AddProduction "B" ["c"]

/-- The symbols of the grammar: the axiom and the symbols of the
productions. -/
def Grammar.universe (gr : Grammar) : Finset String :=
  insert gr.axiom_ (gr.g_.flatMap fun r => r.2.flatten).toFinset

/-- The invariant of the loop of `HasUnreachableSymbols`: the set holds the
axiom and only reachable symbols, the queue holds members of the set, and
the successors of the members that left the queue are in the set. -/
def ReachInv (gr : Grammar) (s : Finset String × List String) : Prop :=
  gr.axiom_ ∈ s.1 ∧ (∀ x ∈ s.1, Reach gr x) ∧ (∀ x ∈ s.2, x ∈ s.1) ∧ s.1 ⊆ gr.universe ∧
  ∀ A ∈ s.1, A ∉ s.2 → ∀ (productions : List production) (p : production) (B : String),
    gr.at? A = some productions → p ∈ productions → B ∈ p → gr.st_.IsTerminal B = false →
    B ∈ s.1

/-! ## grammar_factory.cpp: `HasDirectLeftRecursion`, `RemoveLeftRecursion` -/

/-- The method `GrammarFactory::HasDirectLeftRecursion`.  The test
`nt == prod[0]` compares the first symbol of the production; an empty
production, for which the C++ reads out of bounds, has no first symbol
here. -/
def HasDirectLeftRecursion (grammar : Grammar) : Bool :=
  grammar.g_.any fun r => r.2.any fun prod => decide (prod.head? = some r.1)

/-- The loop `while (non_terminals_.find(nt) != end) nt += "'"` of
`GenerateNewNonTerminal`, run at most `n` times. -/
def primeLoop (non_terminals : Finset String) : Nat → String → String
  | 0, nt => nt
  | n + 1, nt => if nt ∈ non_terminals then primeLoop non_terminals n (nt ++ "'") else nt

/-- The method `GrammarFactory::GenerateNewNonTerminal`, which reads only the
symbol table of the grammar.  The names tried are pairwise different, so the
loop ends within `|non_terminals_| + 1` iterations
(`GenerateNewNonTerminal_spec`). -/
def GenerateNewNonTerminal (st : SymbolTable) (base : String) : String :=
  primeLoop st.non_terminals_ (st.non_terminals_.card + 1) base

/-- The order in which a rule map is traversed once it has been filled,
given the entries in the order of their insertion. -/
structure MapOrder where
  order : List (String × List production) → List (String × List production)

/-- The traversal visits each entry of the map exactly once. -/
def MapOrder.Valid (o : MapOrder) : Prop := ∀ l, (o.order l).Perm l

/-- The traversal of a rule map in the order of insertion. -/
def insertionOrder : MapOrder := ⟨fun l => l⟩

/-- The assignment `m[k] = v` on a rule map. -/
def ruleAssign (m : List (String × List production)) (k : String) (v : List production) :
    List (String × List production) :=
  if k ∈ m.map Prod.fst then m.map fun r => if r.1 = k then (k, v) else r
  else m ++ [(k, v)]

/-- The symbol table of the grammar and the map `new_rules` during a
transformation of the grammar. -/
structure RuleState where
  st_ : SymbolTable
  new_rules : List (String × List production)

/-- The body of the loop over the productions of `nt` in
`RemoveLeftRecursion`, acting on `alpha` and `beta`.  The test
`prod[0] == EPSILON_` compares the first symbol as in
`HasDirectLeftRecursion`. -/
def recursionSplit (nt : String) (s : List production × List production) (prod : production) :
    List production × List production :=
  if prod.head? = some nt then (s.1 ++ [prod.tail], s.2)
  else if prod.head? = some EPSILON_ then s
  else (s.1, s.2 ++ [prod])

/-- The body of the loop over the rules in `RemoveLeftRecursion`. -/
def recursionRule (s : RuleState) (r : String × List production) : RuleState :=
  let new_non_terminal := GenerateNewNonTerminal s.st_ r.1
  let ab := r.2.foldl (recursionSplit r.1) ([], [])
  if ab.1 ≠ [] then
    let beta := (if ab.2 = [] then [[]] else ab.2).map fun b => b ++ [new_non_terminal]
    let alpha := (ab.1.map fun a => a ++ [new_non_terminal]) ++ [[EPSILON_]]
    ⟨s.st_.PutSymbol new_non_terminal false,
      ruleAssign (ruleAssign s.new_rules r.1 beta) new_non_terminal alpha⟩
  else ⟨s.st_, ruleAssign s.new_rules r.1 r.2⟩

/-- The method `GrammarFactory::RemoveLeftRecursion`; `o` gives the order in
which the new rule map is traversed. -/
def RemoveLeftRecursion (grammar : Grammar) (o : MapOrder) : Grammar :=
  if HasDirectLeftRecursion grammar = false then grammar
  else
    let s := grammar.g_.foldl recursionRule ⟨grammar.st_, []⟩
    { grammar with st_ := s.st_.PutSymbol EPSILON_ true, g_ := o.order s.new_rules }

/-- The name `base` followed by `n` primes. -/
def addPrimes (base : String) : Nat → String
  | 0 => base
  | n + 1 => addPrimes base n ++ "'"

/-- The name ends in a prime. -/
def Primed (s : String) : Prop := s.data.getLast? = "'".data.getLast?

instance (s : String) : Decidable (Primed s) :=
  inferInstanceAs (Decidable (s.data.getLast? = "'".data.getLast?))

/-- The rule has a left-recursive production `A -> A alpha`. -/
def LeftRecursive (r : String × List production) : Prop := ∃ p ∈ r.2, p.head? = some r.1

instance (r : String × List production) : Decidable (LeftRecursive r) :=
  inferInstanceAs (Decidable (∃ p ∈ r.2, p.head? = some r.1))

/-- The remainders `alpha_i` of the left-recursive productions `A -> A alpha_i`
of the rule. -/
def recursionAlpha (r : String × List production) : List production :=
  r.2.filterMap fun p => if p.head? = some r.1 then some p.tail else none

/-- The productions `beta_j` of the rule that are not left-recursive and do
not begin with `EPSILON_`. -/
def recursionBeta (r : String × List production) : List production :=
  r.2.filter fun p => ¬ p.head? = some r.1 ∧ ¬ p.head? = some EPSILON_

/-- The productions `A -> beta_j A'` that replace those of a left-recursive
rule, just `A -> A'` when there is no `beta_j`. -/
def keptRule (r : String × List production) (N : String) : List production :=
  (if recursionBeta r = [] then [[]] else recursionBeta r).map fun b => b ++ [N]

/-- The productions `A' -> alpha_i A'` and `A' -> EPSILON` of the new
non-terminal. -/
def addedRule (r : String × List production) (N : String) : List production :=
  ((recursionAlpha r).map fun a => a ++ [N]) ++ [[EPSILON_]]

/-- The rewriting of the rules `l` from the symbol table `st`, which yields
the entries `outs` and the symbol table `st'`: a rule without left-recursive
production is kept; a left-recursive rule of `A` yields the entries of `A` and
of `A'`, where `A'` is `A` followed by the fewest primes that give a name
that is not a registered non-terminal at that point, and `A'` is then
registered. -/
inductive RemoveRel : SymbolTable → List (String × List production) →
    List (String × List production) → SymbolTable → Prop where
  | nil (st : SymbolTable) : RemoveRel st [] [] st
  | keep (st st' : SymbolTable) (r : String × List production)
      (l outs : List (String × List production)) :
      ¬ LeftRecursive r → RemoveRel st l outs st' →
      RemoveRel st (r :: l) ((r.1, r.2) :: outs) st'
  | split (st st' : SymbolTable) (r : String × List production)
      (l outs : List (String × List production)) (n : Nat) :
      LeftRecursive r → addPrimes r.1 n ∉ st.non_terminals_ →
      (∀ k < n, addPrimes r.1 k ∈ st.non_terminals_) →
      RemoveRel (st.PutSymbol (addPrimes r.1 n) false) l outs st' →
      RemoveRel st (r :: l)
        ((r.1, keptRule r (addPrimes r.1 n)) :: (addPrimes r.1 n, addedRule r (addPrimes r.1 n))
          :: outs) st'

/-- The symbol table of the tests of `RemoveLeftRecursion`. -/
def recursionTable : SymbolTable :=
  (((SymbolTable.init.PutSymbol "S" false).PutSymbol "A" false).PutSymbol "a" true).PutSymbol
    "b" true

/-- The grammar `S -> A $`, `A -> A a | b` of the tests. -/
def recursionGrammar : Grammar :=
  ((({ g_ := [], axiom_ := "S", st_ := recursionTable } : Grammar).AddProduction "S"
    ["A", "$"]).AddProduction "A" ["A", "a"]).AddProduction "A" ["b"]

/-- The grammar `S -> A $`, `A -> A | b`. -/
def selfLoopGrammar : Grammar :=
  ((({ g_ := [], axiom_ := "S", st_ := recursionTable } : Grammar).AddProduction "S"
    ["A", "$"]).AddProduction "A" ["A"]).AddProduction "A" ["b"]

/-! ## grammar_factory.cpp: `LeftFactorize` -/

/-- The value of `i` after the loop `while (i < n && a[i] == b[i]) ++i` of
`LongestCommonPrefix` and `StartsWith`: the number of leading positions at
which the two sequences agree. -/
def matchLength : List String → List String → Nat
  | x :: a, y :: b => if x = y then matchLength a b + 1 else 0
  | _, _ => 0

/-- The method `GrammarFactory::StartsWith`. -/
def StartsWith (prod : production) (pre : List String) : Bool :=
  if prod.length < pre.length then false else decide (matchLength prod pre = pre.length)

/-- The comparison `a < b` of two `std::string`: lexicographic order of the
characters. -/
def stringLess : List Char → List Char → Bool
  | [], [] => false
  | [], _ :: _ => true
  | _ :: _, [] => false
  | x :: a, y :: b =>
    if x.toNat < y.toNat then true else if y.toNat < x.toNat then false else stringLess a b

/-- The comparison `a < b` of two `std::vector<std::string>`: lexicographic
order of the symbols. -/
def productionLess : List String → List String → Bool
  | [], [] => false
  | [], _ :: _ => true
  | _ :: _, [] => false
  | x :: a, y :: b =>
    if stringLess x.data y.data then true
    else if stringLess y.data x.data then false
    else productionLess a b

/-- The method `GrammarFactory::LongestCommonPrefix`: the productions are
sorted (`std::sort` with `operator<`) and the first and the last are
compared. -/
def LongestCommonPrefix (productions : List production) : List String :=
  if productions.length < 2 then []
  else
    let sorted := productions.insertionSort fun a b => productionLess b a = false
    match sorted.head?, sorted.getLast? with
    | some first, some last => first.take (matchLength first last)
    | _, _ => []

/-- The symbol table, the map `new_rules` and the flag `changed` during a
pass of `LeftFactorize`. -/
structure FactorState where
  st_ : SymbolTable
  new_rules : List (String × List production)
  changed : Bool

/-- The body of the loop `for (prod : remaining_productions)` of
`LeftFactorize`, acting on the symbol table, `new_remaining_productions` and
`factored_productions`. -/
def factorSplit ( common_prefix : List String)
    (s : SymbolTable × List production × List production) (prod : production) :
    SymbolTable × List production × List production :=
  if StartsWith prod common_prefix then
    if prod.drop common_prefix.length = [] then
      (s.1.PutSymbol EPSILON_ true, s.2.1 ++ [[EPSILON_]], s.2.2)
    else (s.1, s.2.1 ++ [prod.drop common_prefix.length], s.2.2)
  else (s.1, s.2.1, s.2.2 ++ [prod])

/-- The loop `while (!remaining_productions.empty())` of `LeftFactorize` for
the rule of `nt`: returns `factored_productions` and the state. -/
def factorWhile (nt : String) :
    List production → List production → FactorState → List production × FactorState
  | [], factored, s => (factored, s)
  | p :: rest, factored, s =>
    if LongestCommonPrefix (p :: rest) = [] then factorWhile nt rest (factored ++ [p]) s
    else
      let new_non_terminal := GenerateNewNonTerminal s.st_ nt
      let r := (p :: rest).foldl (factorSplit (LongestCommonPrefix (p :: rest)))
        (s.st_.PutSymbol new_non_terminal false, [],
          factored ++ [LongestCommonPrefix (p :: rest) ++ [new_non_terminal]])
      (r.2.2, ⟨r.1, ruleAssign s.new_rules new_non_terminal r.2.1, true⟩)

/-- The body of the loop over the rules in `LeftFactorize`. -/
def factorRule (s : FactorState) (r : String × List production) : FactorState :=
  let res := factorWhile r.1 r.2 [] s
  { res.2 with new_rules := ruleAssign res.2.new_rules r.1 res.1 }

/-- The loop `do ... while (changed)` of `LeftFactorize`; `o` gives the order
in which each new rule map is traversed. -/
def factorLoop (o : MapOrder) : Nat → Grammar → Option Grammar
  | 0, _ => none
  | n + 1, grammar =>
    let s := grammar.g_.foldl factorRule ⟨grammar.st_, [], false⟩
    if s.changed then
      factorLoop o n { grammar with st_ := s.st_, g_ := o.order s.new_rules }
    else some { grammar with st_ := s.st_, g_ := o.order s.new_rules }

/-- The method `GrammarFactory::LeftFactorize`. -/
def LeftFactorize (grammar : Grammar) (o : MapOrder) (fuel : Nat) : Option Grammar :=
  factorLoop o fuel grammar

/-- No pass of `LeftFactorize` factors the productions: no suffix of the
list has a common prefix. -/
def FactorFree (ps : List production) : Prop := ∀ t ∈ ps.tails, LongestCommonPrefix t = []

instance (ps : List production) : Decidable (FactorFree ps) :=
  inferInstanceAs (Decidable (∀ t ∈ ps.tails, LongestCommonPrefix t = []))

/-- The symbol table of the tests of `LeftFactorize`. -/
def factorTable : SymbolTable :=
  ((((SymbolTable.init.PutSymbol "S" false).PutSymbol "A" false).PutSymbol "a" true).PutSymbol
    "b" true).PutSymbol "c" true

/-- The grammar `S -> A $`, `A -> a b B | a b c` of the tests. -/
def factorGrammar : Grammar :=
  ((({ g_ := [], axiom_ := "S", st_ := factorTable } : Grammar).AddProduction "S"
    ["A", "$"]).AddProduction "A" ["a", "b", "B"]).AddProduction "A" ["a", "b", "c"]

/-- The grammar `S -> A $`, `A -> a b | a c | d`. -/
def partialGrammar : Grammar :=
  (((({ g_ := [], axiom_ := "S", st_ := factorTable.PutSymbol "d" true } :
    Grammar).AddProduction "S" ["A", "$"]).AddProduction "A" ["a", "b"]).AddProduction "A"
    ["a", "c"]).AddProduction "A" ["d"]

/-- The grammar `S -> A $`, `A -> a | a`. -/
def dupGrammar : Grammar :=
  ((({ g_ := [], axiom_ := "S", st_ := factorTable } : Grammar).AddProduction "S"
    ["A", "$"]).AddProduction "A" ["a"]).AddProduction "A" ["a"]

/-- The remainder of a production after the common prefix, `EPSILON_` when
nothing remains. -/
def factorRemainder ( common_prefix : List String) (prod : production) : production :=
  if prod.drop common_prefix.length = [] then [EPSILON_] else prod.drop common_prefix.length

/-- The rule map is well formed and its keys are registered: the keys are
pairwise different registered non-terminals. -/
def Grammar.KeysRegistered (gr : Grammar) : Prop :=
  gr.keys.Nodup ∧ ∀ k ∈ gr.keys, k ∈ gr.st_.non_terminals_

/-- The invariant of a pass of `LeftFactorize` with the rules `todo` left:
the keys left are different registered non-terminals without entry in
`new_rules`, whose keys are different registered non-terminals. -/
def PassInv (s : FactorState) (todo : List (String × List production)) : Prop :=
  (todo.map Prod.fst).Nodup ∧ (∀ k ∈ todo.map Prod.fst, k ∈ s.st_.non_terminals_) ∧
  (∀ k ∈ todo.map Prod.fst, k ∉ s.new_rules.map Prod.fst) ∧
  (∀ k ∈ s.new_rules.map Prod.fst, k ∈ s.st_.non_terminals_) ∧
  (s.new_rules.map Prod.fst).Nodup

/-- The grammar `S -> A $`, `A -> a b | c` of the tests. -/
def noPrefixGrammar : Grammar :=
  ((({ g_ := [], axiom_ := "S", st_ := factorTable } : Grammar).AddProduction "S"
    ["A", "$"]).AddProduction "A" ["a", "b"]).AddProduction "A" ["c"]

/-- No two productions begin with the same symbol. -/
def DistinctHeads (ps : List production) : Prop :=
  ps.Pairwise fun p q => p.head? = none ∨ p.head? ≠ q.head?

instance (ps : List production) : Decidable (DistinctHeads ps) :=
  inferInstanceAs
    (Decidable (ps.Pairwise fun (p q : production) => p.head? = none ∨ p.head? ≠ q.head?))

instance (gr : Grammar) : Decidable gr.KeysRegistered :=
  inferInstanceAs (Decidable (gr.keys.Nodup ∧ ∀ k ∈ gr.keys, k ∈ gr.st_.non_terminals_))

/-! ## grammar_factory.cpp: `HasIndirectLeftRecursion`, `HasCycle` -/

/-- The orders in which the hash containers of `HasCycle` are traversed:
`nodes` for the entries of `graph`, `adjacents u` for the set `graph[u]`, and
`degrees` for the entries of `in_degree`, each given the set of keys or of
elements. -/
structure GraphOrder where
  nodes : Finset String → List String
  adjacents : String → Finset String → List String
  degrees : Finset String → List String

/-- Every traversal visits each element of the container exactly once. -/
def GraphOrder.Valid (o : GraphOrder) : Prop :=
  (∀ s, (o.nodes s).Nodup ∧ ∀ x, x ∈ o.nodes s ↔ x ∈ s) ∧
  (∀ u s, (o.adjacents u s).Nodup ∧ ∀ x, x ∈ o.adjacents u s ↔ x ∈ s) ∧
  ∀ s, (o.degrees s).Nodup ∧ ∀ x, x ∈ o.degrees s ↔ x ∈ s

/-- The traversal of every container in increasing order. -/
def sortedGraphOrder : GraphOrder where
  nodes := fun s => s.sort (· ≤ ·)
  adjacents := fun _ s => s.sort (· ≤ ·)
  degrees := fun s => s.sort (· ≤ ·)

/-- A value of type `int` (32 bits, two's complement) after an arithmetic
operation. -/
def i32 (x : Int) : Int := (x + 2147483648) % 4294967296 - 2147483648

/-- The conversion `static_cast<size_t>` of an `int` (64 bits). -/
def sizeCast (x : Int) : Int := x % 18446744073709551616

/-- The loop `for (i = 1; i < prod.size(); ++i)` of `HasIndirectLeftRecursion`
over the symbols after the first, acting on `graph[nt]`. -/
def firstScan (gr : Grammar) (nullable : Finset String) :
    List String → Finset String → Finset String
  | [], adj => adj
  | sym :: rest, adj =>
    if gr.st_.IsTerminal sym then adj
    else if sym ∈ nullable then firstScan gr nullable rest (insert sym adj)
    else insert sym adj

/-- The body of the loop over the productions of `nt` in
`HasIndirectLeftRecursion`, acting on `graph[nt]`.  The first symbol
`prod[0]` is read without a test of the size; an empty production, for which
the C++ reads out of bounds, adds nothing here. -/
def firstEdges (gr : Grammar) (nullable : Finset String) (adj : Finset String)
    (prod : production) : Finset String :=
  match prod with
  | [] => adj
  | x :: rest => firstScan gr nullable rest (if gr.st_.IsTerminal x then adj else insert x adj)

/-- The body of the loop over the rules in `HasIndirectLeftRecursion`. -/
def leftGraphRule (gr : Grammar) (nullable : Finset String) (graph : SetMap)
    (r : String × List production) : SetMap :=
  graph.set r.1 (r.2.foldl (firstEdges gr nullable) ∅)

/-- The map `graph` built by `HasIndirectLeftRecursion`. -/
def leftGraph (gr : Grammar) (nullable : Finset String) : SetMap :=
  gr.g_.foldl (leftGraphRule gr nullable) UMap.empty

/-- The statement `in_degree[nt] = 0` of `HasCycle`. -/
def degreeInit (m : UMap Int) (nt : String) : UMap Int := m.set nt 0

/-- The statement `in_degree[adj]++` of `HasCycle`. -/
def degreeCount (m : UMap Int) (adj : String) : UMap Int := m.set adj (i32 (m.get adj + 1))

/-- The body of the second loop of `HasCycle`, over the entries of `graph`. -/
def degreeNode (graph : SetMap) (o : GraphOrder) (m : UMap Int) (nt : String) : UMap Int :=
  (o.adjacents nt (graph.get nt)).foldl degreeCount m

/-- The map `in_degree` of `HasCycle` after the first two loops. -/
def inDegrees (graph : SetMap) (o : GraphOrder) : UMap Int :=
  (o.nodes graph.keys).foldl (degreeNode graph o) ((o.nodes graph.keys).foldl degreeInit UMap.empty)

/-- The body of the loop over `graph.at(node)` in `HasCycle`, acting on
`in_degree` and the queue. -/
def cycleVisit (s : UMap Int × List String) (adj : String) : UMap Int × List String :=
  if i32 (s.1.get adj - 1) = 0 then (s.1.set adj (i32 (s.1.get adj - 1)), s.2 ++ [adj])
  else (s.1.set adj (i32 (s.1.get adj - 1)), s.2)

/-- The loop `while (!q.empty())` of `HasCycle`: returns `in_degree` and
`processed_nodes`.  The outer `none` is exhausted fuel, the inner `none` the
exception `std::out_of_range` of `graph.at(node)`. -/
def cycleLoop (graph : SetMap) (o : GraphOrder) :
    Nat → UMap Int → List String → Int → Option (Option (UMap Int × Int))
  | 0, _, _, _ => none
  | _ + 1, in_degree, [], processed => some (some (in_degree, processed))
  | n + 1, in_degree, node :: q, processed =>
    match graph.find? node with
    | none => some none
    | some adjacents =>
      let s := (o.adjacents node adjacents).foldl cycleVisit (in_degree, q)
      cycleLoop graph o n s.1 s.2 (i32 (processed + 1))

/-- The method `GrammarFactory::HasCycle`. -/
def HasCycle (graph : SetMap) (o : GraphOrder) (fuel : Nat) : Option (Option Bool) :=
  let in_degree := inDegrees graph o
  let q := (o.degrees in_degree.keys).filter fun node => in_degree.get node = 0
  (cycleLoop graph o fuel in_degree q 0).map fun r =>
    r.map fun s => decide (sizeCast s.2 ≠ (s.1.keys.card : Int))

/-- The method `GrammarFactory::HasIndirectLeftRecursion`. -/
def HasIndirectLeftRecursion (grammar : Grammar) (o : GraphOrder) (fuel : Nat) :
    Option (Option Bool) :=
  match NullableSymbols grammar fuel with
  | none => none
  | some nullable =>
    if (leftGraph grammar nullable).keys = ∅ then some (some false)
    else HasCycle (leftGraph grammar nullable) o fuel

/-- An edge of a graph given by its adjacency sets. -/
def GraphEdge (graph : SetMap) (a b : String) : Prop := a ∈ graph.keys ∧ b ∈ graph.get a

/-- The symbol `B` is met by the scan of `rest` from its first position: it
is a non-terminal preceded in `rest` by nullable non-terminals only. -/
def ScanHit (gr : Grammar) (nullable : Finset String) (rest : List String) (B : String) : Prop :=
  ∃ pre γ, rest = pre ++ B :: γ ∧
    (∀ y ∈ pre, gr.st_.IsTerminal y = false ∧ y ∈ nullable) ∧ gr.st_.IsTerminal B = false

/-- The edges of the graph that `HasIndirectLeftRecursion` builds: `A -> B`
when some production `x rest` of `A` has `B = x` a non-terminal, or `B` a
non-terminal of `rest` preceded in `rest` by nullable non-terminals only,
whatever the first symbol `x` is. -/
def LeftEdge (gr : Grammar) (nullable : Finset String) (A B : String) : Prop :=
  ∃ r ∈ gr.g_, r.1 = A ∧ ∃ p ∈ r.2, ∃ x rest, p = x :: rest ∧
    ((gr.st_.IsTerminal x = false ∧ B = x) ∨ ScanHit gr nullable rest B)

/-- The edges of the graph of the symbols that can appear first: `A -> B`
when some production of `A` has the form `X1 ... Xk B gamma` with `k >= 0` and
every `Xi` a nullable non-terminal. -/
def FirstEdge (gr : Grammar) (nullable : Finset String) (A B : String) : Prop :=
  ∃ r ∈ gr.g_, r.1 = A ∧ ∃ p ∈ r.2, ∃ pre γ, p = pre ++ B :: γ ∧
    ∀ y ∈ pre, gr.st_.IsTerminal y = false ∧ y ∈ nullable

/-- A rank of the symbols of `classicGrammar` that decreases along the edges
of `FirstEdge`. -/
def classicRank (s : String) : Nat := if s = "S" then 2 else if s = "A" then 1 else 0

/-- The invariant of the loop `while (!q.empty())` of `HasCycle`, for the set
`P` of the nodes taken from the queue so far. -/
structure KahnInv (graph : SetMap) (P : Finset String) (d : UMap Int) (q : List String)
    (c : Int) : Prop where
  keys : d.keys = graph.keys
  sub : P ⊆ graph.keys
  count : c = P.card
  deg : ∀ v, d.get v = (((graph.keys \ P).filter fun u => v ∈ graph.get u).card : Int)
  nodup : q.Nodup
  queue : ∀ v, v ∈ q ↔ v ∈ graph.keys ∧ v ∉ P ∧ d.get v = 0
  closed : ∀ u ∈ graph.keys, ∀ w ∈ graph.get u, w ∈ P → u ∈ P
  acyclic : ∀ w ∈ P, ¬ Relation.TransGen (GraphEdge graph) w w

/-! ## grammar.cpp: the constructor, `TransformToAugmentedGrammar`, `HasEmptyProduction` -/

/-- The method `Grammar::HasEmptyProduction`: `none` is the exception
`std::out_of_range` of `g_.at(antecedent)`.  The first symbol `rule[0]` is
read without a test of the size; an empty production, for which the C++ reads
out of bounds, has no first symbol here. -/
def Grammar.HasEmptyProduction (gr : Grammar) (antecedent : String) : Option Bool :=
  match gr.at? antecedent with
  | none => none
  | some rules => some (rules.any fun rule => decide (rule.head? = some EPSILON_))

/-- The method `Grammar::TransformToAugmentedGrammar` of
`src/backend/grammar.cpp`; `o` gives the order in which the rule map is
traversed after the assignment. -/
def Grammar.TransformToAugmentedGrammar (gr : Grammar) (o : MapOrder) : Grammar :=
  let new_axiom := gr.axiom_ ++ "'"
  { g_ := o.order (ruleAssign gr.g_ new_axiom [[gr.axiom_]])
    st_ := gr.st_.PutSymbol new_axiom false
    axiom_ := new_axiom }

/-- The test `std::islower(symbol[0])` of the constructor of `Grammar`; for
the empty string `symbol[0]` is the null character. -/
def startsLower (symbol : String) : Bool :=
  match symbol.data with
  | [] => false
  | c :: _ => c.isLower

/-- The body of the loop over the symbols of a production in the constructor
of `Grammar`. -/
def registerSymbol (st : SymbolTable) (symbol : String) : SymbolTable :=
  if symbol = "EPSILON" then st.PutSymbol symbol true
  else if startsLower symbol then st.PutSymbol symbol true
  else st

/-- The body of the loop over the entries of the raw map in the constructor
of `Grammar`. -/
def registerRule (st : SymbolTable) (r : String × List production) : SymbolTable :=
  r.2.foldl (fun st1 prod => prod.foldl registerSymbol st1) (st.PutSymbol r.1 false)

/-- The constructor `Grammar::Grammar(grammar)` of `src/backend/grammar.cpp`,
for the entries of the raw map in the order of their traversal; `o` gives the
order in which the rule map of the result is traversed. -/
def Grammar.create (grammar : List (String × List production)) (o : MapOrder) : Grammar :=
  let st := grammar.foldl registerRule SymbolTable.init
  { axiom_ := "S"
    g_ := o.order (ruleAssign grammar "S" [["A", EOL_]])
    st_ := st.PutSymbol "S" false }

/-- The order in which an `unordered_set` of symbols is traversed. -/
structure SetOrder where
  elems : Finset String → List String

/-- The traversal visits each element of the set exactly once. -/
def SetOrder.Valid (o : SetOrder) : Prop :=
  ∀ s, (o.elems s).Nodup ∧ ∀ x, x ∈ o.elems s ↔ x ∈ s

/-- The traversal of a set of symbols in increasing order. -/
def sortedSetOrder : SetOrder := ⟨fun s => s.sort (· ≤ ·)⟩

/-- The constructor `Grammar::Grammar(grammar)` of
`src/backend/src/grammar.cpp`: the rule of the axiom is written only when the
raw map has no key `S`, and its first symbol is `*non_terminals_.begin()`.
The result `none` stands for the dereference of `begin()` of an empty set. -/
def Grammar.createSrc (grammar : List (String × List production)) (o : MapOrder)
    (so : SetOrder) : Option Grammar :=
  let st := grammar.foldl registerRule SymbolTable.init
  if "S" ∈ grammar.map Prod.fst then some { axiom_ := "S", g_ := o.order grammar, st_ := st }
  else
    match (so.elems st.non_terminals_).head? with
    | none => none
    | some nt =>
      some { axiom_ := "S"
             g_ := o.order (ruleAssign grammar "S" [[nt, EOL_]])
             st_ := st.PutSymbol "S" false }

/-- The symbol is registered in the symbol table as a terminal or as a
non-terminal. -/
def SymbolTable.Registered (t : SymbolTable) (s : String) : Prop :=
  s ∈ t.terminals_ ∨ s ∈ t.non_terminals_

instance (t : SymbolTable) (s : String) : Decidable (t.Registered s) :=
  inferInstanceAs (Decidable (_ ∨ _))

/-- Every symbol of a production of the raw map is `EPSILON`, begins with a
lower-case letter, is the end marker or the axiom `S`, or is a key of the
map. -/
def RawClosed (grammar : List (String × List production)) : Prop :=
  ∀ r ∈ grammar, ∀ p ∈ r.2, ∀ x ∈ p,
    x = "EPSILON" ∨ startsLower x = true ∨ x = EOL_ ∨ x = "S" ∨ x ∈ grammar.map Prod.fst

instance (grammar : List (String × List production)) : Decidable (RawClosed grammar) :=
  inferInstanceAs (Decidable (∀ r ∈ grammar, ∀ p ∈ r.2, ∀ x ∈ p, _))

/-- The grammar `S -> A $`, `A -> EPSILON a` with its symbols registered. -/
def epsilonPrefixGrammar : Grammar where
  g_ := [("S", [["A", "$"]]), ("A", [["EPSILON", "a"]])]
  axiom_ := "S"
  st_ := (((SymbolTable.init.PutSymbol "S" false).PutSymbol "A" false).PutSymbol "a" true).PutSymbol
    "EPSILON" true

/-- The grammar `S -> A $`, `S' -> b`, `A -> a S'` with its symbols
registered. -/
def primedGrammar : Grammar where
  g_ := [("S", [["A", "$"]]), ("S'", [["b"]]), ("A", [["a", "S'"]])]
  axiom_ := "S"
  st_ := ((((SymbolTable.init.PutSymbol "S" false).PutSymbol "S'" false).PutSymbol "A"
    false).PutSymbol "a" true).PutSymbol "b" true

/-! ### The constructor of `Grammar` (C34) -/

/-- The raw production map `B -> C`. -/
def rawGrammar : List (String × List production) := [("B", [["C"]])]

/-- The second symbol table holds every registration of the first. -/
def SymbolTable.Le (a b : SymbolTable) : Prop :=
  a.terminals_ ⊆ b.terminals_ ∧ a.non_terminals_ ⊆ b.non_terminals_

/-! ## `HasCycle` (C35) -/

/-- The graph `A -> B`, `B -> A`, `C -> A`. -/
def loopGraph : SetMap := ((UMap.empty.set "A" {"B"}).set "B" {"A"}).set "C" {"A"}

/-- The order `a <= b` of two productions by which `LongestCommonPrefix`
sorts. -/
abbrev productionLe (a b : List String) : Prop := productionLess b a = false

/-! ## The two implementations of FIRST (C39) -/

/-- In the sequence `EPSILON_` stands only at the last position: no
`EPSILON_` is followed by a further symbol. -/
def EpsilonLast (rule : List String) : Prop :=
  ∀ t ∈ rule.tails, t.head? = some EPSILON_ → t.length = 1

instance (rule : List String) : Decidable (EpsilonLast rule) :=
  inferInstanceAs (Decidable (∀ t ∈ rule.tails, _))

/-- The grammar `S -> A $`, `A -> B EPSILON a | EPSILON c`, `B -> b` with its
symbols registered. -/
def epsilonMidGrammar : Grammar where
  g_ := [("S", [["A", "$"]]), ("A", [["B", "EPSILON", "a"], ["EPSILON", "c"]]), ("B", [["b"]])]
  axiom_ := "S"
  st_ := (((((((SymbolTable.init.PutSymbol "S" false).PutSymbol "A" false).PutSymbol "B"
    false).PutSymbol "a" true).PutSymbol "b" true).PutSymbol "c" true).PutSymbol "EPSILON" true)

/-! ## `SolveLRConflicts` and the order of the items (C38) -/

/-- The symbol table of the grammar `S -> A`, `A -> A | a`. -/
def acceptReduceTable : SymbolTable :=
  ((SymbolTable.init.PutSymbol "S" false).PutSymbol "A" false).PutSymbol "a" true

/-- The grammar `S -> A`, `A -> A | a` with axiom `S`. -/
def acceptReduceGrammar : Grammar :=
  ⟨[("S", [["A"]]), ("A", [["A"], ["a"]])], "S", acceptReduceTable⟩

/-- The complete item `S -> A .` of the axiom. -/
def acceptItem : Lr0Item := ⟨"S", ["A"], 1⟩

/-- The complete item `A -> A .`. -/
def reduceItem : Lr0Item := ⟨"A", ["A"], 1⟩

/-- The state of `acceptReduceGrammar` reached from the initial state on
`A`. -/
def acceptReduceState : state := ⟨{acceptItem, reduceItem}, 1⟩

/-- The traversal that visits the item `x` first in every set of items that
holds it, and is in increasing order otherwise. -/
def frontOrder (x : Lr0Item) : HashOrder where
  symbols := fun _ s => s.sort (· ≤ ·)
  follows := fun _ _ s => s.sort (· ≤ ·)
  items := fun _ s => if x ∈ s then x :: (s.erase x).sort (· ≤ ·) else s.sort (· ≤ ·)
  states := fun l => l

/-! ## slr1_parser.cpp: `TeachClosure` (C40) -/

/-- The constructor `Lr0Item(antecedent, consequent, dot, epsilon, eol)`.
The member `dot_` is initialised with the parameter `dot`; the statement
`dot = 1` of the body, executed for a production that is only `EPSILON_`,
assigns to the parameter and leaves the member as it is. -/
def Lr0Item.createAt (antecedent : String) (consequent : List String) (dot : Nat) : Lr0Item :=
  ⟨antecedent, consequent, dot⟩

/-- The items inserted by `TeachClosureUtil` for one expanded symbol: one per
rule of `g_.at(next)`, built with the dot given as `0`. -/
def teachExpand (gr : Grammar) (next : String) : Finset Lr0Item :=
  match gr.at? next with
  | none => ∅
  | some rules => (rules.map fun rule => Lr0Item.createAt next rule 0).toFinset

/-- The method `SLR1Parser::TeachClosureUtil`, acting on `items`.  The
parameters `depth` and `output` feed the narration only.  The symbols
expanded by one call are those of `closureTargets`: an item is skipped when
the symbol next to its dot is `EPSILON_` or a terminal, and expanded when the
symbol is not visited.  The outer `none` is exhausted fuel, the inner `none`
the exception `std::out_of_range` thrown by `g_.at(next)`. -/
def TeachClosureUtil (gr : Grammar) :
    Nat → Finset Lr0Item → Nat → Finset String → Option (Option (Finset Lr0Item))
  | 0, _, _, _ => none
  | n + 1, items, size, visited =>
    let targets := closureTargets gr items visited
    if ∃ next ∈ targets, gr.at? next = none then some none
    else
      let newItems := targets.biUnion (teachExpand gr)
      let items1 := items ∪ newItems
      if size ≠ items1.card then TeachClosureUtil gr n items1 items1.card (visited ∪ targets)
      else some (some items1)

/-- The method `SLR1Parser::TeachClosure`: the contents of `items`
afterwards. -/
def TeachClosure (gr : Grammar) (items : Finset Lr0Item) (fuel : Nat) :
    Option (Option (Finset Lr0Item)) :=
  TeachClosureUtil gr fuel items items.card ∅

/-! ## `IsInfinite` when `EPSILON_` is not a registered terminal (C20) -/

/-- The grammar `S -> EPSILON` with the symbol table that holds `S` besides
the default entries: `EPSILON_` is in the map `st_`, not in `terminals_`. -/
def epsilonOnlyGrammar : Grammar :=
  ⟨[("S", [["EPSILON"]])], "S", SymbolTable.init.PutSymbol "S" false⟩

/-- The grammar `S -> A $`, `A -> a b | a c`, `B -> x | x` with its symbols
registered. -/
def stuckGrammar : Grammar :=
  ((((({ g_ := [], axiom_ := "S", st_ := (factorTable.PutSymbol "B" false).PutSymbol "x" true } :
    Grammar).AddProduction "S" ["A", "$"]).AddProduction "A" ["a", "b"]).AddProduction "A"
    ["a", "c"]).AddProduction "B" ["x"]).AddProduction "B" ["x"]

/-! ## Properties of abstract steps -/

theorem AState.le_refl (x : AState) : AState.le x x := ⟨Finset.Subset.refl _, fun _ => Finset.Subset.refl _⟩

theorem AState.le_trans {x y z : AState} (h1 : AState.le x y) (h2 : AState.le y z) : AState.le x z :=
  ⟨h1.1.trans h2.1, fun k => (h1.2 k).trans (h2.2 k)⟩

theorem AState.le_antisymm {x y : AState} (h1 : AState.le x y) (h2 : AState.le y x) : x = y := by
  apply Prod.ext
  · exact Finset.Subset.antisymm h1.1 h2.1
  · funext k; exact Finset.Subset.antisymm (h1.2 k) (h2.2 k)

theorem astep_le (s : AStep) (x : AState) : AState.le x (astep s x) := by
  refine ⟨Finset.subset_union_left, fun k => ?_⟩
  by_cases h : k = s.target
  · subst h; simp [astep]
  · simp [astep, Function.update_noteq h]

theorem astep_mono {s : AStep} (hs : s.Mono) {x y : AState} (h : AState.le x y) :
    AState.le (astep s x) (astep s y) := by
  obtain ⟨h1, h2⟩ := hs x.2 y.2 h.2
  refine ⟨Finset.union_subset_union h.1 h1, fun k => ?_⟩
  by_cases hk : k = s.target
  · subst hk; simp only [astep, Function.update_same]
    exact Finset.union_subset_union (h.2 _) h2
  · simp only [astep, Function.update_noteq hk]; exact h.2 k

theorem astep_eq_of_sat {s : AStep} {y : AState} (h : s.Sat y) : astep s y = y := by
  apply Prod.ext
  · simp [astep, Finset.union_eq_left.mpr h.1]
  · simp [astep, Finset.union_eq_left.mpr h.2]

theorem sat_of_astep_le {s : AStep} {y : AState} (h : AState.le (astep s y) y) : s.Sat y := by
  constructor
  · exact (Finset.subset_union_right).trans h.1
  · have := h.2 s.target
    simp only [astep, Function.update_same] at this
    exact (Finset.subset_union_right).trans this

theorem apass_le (S : List AStep) (x : AState) : AState.le x (apass S x) := by
  induction S generalizing x with
  | nil => exact AState.le_refl x
  | cons s S ih => exact AState.le_trans (astep_le s x) (ih (astep s x))

theorem apass_least {S : List AStep} (hS : ∀ s ∈ S, s.Mono) {x y : AState}
    (hxy : AState.le x y) (hy : ∀ s ∈ S, s.Sat y) : AState.le (apass S x) y := by
  induction S generalizing x with
  | nil => exact hxy
  | cons s S ih =>
    have h1 : AState.le (astep s x) y := by
      have := astep_mono (hS s (List.mem_cons_self _ _)) hxy
      rwa [astep_eq_of_sat (hy s (List.mem_cons_self _ _))] at this
    exact ih (fun t ht => hS t (List.mem_cons_of_mem _ ht)) h1
      (fun t ht => hy t (List.mem_cons_of_mem _ ht))

theorem apass_fixed {S : List AStep} {x : AState} (h : AState.le (apass S x) x) :
    ∀ s ∈ S, s.Sat x := by
  induction S with
  | nil => intro s hs; cases hs
  | cons s S ih =>
    have h1 : AState.le (astep s x) x := AState.le_trans (apass_le S (astep s x)) h
    have h2 : s.Sat x := sat_of_astep_le h1
    have h3 : astep s x = x := astep_eq_of_sat h2
    have h4 : AState.le (apass S x) x := by
      have : apass (s :: S) x = apass S (astep s x) := rfl
      rw [this, h3] at h; exact h
    intro t ht
    rcases List.mem_cons.mp ht with rfl | ht
    · exact h2
    · exact ih h4 t ht

theorem apass_eq_of_sat {S : List AStep} {y : AState} (hy : ∀ s ∈ S, s.Sat y) : apass S y = y := by
  induction S with
  | nil => rfl
  | cons s S ih =>
    have : apass (s :: S) y = apass S (astep s y) := rfl
    rw [this, astep_eq_of_sat (hy s (List.mem_cons_self _ _))]
    exact ih (fun t ht => hy t (List.mem_cons_of_mem _ ht))

theorem AState.size_mono (K : Finset String) {x y : AState} (h : AState.le x y) :
    AState.size K x ≤ AState.size K y := by
  unfold AState.size
  exact Nat.add_le_add (Finset.card_le_card h.1)
    (Finset.sum_le_sum fun k _ => Finset.card_le_card (h.2 k))

theorem AState.size_lt (K : Finset String) {x y : AState} (h : AState.le x y) (hne : x ≠ y)
    (hK : y.1 ⊆ K) (hwf : AState.WF y) : AState.size K x < AState.size K y := by
  unfold AState.size
  by_cases h1 : x.1 = y.1
  · have h2 : x.2 ≠ y.2 := fun h2 => hne (Prod.ext h1 h2)
    obtain ⟨k, hk⟩ := Function.ne_iff.mp h2
    have hss : x.2 k ⊂ y.2 k := Finset.ssubset_iff_subset_ne.mpr ⟨h.2 k, hk⟩
    have hkK : k ∈ K := by
      by_contra hkK
      have : y.2 k = ∅ := hwf k (fun hk1 => hkK (hK hk1))
      rw [this] at hss
      exact absurd hss (Finset.not_ssubset_empty _)
    have : ∑ k in K, (x.2 k).card < ∑ k in K, (y.2 k).card :=
      Finset.sum_lt_sum (fun k _ => Finset.card_le_card (h.2 k)) ⟨k, hkK, Finset.card_lt_card hss⟩
    have := Finset.card_le_card h.1
    omega
  · have hss : x.1 ⊂ y.1 := Finset.ssubset_iff_subset_ne.mpr ⟨h.1, h1⟩
    have := Finset.card_lt_card hss
    have : ∑ k in K, (x.2 k).card ≤ ∑ k in K, (y.2 k).card :=
      Finset.sum_le_sum fun k _ => Finset.card_le_card (h.2 k)
    omega

theorem AState.size_le_bound (K U : Finset String) {y : AState} (hK : y.1 ⊆ K)
    (hU : ∀ k, y.2 k ⊆ U) : AState.size K y ≤ K.card + K.card * U.card := by
  unfold AState.size
  have h1 := Finset.card_le_card hK
  have h2 : ∑ k in K, (y.2 k).card ≤ ∑ _k in K, U.card :=
    Finset.sum_le_sum fun k _ => Finset.card_le_card (hU k)
  simp only [Finset.sum_const, smul_eq_mul] at h2
  omega

/-! ## Maps and their abstract view -/

theorem UMap.touch_keys (m : SetMap) (k : String) : (m.touch k).keys = insert k m.keys := rfl

theorem UMap.touch_get (m : SetMap) (k : String) : (m.touch k).get = m.get := by
  funext x
  by_cases hx : x ∈ m.keys
  · simp [UMap.get, UMap.touch, hx]
  · by_cases hxk : x = k <;> simp [UMap.get, UMap.touch, hx, hxk]

theorem UMap.set_keys (m : SetMap) (k : String) (v : Finset String) :
    (m.set k v).keys = insert k m.keys := rfl

theorem UMap.set_get (m : SetMap) (k : String) (v : Finset String) :
    (m.set k v).get = Function.update m.get k v := by
  funext x
  by_cases hxk : x = k
  · subst hxk; simp [UMap.get, UMap.set]
  · by_cases hx : x ∈ m.keys
    · simp [UMap.get, UMap.set, hx, hxk, Function.update_noteq hxk]
    · simp [UMap.get, UMap.set, hx, hxk, Function.update_noteq hxk]

theorem UMap.abs_wf (m : SetMap) : AState.WF m.abs := by
  intro k hk
  simp only [UMap.abs] at hk ⊢
  simp [UMap.get, hk]; rfl

theorem UMap.same_iff_abs (a b : SetMap) : UMap.Same a b ↔ a.abs = b.abs := by
  constructor
  · rintro ⟨h1, h2⟩
    apply Prod.ext h1
    funext k
    simp only [UMap.abs, UMap.get]
    by_cases hk : k ∈ a.keys
    · rw [if_pos hk, if_pos (h1 ▸ hk)]; exact h2 k hk
    · rw [if_neg hk, if_neg (h1 ▸ hk)]
  · intro h
    have h1 : a.keys = b.keys := congrArg Prod.fst h
    have h2 : a.get = b.get := congrArg Prod.snd h
    refine ⟨h1, fun k hk => ?_⟩
    have := congrFun h2 k
    simp only [UMap.get] at this
    rwa [if_pos hk, if_pos (h1 ▸ hk)] at this

/-! ## `First` -/

theorem First_spec (gr : Grammar) (rule : List String) (fs : SetMap) (result : Finset String) :
    (First gr rule fs result).1 = result ∪ firstOf gr fs.get rule ∧
    (First gr rule fs result).2.keys = fs.keys ∪ firstKeys gr fs.get rule ∧
    (First gr rule fs result).2.get = fs.get := by
  induction rule generalizing fs result with
  | nil =>
    simp only [First, firstOf, firstKeys, Finset.union_empty, and_self, and_true]
    ext a; simp [or_comm]
  | cons x rest ih =>
    simp only [First, firstOf, firstKeys, List.length_cons]
    by_cases h1 : rest = [] ∧ x = EPSILON_
    · have h1' : rest.length + 1 = 1 ∧ x = EPSILON_ := by simp [h1.1, h1.2]
      rw [if_pos h1', if_pos h1, if_pos h1]
      simp only [Finset.union_empty, and_self, and_true]
      ext a; simp [or_comm]
    · have h1' : ¬ (rest.length + 1 = 1 ∧ x = EPSILON_) := by
        intro h; apply h1; refine ⟨?_, h.2⟩
        have : rest.length = 0 := by omega
        exact List.length_eq_zero.mp this
      rw [if_neg h1', if_neg h1, if_neg h1]
      by_cases h2 : x = EPSILON_
      · have h2' : 1 < rest.length + 1 ∧ x = EPSILON_ := by
          refine ⟨?_, h2⟩
          have : rest ≠ [] := fun h => h1 ⟨h, h2⟩
          have := List.length_pos.mpr this
          omega
        rw [if_pos h2', if_pos h2, if_pos h2]
        exact ih fs result
      · have h2' : ¬ (1 < rest.length + 1 ∧ x = EPSILON_) := fun h => h2 h.2
        rw [if_neg h2', if_neg h2, if_neg h2]
        by_cases h3 : gr.st_.IsTerminal x = true
        · rw [if_pos h3, if_pos h3, if_pos h3]
          by_cases h4 : x = EOL_
          · rw [if_pos h4, if_pos h4]
            simp only [Finset.union_empty, and_self, and_true]
            ext a; simp [or_comm]
          · rw [if_neg h4, if_neg h4]
            simp only [Finset.union_empty, and_self, and_true]
            ext a; simp [or_comm]
        · rw [if_neg h3, if_neg h3, if_neg h3]
          simp only [UMap.touch_get]
          by_cases h5 : EPSILON_ ∈ fs.get x
          · have h5' : ¬ (EPSILON_ ∉ fs.get x) := fun h => h h5
            rw [if_neg h5', if_pos h5, if_pos h5]
            obtain ⟨i1, i2, i3⟩ := ih (fs.touch x) (result ∪ (fs.get x).erase EPSILON_)
            rw [UMap.touch_get] at i1 i2 i3
            refine ⟨?_, ?_, i3⟩
            · rw [i1, Finset.union_assoc]
            · rw [i2, UMap.touch_keys]
              ext a; simp only [Finset.mem_union, Finset.mem_insert]; tauto
          · have h5' : EPSILON_ ∉ fs.get x := h5
            rw [if_pos h5', if_neg h5, if_neg h5]
            refine ⟨by simp, ?_, UMap.touch_get fs x⟩
            rw [UMap.touch_keys]
            ext a; simp only [Finset.mem_union, Finset.mem_insert, Finset.not_mem_empty]; tauto

theorem firstOf_mono (gr : Grammar) {v w : Family} (h : ∀ k, v k ⊆ w k) (rule : List String) :
    firstOf gr v rule ⊆ firstOf gr w rule := by
  induction rule with
  | nil => exact Finset.Subset.refl _
  | cons x rest ih =>
    simp only [firstOf]
    split_ifs with h1 h2 h3 h4 h5 h6 h6
    all_goals first
      | exact Finset.Subset.refl _
      | exact ih
      | exact Finset.union_subset_union (Finset.erase_subset_erase _ (h x)) ih
      | exact absurd (h x h5) h6
      | exact Finset.union_subset_union (Finset.erase_subset_erase _ (h x)) (Finset.empty_subset _)

theorem firstKeys_mono (gr : Grammar) {v w : Family} (h : ∀ k, v k ⊆ w k) (rule : List String) :
    firstKeys gr v rule ⊆ firstKeys gr w rule := by
  induction rule with
  | nil => exact Finset.Subset.refl _
  | cons x rest ih =>
    simp only [firstKeys]
    split_ifs with h1 h2 h3 h4 h5 h5
    all_goals first
      | exact Finset.Subset.refl _
      | exact ih
      | exact Finset.insert_subset_insert _ ih
      | exact absurd (h x h4) h5
      | exact Finset.insert_subset_insert _ (Finset.empty_subset _)

theorem eolToEpsilon_mono {s t : Finset String} (h : s ⊆ t) : eolToEpsilon s ⊆ eolToEpsilon t := by
  unfold eolToEpsilon
  split_ifs with h1 h2 h2
  · exact Finset.insert_subset_insert _ (Finset.erase_subset_erase _ h)
  · exact absurd (h h1) h2
  · intro a ha
    by_cases hae : a = EOL_
    · subst hae; exact absurd ha h1
    · exact Finset.mem_insert_of_mem (Finset.mem_erase.mpr ⟨hae, h ha⟩)
  · exact h

/-! ## The loop of `ComputeFirstSets` -/

theorem firstAStep_mono (gr : Grammar) (A : String) (p : production) : (firstAStep gr A p).Mono := by
  intro v w h
  exact ⟨Finset.insert_subset_insert _ (firstKeys_mono gr h p),
    eolToEpsilon_mono (firstOf_mono gr h p)⟩

theorem firstSteps_mono (gr : Grammar) : ∀ s ∈ firstSteps gr, s.Mono := by
  intro s hs
  simp only [firstSteps, List.mem_flatMap, List.mem_map] at hs
  obtain ⟨r, _, p, _, rfl⟩ := hs
  exact firstAStep_mono gr r.1 p

theorem firstProd_abs (gr : Grammar) (A : String) (m : SetMap) (p : production) :
    (firstProd gr A m p).abs = astep (firstAStep gr A p) m.abs := by
  obtain ⟨h1, h2, h3⟩ := First_spec gr p m ∅
  apply Prod.ext
  · simp only [firstProd, UMap.abs, astep, firstAStep, UMap.set_keys, UMap.touch_keys, h2]
    ext a; simp only [Finset.mem_insert, Finset.mem_union]; tauto
  · simp only [firstProd, UMap.abs, astep, firstAStep, UMap.set_get, UMap.touch_get, h3, h1,
      Finset.empty_union]

theorem foldl_nested {α β γ : Type} (f : β → γ → α → α) (e : β → List γ) (l : List β) (x : α) :
    l.foldl (fun m r => (e r).foldl (fun m1 p => f r p m1) m) x =
    (l.flatMap fun r => (e r).map fun p => f r p).foldl (fun m g => g m) x := by
  induction l generalizing x with
  | nil => rfl
  | cons r l ih =>
    simp only [List.foldl_cons, List.flatMap_cons, List.foldl_append, ih]
    congr 1
    generalize e r = ps
    induction ps generalizing x with
    | nil => rfl
    | cons p ps ih2 => simp only [List.foldl_cons, List.map_cons, ih2]

theorem apass_of_fold (S : List AStep) (c : List (SetMap → SetMap))
    (h : List.Forall₂ (fun f s => ∀ m : SetMap, (f m).abs = astep s m.abs) c S) (m : SetMap) :
    (c.foldl (fun m g => g m) m).abs = apass S m.abs := by
  induction h generalizing m with
  | nil => rfl
  | cons hfs _ ih =>
    simp only [List.foldl_cons, apass]
    rw [ih, hfs]; rfl

theorem firstPass_abs (gr : Grammar) (m : SetMap) :
    (firstPass gr m).abs = apass (firstSteps gr) m.abs := by
  have h := foldl_nested (fun (r : String × List production) p m1 => firstProd gr r.1 m1 p)
    (fun r => r.2) gr.g_ m
  simp only [firstPass]
  rw [h]
  apply apass_of_fold
  simp only [firstSteps]
  generalize gr.g_ = l
  induction l with
  | nil => exact List.Forall₂.nil
  | cons r l ih =>
    simp only [List.flatMap_cons]
    refine List.rel_append ?_ ih
    generalize r.2 = ps
    induction ps with
    | nil => exact List.Forall₂.nil
    | cons p ps ih2 => exact List.Forall₂.cons (fun m => firstProd_abs gr r.1 m p) ih2

theorem firstLoop_succ (gr : Grammar) (n : Nat) (m : SetMap) :
    firstLoop gr (n + 1) m =
      if UMap.Same m (firstPass gr m) then some (firstPass gr m)
      else firstLoop gr n (firstPass gr m) := by
  simp only [firstLoop]
  by_cases h : UMap.Same m (firstPass gr m)
  · rw [if_neg (not_not.mpr h), if_pos h]
  · rw [if_pos h, if_neg h]

theorem firstLoop_mono (gr : Grammar) {n : Nat} {m T : SetMap} (h : firstLoop gr n m = some T) :
    ∀ k, n ≤ k → firstLoop gr k m = some T := by
  induction n generalizing m with
  | zero => simp [firstLoop] at h
  | succ n ih =>
    intro k hk
    obtain ⟨k, rfl⟩ : ∃ j, k = j + 1 := ⟨k - 1, by omega⟩
    rw [firstLoop_succ] at h ⊢
    by_cases h1 : UMap.Same m (firstPass gr m)
    · rw [if_pos h1] at h ⊢; exact h
    · rw [if_neg h1] at h ⊢; exact ih h k (by omega)

theorem firstLoop_props (gr : Grammar) {n : Nat} {m T : SetMap} (h : firstLoop gr n m = some T) :
    AState.le m.abs T.abs ∧ (∀ s ∈ firstSteps gr, s.Sat T.abs) ∧
    ∀ y, AState.le m.abs y → (∀ s ∈ firstSteps gr, s.Sat y) → AState.le T.abs y := by
  induction n generalizing m with
  | zero => simp [firstLoop] at h
  | succ n ih =>
    rw [firstLoop_succ] at h
    have hle : AState.le m.abs (firstPass gr m).abs := by
      rw [firstPass_abs]; exact apass_le _ _
    by_cases h1 : UMap.Same m (firstPass gr m)
    · rw [if_pos h1] at h
      have h3 := (UMap.same_iff_abs _ _).mp h1
      cases h
      refine ⟨hle, ?_, fun y hy hs => ?_⟩
      · have : AState.le (apass (firstSteps gr) m.abs) m.abs := by
          rw [← firstPass_abs, ← h3]; exact AState.le_refl _
        rw [← h3]
        exact apass_fixed this
      · rw [firstPass_abs]
        exact apass_least (firstSteps_mono gr) hy hs
    · rw [if_neg h1] at h
      obtain ⟨i1, i2, i3⟩ := ih h
      refine ⟨AState.le_trans hle i1, i2, fun y hy hs => i3 y ?_ hs⟩
      rw [firstPass_abs]
      exact apass_least (firstSteps_mono gr) hy hs

theorem firstLoop_exists (gr : Grammar) (y : AState) (K U : Finset String) (hyK : y.1 ⊆ K)
    (hyU : ∀ k, y.2 k ⊆ U) (hs : ∀ s ∈ firstSteps gr, s.Sat y) :
    ∀ d (m : SetMap), AState.le m.abs y → K.card + K.card * U.card - AState.size K m.abs ≤ d →
      ∃ T, firstLoop gr (d + 1) m = some T := by
  intro d
  induction d with
  | zero =>
    intro m hm hd
    rw [firstLoop_succ]
    by_cases h1 : UMap.Same m (firstPass gr m)
    · rw [if_pos h1]; exact ⟨_, rfl⟩
    · exfalso
      have h2 : m.abs ≠ (firstPass gr m).abs := fun h => h1 ((UMap.same_iff_abs _ _).mpr h)
      have h3 : AState.le (firstPass gr m).abs y := by
        rw [firstPass_abs]; exact apass_least (firstSteps_mono gr) hm hs
      have h4 : AState.le m.abs (firstPass gr m).abs := by
        rw [firstPass_abs]; exact apass_le _ _
      have h5 := AState.size_lt K h4 h2 (h3.1.trans hyK) (UMap.abs_wf _)
      have h6 := AState.size_le_bound K U (h3.1.trans hyK) (fun k => (h3.2 k).trans (hyU k))
      omega
  | succ d ih =>
    intro m hm hd
    rw [firstLoop_succ]
    by_cases h1 : UMap.Same m (firstPass gr m)
    · rw [if_pos h1]; exact ⟨_, rfl⟩
    · rw [if_neg h1]
      have h2 : m.abs ≠ (firstPass gr m).abs := fun h => h1 ((UMap.same_iff_abs _ _).mpr h)
      have h3 : AState.le (firstPass gr m).abs y := by
        rw [firstPass_abs]; exact apass_least (firstSteps_mono gr) hm hs
      have h4 : AState.le m.abs (firstPass gr m).abs := by
        rw [firstPass_abs]; exact apass_le _ _
      have h5 := AState.size_lt K h4 h2 (h3.1.trans hyK) (UMap.abs_wf _)
      exact ih _ h3 (by omega)

theorem Grammar.key_mem_syms (gr : Grammar) {r : String × List production} (hr : r ∈ gr.g_) :
    r.1 ∈ gr.syms := by
  simp only [Grammar.syms, List.mem_toFinset, List.mem_flatMap]
  exact ⟨r, hr, List.mem_cons_self _ _⟩

theorem Grammar.prod_subset_syms (gr : Grammar) {r : String × List production} (hr : r ∈ gr.g_)
    {p : production} (hp : p ∈ r.2) : p.toFinset ⊆ gr.syms := by
  intro a ha
  simp only [Grammar.syms, List.mem_toFinset, List.mem_flatMap] at ha ⊢
  exact ⟨r, hr, List.mem_cons_of_mem _ (List.mem_flatMap.mpr ⟨p, hp, ha⟩)⟩

theorem firstKeys_subset (gr : Grammar) (v : Family) (rule : List String) :
    firstKeys gr v rule ⊆ rule.toFinset := by
  induction rule with
  | nil => simp [firstKeys]
  | cons x rest ih =>
    simp only [firstKeys, List.toFinset_cons]
    have ih' : firstKeys gr v rest ⊆ insert x rest.toFinset := ih.trans (Finset.subset_insert _ _)
    split_ifs
    all_goals first
      | exact Finset.empty_subset _
      | exact ih'
      | exact Finset.insert_subset_insert _ ih
      | exact Finset.insert_subset_insert _ (Finset.empty_subset _)

theorem firstOf_subset (gr : Grammar) {v : Family} {U : Finset String} (he : EPSILON_ ∈ U)
    {rule : List String} (hv : ∀ k ∈ rule, v k ⊆ U) (hr : rule.toFinset ⊆ U) :
    firstOf gr v rule ⊆ U := by
  induction rule with
  | nil => simpa [firstOf] using he
  | cons x rest ih =>
    have hx : x ∈ U := hr (by simp)
    have hvx : v x ⊆ U := hv x (List.mem_cons_self _ _)
    have hrest : rest.toFinset ⊆ U := fun a ha => hr (by
      simp only [List.toFinset_cons, Finset.mem_insert]; exact Or.inr ha)
    have ih' := ih (fun k hk => hv k (List.mem_cons_of_mem _ hk)) hrest
    simp only [firstOf]
    split_ifs
    all_goals first
      | exact Finset.singleton_subset_iff.mpr he
      | exact Finset.singleton_subset_iff.mpr hx
      | exact ih'
      | exact Finset.union_subset ((Finset.erase_subset _ _).trans hvx) ih'
      | exact Finset.union_subset ((Finset.erase_subset _ _).trans hvx) (Finset.empty_subset _)

theorem eolToEpsilon_subset {t U : Finset String} (ht : t ⊆ U) (he : EPSILON_ ∈ U) :
    eolToEpsilon t ⊆ U := by
  unfold eolToEpsilon
  split_ifs
  · exact Finset.insert_subset he ((Finset.erase_subset _ _).trans ht)
  · exact ht

theorem mem_firstSteps {gr : Grammar} {s : AStep} :
    s ∈ firstSteps gr ↔ ∃ r ∈ gr.g_, ∃ p ∈ r.2, s = firstAStep gr r.1 p := by
  simp only [firstSteps, List.mem_flatMap, List.mem_map]
  constructor
  · rintro ⟨r, hr, p, hp, rfl⟩; exact ⟨r, hr, p, hp, rfl⟩
  · rintro ⟨r, hr, p, hp, rfl⟩; exact ⟨r, hr, p, hp, rfl⟩

/-- A closed state above any map `m`, used to bound the number of passes. -/
theorem first_bound (gr : Grammar) (m : SetMap) :
    ∃ (y : AState) (K U : Finset String), y.1 ⊆ K ∧ (∀ k, y.2 k ⊆ U) ∧
      (∀ s ∈ firstSteps gr, s.Sat y) ∧ AState.le m.abs y := by
  let U : Finset String := insert EPSILON_ (gr.syms ∪ m.keys.biUnion m.get)
  let K : Finset String := m.keys ∪ gr.syms
  refine ⟨(K, fun _ => U), K, U, Finset.Subset.refl _, fun _ => Finset.Subset.refl _, ?_, ?_⟩
  · intro s hs
    obtain ⟨r, hr, p, hp, rfl⟩ := mem_firstSteps.mp hs
    have hpU : p.toFinset ⊆ U := fun a ha => by
      apply Finset.mem_insert_of_mem
      exact Finset.mem_union_left _ (gr.prod_subset_syms hr hp ha)
    constructor
    · simp only [firstAStep]
      apply Finset.insert_subset
      · exact Finset.mem_union_right _ (gr.key_mem_syms hr)
      · exact (firstKeys_subset gr _ p).trans
          ((gr.prod_subset_syms hr hp).trans Finset.subset_union_right)
    · simp only [firstAStep]
      exact eolToEpsilon_subset
        (firstOf_subset gr (Finset.mem_insert_self _ _) (fun _ _ => Finset.Subset.refl _) hpU)
        (Finset.mem_insert_self _ _)
  · refine ⟨Finset.subset_union_left, fun k => ?_⟩
    by_cases hk : k ∈ m.keys
    · intro a ha
      apply Finset.mem_insert_of_mem
      apply Finset.mem_union_right
      exact Finset.mem_biUnion.mpr ⟨k, hk, ha⟩
    · have : m.get k = ∅ := UMap.abs_wf m k hk
      simp only [UMap.abs, this]; exact Finset.empty_subset _

theorem Returns.unique {α : Type} {f : Nat → Option α} {a b : α} (ha : Returns f a)
    (hb : Returns f b) : a = b := by
  obtain ⟨N, hN⟩ := ha
  obtain ⟨M, hM⟩ := hb
  have h1 := hN (max N M) (le_max_left _ _)
  have h2 := hM (max N M) (le_max_right _ _)
  rw [h1] at h2
  exact Option.some.inj h2

theorem Returns.bind {α β : Type} {f : Nat → Option α} {g : α → Nat → Option β} {a : α} {b : β}
    (ha : Returns f a) (hb : Returns (g a) b) : Returns (fun n => (f n).bind fun x => g x n) b := by
  obtain ⟨N, hN⟩ := ha
  obtain ⟨M, hM⟩ := hb
  refine ⟨max N M, fun n hn => ?_⟩
  simp only [hN n ((le_max_left _ _).trans hn), Option.some_bind]
  exact hM n ((le_max_right _ _).trans hn)

theorem firstLoop_returns (gr : Grammar) (m : SetMap) :
    ∃ T, Returns (fun n => firstLoop gr n m) T := by
  obtain ⟨y, K, U, h1, h2, h3, h4⟩ := first_bound gr m
  obtain ⟨T, hT⟩ := firstLoop_exists gr y K U h1 h2 h3 _ m h4 (le_refl _)
  exact ⟨T, _, fun k hk => firstLoop_mono gr hT k hk⟩

theorem firstClosed_iff (gr : Grammar) (y : AState) :
    FirstClosed gr y ↔ ∀ r ∈ gr.g_, ∀ p ∈ r.2,
      r.1 ∈ y.1 ∧ firstKeys gr y.2 p ⊆ y.1 ∧ eolToEpsilon (firstOf gr y.2 p) ⊆ y.2 r.1 := by
  constructor
  · intro h r hr p hp
    have := h _ (mem_firstSteps.mpr ⟨r, hr, p, hp, rfl⟩)
    simp only [AStep.Sat, firstAStep, Finset.insert_subset_iff] at this
    exact ⟨this.1.1, this.1.2, this.2⟩
  · intro h s hs
    obtain ⟨r, hr, p, hp, rfl⟩ := mem_firstSteps.mp hs
    obtain ⟨i1, i2, i3⟩ := h r hr p hp
    exact ⟨Finset.insert_subset i1 i2, i3⟩

theorem ComputeFirstSets_returns (gr : Grammar) (fs : SetMap) :
    ∃ T, Returns (ComputeFirstSets gr fs) T ∧
      AState.le (firstReset gr fs).abs T.abs ∧ FirstClosed gr T.abs ∧
      ∀ y, AState.le (firstReset gr fs).abs y → FirstClosed gr y → AState.le T.abs y := by
  obtain ⟨T, hT⟩ := firstLoop_returns gr (firstReset gr fs)
  refine ⟨T, hT, ?_⟩
  obtain ⟨N, hN⟩ := hT
  exact firstLoop_props gr (hN N (le_refl _))

/-! ## The loop of `ComputeFollowSets` -/

theorem FollowSim.refl (s : FollowState) : FollowSim [] s s :=
  ⟨rfl, rfl, by simp⟩

theorem apass_append (S1 S2 : List AStep) (x : AState) :
    apass (S1 ++ S2) x = apass S2 (apass S1 x) := by
  simp [apass, List.foldl_append]

theorem FollowSim.trans {S1 S2 : List AStep} {s t u : FollowState} (h1 : FollowSim S1 s t)
    (h2 : FollowSim S2 t u) : FollowSim (S1 ++ S2) s u := by
  obtain ⟨a1, a2, a3⟩ := h1
  obtain ⟨b1, b2, b3⟩ := h2
  refine ⟨b1.trans a1, ?_, ?_⟩
  · rw [apass_append, ← a2, b2]
  · have hst : ∀ k, s.follow.get k ⊆ t.follow.get k := by
      have := (apass_le S1 s.follow.abs).2
      rw [← a2] at this; exact this
    have htu : ∀ k, t.follow.get k ⊆ u.follow.get k := by
      have := (apass_le S2 t.follow.abs).2
      rw [← b2] at this; exact this
    rw [b3, a3]
    constructor
    · rintro ((h | h) | h)
      · exact Or.inl h
      · right; intro he; apply h
        funext k
        exact Finset.Subset.antisymm (he ▸ htu k) (hst k)
      · right; intro he; apply h
        funext k
        exact Finset.Subset.antisymm (he ▸ hst k) (htu k)
    · rintro (h | h)
      · exact Or.inl (Or.inl h)
      · by_cases ht : t.follow.get = s.follow.get
        · right; rw [ht]; exact h
        · exact Or.inl (Or.inr ht)

theorem followInsert_empty (symbol : String) (s : FollowState) :
    followInsert symbol ∅ s = s := by
  unfold followInsert; rw [if_pos rfl]

theorem followInsert_ne (symbol : String) {ts : Finset String} (h : ts ≠ ∅) (s : FollowState) :
    followInsert symbol ts s =
      { s with
        follow := (s.follow.touch symbol).set symbol ((s.follow.touch symbol).get symbol ∪ ts)
        changed := s.changed || decide (¬ ts ⊆ (s.follow.touch symbol).get symbol) } := by
  unfold followInsert; rw [if_neg h]

theorem followInsert_sim (symbol : String) (ts : Finset String) (s : FollowState) :
    FollowSim [⟨fun _ => if ts = ∅ then ∅ else {symbol}, symbol, fun _ => ts⟩] s
      (followInsert symbol ts s) := by
  by_cases h : ts = ∅
  · subst h
    rw [followInsert_empty]
    refine ⟨rfl, ?_, by simp⟩
    simp only [apass, List.foldl_cons, List.foldl_nil, astep, if_true, Finset.union_empty,
      Function.update_eq_self]
  · rw [followInsert_ne symbol h]
    refine ⟨rfl, ?_, ?_⟩
    · apply Prod.ext
      · simp only [UMap.abs, UMap.set_keys, UMap.touch_keys, apass, List.foldl_cons,
          List.foldl_nil, astep, if_neg h]
        ext a; simp only [Finset.mem_insert, Finset.mem_union, Finset.mem_singleton]; tauto
      · simp only [UMap.abs, UMap.set_get, UMap.touch_get, apass, List.foldl_cons,
          List.foldl_nil, astep]
    · simp only [UMap.set_get, UMap.touch_get, Bool.or_eq_true, decide_eq_true_eq]
      constructor
      · rintro (h1 | h1)
        · exact Or.inl h1
        · right; intro he
          apply h1
          have := congrFun he symbol
          simp only [Function.update_same] at this
          exact Finset.union_eq_left.mp this
      · rintro (h1 | h1)
        · exact Or.inl h1
        · right; intro hsub
          apply h1
          rw [Finset.union_eq_left.mpr hsub, Function.update_eq_self]

theorem followInsert_touch_sim (lhs symbol : String) (s1 : FollowState) :
    FollowSim [followAStep2 lhs symbol] s1
      (followInsert symbol ((s1.follow.touch lhs).get lhs)
        { s1 with follow := s1.follow.touch lhs }) := by
  obtain ⟨c1, c2, c3⟩ := followInsert_sim symbol ((s1.follow.touch lhs).get lhs)
    { s1 with follow := s1.follow.touch lhs }
  refine ⟨c1, ?_, ?_⟩
  · rw [c2]
    simp only [UMap.touch_get, apass, List.foldl_cons, List.foldl_nil, astep,
      followAStep2, UMap.abs, UMap.touch_keys]
    apply Prod.ext
    · simp only [Finset.insert_union]
      rw [Finset.union_insert]
    · rfl
  · rw [c3]; simp only [UMap.touch_get]

theorem followAt_terminal (gr : Grammar) (lhs symbol : String) (rest : List String)
    (s : FollowState) (ht : gr.st_.IsTerminal symbol = true) :
    followAt gr lhs symbol rest s = s := by
  unfold followAt
  rw [if_neg (not_not.mpr ht)]

theorem followAt_sim (gr : Grammar) (lhs symbol : String) (rest : List String) (s : FollowState) :
    FollowSim (followAtSteps gr s.first.get lhs symbol rest) s (followAt gr lhs symbol rest s) := by
  by_cases ht : gr.st_.IsTerminal symbol = true
  · rw [followAt_terminal gr lhs symbol rest s ht]
    unfold followAtSteps
    rw [if_pos ht]
    exact FollowSim.refl s
  · have hr1 : (if rest ≠ [] then First gr rest s.first ∅
        else (insert EPSILON_ ∅, s.first)).1 = firstOf gr s.first.get rest := by
      by_cases hrest : rest = []
      · subst hrest; simp [firstOf]
      · rw [if_pos hrest, (First_spec gr rest s.first ∅).1, Finset.empty_union]
    have hr2 : (if rest ≠ [] then First gr rest s.first ∅
        else (insert EPSILON_ ∅, s.first)).2.get = s.first.get := by
      by_cases hrest : rest = []
      · subst hrest; simp
      · rw [if_pos hrest, (First_spec gr rest s.first ∅).2.2]
    unfold followAt followAtSteps
    rw [if_pos ht, if_neg ht]
    simp only []
    rw [hr1]
    generalize (if rest ≠ [] then First gr rest s.first ∅
        else (insert EPSILON_ ∅, s.first)).2 = fi1 at hr2 ⊢
    have h0 : FollowSim [] s { s with first := fi1 } := ⟨hr2, rfl, by simp⟩
    have h1 := followInsert_sim symbol ((firstOf gr s.first.get rest).erase EPSILON_)
      { s with first := fi1 }
    have h01 : FollowSim [followAStep1 gr s.first.get symbol rest] s
        (followInsert symbol ((firstOf gr s.first.get rest).erase EPSILON_)
          { s with first := fi1 }) :=
      FollowSim.trans h0 h1
    by_cases he : EPSILON_ ∈ firstOf gr s.first.get rest
    · rw [if_pos he, if_pos he]
      exact FollowSim.trans h01 (followInsert_touch_sim lhs symbol _)
    · rw [if_neg he, if_neg he]
      exact h01

theorem followProd_sim (gr : Grammar) (lhs : String) (rhs : List String) (s : FollowState) :
    FollowSim (followProdSteps gr s.first.get lhs rhs) s (followProd gr lhs rhs s) := by
  induction rhs generalizing s with
  | nil => exact FollowSim.refl s
  | cons symbol rest ih =>
    simp only [followProd, followProdSteps]
    have h1 := followAt_sim gr lhs symbol rest s
    have h2 := ih (followAt gr lhs symbol rest s)
    rw [h1.1] at h2
    exact FollowSim.trans h1 h2

theorem followPass_sim (gr : Grammar) (s : FollowState) :
    FollowSim (followSteps gr s.first.get) s (followPass gr s) := by
  unfold followPass followSteps
  generalize gr.g_ = l
  induction l generalizing s with
  | nil => exact FollowSim.refl s
  | cons r l ih =>
    simp only [List.foldl_cons, List.flatMap_cons]
    have h1 : ∀ (ps : List production) (s : FollowState),
        FollowSim (ps.flatMap fun rhs => followProdSteps gr s.first.get r.1 rhs) s
          (ps.foldl (fun s2 rhs => followProd gr r.1 rhs s2) s) := by
      intro ps
      induction ps with
      | nil => intro s; exact FollowSim.refl s
      | cons p ps ih2 =>
        intro s
        simp only [List.foldl_cons, List.flatMap_cons]
        have a1 := followProd_sim gr r.1 p s
        have a2 := ih2 (followProd gr r.1 p s)
        rw [a1.1] at a2
        exact FollowSim.trans a1 a2
    have h2 := h1 r.2 s
    have h3 := ih (r.2.foldl (fun s2 rhs => followProd gr r.1 rhs s2) s)
    rw [h2.1] at h3
    exact FollowSim.trans h2 h3

theorem mem_followProdSteps {gr : Grammar} {W : Family} {lhs : String} {rhs : List String}
    {s : AStep} : s ∈ followProdSteps gr W lhs rhs ↔
      ∃ α B β, rhs = α ++ B :: β ∧ gr.st_.IsTerminal B = false ∧
        (s = followAStep1 gr W B β ∨ (EPSILON_ ∈ firstOf gr W β ∧ s = followAStep2 lhs B)) := by
  induction rhs with
  | nil => simp [followProdSteps]
  | cons x rest ih =>
    simp only [followProdSteps, List.mem_append, ih]
    constructor
    · rintro (h | ⟨α, B, β, h1, h2, h3⟩)
      · unfold followAtSteps at h
        by_cases ht : gr.st_.IsTerminal x = true
        · rw [if_pos ht] at h; cases h
        · rw [if_neg ht] at h
          refine ⟨[], x, rest, rfl, by simpa using ht, ?_⟩
          rcases List.mem_cons.mp h with h | h
          · exact Or.inl h
          · by_cases he : EPSILON_ ∈ firstOf gr W rest
            · rw [if_pos he] at h
              exact Or.inr ⟨he, List.mem_singleton.mp h⟩
            · rw [if_neg he] at h; cases h
      · exact ⟨x :: α, B, β, by rw [h1]; rfl, h2, h3⟩
    · rintro ⟨α, B, β, h1, h2, h3⟩
      cases α with
      | nil =>
        left
        simp only [List.nil_append, List.cons.injEq] at h1
        obtain ⟨rfl, rfl⟩ := h1
        unfold followAtSteps
        rw [if_neg (by simp [h2])]
        rcases h3 with h3 | ⟨he, h3⟩
        · rw [h3]; exact List.mem_cons_self _ _
        · rw [if_pos he, h3]; exact List.mem_cons_of_mem _ (List.mem_singleton.mpr rfl)
      | cons a α =>
        right
        simp only [List.cons_append, List.cons.injEq] at h1
        exact ⟨α, B, β, h1.2, h2, h3⟩

theorem mem_followSteps {gr : Grammar} {W : Family} {s : AStep} :
    s ∈ followSteps gr W ↔ ∃ r ∈ gr.g_, ∃ p ∈ r.2, ∃ α B β, p = α ++ B :: β ∧
      gr.st_.IsTerminal B = false ∧
        (s = followAStep1 gr W B β ∨ (EPSILON_ ∈ firstOf gr W β ∧ s = followAStep2 r.1 B)) := by
  simp only [followSteps, List.mem_flatMap, mem_followProdSteps]

theorem followSteps_mono (gr : Grammar) (W : Family) : ∀ s ∈ followSteps gr W, s.Mono := by
  intro s hs
  obtain ⟨r, _, p, _, α, B, β, _, _, h | ⟨_, h⟩⟩ := mem_followSteps.mp hs
  · subst h; intro v w _
    exact ⟨Finset.Subset.refl _, Finset.Subset.refl _⟩
  · subst h; intro v w hvw
    refine ⟨?_, hvw _⟩
    simp only [followAStep2]
    apply Finset.insert_subset_insert
    by_cases h1 : v r.1 = ∅
    · rw [if_pos h1]; exact Finset.empty_subset _
    · have h2 : w r.1 ≠ ∅ := by
        intro h2
        apply h1
        exact Finset.subset_empty.mp (h2 ▸ hvw r.1)
      rw [if_neg h1, if_neg h2]

theorem apass_snd_fixed {S : List AStep} {x : AState}
    (h : ∀ k, (apass S x).2 k ⊆ x.2 k) : ∀ s ∈ S, s.add x.2 ⊆ x.2 s.target := by
  induction S generalizing x with
  | nil => intro s hs; cases hs
  | cons s S ih =>
    have e : apass (s :: S) x = apass S (astep s x) := rfl
    rw [e] at h
    have h1 : ∀ k, (astep s x).2 k ⊆ x.2 k := fun k =>
      ((apass_le S (astep s x)).2 k).trans (h k)
    have h2 : (astep s x).2 = x.2 := by
      funext k
      exact Finset.Subset.antisymm (h1 k) ((astep_le s x).2 k)
    have h3 : s.add x.2 ⊆ x.2 s.target := by
      have := h1 s.target
      simp only [astep, Function.update_same] at this
      exact Finset.subset_union_right.trans this
    intro t ht
    rcases List.mem_cons.mp ht with rfl | ht
    · exact h3
    · have := ih (x := astep s x) (fun k => by rw [h2]; exact h k) t ht
      rwa [h2] at this

theorem followClosed_of_snd_fixed (gr : Grammar) (W : Family) {x : AState} (hwf : AState.WF x)
    (hkeys : ∀ r ∈ gr.g_, r.1 ∈ x.1)
    (h : ∀ k, (apass (followSteps gr W) x).2 k ⊆ x.2 k) : FollowClosed gr W x := by
  intro s hs
  have hadd := apass_snd_fixed h s hs
  refine ⟨?_, hadd⟩
  obtain ⟨r, hr, p, _, α, B, β, _, _, h1 | ⟨_, h1⟩⟩ := mem_followSteps.mp hs
  · subst h1
    simp only [followAStep1] at hadd ⊢
    by_cases he : (firstOf gr W β).erase EPSILON_ = ∅
    · rw [if_pos he]; exact Finset.empty_subset _
    · rw [if_neg he]
      apply Finset.singleton_subset_iff.mpr
      by_contra hB
      rw [hwf B hB] at hadd
      exact he (Finset.subset_empty.mp hadd)
  · subst h1
    simp only [followAStep2] at hadd ⊢
    apply Finset.insert_subset (hkeys r hr)
    by_cases he : x.2 r.1 = ∅
    · rw [if_pos he]; exact Finset.empty_subset _
    · rw [if_neg he]
      apply Finset.singleton_subset_iff.mpr
      by_contra hB
      rw [hwf B hB] at hadd
      exact he (Finset.subset_empty.mp hadd)

theorem followLoop_succ (gr : Grammar) (n : Nat) (fi fo : SetMap) :
    followLoop gr (n + 1) fi fo =
      if (followPass gr ⟨fi, fo, false⟩).changed = true then
        followLoop gr n (followPass gr ⟨fi, fo, false⟩).first (followPass gr ⟨fi, fo, false⟩).follow
      else some ((followPass gr ⟨fi, fo, false⟩).first, (followPass gr ⟨fi, fo, false⟩).follow) :=
  rfl

theorem followLoop_mono (gr : Grammar) {n : Nat} {fi fo : SetMap} {R : SetMap × SetMap}
    (h : followLoop gr n fi fo = some R) : ∀ k, n ≤ k → followLoop gr k fi fo = some R := by
  induction n generalizing fi fo with
  | zero => simp [followLoop] at h
  | succ n ih =>
    intro k hk
    obtain ⟨k, rfl⟩ : ∃ j, k = j + 1 := ⟨k - 1, by omega⟩
    rw [followLoop_succ] at h ⊢
    by_cases h1 : (followPass gr ⟨fi, fo, false⟩).changed = true
    · rw [if_pos h1] at h ⊢; exact ih h k (by omega)
    · rw [if_neg h1] at h ⊢; exact h

theorem followLoop_props (gr : Grammar) {n : Nat} {fi fo : SetMap} {R : SetMap × SetMap}
    (h : followLoop gr n fi fo = some R) (hkeys : ∀ r ∈ gr.g_, r.1 ∈ fo.keys) :
    R.1.get = fi.get ∧ AState.le fo.abs R.2.abs ∧ FollowClosed gr fi.get R.2.abs ∧
    ∀ y, AState.le fo.abs y → FollowClosed gr fi.get y → AState.le R.2.abs y := by
  induction n generalizing fi fo with
  | zero => simp [followLoop] at h
  | succ n ih =>
    rw [followLoop_succ] at h
    obtain ⟨s1, s2, s3⟩ := followPass_sim gr ⟨fi, fo, false⟩
    simp only at s1 s2 s3
    have hle : AState.le fo.abs (followPass gr ⟨fi, fo, false⟩).follow.abs := by
      rw [s2]; exact apass_le _ _
    by_cases h1 : (followPass gr ⟨fi, fo, false⟩).changed = true
    · rw [if_pos h1] at h
      obtain ⟨i1, i2, i3, i4⟩ := ih h (fun r hr => hle.1 (hkeys r hr))
      rw [s1] at i1 i3 i4
      refine ⟨i1, AState.le_trans hle i2, i3, fun y hy hs => i4 y ?_ hs⟩
      rw [s2]
      exact apass_least (followSteps_mono gr _) hy hs
    · rw [if_neg h1] at h
      cases h
      have h2 : (followPass gr ⟨fi, fo, false⟩).follow.get = fo.get := by
        by_contra hne
        exact h1 (s3.mpr (Or.inr hne))
      refine ⟨s1, hle, ?_, fun y hy hs => ?_⟩
      · have hcl : FollowClosed gr fi.get fo.abs := by
          apply followClosed_of_snd_fixed gr fi.get (UMap.abs_wf fo) hkeys
          intro k
          have : (apass (followSteps gr fi.get) fo.abs).2 = fo.get := by
            rw [← s2]; exact h2
          rw [this]; exact Finset.Subset.refl _
        have : (followPass gr ⟨fi, fo, false⟩).follow.abs = fo.abs := by
          rw [s2]; exact apass_eq_of_sat hcl
        simp only [this]; exact hcl
      · simp only [s2]
        exact apass_least (followSteps_mono gr _) hy hs

theorem followLoop_exists (gr : Grammar) (W : Family) (y : AState) (K U : Finset String)
    (hyK : y.1 ⊆ K) (hyU : ∀ k, y.2 k ⊆ U) (hs : FollowClosed gr W y) :
    ∀ d (fi fo : SetMap), fi.get = W → AState.le fo.abs y →
      K.card + K.card * U.card - AState.size K fo.abs ≤ d →
      ∃ R, followLoop gr (d + 1) fi fo = some R := by
  intro d
  induction d with
  | zero =>
    intro fi fo hW hm hd
    rw [followLoop_succ]
    obtain ⟨s1, s2, s3⟩ := followPass_sim gr ⟨fi, fo, false⟩
    simp only at s1 s2 s3
    by_cases h1 : (followPass gr ⟨fi, fo, false⟩).changed = true
    · exfalso
      have h2 : fo.abs ≠ (followPass gr ⟨fi, fo, false⟩).follow.abs := by
        intro he
        rcases s3.mp h1 with h | h
        · cases h
        · exact h (congrArg Prod.snd he).symm
      have h3 : AState.le (followPass gr ⟨fi, fo, false⟩).follow.abs y := by
        rw [s2]; exact apass_least (followSteps_mono gr _) hm (hW ▸ hs)
      have h4 : AState.le fo.abs (followPass gr ⟨fi, fo, false⟩).follow.abs := by
        rw [s2]; exact apass_le _ _
      have h5 := AState.size_lt K h4 h2 (h3.1.trans hyK) (UMap.abs_wf _)
      have h6 := AState.size_le_bound K U (h3.1.trans hyK) (fun k => (h3.2 k).trans (hyU k))
      omega
    · rw [if_neg h1]; exact ⟨_, rfl⟩
  | succ d ih =>
    intro fi fo hW hm hd
    rw [followLoop_succ]
    obtain ⟨s1, s2, s3⟩ := followPass_sim gr ⟨fi, fo, false⟩
    simp only at s1 s2 s3
    by_cases h1 : (followPass gr ⟨fi, fo, false⟩).changed = true
    · rw [if_pos h1]
      have h2 : fo.abs ≠ (followPass gr ⟨fi, fo, false⟩).follow.abs := by
        intro he
        rcases s3.mp h1 with h | h
        · cases h
        · exact h (congrArg Prod.snd he).symm
      have h3 : AState.le (followPass gr ⟨fi, fo, false⟩).follow.abs y := by
        rw [s2]; exact apass_least (followSteps_mono gr _) hm (hW ▸ hs)
      have h4 : AState.le fo.abs (followPass gr ⟨fi, fo, false⟩).follow.abs := by
        rw [s2]; exact apass_le _ _
      have h5 := AState.size_lt K h4 h2 (h3.1.trans hyK) (UMap.abs_wf _)
      exact ih _ _ (s1.trans hW) h3 (by omega)
    · rw [if_neg h1]; exact ⟨_, rfl⟩

/-! ## Initialisation and termination of the two computations -/

theorem resetFold_abs (l : List (String × List production)) (fs : SetMap) :
    (l.foldl (fun m r => m.set r.1 ∅) fs).abs =
      (fs.keys ∪ (l.map Prod.fst).toFinset,
        fun k => if k ∈ l.map Prod.fst then ∅ else fs.get k) := by
  induction l generalizing fs with
  | nil => simp [UMap.abs]
  | cons r l ih =>
    simp only [List.foldl_cons, ih, UMap.set_keys, UMap.set_get, List.map_cons,
      List.toFinset_cons, List.mem_cons]
    apply Prod.ext
    · ext a; simp only [Finset.mem_union, Finset.mem_insert]; tauto
    · funext k
      by_cases h1 : k ∈ l.map Prod.fst
      · simp [h1]
      · by_cases h2 : k = r.1
        · subst h2; simp [h1]
        · simp [h1, h2, Function.update_noteq h2]

theorem firstReset_abs (gr : Grammar) (fs : SetMap) :
    (firstReset gr fs).abs =
      (fs.keys ∪ gr.keys.toFinset, fun k => if k ∈ gr.keys then ∅ else fs.get k) :=
  resetFold_abs gr.g_ fs

theorem followReset_abs (gr : Grammar) (fo : SetMap) :
    (followReset gr fo).abs =
      (insert gr.axiom_ (fo.keys ∪ gr.keys.toFinset),
        fun k => if k = gr.axiom_ then insert EOL_ (if k ∈ gr.keys then ∅ else fo.get k)
          else if k ∈ gr.keys then ∅ else fo.get k) := by
  have h := resetFold_abs gr.g_ fo
  have h1 := congrArg Prod.fst h
  have h2 := congrArg Prod.snd h
  simp only [UMap.abs] at h1 h2
  unfold followReset
  apply Prod.ext
  · simp only [UMap.abs, UMap.set_keys, UMap.touch_keys, h1, Grammar.keys, Finset.insert_idem]
  · simp only [UMap.abs, UMap.set_get, UMap.touch_get, h2, Grammar.keys]
    funext k
    by_cases hk : k = gr.axiom_
    · subst hk; simp
    · simp [hk, Function.update_noteq hk]

theorem follow_bound (gr : Grammar) (W : Family) (m : SetMap) :
    ∃ (y : AState) (K U : Finset String), y.1 ⊆ K ∧ (∀ k, y.2 k ⊆ U) ∧
      FollowClosed gr W y ∧ AState.le m.abs y := by
  let U : Finset String :=
    insert EPSILON_ (gr.syms ∪ gr.syms.biUnion W ∪ m.keys.biUnion m.get)
  let K : Finset String := m.keys ∪ gr.syms
  refine ⟨(K, fun _ => U), K, U, Finset.Subset.refl _, fun _ => Finset.Subset.refl _, ?_, ?_⟩
  · intro s hs
    obtain ⟨r, hr, p, hp, α, B, β, hsplit, _, h1 | ⟨_, h1⟩⟩ := mem_followSteps.mp hs
    · subst h1
      have hB : B ∈ gr.syms := gr.prod_subset_syms hr hp (by simp [hsplit])
      have hβ : ∀ k ∈ β, k ∈ gr.syms := fun k hk =>
        gr.prod_subset_syms hr hp (by simp [hsplit, hk])
      constructor
      · simp only [followAStep1]
        split_ifs
        · exact Finset.empty_subset _
        · exact Finset.singleton_subset_iff.mpr (Finset.mem_union_right _ hB)
      · simp only [followAStep1]
        refine (Finset.erase_subset _ _).trans
          (firstOf_subset gr (Finset.mem_insert_self _ _) (fun k hk => ?_) (fun a ha => ?_))
        · intro a ha
          apply Finset.mem_insert_of_mem
          apply Finset.mem_union_left
          apply Finset.mem_union_right
          exact Finset.mem_biUnion.mpr ⟨k, hβ k hk, ha⟩
        · apply Finset.mem_insert_of_mem
          apply Finset.mem_union_left
          apply Finset.mem_union_left
          exact hβ a (List.mem_toFinset.mp ha)
    · subst h1
      have hB : B ∈ gr.syms := gr.prod_subset_syms hr hp (by simp [hsplit])
      constructor
      · simp only [followAStep2]
        apply Finset.insert_subset (Finset.mem_union_right _ (gr.key_mem_syms hr))
        split_ifs
        · exact Finset.empty_subset _
        · exact Finset.singleton_subset_iff.mpr (Finset.mem_union_right _ hB)
      · exact Finset.Subset.refl _
  · refine ⟨Finset.subset_union_left, fun k => ?_⟩
    by_cases hk : k ∈ m.keys
    · intro a ha
      apply Finset.mem_insert_of_mem
      apply Finset.mem_union_right
      exact Finset.mem_biUnion.mpr ⟨k, hk, ha⟩
    · have : m.get k = ∅ := UMap.abs_wf m k hk
      simp only [UMap.abs, this]; exact Finset.empty_subset _

theorem followLoop_returns (gr : Grammar) (fi fo : SetMap) :
    ∃ R, Returns (fun n => followLoop gr n fi fo) R := by
  obtain ⟨y, K, U, h1, h2, h3, h4⟩ := follow_bound gr fi.get fo
  obtain ⟨R, hR⟩ := followLoop_exists gr fi.get y K U h1 h2 h3 _ fi fo rfl h4 (le_refl _)
  exact ⟨R, _, fun k hk => followLoop_mono gr hR k hk⟩

theorem followReset_keys (gr : Grammar) (fo : SetMap) :
    ∀ r ∈ gr.g_, r.1 ∈ (followReset gr fo).keys := by
  intro r hr
  have h := congrArg Prod.fst (followReset_abs gr fo)
  simp only [UMap.abs] at h
  rw [h]
  apply Finset.mem_insert_of_mem
  apply Finset.mem_union_right
  simp only [Grammar.keys, List.mem_toFinset, List.mem_map]
  exact ⟨r, hr, rfl⟩

theorem ComputeFollowSets_returns (gr : Grammar) (fi fo : SetMap) :
    ∃ R, Returns (ComputeFollowSets gr fi fo) R ∧ R.1.get = fi.get ∧
      AState.le (followReset gr fo).abs R.2.abs ∧ FollowClosed gr fi.get R.2.abs ∧
      ∀ y, AState.le (followReset gr fo).abs y → FollowClosed gr fi.get y →
        AState.le R.2.abs y := by
  obtain ⟨R, hR⟩ := followLoop_returns gr fi (followReset gr fo)
  refine ⟨R, hR, ?_⟩
  obtain ⟨N, hN⟩ := hR
  exact followLoop_props gr (hN N (le_refl _)) (followReset_keys gr fo)

/-- The parser built by the constructor exists, with the tables of the two
computations. -/
theorem create_returns (gr : Grammar) :
    ∃ P T R, Returns (LL1Parser.create gr) P ∧ Returns (ComputeFirstSets gr UMap.empty) T ∧
      Returns (ComputeFollowSets gr T UMap.empty) R ∧
      P = ⟨UMap.empty, gr, R.1, R.2⟩ := by
  obtain ⟨T, hT, _⟩ := ComputeFirstSets_returns gr UMap.empty
  obtain ⟨R, hR, _⟩ := ComputeFollowSets_returns gr T UMap.empty
  refine ⟨⟨UMap.empty, gr, R.1, R.2⟩, T, R, ?_, hT, hR, rfl⟩
  have h1 : Returns (fun n => (ComputeFollowSets gr T UMap.empty n).bind fun r =>
      some (⟨UMap.empty, gr, r.1, r.2⟩ : LL1Parser)) ⟨UMap.empty, gr, R.1, R.2⟩ := by
    obtain ⟨N, hN⟩ := hR
    exact ⟨N, fun n hn => by simp [hN n hn]⟩
  exact Returns.bind (g := fun fi n => (ComputeFollowSets gr fi UMap.empty n).bind fun r =>
      some (⟨UMap.empty, gr, r.1, r.2⟩ : LL1Parser)) hT h1

/-! ## FIRST sets: fixed point and end marker (C2, C3) -/

theorem firstOf_eol_free (gr : Grammar) {v : Family} (hv : ∀ k, EOL_ ∉ v k)
    (rule : List String) : EOL_ ∉ firstOf gr v rule := by
  have hne : EOL_ ≠ EPSILON_ := by decide
  induction rule with
  | nil => simp [firstOf, hne]
  | cons x rest ih =>
    simp only [firstOf]
    split_ifs with h1 h2 h3 h4 h5
    · simp [hne]
    · exact ih
    · simp [hne]
    · simp only [Finset.mem_singleton]; exact fun h => h4 h.symm
    · simp only [Finset.mem_union, Finset.mem_erase, not_or, not_and]
      exact ⟨fun _ => hv x, ih⟩
    · simp only [Finset.mem_union, Finset.mem_erase, not_or, not_and, Finset.not_mem_empty,
        not_false_eq_true, and_true]
      exact fun _ => hv x

theorem eolToEpsilon_of_not_mem {t : Finset String} (h : EOL_ ∉ t) : eolToEpsilon t = t := by
  unfold eolToEpsilon; rw [if_neg h]

theorem mem_eolToEpsilon_of_ne {t : Finset String} {x : String} (hx : x ∈ t) (hne : x ≠ EOL_) :
    x ∈ eolToEpsilon t := by
  unfold eolToEpsilon
  split_ifs
  · exact Finset.mem_insert_of_mem (Finset.mem_erase.mpr ⟨hne, hx⟩)
  · exact hx

theorem firstReset_get_le (gr : Grammar) (fs : SetMap) (k : String) :
    (firstReset gr fs).get k ⊆ fs.get k := by
  have h := congrFun (congrArg Prod.snd (firstReset_abs gr fs)) k
  simp only [UMap.abs] at h
  rw [h]
  split_ifs
  · exact Finset.empty_subset _
  · exact Finset.Subset.refl _

/-- The table computed by `ComputeFirstSets` from a table without `EOL_`
contains no `EOL_`. -/
theorem ComputeFirstSets_eol_free (gr : Grammar) (fs T : SetMap) (hfs : ∀ k, EOL_ ∉ fs.get k)
    (hT : Returns (ComputeFirstSets gr fs) T) : ∀ k, EOL_ ∉ T.get k := by
  obtain ⟨T', hT', hle, hcl, hleast⟩ := ComputeFirstSets_returns gr fs
  obtain rfl := Returns.unique hT hT'
  have hcl' := (firstClosed_iff gr _).mp hcl
  let y : AState := (T.keys, fun k => (T.get k).erase EOL_)
  have hyT : ∀ k, y.2 k ⊆ T.get k := fun k => Finset.erase_subset _ _
  have hy : AState.le T.abs y := by
    apply hleast
    · refine ⟨hle.1, fun k a ha => ?_⟩
      refine Finset.mem_erase.mpr ⟨?_, hle.2 k ha⟩
      rintro rfl
      exact hfs k (firstReset_get_le gr fs k ha)
    · apply (firstClosed_iff gr _).mpr
      intro r hr p hp
      obtain ⟨c1, c2, c3⟩ := hcl' r hr p hp
      refine ⟨c1, (firstKeys_mono gr hyT p).trans c2, ?_⟩
      have hfree : EOL_ ∉ firstOf gr y.2 p :=
        firstOf_eol_free gr (fun k => Finset.not_mem_erase _ _) p
      rw [eolToEpsilon_of_not_mem hfree]
      intro a ha
      have hne : a ≠ EOL_ := by rintro rfl; exact hfree ha
      exact Finset.mem_erase.mpr
        ⟨hne, c3 (mem_eolToEpsilon_of_ne (firstOf_mono gr hyT p ha) hne)⟩
  intro k hk
  exact Finset.not_mem_erase EOL_ (T.get k) (hy.2 k hk)

theorem find?_eq_some_get (m : SetMap) {k : String} {s : Finset String}
    (h : m.find? k = some s) : s = m.get k := by
  unfold UMap.find? at h
  unfold UMap.get
  split_ifs at h ⊢ with hk
  exact (Option.some.inj h).symm

/-- The table returned by `ComputeFirstSets`, started from a table holding no
`EOL_`, is a fixed point of the production equations. -/
theorem first_sets_fixed_point (gr : Grammar) (fs : SetMap) (hfs : ∀ k, EOL_ ∉ fs.get k) :
    ∃ T, Returns (ComputeFirstSets gr fs) T ∧
      ∀ A ∈ gr.keys, ∀ x, x ∈ T.get A ↔
        ∃ r ∈ gr.g_, r.1 = A ∧ ∃ p ∈ r.2, x ∈ (First gr p T ∅).1 := by
  obtain ⟨T, hT, hle, hcl, hleast⟩ := ComputeFirstSets_returns gr fs
  refine ⟨T, hT, ?_⟩
  have hfree := ComputeFirstSets_eol_free gr fs T hfs hT
  have hcl' := (firstClosed_iff gr _).mp hcl
  have hFirst : ∀ p, (First gr p T ∅).1 = firstOf gr T.get p := fun p => by
    rw [(First_spec gr p T ∅).1, Finset.empty_union]
  have hq : ∀ p, eolToEpsilon (firstOf gr T.get p) = firstOf gr T.get p := fun p =>
    eolToEpsilon_of_not_mem (firstOf_eol_free gr hfree p)
  classical
  let y : AState := (T.keys, fun k =>
    if k ∈ gr.keys then
      (T.get k).filter fun x => ∃ r ∈ gr.g_, r.1 = k ∧ ∃ p ∈ r.2, x ∈ firstOf gr T.get p
    else T.get k)
  have hyT : ∀ k, y.2 k ⊆ T.get k := fun k => by
    simp only [y]
    split_ifs
    · exact Finset.filter_subset _ _
    · exact Finset.Subset.refl _
  have hy : AState.le T.abs y := by
    apply hleast
    · refine ⟨hle.1, fun k a ha => ?_⟩
      have h := congrFun (congrArg Prod.snd (firstReset_abs gr fs)) k
      simp only [UMap.abs] at h ha
      rw [h] at ha
      by_cases hk : k ∈ gr.keys
      · rw [if_pos hk] at ha; exact absurd ha (Finset.not_mem_empty _)
      · simp only [y, if_neg hk]
        have := hle.2 k
        simp only [UMap.abs] at this
        rw [h, if_neg hk] at this
        rw [if_neg hk] at ha
        exact this ha
    · apply (firstClosed_iff gr _).mpr
      intro r hr p hp
      obtain ⟨c1, c2, c3⟩ := hcl' r hr p hp
      refine ⟨c1, (firstKeys_mono gr hyT p).trans c2, ?_⟩
      intro a ha
      have ha' : a ∈ eolToEpsilon (firstOf gr T.get p) :=
        eolToEpsilon_mono (firstOf_mono gr hyT p) ha
      have hk : r.1 ∈ gr.keys := List.mem_map.mpr ⟨r, hr, rfl⟩
      simp only [y, if_pos hk, Finset.mem_filter]
      refine ⟨c3 ha', r, hr, rfl, p, hp, ?_⟩
      rw [hq p] at ha'; exact ha'
  intro A hA x
  constructor
  · intro hx
    have := hy.2 A hx
    simp only [y, if_pos hA, Finset.mem_filter] at this
    obtain ⟨_, r, hr, hrA, p, hp, hxp⟩ := this
    exact ⟨r, hr, hrA, p, hp, by rw [hFirst]; exact hxp⟩
  · rintro ⟨r, hr, rfl, p, hp, hxp⟩
    rw [hFirst] at hxp
    have := (hcl' r hr p hp).2.2
    simp only [UMap.abs] at this
    rw [hq p] at this
    exact this hxp

theorem UMap.empty_get (k : String) : (UMap.empty : SetMap).get k = ∅ := by
  simp [UMap.get, UMap.empty]; rfl

/-- C2: after `ComputeFirstSets` returns, the cached table is a fixed point of
the production equations: for every key `A` of the rule map, `first_sets_[A]`
equals the union, over all productions `p` of `A`, of `First(p)` evaluated
against the final cached table.  This holds for the empty table of a new
parser and, on recomputation, for every start table holding no `EOL_`. -/
theorem C2_first_sets_fixed_point (gr : Grammar) :
    (∃ T, Returns (ComputeFirstSets gr UMap.empty) T ∧
      ∀ A ∈ gr.keys, ∀ x, x ∈ T.get A ↔
        ∃ r ∈ gr.g_, r.1 = A ∧ ∃ p ∈ r.2, x ∈ (First gr p T ∅).1) ∧
    (∀ fs : SetMap, (∀ k, EOL_ ∉ fs.get k) →
      ∃ T, Returns (ComputeFirstSets gr fs) T ∧
        ∀ A ∈ gr.keys, ∀ x, x ∈ T.get A ↔
          ∃ r ∈ gr.g_, r.1 = A ∧ ∃ p ∈ r.2, x ∈ (First gr p T ∅).1) :=
  ⟨first_sets_fixed_point gr UMap.empty
      (fun k => by rw [UMap.empty_get]; exact Finset.not_mem_empty _),
    fun fs hfs => first_sets_fixed_point gr fs hfs⟩

theorem SymbolTable.Reachable.eol_terminal {t : SymbolTable} (h : SymbolTable.Reachable t) :
    t.IsTerminal EOL_ = true := by
  induction h with
  | init => simp [SymbolTable.IsTerminal, SymbolTable.init]
  | put t s b _ ih =>
    simp only [SymbolTable.IsTerminal, decide_eq_true_eq] at ih ⊢
    unfold SymbolTable.PutSymbol
    split_ifs
    · exact Finset.mem_insert_of_mem ih
    · exact ih

/-- The table returned by `ComputeFirstSets`, started from a table holding no
`EOL_`, and the sets `First` computes from it hold no `EOL_`. -/
theorem eol_never_in_first (gr : Grammar) (fs : SetMap) (hfs : ∀ k, EOL_ ∉ fs.get k) :
    ∃ T, Returns (ComputeFirstSets gr fs) T ∧
      (∀ k s, T.find? k = some s → EOL_ ∉ s) ∧
      (∀ rule, EOL_ ∉ (First gr rule T ∅).1) ∧
      (SymbolTable.Reachable gr.st_ →
        ∀ rest, (First gr (EOL_ :: rest) T ∅).1 = {EPSILON_}) := by
  obtain ⟨T, hT, _⟩ := ComputeFirstSets_returns gr fs
  have hfree := ComputeFirstSets_eol_free gr fs T hfs hT
  refine ⟨T, hT, ?_, ?_, ?_⟩
  · intro k s hs
    rw [find?_eq_some_get T hs]
    exact hfree k
  · intro rule
    rw [(First_spec gr rule T ∅).1, Finset.empty_union]
    exact firstOf_eol_free gr hfree rule
  · intro hst rest
    have hterm := hst.eol_terminal
    have hne : EOL_ ≠ EPSILON_ := by decide
    simp [First, hne, hterm]

/-- C3: the end marker is never an element of a FIRST set.  For every
grammar, after `ComputeFirstSets` no entry of `first_sets_` contains `EOL_`,
and `First` called with an empty result on any symbol sequence yields a set
without `EOL_`; on a symbol table built by `PutSymbol` a leading `EOL_`
yields exactly `{EPSILON_}`.  This holds for the empty table of a new parser
and, on recomputation, for every start table holding no `EOL_`. -/
theorem C3_eol_never_in_first (gr : Grammar) :
    (∃ T, Returns (ComputeFirstSets gr UMap.empty) T ∧
      (∀ k s, T.find? k = some s → EOL_ ∉ s) ∧
      (∀ rule, EOL_ ∉ (First gr rule T ∅).1) ∧
      (SymbolTable.Reachable gr.st_ →
        ∀ rest, (First gr (EOL_ :: rest) T ∅).1 = {EPSILON_})) ∧
    (∀ fs : SetMap, (∀ k, EOL_ ∉ fs.get k) →
      ∃ T, Returns (ComputeFirstSets gr fs) T ∧
        (∀ k s, T.find? k = some s → EOL_ ∉ s) ∧
        (∀ rule, EOL_ ∉ (First gr rule T ∅).1) ∧
        (SymbolTable.Reachable gr.st_ →
          ∀ rest, (First gr (EOL_ :: rest) T ∅).1 = {EPSILON_})) :=
  ⟨eol_never_in_first gr UMap.empty
      (fun k => by rw [UMap.empty_get]; exact Finset.not_mem_empty _),
    fun fs hfs => eol_never_in_first gr fs hfs⟩

/-! ## Idempotence and prediction symbols (C5, C6) -/

theorem firstReset_le_iff (gr : Grammar) (a : SetMap) (y : AState) :
    AState.le (firstReset gr a).abs y ↔
      a.keys ⊆ y.1 ∧ (∀ k ∈ gr.keys, k ∈ y.1) ∧ ∀ k, k ∉ gr.keys → a.get k ⊆ y.2 k := by
  rw [firstReset_abs]
  constructor
  · rintro ⟨h1, h2⟩
    refine ⟨Finset.subset_union_left.trans h1,
      fun k hk => h1 (Finset.mem_union_right _ (List.mem_toFinset.mpr hk)), fun k hk => ?_⟩
    have := h2 k
    simp only [if_neg hk] at this
    exact this
  · rintro ⟨h1, h2, h3⟩
    refine ⟨?_, fun k => ?_⟩
    · intro k hk
      rcases Finset.mem_union.mp hk with h | h
      · exact h1 h
      · exact h2 k (List.mem_toFinset.mp h)
    · simp only
      split_ifs with h
      · exact Finset.empty_subset _
      · exact h3 k h

theorem ComputeFirstSets_idempotent (gr : Grammar) (fs : SetMap) :
    ∃ T, Returns (ComputeFirstSets gr fs) T ∧
      ∃ T', Returns (ComputeFirstSets gr T) T' ∧ UMap.Same T T' := by
  obtain ⟨T, hT, hle, hcl, hleast⟩ := ComputeFirstSets_returns gr fs
  obtain ⟨T', hT', hle', hcl', hleast'⟩ := ComputeFirstSets_returns gr T
  refine ⟨T, hT, T', hT', (UMap.same_iff_abs _ _).mpr ?_⟩
  obtain ⟨a1, a2, a3⟩ := (firstReset_le_iff gr fs _).mp hle
  obtain ⟨b1, b2, b3⟩ := (firstReset_le_iff gr T _).mp hle'
  apply AState.le_antisymm
  · apply hleast _ _ hcl'
    exact (firstReset_le_iff gr fs _).mpr
      ⟨a1.trans b1, b2, fun k hk => (a3 k hk).trans (b3 k hk)⟩
  · apply hleast' _ _ hcl
    exact (firstReset_le_iff gr T _).mpr
      ⟨Finset.Subset.refl _, a2, fun k _ => Finset.Subset.refl _⟩

theorem followReset_le_iff (gr : Grammar) (a : SetMap) (y : AState) :
    AState.le (followReset gr a).abs y ↔
      a.keys ⊆ y.1 ∧ (∀ k ∈ gr.keys, k ∈ y.1) ∧ gr.axiom_ ∈ y.1 ∧ EOL_ ∈ y.2 gr.axiom_ ∧
        ∀ k, k ∉ gr.keys → a.get k ⊆ y.2 k := by
  rw [followReset_abs]
  constructor
  · rintro ⟨h1, h2⟩
    refine ⟨fun k hk => h1 (Finset.mem_insert_of_mem (Finset.mem_union_left _ hk)),
      fun k hk => h1 (Finset.mem_insert_of_mem
        (Finset.mem_union_right _ (List.mem_toFinset.mpr hk))),
      h1 (Finset.mem_insert_self _ _), ?_, fun k hk => ?_⟩
    · have := h2 gr.axiom_
      simp only [if_true] at this
      exact this (Finset.mem_insert_self _ _)
    · have := h2 k
      simp only [if_neg hk] at this
      by_cases hax : k = gr.axiom_
      · rw [if_pos hax] at this
        exact (Finset.subset_insert _ _).trans this
      · rw [if_neg hax] at this; exact this
  · rintro ⟨h1, h2, h3, h4, h5⟩
    refine ⟨?_, fun k => ?_⟩
    · intro k hk
      rcases Finset.mem_insert.mp hk with h | h
      · rw [h]; exact h3
      · rcases Finset.mem_union.mp h with h | h
        · exact h1 h
        · exact h2 k (List.mem_toFinset.mp h)
    · simp only
      by_cases hax : k = gr.axiom_
      · rw [if_pos hax]
        apply Finset.insert_subset (hax ▸ h4)
        split_ifs with h
        · exact Finset.empty_subset _
        · exact h5 k h
      · rw [if_neg hax]
        split_ifs with h
        · exact Finset.empty_subset _
        · exact h5 k h

theorem ComputeFollowSets_idempotent (gr : Grammar) (fi fo : SetMap) :
    ∃ R, Returns (ComputeFollowSets gr fi fo) R ∧
      ∀ fi', fi'.get = R.1.get →
        ∃ R', Returns (ComputeFollowSets gr fi' R.2) R' ∧ UMap.Same R.2 R'.2 := by
  obtain ⟨R, hR, hW, hle, hcl, hleast⟩ := ComputeFollowSets_returns gr fi fo
  refine ⟨R, hR, fun fi' hfi' => ?_⟩
  obtain ⟨R', hR', _, hle', hcl', hleast'⟩ := ComputeFollowSets_returns gr fi' R.2
  have hWW : fi'.get = fi.get := hfi'.trans hW
  rw [hWW] at hcl' hleast'
  refine ⟨R', hR', (UMap.same_iff_abs _ _).mpr ?_⟩
  obtain ⟨a1, a2, a3, a4, a5⟩ := (followReset_le_iff gr fo _).mp hle
  obtain ⟨b1, b2, b3, b4, b5⟩ := (followReset_le_iff gr R.2 _).mp hle'
  apply AState.le_antisymm
  · apply hleast _ _ hcl'
    exact (followReset_le_iff gr fo _).mpr
      ⟨a1.trans b1, b2, b3, b4, fun k hk => (a5 k hk).trans (b5 k hk)⟩
  · apply hleast' _ _ hcl
    exact (followReset_le_iff gr R.2 _).mpr
      ⟨Finset.Subset.refl _, a2, a3, a4, fun k _ => Finset.Subset.refl _⟩

/-- C5: recomputation is idempotent.  From any cached tables, running
`ComputeFirstSets` a second time leaves `first_sets_` identical (as a map:
same keys, same sets), and running `ComputeFollowSets` a second time, with
`first_sets_` as the first run left it or any table holding the same sets,
leaves `follow_sets_` identical. -/
theorem C5_recomputation_idempotent (gr : Grammar) (fi fo : SetMap) :
    (∃ T, Returns (ComputeFirstSets gr fi) T ∧
      ∃ T', Returns (ComputeFirstSets gr T) T' ∧ UMap.Same T T') ∧
    (∃ R, Returns (ComputeFollowSets gr fi fo) R ∧
      (∃ R', Returns (ComputeFollowSets gr R.1 R.2) R' ∧ UMap.Same R.2 R'.2) ∧
      ∀ fi', fi'.get = R.1.get →
        ∃ R', Returns (ComputeFollowSets gr fi' R.2) R' ∧ UMap.Same R.2 R'.2) := by
  refine ⟨ComputeFirstSets_idempotent gr fi, ?_⟩
  obtain ⟨R, hR, h⟩ := ComputeFollowSets_idempotent gr fi fo
  exact ⟨R, hR, h R.1 rfl, h⟩

/-- C6: `PredictionSymbols(A, p)` is `First(p)` when `First(p)` does not
contain `EPSILON_`, and `(First(p)` minus `EPSILON_)` united with `Follow(A)`
when it does. -/
theorem C6_prediction_symbols (gr : Grammar) (fi fo : SetMap) (A : String) (p : List String) :
    (EPSILON_ ∉ (First gr p fi ∅).1 →
      (PredictionSymbols gr fi fo A p).1 = (First gr p fi ∅).1) ∧
    (EPSILON_ ∈ (First gr p fi ∅).1 →
      (PredictionSymbols gr fi fo A p).1 = (First gr p fi ∅).1.erase EPSILON_ ∪ Follow fo A) := by
  unfold PredictionSymbols
  constructor
  · intro h; simp only [if_pos h]
  · intro h; simp only [if_neg (not_not.mpr h)]

/-! ## FOLLOW sets as a least family (C4) -/

theorem followConditions_iff (gr : Grammar) (fi : SetMap) (F : Family) :
    FollowConditions gr fi F ↔
      EOL_ ∈ F gr.axiom_ ∧ ∀ s ∈ followSteps gr fi.get, s.add F ⊆ F s.target := by
  have hF : ∀ β, (First gr β fi ∅).1 = firstOf gr fi.get β := fun β => by
    rw [(First_spec gr β fi ∅).1, Finset.empty_union]
  unfold FollowConditions
  apply and_congr Iff.rfl
  constructor
  · intro h s hs
    obtain ⟨r, hr, p, hp, α, B, β, hsplit, hB, h1 | ⟨he, h1⟩⟩ := mem_followSteps.mp hs
    · subst h1
      have := (h r hr p hp α B β hsplit hB).1
      rw [hF] at this; exact this
    · subst h1
      exact (h r hr p hp α B β hsplit hB).2 (Or.inl (by rw [hF]; exact he))
  · intro h r hr p hp α B β hsplit hB
    constructor
    · rw [hF]
      exact h _ (mem_followSteps.mpr ⟨r, hr, p, hp, α, B, β, hsplit, hB, Or.inl rfl⟩)
    · intro he
      have he' : EPSILON_ ∈ firstOf gr fi.get β := by
        rcases he with he | he
        · rw [hF] at he; exact he
        · subst he; simp [firstOf]
      exact h _ (mem_followSteps.mpr ⟨r, hr, p, hp, α, B, β, hsplit, hB, Or.inr ⟨he', rfl⟩⟩)

/-- A closed state stays closed when its values are intersected with a
family that satisfies the value conditions. -/
theorem meet_closed {S : List AStep} (hS : ∀ s ∈ S, s.Mono) {y : AState}
    (hy : ∀ s ∈ S, s.Sat y) {F : Family} (hF : ∀ s ∈ S, s.add F ⊆ F s.target) :
    ∀ s ∈ S, s.Sat (y.1, fun k => F k ∩ y.2 k) := by
  intro s hs
  have h1 := hS s hs (fun k => F k ∩ y.2 k) y.2 (fun k => Finset.inter_subset_right)
  have h2 := hS s hs (fun k => F k ∩ y.2 k) F (fun k => Finset.inter_subset_left)
  refine ⟨h1.1.trans (hy s hs).1, ?_⟩
  exact Finset.subset_inter (h2.2.trans (hF s hs)) (h1.2.trans (hy s hs).2)

/-- C4: after the construction of an `LL1Parser` (`ComputeFirstSets` followed
by `ComputeFollowSets`), the sets of `follow_sets_` form the least family `F`
such that `EOL_` is in `F(axiom)` and, for every occurrence of a non-terminal
`B` (a symbol that is not a registered terminal) in a production
`A -> alpha B beta`, `First(beta)` minus `EPSILON_` is contained in `F(B)`, and
`F(A)` is contained in `F(B)` whenever `EPSILON_` is in `First(beta)` or `beta`
is empty. -/
theorem C4_follow_sets_least_family (gr : Grammar) :
    ∃ P, Returns (LL1Parser.create gr) P ∧
      FollowConditions gr P.first_sets_ P.follow_sets_.get ∧
      ∀ F, FollowConditions gr P.first_sets_ F → ∀ X, P.follow_sets_.get X ⊆ F X := by
  obtain ⟨P, T, R, hP, hT, hR, rfl⟩ := create_returns gr
  obtain ⟨R', hR', hW, hle, hcl, hleast⟩ := ComputeFollowSets_returns gr T UMap.empty
  obtain rfl := Returns.unique hR hR'
  refine ⟨_, hP, ?_, ?_⟩
  · simp only
    rw [followConditions_iff, hW]
    obtain ⟨_, _, _, a4, _⟩ := (followReset_le_iff gr UMap.empty _).mp hle
    exact ⟨a4, fun s hs => (hcl s hs).2⟩
  · simp only
    intro F hF X
    rw [followConditions_iff, hW] at hF
    obtain ⟨a1, a2, a3, a4, a5⟩ := (followReset_le_iff gr UMap.empty _).mp hle
    have hy : AState.le R.2.abs (R.2.abs.1, fun k => F k ∩ R.2.abs.2 k) := by
      apply hleast
      · apply (followReset_le_iff gr UMap.empty _).mpr
        refine ⟨a1, a2, a3, Finset.mem_inter.mpr ⟨hF.1, a4⟩, fun k hk => ?_⟩
        rw [UMap.empty_get]; exact Finset.empty_subset _
      · exact meet_closed (followSteps_mono gr T.get) hcl hF.2
    exact (hy.2 X).trans Finset.inter_subset_left

/-! ## FIRST sets and derivations (C1) -/

theorem produces_append_right {gr : Grammar} {a b : List String}
    (h : gr.Produces a b) (w : List String) : gr.Produces (a ++ w) (b ++ w) := by
  cases h with
  | step u v r p hr hp hA =>
    have := Grammar.Produces.step u (v ++ w) r p hr hp hA
    simpa [List.append_assoc] using this

theorem produces_append_left {gr : Grammar} {a b : List String}
    (h : gr.Produces a b) (w : List String) : gr.Produces (w ++ a) (w ++ b) := by
  cases h with
  | step u v r p hr hp hA =>
    have := Grammar.Produces.step (w ++ u) v r p hr hp hA
    simpa [List.append_assoc] using this

theorem derives_append_right {gr : Grammar} {a b : List String}
    (h : gr.Derives a b) (w : List String) : gr.Derives (a ++ w) (b ++ w) := by
  induction h with
  | refl => exact Relation.ReflTransGen.refl
  | tail _ hbc ih => exact Relation.ReflTransGen.tail ih (produces_append_right hbc w)

theorem derives_append_left {gr : Grammar} {a b : List String}
    (h : gr.Derives a b) (w : List String) : gr.Derives (w ++ a) (w ++ b) := by
  induction h with
  | refl => exact Relation.ReflTransGen.refl
  | tail _ hbc ih => exact Relation.ReflTransGen.tail ih (produces_append_left hbc w)

theorem firstOf_body (gr : Grammar) (v : Family) (p : production) :
    firstOf gr v (Grammar.body p) = firstOf gr v p := by
  unfold Grammar.body
  split_ifs with h
  · subst h; simp [firstOf]
  · rfl

theorem firstOf_sound (gr : Grammar) {v : Family}
    (hv : ∀ k x, x ∈ v k → gr.st_.IsTerminal k = false → FirstMeaning gr [k] x)
    (α : List String) (hα : CleanForm α) :
    ∀ x ∈ firstOf gr v α, FirstMeaning gr α x := by
  induction α with
  | nil =>
    intro x hx
    simp only [firstOf, Finset.mem_singleton] at hx
    exact Or.inl ⟨hx, Relation.ReflTransGen.refl⟩
  | cons a rest ih =>
    have ha1 : a ≠ EPSILON_ := fun h => hα.1 (h ▸ List.mem_cons_self _ _)
    have ha2 : a ≠ EOL_ := fun h => hα.2 (h ▸ List.mem_cons_self _ _)
    have hrest : CleanForm rest :=
      ⟨fun h => hα.1 (List.mem_cons_of_mem _ h), fun h => hα.2 (List.mem_cons_of_mem _ h)⟩
    intro x hx
    simp only [firstOf, ha1, and_false, if_false, ha2] at hx
    by_cases ht : gr.st_.IsTerminal a = true
    · rw [if_pos ht] at hx
      have hxa : x = a := Finset.mem_singleton.mp hx
      subst hxa
      exact Or.inr ⟨ha1, ht, rest, Relation.ReflTransGen.refl⟩
    · rw [if_neg ht] at hx
      have ht' : gr.st_.IsTerminal a = false := by simpa using ht
      rcases Finset.mem_union.mp hx with h | h
      · have hxe := (Finset.mem_erase.mp h).1
        rcases hv a x (Finset.mem_erase.mp h).2 ht' with ⟨h1, _⟩ | ⟨_, h2, γ, h3⟩
        · exact absurd h1 hxe
        · exact Or.inr ⟨hxe, h2, γ ++ rest, by
            have := derives_append_right h3 rest
            simpa using this⟩
      · by_cases he : EPSILON_ ∈ v a
        · rw [if_pos he] at h
          have hnull : gr.Derives [a] [] := by
            rcases hv a EPSILON_ he ht' with ⟨_, h1⟩ | ⟨h1, _⟩
            · exact h1
            · exact absurd rfl h1
          have h1 : gr.Derives (a :: rest) rest := by
            have := derives_append_right hnull rest
            simpa using this
          rcases ih hrest x h with ⟨e1, e2⟩ | ⟨e1, e2, γ, e3⟩
          · exact Or.inl ⟨e1, h1.trans e2⟩
          · exact Or.inr ⟨e1, e2, γ, h1.trans e3⟩
        · rw [if_neg he] at h
          exact absurd h (Finset.not_mem_empty _)

theorem firstOf_cons_clean (gr : Grammar) (v : Family) {a : String} (rest : List String)
    (ha1 : a ≠ EPSILON_) (ha2 : a ≠ EOL_) :
    firstOf gr v (a :: rest) =
      if gr.st_.IsTerminal a = true then {a}
      else (v a).erase EPSILON_ ∪ (if EPSILON_ ∈ v a then firstOf gr v rest else ∅) := by
  simp only [firstOf, ha1, and_false, if_false, ha2]

theorem firstOf_append (gr : Grammar) (v : Family) (β w : List String) (hβ : CleanForm β) :
    firstOf gr v (β ++ w) =
      (firstOf gr v β).erase EPSILON_ ∪ (if EPSILON_ ∈ firstOf gr v β then firstOf gr v w else ∅) := by
  induction β with
  | nil => simp [firstOf]
  | cons a rest ih =>
    have ha1 : a ≠ EPSILON_ := fun h => hβ.1 (h ▸ List.mem_cons_self _ _)
    have ha2 : a ≠ EOL_ := fun h => hβ.2 (h ▸ List.mem_cons_self _ _)
    have hrest : CleanForm rest :=
      ⟨fun h => hβ.1 (List.mem_cons_of_mem _ h), fun h => hβ.2 (List.mem_cons_of_mem _ h)⟩
    rw [List.cons_append, firstOf_cons_clean gr v _ ha1 ha2, firstOf_cons_clean gr v _ ha1 ha2]
    by_cases ht : gr.st_.IsTerminal a = true
    · simp only [if_pos ht]
      have : EPSILON_ ∉ ({a} : Finset String) := by
        simp only [Finset.mem_singleton]; exact fun h => ha1 h.symm
      rw [if_neg this, Finset.union_empty, Finset.erase_eq_of_not_mem this]
    · simp only [if_neg ht]
      by_cases he : EPSILON_ ∈ v a
      · simp only [if_pos he]
        rw [ih hrest]
        ext x
        by_cases h1 : EPSILON_ ∈ firstOf gr v rest
        · have h2 : EPSILON_ ∈ (v a).erase EPSILON_ ∪ firstOf gr v rest :=
            Finset.mem_union_right _ h1
          rw [if_pos h1, if_pos h2]
          simp only [Finset.mem_union, Finset.mem_erase]
          tauto
        · have h2 : EPSILON_ ∉ (v a).erase EPSILON_ ∪ firstOf gr v rest := by
            simp only [Finset.mem_union, Finset.mem_erase, not_or]
            exact ⟨fun h => h.1 rfl, h1⟩
          rw [if_neg h1, if_neg h2]
          simp only [Finset.mem_union, Finset.mem_erase, Finset.not_mem_empty]
          tauto
      · simp only [if_neg he, Finset.union_empty]
        have : EPSILON_ ∉ (v a).erase EPSILON_ := Finset.not_mem_erase _ _
        rw [if_neg this, Finset.union_empty, Finset.erase_eq_of_not_mem this]

theorem body_clean {gr : Grammar} (hg : gr.Plain) {r : String × List production}
    (hr : r ∈ gr.g_) {p : production} (hp : p ∈ r.2) : CleanForm (Grammar.body p) := by
  unfold Grammar.body
  split_ifs with h
  · exact ⟨List.not_mem_nil _, List.not_mem_nil _⟩
  · exact ⟨fun he => h (hg.2 r hr p hp he), hg.1 r hr p hp⟩

theorem produces_clean {gr : Grammar} (hg : gr.Plain) {α β : List String}
    (h : gr.Produces α β) (hα : CleanForm α) : CleanForm β := by
  cases h with
  | step u v r p hr hp _ =>
    have hb := body_clean hg hr hp
    simp only [CleanForm, List.mem_append, List.mem_cons, not_or] at hα ⊢
    exact ⟨⟨⟨hα.1.1, hb.1⟩, hα.1.2.2⟩, ⟨⟨hα.2.1, hb.2⟩, hα.2.2.2⟩⟩

theorem firstOf_produces {gr : Grammar} (hg : gr.Plain) {v : Family}
    (hv : ∀ r ∈ gr.g_, ∀ p ∈ r.2, firstOf gr v p ⊆ v r.1) {α β : List String}
    (h : gr.Produces α β) (hα : CleanForm α) : firstOf gr v β ⊆ firstOf gr v α := by
  cases h with
  | step u w r p hr hp hA =>
    induction u with
    | nil =>
      have hA1 : r.1 ≠ EPSILON_ := fun h => hα.1 (by simp [h])
      have hA2 : r.1 ≠ EOL_ := fun h => hα.2 (by simp [h])
      simp only [List.nil_append]
      rw [firstOf_cons_clean gr v w hA1 hA2, if_neg (by simp [hA]),
        firstOf_append gr v _ w (body_clean hg hr hp), firstOf_body]
      have hsub := hv r hr p hp
      apply Finset.union_subset_union (Finset.erase_subset_erase _ hsub)
      by_cases he : EPSILON_ ∈ firstOf gr v p
      · rw [if_pos he, if_pos (hsub he)]
      · rw [if_neg he]; exact Finset.empty_subset _
    | cons a u ih =>
      have ha1 : a ≠ EPSILON_ := fun h => hα.1 (by simp [h])
      have ha2 : a ≠ EOL_ := fun h => hα.2 (by simp [h])
      have hrest : CleanForm (u ++ r.1 :: w) :=
        ⟨fun h => hα.1 (List.mem_cons_of_mem _ h), fun h => hα.2 (List.mem_cons_of_mem _ h)⟩
      simp only [List.cons_append]
      rw [firstOf_cons_clean gr v _ ha1 ha2, firstOf_cons_clean gr v _ ha1 ha2]
      split_ifs with h1 h2
      · exact Finset.Subset.refl _
      · exact Finset.union_subset_union (Finset.Subset.refl _) (ih hrest)
      · exact Finset.Subset.refl _

theorem firstOf_complete {gr : Grammar} (hg : gr.Plain) {v : Family}
    (hv : ∀ r ∈ gr.g_, ∀ p ∈ r.2, firstOf gr v p ⊆ v r.1) {α w : List String}
    (h : gr.Derives α w) (hα : CleanForm α) :
    (∀ t γ, w = t :: γ → gr.st_.IsTerminal t = true → t ∈ firstOf gr v α) ∧
    (w = [] → EPSILON_ ∈ firstOf gr v α) := by
  induction h using Relation.ReflTransGen.head_induction_on with
  | refl =>
    constructor
    · intro t γ hw ht
      subst hw
      have ht1 : t ≠ EPSILON_ := fun h => hα.1 (by simp [h])
      have ht2 : t ≠ EOL_ := fun h => hα.2 (by simp [h])
      rw [firstOf_cons_clean gr v γ ht1 ht2, if_pos ht]
      exact Finset.mem_singleton_self _
    · intro hw; subst hw; simp [firstOf]
  | head hab _ ih =>
    obtain ⟨i1, i2⟩ := ih (produces_clean hg hab hα)
    have hsub := firstOf_produces hg hv hab hα
    exact ⟨fun t γ hw ht => hsub (i1 t γ hw ht), fun hw => hsub (i2 hw)⟩

theorem produces_iff {gr : Grammar} {a b : List String} :
    gr.Produces a b ↔ ∃ u v r p, r ∈ gr.g_ ∧ p ∈ r.2 ∧ gr.st_.IsTerminal r.1 = false ∧
      a = u ++ r.1 :: v ∧ b = u ++ Grammar.body p ++ v := by
  constructor
  · intro h
    cases h with
    | step u v r p hr hp hA => exact ⟨u, v, r, p, hr, hp, hA, rfl, rfl⟩
  · rintro ⟨u, v, r, p, hr, hp, hA, rfl, rfl⟩
    exact Grammar.Produces.step u v r p hr hp hA

theorem derives_of_key {gr : Grammar} (hg : gr.Plain) {v : Family}
    (hv : ∀ r ∈ gr.g_, ∀ p ∈ r.2, firstOf gr v p ⊆ v r.1) {A : String} {w : List String}
    (h : gr.Derives [A] w) (hA : gr.st_.IsTerminal A = false) :
    (∀ t γ, w = t :: γ → gr.st_.IsTerminal t = true → t ∈ v A) ∧ (w = [] → EPSILON_ ∈ v A) := by
  rcases Relation.ReflTransGen.cases_head h with h0 | ⟨β, hstep, hrest⟩
  · subst h0
    constructor
    · intro t γ hw ht
      simp only [List.cons.injEq] at hw
      rw [hw.1, ht] at hA
      cases hA
    · intro hw; cases hw
  · obtain ⟨u, w', r, p, hr, hp, _, heq, hβ⟩ := produces_iff.mp hstep
    have hu : u = [] ∧ r.1 = A ∧ w' = [] := by
      cases u with
      | nil =>
        simp only [List.nil_append, List.cons.injEq] at heq
        exact ⟨rfl, heq.1.symm, heq.2.symm⟩
      | cons a u =>
        simp only [List.cons_append, List.cons.injEq] at heq
        have := heq.2
        cases u <;> simp at this
    obtain ⟨rfl, rfl, rfl⟩ := hu
    subst hβ
    simp only [List.nil_append, List.append_nil] at hrest
    obtain ⟨i1, i2⟩ := firstOf_complete hg hv hrest (body_clean hg hr hp)
    rw [firstOf_body] at i1 i2
    exact ⟨fun t γ hw ht => hv r hr p hp (i1 t γ hw ht), fun hw => hv r hr p hp (i2 hw)⟩
theorem derives_key_body {gr : Grammar} {r : String × List production} (hr : r ∈ gr.g_)
    {p : production} (hp : p ∈ r.2) (hA : gr.st_.IsTerminal r.1 = false) :
    gr.Derives [r.1] (Grammar.body p) := by
  have := Grammar.Produces.step [] [] r p hr hp hA
  simp only [List.nil_append, List.append_nil] at this
  exact Relation.ReflTransGen.single this

theorem FirstMeaning.of_derives {gr : Grammar} {α β : List String} {x : String}
    (h : gr.Derives α β) (hx : FirstMeaning gr β x) : FirstMeaning gr α x := by
  rcases hx with ⟨h1, h2⟩ | ⟨h1, h2, γ, h3⟩
  · exact Or.inl ⟨h1, h.trans h2⟩
  · exact Or.inr ⟨h1, h2, γ, h.trans h3⟩

/-- The table computed for a new parser holds, at every non-terminal, only
symbols justified by derivations. -/
theorem ComputeFirstSets_sound (gr : Grammar) (hg : gr.Plain) (T : SetMap)
    (hT : Returns (ComputeFirstSets gr UMap.empty) T) :
    ∀ k x, x ∈ T.get k → gr.st_.IsTerminal k = false → FirstMeaning gr [k] x := by
  obtain ⟨T', hT', hle, hcl, hleast⟩ := ComputeFirstSets_returns gr UMap.empty
  obtain rfl := Returns.unique hT hT'
  have hfree := ComputeFirstSets_eol_free gr UMap.empty T
    (fun k => by rw [UMap.empty_get]; exact Finset.not_mem_empty _) hT
  have hcl' := (firstClosed_iff gr _).mp hcl
  classical
  let y : AState := (T.keys, fun k =>
    (T.get k).filter fun x => gr.st_.IsTerminal k = false → FirstMeaning gr [k] x)
  have hyT : ∀ k, y.2 k ⊆ T.get k := fun k => Finset.filter_subset _ _
  have hy : AState.le T.abs y := by
    apply hleast
    · apply (firstReset_le_iff gr UMap.empty y).mpr
      obtain ⟨a1, a2, _⟩ := (firstReset_le_iff gr UMap.empty _).mp hle
      refine ⟨a1, a2, fun k _ => ?_⟩
      rw [UMap.empty_get]; exact Finset.empty_subset _
    · apply (firstClosed_iff gr _).mpr
      intro r hr p hp
      obtain ⟨c1, c2, c3⟩ := hcl' r hr p hp
      refine ⟨c1, (firstKeys_mono gr hyT p).trans c2, ?_⟩
      have hfree' : EOL_ ∉ firstOf gr y.2 p :=
        firstOf_eol_free gr (fun k h => hfree k (hyT k h)) p
      rw [eolToEpsilon_of_not_mem hfree']
      intro a ha
      have ha' : a ∈ T.get r.1 := by
        have h1 := firstOf_mono gr hyT p ha
        have h2 : EOL_ ∉ firstOf gr T.get p := firstOf_eol_free gr hfree p
        simp only [UMap.abs] at c3
        rw [eolToEpsilon_of_not_mem h2] at c3
        exact c3 h1
      simp only [y, Finset.mem_filter]
      refine ⟨ha', fun hA => ?_⟩
      rw [← firstOf_body] at ha
      have hmean := firstOf_sound gr (v := y.2)
        (fun k x hx hk => (Finset.mem_filter.mp hx).2 hk) _ (body_clean hg hr hp) a ha
      exact FirstMeaning.of_derives (derives_key_body hr hp hA) hmean
  intro k x hx hk
  have := hy.2 k hx
  simp only [y, Finset.mem_filter] at this
  exact this.2 hk

/-- C1: for every grammar in which `EOL_` occurs in no production and
`EPSILON_` occurs only as the sole symbol of a production, after the
construction of an `LL1Parser` the set cached in `first_sets_` for a
non-terminal `A` that has productions is exactly the derivational FIRST set: a
terminal `t` (other than the marker `EPSILON_`) is in it iff `A` derives a
sentential form beginning with `t`, `EPSILON_` is in it iff `A` derives the
empty string, and it has no other element. -/
theorem C1_first_sets_derivational (gr : Grammar)
    (h1 : ∀ r ∈ gr.g_, ∀ p ∈ r.2, EOL_ ∉ p)
    (h2 : ∀ r ∈ gr.g_, ∀ p ∈ r.2, EPSILON_ ∈ p → p = [EPSILON_]) :
    ∃ P, Returns (LL1Parser.create gr) P ∧
      ∀ A ∈ gr.keys, gr.st_.IsTerminal A = false →
        (∀ t, gr.st_.IsTerminal t = true → t ≠ EPSILON_ →
          (t ∈ P.first_sets_.get A ↔ ∃ γ, gr.Derives [A] (t :: γ))) ∧
        (EPSILON_ ∈ P.first_sets_.get A ↔ gr.Derives [A] []) ∧
        (∀ x ∈ P.first_sets_.get A, x = EPSILON_ ∨ gr.st_.IsTerminal x = true) := by
  have hg : gr.Plain := ⟨h1, h2⟩
  obtain ⟨P, T, R, hP, hT, hR, rfl⟩ := create_returns gr
  obtain ⟨R', hR', hW, _⟩ := ComputeFollowSets_returns gr T UMap.empty
  obtain rfl := Returns.unique hR hR'
  obtain ⟨T', hT', _, hcl, _⟩ := ComputeFirstSets_returns gr UMap.empty
  obtain rfl := Returns.unique hT hT'
  have hfree := ComputeFirstSets_eol_free gr UMap.empty T
    (fun k => by rw [UMap.empty_get]; exact Finset.not_mem_empty _) hT
  have hv : ∀ r ∈ gr.g_, ∀ p ∈ r.2, firstOf gr T.get p ⊆ T.get r.1 := by
    intro r hr p hp
    have := ((firstClosed_iff gr _).mp hcl r hr p hp).2.2
    simp only [UMap.abs] at this
    rwa [eolToEpsilon_of_not_mem (firstOf_eol_free gr hfree p)] at this
  have hsound := ComputeFirstSets_sound gr hg T hT
  refine ⟨_, hP, fun A _ hA => ?_⟩
  simp only [hW]
  refine ⟨fun t ht hte => ⟨fun hx => ?_, fun ⟨γ, hd⟩ => ?_⟩, ⟨fun hx => ?_, fun hd => ?_⟩,
    fun x hx => ?_⟩
  · rcases hsound A t hx hA with ⟨e, _⟩ | ⟨_, _, hγ⟩
    · exact absurd e hte
    · exact hγ
  · exact (derives_of_key hg hv hd hA).1 t γ rfl ht
  · rcases hsound A EPSILON_ hx hA with ⟨_, e⟩ | ⟨e, _⟩
    · exact e
    · exact absurd rfl e
  · exact (derives_of_key hg hv hd hA).2 rfl
  · rcases hsound A x hx hA with ⟨e, _⟩ | ⟨_, e, _⟩
    · exact Or.inl e
    · exact Or.inr e

/-- The hypotheses of C1 hold for the grammar `A -> a A b | EPSILON`. -/
theorem C1_first_sets_derivational_witness :
    (∀ r ∈ nestedGrammar.g_, ∀ p ∈ r.2, EOL_ ∉ p) ∧
    (∀ r ∈ nestedGrammar.g_, ∀ p ∈ r.2, EPSILON_ ∈ p → p = [EPSILON_]) ∧
    ∃ P, Returns (LL1Parser.create nestedGrammar) P ∧
      ∀ A ∈ nestedGrammar.keys, nestedGrammar.st_.IsTerminal A = false →
        (∀ t, nestedGrammar.st_.IsTerminal t = true → t ≠ EPSILON_ →
          (t ∈ P.first_sets_.get A ↔ ∃ γ, nestedGrammar.Derives [A] (t :: γ))) ∧
        (EPSILON_ ∈ P.first_sets_.get A ↔ nestedGrammar.Derives [A] []) ∧
        (∀ x ∈ P.first_sets_.get A, x = EPSILON_ ∨ nestedGrammar.st_.IsTerminal x = true) :=
  ⟨by decide, by decide, C1_first_sets_derivational nestedGrammar (by decide) (by decide)⟩

/-! ## The LL(1) table (C7, C8, C9) -/

theorem PredictionSymbols_spec (gr : Grammar) (fi fo : SetMap) (A : String) (p : List String) :
    (PredictionSymbols gr fi fo A p).1 = predOf gr fi.get fo A p ∧
    (PredictionSymbols gr fi fo A p).2.get = fi.get := by
  obtain ⟨h1, _, h3⟩ := First_spec gr p fi ∅
  rw [Finset.empty_union] at h1
  unfold PredictionSymbols predOf
  simp only [h1]
  split_ifs
  · exact ⟨rfl, h3⟩
  · exact ⟨rfl, h3⟩

theorem UMap.find?_eq_get {V : Type} [Inhabited V] (m : UMap V) (k : String) :
    m.find? k = if k ∈ m.keys then some (m.get k) else none := by
  unfold UMap.find? UMap.get
  split_ifs <;> rfl

theorem UMap.empty_get_any {V : Type} [Inhabited V] (k : String) :
    (UMap.empty : UMap V).get k = default := by
  simp [UMap.get, UMap.empty]

/-- The column built from the empty column by the productions `ps` of `A`. -/
theorem column_fold (gr : Grammar) (fo : SetMap) (A : String) (W : Family)
    (ps : List production) (fi : SetMap) (hc : Bool) (hW : fi.get = W) :
    (ps.foldl (columnProd gr fo A) ⟨fi, UMap.empty, hc⟩).first.get = W ∧
    (∀ t, (ps.foldl (columnProd gr fo A) ⟨fi, UMap.empty, hc⟩).column.get t =
      ps.filter fun p => t ∈ predOf gr W fo A p) ∧
    (∀ t, t ∈ (ps.foldl (columnProd gr fo A) ⟨fi, UMap.empty, hc⟩).column.keys ↔
      ∃ p ∈ ps, t ∈ predOf gr W fo A p) ∧
    ((ps.foldl (columnProd gr fo A) ⟨fi, UMap.empty, hc⟩).has_conflict = true ↔
      hc = true ∨ ¬ ps.Pairwise fun p q =>
        Disjoint (predOf gr W fo A p) (predOf gr W fo A q)) := by
  induction ps using List.reverseRecOn with
  | nil =>
    refine ⟨hW, fun t => ?_, fun t => ?_, ?_⟩
    · simp only [List.foldl_nil, List.filter_nil]
      exact UMap.empty_get_any t
    · simp [UMap.empty]
    · simp
  | append_singleton ps p ih =>
    obtain ⟨i1, i2, i3, i4⟩ := ih
    simp only [List.foldl_append, List.foldl_cons, List.foldl_nil]
    set c := ps.foldl (columnProd gr fo A) ⟨fi, UMap.empty, hc⟩ with hcdef
    obtain ⟨q1, q2⟩ := PredictionSymbols_spec gr c.first fo A p
    rw [i1] at q1 q2
    have hkeys : ∀ t, t ∈ (columnProd gr fo A c p).column.keys ↔
        t ∈ c.column.keys ∨ t ∈ predOf gr W fo A p := by
      intro t
      simp only [columnProd, columnWrite, q1, Finset.mem_union]
    have hget : ∀ t, (columnProd gr fo A c p).column.get t =
        if t ∈ predOf gr W fo A p then c.column.get t ++ [p] else c.column.get t := by
      intro t
      have hk := hkeys t
      unfold UMap.get
      by_cases h1 : t ∈ predOf gr W fo A p
      · rw [if_pos (hk.mpr (Or.inr h1)), if_pos h1]
        simp only [columnProd, columnWrite, q1, if_pos h1]
        rfl
      · rw [if_neg h1]
        by_cases h2 : t ∈ c.column.keys
        · rw [if_pos (hk.mpr (Or.inl h2)), if_pos h2]
          simp only [columnProd, columnWrite, q1, if_neg h1]
          unfold UMap.get
          rw [if_pos h2]
        · rw [if_neg (fun h => (hk.mp h).elim h2 h1), if_neg h2]
    refine ⟨?_, fun t => ?_, fun t => ?_, ?_⟩
    · simp only [columnProd]; exact q2
    · rw [hget, i2, List.filter_append]
      by_cases h1 : t ∈ predOf gr W fo A p
      · simp [h1]
      · simp [h1]
    · rw [hkeys, i3]
      simp only [List.mem_append, List.mem_singleton]
      constructor
      · rintro (⟨q, hq, h⟩ | h)
        · exact ⟨q, Or.inl hq, h⟩
        · exact ⟨p, Or.inr rfl, h⟩
      · rintro ⟨q, hq | rfl, h⟩
        · exact Or.inl ⟨q, hq, h⟩
        · exact Or.inr h
    · have hflag : (columnProd gr fo A c p).has_conflict = true ↔
          c.has_conflict = true ∨ ∃ s ∈ predOf gr W fo A p, c.column.get s ≠ [] := by
        simp only [columnProd, columnWrite, q1, Bool.or_eq_true, decide_eq_true_eq]
      rw [hflag, i4, List.pairwise_append]
      simp only [List.pairwise_singleton, true_and, List.mem_singleton, forall_eq, not_and,
        not_forall]
      have hex : (∃ s ∈ predOf gr W fo A p, c.column.get s ≠ []) ↔
          ∃ q ∈ ps, ¬ Disjoint (predOf gr W fo A q) (predOf gr W fo A p) := by
        constructor
        · rintro ⟨s, hs, hne⟩
          rw [i2] at hne
          obtain ⟨q, hq⟩ := List.exists_mem_of_ne_nil _ hne
          obtain ⟨hq1, hq2⟩ := List.mem_filter.mp hq
          refine ⟨q, hq1, fun hd => ?_⟩
          exact Finset.disjoint_left.mp hd (by simpa using hq2) hs
        · rintro ⟨q, hq, hd⟩
          obtain ⟨s, hs1, hs2⟩ := Finset.not_disjoint_iff.mp hd
          refine ⟨s, hs2, ?_⟩
          rw [i2]
          intro he
          have : q ∈ ps.filter fun p => s ∈ predOf gr W fo A p :=
            List.mem_filter.mpr ⟨hq, by simpa using hs1⟩
          rw [he] at this
          cases this
      rw [hex]
      constructor
      · rintro ((h | h) | ⟨q, hq, hd⟩)
        · exact Or.inl h
        · exact Or.inr fun hp => absurd hp h
        · exact Or.inr fun _ => ⟨q, hq, hd⟩
      · rintro (h | h)
        · exact Or.inl (Or.inl h)
        · by_cases hp : ps.Pairwise fun p q =>
            Disjoint (predOf gr W fo A p) (predOf gr W fo A q)
          · obtain ⟨q, hq, hd⟩ := h hp
            exact Or.inr ⟨q, hq, hd⟩
          · exact Or.inl (Or.inr hp)

theorem UMap.insertNew_keys {V : Type} [Inhabited V] (m : UMap V) (k : String) (v : V) :
    (m.insertNew k v).keys = insert k m.keys := by
  unfold UMap.insertNew
  split_ifs with h
  · exact (Finset.insert_eq_of_mem h).symm
  · rfl

theorem UMap.insertNew_find?_old {V : Type} [Inhabited V] (m : UMap V) (k : String) (v : V)
    {j : String} (hj : j ∈ m.keys) : (m.insertNew k v).find? j = m.find? j := by
  unfold UMap.insertNew
  split_ifs with h
  · rfl
  · have hjk : j ≠ k := fun e => h (e ▸ hj)
    simp [UMap.find?, UMap.set, hj, Function.update_noteq hjk, UMap.get]

theorem UMap.insertNew_find?_new {V : Type} [Inhabited V] (m : UMap V) (k : String) (v : V)
    (hk : k ∉ m.keys) : (m.insertNew k v).find? k = some v := by
  unfold UMap.insertNew
  rw [if_neg hk]
  simp [UMap.find?, UMap.set]

theorem tableRule_spec (gr : Grammar) (fo : SetMap) (W : Family) (s : TableState)
    (rule : String × List production) (hW : s.first.get = W) :
    (tableRule gr fo s rule).first.get = W ∧
    ((tableRule gr fo s rule).has_conflict = true ↔
      s.has_conflict = true ∨ ¬ RuleDisjoint gr W fo rule) ∧
    (tableRule gr fo s rule).table.keys = insert rule.1 s.table.keys ∧
    (∀ j ∈ s.table.keys, (tableRule gr fo s rule).table.find? j = s.table.find? j) ∧
    (rule.1 ∉ s.table.keys → ∃ column,
      (tableRule gr fo s rule).table.find? rule.1 = some column ∧ ColumnOf gr W fo rule column) := by
  obtain ⟨c1, c2, c3, c4⟩ :=
    column_fold gr fo rule.1 W rule.2 s.first s.has_conflict hW
  unfold RuleDisjoint ColumnOf
  simp only [tableRule]
  refine ⟨c1, c4, UMap.insertNew_keys _ _ _, fun j hj => UMap.insertNew_find?_old _ _ _ hj,
    fun hk => ⟨_, UMap.insertNew_find?_new _ _ _ hk, fun t => ?_⟩⟩
  rw [UMap.find?_eq_get, c2 t]
  by_cases h : (rule.2.filter fun p => t ∈ predOf gr W fo rule.1 p) = []
  · rw [if_pos h]
    have : t ∉ (rule.2.foldl (columnProd gr fo rule.1)
        ⟨s.first, UMap.empty, s.has_conflict⟩).column.keys := by
      rw [c3]
      rintro ⟨p, hp, ht⟩
      have : p ∈ rule.2.filter fun p => t ∈ predOf gr W fo rule.1 p :=
        List.mem_filter.mpr ⟨hp, by simpa using ht⟩
      rw [h] at this
      cases this
    rw [if_neg this]
  · rw [if_neg h]
    obtain ⟨p, hp⟩ := List.exists_mem_of_ne_nil _ h
    obtain ⟨hp1, hp2⟩ := List.mem_filter.mp hp
    have : t ∈ (rule.2.foldl (columnProd gr fo rule.1)
        ⟨s.first, UMap.empty, s.has_conflict⟩).column.keys := by
      rw [c3]
      exact ⟨p, hp1, by simpa using hp2⟩
    rw [if_pos this]

theorem table_fold (gr : Grammar) (fo : SetMap) (W : Family)
    (l : List (String × List production)) (s : TableState) (hW : s.first.get = W) :
    (l.foldl (tableRule gr fo) s).first.get = W ∧
    ((l.foldl (tableRule gr fo) s).has_conflict = true ↔
      s.has_conflict = true ∨ ∃ rule ∈ l, ¬ RuleDisjoint gr W fo rule) ∧
    (∀ j ∈ s.table.keys, (l.foldl (tableRule gr fo) s).table.find? j = s.table.find? j) ∧
    ((l.map Prod.fst).Nodup → ∀ rule ∈ l, rule.1 ∉ s.table.keys → ∃ column,
      (l.foldl (tableRule gr fo) s).table.find? rule.1 = some column ∧
        ColumnOf gr W fo rule column) := by
  induction l generalizing s with
  | nil =>
    refine ⟨hW, by simp, fun j _ => rfl, fun _ rule hr => ?_⟩
    cases hr
  | cons r l ih =>
    obtain ⟨t1, t2, t3, t4, t5⟩ := tableRule_spec gr fo W s r hW
    obtain ⟨i1, i2, i3, i4⟩ := ih (tableRule gr fo s r) t1
    simp only [List.foldl_cons]
    refine ⟨i1, ?_, fun j hj => ?_, fun hnd rule hrule hk => ?_⟩
    · rw [i2, t2]
      simp only [List.mem_cons, exists_eq_or_imp, or_assoc]
    · rw [i3 j (by rw [t3]; exact Finset.mem_insert_of_mem hj), t4 j hj]
    · simp only [List.map_cons, List.nodup_cons] at hnd
      rcases List.mem_cons.mp hrule with rfl | hmem
      · obtain ⟨column, e1, e2⟩ := t5 hk
        refine ⟨column, ?_, e2⟩
        rw [i3 _ (by rw [t3]; exact Finset.mem_insert_self _ _), e1]
      · have hne : rule.1 ≠ r.1 := by
          intro e
          apply hnd.1
          rw [← e]
          exact List.mem_map.mpr ⟨rule, hmem, rfl⟩
        apply i4 hnd.2 rule hmem
        rw [t3]
        simp only [Finset.mem_insert, not_or]
        exact ⟨hne, hk⟩

theorem refresh_returns (P : LL1Parser) :
    ∃ p1, Returns P.refresh p1 ∧ p1.gr_ = P.gr_ ∧ p1.ll1_t_ = P.ll1_t_ := by
  by_cases h : P.first_sets_.keys = ∅ ∨ P.follow_sets_.keys = ∅
  · obtain ⟨T, hT, _⟩ := ComputeFirstSets_returns P.gr_ P.first_sets_
    obtain ⟨R, hR, _⟩ := ComputeFollowSets_returns P.gr_ T P.follow_sets_
    refine ⟨{ P with first_sets_ := R.1, follow_sets_ := R.2 }, ?_, rfl, rfl⟩
    obtain ⟨N, hN⟩ := hT
    obtain ⟨M, hM⟩ := hR
    refine ⟨max N M, fun n hn => ?_⟩
    unfold LL1Parser.refresh
    rw [if_pos h, hN n ((le_max_left _ _).trans hn)]
    simp only [Option.some_bind]
    rw [hM n ((le_max_right _ _).trans hn)]
    rfl
  · refine ⟨P, ⟨0, fun n _ => ?_⟩, rfl, rfl⟩
    unfold LL1Parser.refresh
    rw [if_neg h]

/-- The result of `CreateLL1Table`: it returns for every parser, and the
flag and the table are those of the loop over the rules. -/
theorem CreateLL1Table_returns (P : LL1Parser) :
    ∃ r, Returns (CreateLL1Table P) r ∧ r.2.gr_ = P.gr_ ∧
      (r.1 = true ↔ ∀ rule ∈ P.gr_.g_,
        RuleDisjoint P.gr_ r.2.first_sets_.get r.2.follow_sets_ rule) ∧
      (P.gr_.keys.Nodup → ∀ rule ∈ P.gr_.g_, rule.1 ∉ P.ll1_t_.keys → ∃ column,
        r.2.ll1_t_.find? rule.1 = some column ∧
          ColumnOf P.gr_ r.2.first_sets_.get r.2.follow_sets_ rule column) := by
  obtain ⟨p1, hp1, hg, ht⟩ := refresh_returns P
  obtain ⟨f1, f2, _, f4⟩ := table_fold p1.gr_ p1.follow_sets_ p1.first_sets_.get p1.gr_.g_
    ⟨p1.first_sets_, p1.ll1_t_, false⟩ rfl
  refine ⟨(!(p1.gr_.g_.foldl (tableRule p1.gr_ p1.follow_sets_)
        ⟨p1.first_sets_, p1.ll1_t_, false⟩).has_conflict,
      { p1 with
        first_sets_ := (p1.gr_.g_.foldl (tableRule p1.gr_ p1.follow_sets_)
          ⟨p1.first_sets_, p1.ll1_t_, false⟩).first
        ll1_t_ := (p1.gr_.g_.foldl (tableRule p1.gr_ p1.follow_sets_)
          ⟨p1.first_sets_, p1.ll1_t_, false⟩).table }), ?_, ?_, ?_, ?_⟩
  · obtain ⟨N, hN⟩ := hp1
    refine ⟨N, fun n hn => ?_⟩
    unfold CreateLL1Table
    rw [hN n hn]
    rfl
  · exact hg
  · simp only [f1, ← hg]
    rw [Bool.not_eq_true', ← Bool.not_eq_true, f2]
    simp only [Bool.false_eq_true, false_or, not_exists, not_and, not_not]
  · intro hnd rule hrule hk
    simp only [f1, ← hg]
    apply f4 (by rw [hg]; exact hnd) rule (by rw [hg]; exact hrule)
    simp only [ht]; exact hk

theorem FuelMono.returns {α : Type} {f : Nat → Option α} (hf : FuelMono f) {n : Nat} {a : α}
    (h : f n = some a) : Returns f a := ⟨n, hf n a h⟩

theorem FuelMono.bind_mono {α β : Type} {f : Nat → Option α} {g : α → Nat → Option β}
    (hf : FuelMono f) (hg : ∀ a, FuelMono (g a)) : FuelMono fun n => (f n).bind fun a => g a n := by
  intro n b h k hk
  simp only [Option.bind_eq_some] at h ⊢
  obtain ⟨a, h1, h2⟩ := h
  exact ⟨a, hf n a h1 k hk, hg a n b h2 k hk⟩

theorem ComputeFirstSets_fuelMono (gr : Grammar) (fs : SetMap) :
    FuelMono (ComputeFirstSets gr fs) :=
  fun _ _ h k hk => firstLoop_mono gr h k hk

theorem ComputeFollowSets_fuelMono (gr : Grammar) (fi fo : SetMap) :
    FuelMono (ComputeFollowSets gr fi fo) :=
  fun _ _ h k hk => followLoop_mono gr h k hk

theorem fuelMono_pure {α : Type} (a : α) : FuelMono fun _ : Nat => some a :=
  fun _ _ h _ _ => h

theorem create_fuelMono (gr : Grammar) : FuelMono (LL1Parser.create gr) := by
  unfold LL1Parser.create
  exact FuelMono.bind_mono (ComputeFirstSets_fuelMono gr _) fun fi =>
    FuelMono.bind_mono (ComputeFollowSets_fuelMono gr fi _) fun r => fuelMono_pure _

theorem refresh_fuelMono (P : LL1Parser) : FuelMono P.refresh := by
  unfold LL1Parser.refresh
  split_ifs
  · exact FuelMono.bind_mono (ComputeFirstSets_fuelMono _ _) fun fi =>
      FuelMono.bind_mono (ComputeFollowSets_fuelMono _ fi _) fun r => fuelMono_pure _
  · exact fuelMono_pure _

theorem CreateLL1Table_fuelMono (P : LL1Parser) : FuelMono (CreateLL1Table P) := by
  unfold CreateLL1Table
  exact FuelMono.bind_mono (refresh_fuelMono P) fun p1 => fuelMono_pure _

theorem pairwise_disjoint_iff_filter {α : Type} (f : α → Finset String) (l : List α) :
    l.Pairwise (fun p q => Disjoint (f p) (f q)) ↔
      ∀ t, (l.filter fun p => t ∈ f p).length ≤ 1 := by
  induction l with
  | nil => simp
  | cons a l ih =>
    have hpos : ∀ t, t ∈ f a → ((a :: l).filter fun p => t ∈ f p) =
        a :: l.filter fun p => t ∈ f p := fun t ht =>
      List.filter_cons_of_pos (by simpa using ht)
    have hneg : ∀ t, t ∉ f a → ((a :: l).filter fun p => t ∈ f p) =
        l.filter fun p => t ∈ f p := fun t ht =>
      List.filter_cons_of_neg (by simpa using ht)
    rw [List.pairwise_cons, ih]
    constructor
    · rintro ⟨h1, h2⟩ t
      by_cases ht : t ∈ f a
      · have : (l.filter fun p => t ∈ f p) = [] := by
          apply List.filter_eq_nil_iff.mpr
          intro b hb
          have := Finset.disjoint_left.mp (h1 b hb) ht
          simpa using this
        rw [hpos t ht, this]; simp
      · rw [hneg t ht]
        exact h2 t
    · intro h
      constructor
      · intro b hb
        rw [Finset.disjoint_left]
        intro t ht htb
        have h1 := h t
        have hmem : b ∈ l.filter fun p => t ∈ f p :=
          List.mem_filter.mpr ⟨hb, by simpa using htb⟩
        have hlen := List.length_pos_of_mem hmem
        rw [hpos t ht, List.length_cons] at h1
        omega
      · intro t
        have h1 := h t
        by_cases ht : t ∈ f a
        · rw [hpos t ht, List.length_cons] at h1
          omega
        · rw [hneg t ht] at h1; exact h1

/-- C7: `CreateLL1Table` returns true iff no table cell receives more than
one production, that is, iff for every rule the prediction-symbol sets of any
two production entries at different positions are disjoint.  For
`S -> A $`, `A -> a A | b` it returns true, with `FIRST(A) = {a, b}` and
`FOLLOW(A) = {$}`. -/
theorem C7_table_true_iff_no_conflict :
    (∀ P : LL1Parser, ∃ r, Returns (CreateLL1Table P) r ∧
      (r.1 = true ↔ ∀ rule ∈ P.gr_.g_, ∀ t, (rule.2.filter fun p =>
        t ∈ (PredictionSymbols P.gr_ r.2.first_sets_ r.2.follow_sets_ rule.1 p).1).length ≤ 1) ∧
      (r.1 = true ↔ ∀ rule ∈ P.gr_.g_, ∀ i j : Fin rule.2.length, i < j →
        Disjoint
          (PredictionSymbols P.gr_ r.2.first_sets_ r.2.follow_sets_ rule.1 (rule.2.get i)).1
          (PredictionSymbols P.gr_ r.2.first_sets_ r.2.follow_sets_ rule.1 (rule.2.get j)).1)) ∧
    (∃ P r, Returns (LL1Parser.create classicGrammar) P ∧ Returns (CreateLL1Table P) r ∧
      r.1 = true ∧ P.first_sets_.get "A" = {"a", "b"} ∧ P.follow_sets_.get "A" = {"$"}) := by
  constructor
  · intro P
    obtain ⟨r, hr, _, h1, _⟩ := CreateLL1Table_returns P
    have hps : ∀ A p, (PredictionSymbols P.gr_ r.2.first_sets_ r.2.follow_sets_ A p).1 =
        predOf P.gr_ r.2.first_sets_.get r.2.follow_sets_ A p :=
      fun A p => (PredictionSymbols_spec _ _ _ A p).1
    refine ⟨r, hr, ?_, ?_⟩
    · rw [h1]
      simp only [hps]
      exact forall_congr' fun rule => forall_congr' fun _ =>
        pairwise_disjoint_iff_filter _ _
    · rw [h1]
      simp only [hps]
      exact forall_congr' fun rule => forall_congr' fun _ => List.pairwise_iff_get
  · have h : ((LL1Parser.create classicGrammar 5).bind fun p =>
        (CreateLL1Table p 5).map fun r =>
          (r.1, p.first_sets_.get "A", p.follow_sets_.get "A")) =
        some (true, {"a", "b"}, {"$"}) := by decide
    simp only [Option.bind_eq_some, Option.map_eq_some'] at h
    obtain ⟨P, hP, r, hr, heq⟩ := h
    simp only [Prod.mk.injEq] at heq
    exact ⟨P, r, (create_fuelMono _).returns hP, (CreateLL1Table_fuelMono P).returns hr,
      heq.1, heq.2.1, heq.2.2⟩

/-- C8: `CreateLL1Table` never aborts on a conflict.  Starting from an empty
table (and a rule map, whose keys are distinct), whatever flag it returns,
afterwards the row of every rule key `A` exists and, for every symbol `t`,
the cell `ll1_t_[A][t]` lists exactly the productions `p` of `A` with `t` in
`PredictionSymbols(A, p)`, in the order of the rule list of `A`; the cell is
absent when there is no such production. -/
theorem C8_table_fully_formed (P : LL1Parser) (hfresh : P.ll1_t_.keys = ∅)
    (hnodup : P.gr_.keys.Nodup) :
    ∃ r, Returns (CreateLL1Table P) r ∧ ∀ rule ∈ P.gr_.g_, ∃ column,
      r.2.ll1_t_.find? rule.1 = some column ∧ ∀ t, column.find? t =
        if (rule.2.filter fun p => t ∈
            (PredictionSymbols P.gr_ r.2.first_sets_ r.2.follow_sets_ rule.1 p).1) = [] then none
        else some (rule.2.filter fun p => t ∈
            (PredictionSymbols P.gr_ r.2.first_sets_ r.2.follow_sets_ rule.1 p).1) := by
  obtain ⟨r, hr, _, _, h2⟩ := CreateLL1Table_returns P
  refine ⟨r, hr, fun rule hrule => ?_⟩
  obtain ⟨column, c1, c2⟩ := h2 hnodup rule hrule (by rw [hfresh]; exact Finset.not_mem_empty _)
  refine ⟨column, c1, fun t => ?_⟩
  have hps : ∀ p, (PredictionSymbols P.gr_ r.2.first_sets_ r.2.follow_sets_ rule.1 p).1 =
      predOf P.gr_ r.2.first_sets_.get r.2.follow_sets_ rule.1 p :=
    fun p => (PredictionSymbols_spec _ _ _ rule.1 p).1
  simp only [hps]
  exact c2 t

/-- The hypotheses of C8 hold for a parser of `S -> A $`, `A -> a A | b` with
an empty table. -/
theorem C8_table_fully_formed_witness :
    classicParser.ll1_t_.keys = ∅ ∧ classicParser.gr_.keys.Nodup ∧
    ∃ r, Returns (CreateLL1Table classicParser) r ∧ ∀ rule ∈ classicParser.gr_.g_, ∃ column,
      r.2.ll1_t_.find? rule.1 = some column ∧ ∀ t, column.find? t =
        if (rule.2.filter fun p => t ∈ (PredictionSymbols classicParser.gr_ r.2.first_sets_
            r.2.follow_sets_ rule.1 p).1) = [] then none
        else some (rule.2.filter fun p => t ∈ (PredictionSymbols classicParser.gr_
            r.2.first_sets_ r.2.follow_sets_ rule.1 p).1) :=
  ⟨rfl, by decide, C8_table_fully_formed classicParser rfl (by decide)⟩

theorem predOf_terminal_head (gr : Grammar) (W : Family) (fo : SetMap) (A a : String)
    (rest : List String) (ha : gr.st_.IsTerminal a = true) (hne1 : a ≠ EOL_)
    (hne2 : a ≠ EPSILON_) : predOf gr W fo A (a :: rest) = {a} := by
  have h : firstOf gr W (a :: rest) = {a} := by
    rw [firstOf_cons_clean gr W rest hne2 hne1, if_pos ha]
  unfold predOf
  rw [h, if_pos]
  simp only [Finset.mem_singleton]
  exact fun e => hne2 e.symm

/-- A rule with the two productions `A -> a A` and `A -> a`, `a` being a
registered terminal other than `EOL_` and `EPSILON_`, makes `CreateLL1Table`
return false, and on an empty table with distinct rule keys the cell `(A, a)`
holds both productions. -/
theorem conflict_of_common_terminal (P : LL1Parser) (A a : String) (prods : List production)
    (hfresh : P.ll1_t_.keys = ∅) (hnodup : P.gr_.keys.Nodup)
    (hrule : (A, prods) ∈ P.gr_.g_) (h1 : [a, A] ∈ prods) (h2 : [a] ∈ prods)
    (ha : P.gr_.st_.IsTerminal a = true) (hne1 : a ≠ EOL_) (hne2 : a ≠ EPSILON_) :
    ∃ r, Returns (CreateLL1Table P) r ∧ r.1 = false ∧ ∃ column cell,
      r.2.ll1_t_.find? A = some column ∧ column.find? a = some cell ∧
        [a, A] ∈ cell ∧ [a] ∈ cell := by
  obtain ⟨r, hr, _, c1, c2⟩ := CreateLL1Table_returns P
  have hp1 := predOf_terminal_head P.gr_ r.2.first_sets_.get r.2.follow_sets_ A a [A] ha hne1 hne2
  have hp2 := predOf_terminal_head P.gr_ r.2.first_sets_.get r.2.follow_sets_ A a [] ha hne1 hne2
  refine ⟨r, hr, ?_, ?_⟩
  · rw [← Bool.not_eq_true, c1]
    intro h
    have hpw := h (A, prods) hrule
    unfold RuleDisjoint at hpw
    have hsymm : Symmetric fun p q : production =>
        Disjoint (predOf P.gr_ r.2.first_sets_.get r.2.follow_sets_ A p)
          (predOf P.gr_ r.2.first_sets_.get r.2.follow_sets_ A q) :=
      fun _ _ hd => hd.symm
    have hd := hpw.forall hsymm h1 h2 (by simp)
    simp only [hp1, hp2] at hd
    exact Finset.disjoint_left.mp hd (Finset.mem_singleton_self a) (Finset.mem_singleton_self a)
  · obtain ⟨column, e1, e2⟩ := c2 hnodup (A, prods) hrule
      (by rw [hfresh]; exact Finset.not_mem_empty _)
    have hm1 : [a, A] ∈ prods.filter fun p =>
        a ∈ predOf P.gr_ r.2.first_sets_.get r.2.follow_sets_ A p :=
      List.mem_filter.mpr ⟨h1, by rw [hp1]; simp⟩
    have hm2 : [a] ∈ prods.filter fun p =>
        a ∈ predOf P.gr_ r.2.first_sets_.get r.2.follow_sets_ A p :=
      List.mem_filter.mpr ⟨h2, by rw [hp2]; simp⟩
    refine ⟨column, _, e1, ?_, hm1, hm2⟩
    rw [e2 a, if_neg]
    exact List.ne_nil_of_mem hm1

/-- C9: for every grammar (a rule map, whose keys are distinct) that
contains a non-terminal `A` with the two productions `A -> a A` and `A -> a`,
where `a` is a registered terminal other than `EOL_` and `EPSILON_`,
`CreateLL1Table` on the parser built for the grammar returns false and the
cell `(A, a)` holds both productions. -/
theorem C9_conflict_detected (gr : Grammar) (A a : String) (prods : List production)
    (hnodup : gr.keys.Nodup) (hrule : (A, prods) ∈ gr.g_)
    (h1 : [a, A] ∈ prods) (h2 : [a] ∈ prods)
    (ha : gr.st_.IsTerminal a = true) (hne1 : a ≠ EOL_) (hne2 : a ≠ EPSILON_) :
    ∃ P, Returns (LL1Parser.create gr) P ∧
      ∃ r, Returns (CreateLL1Table P) r ∧ r.1 = false ∧ ∃ column cell,
        r.2.ll1_t_.find? A = some column ∧ column.find? a = some cell ∧
          [a, A] ∈ cell ∧ [a] ∈ cell := by
  obtain ⟨P, T, R, hP, _, _, rfl⟩ := create_returns gr
  exact ⟨_, hP, conflict_of_common_terminal _ A a prods rfl hnodup hrule h1 h2 ha hne1 hne2⟩

/-- The hypotheses of C9 hold for the grammar `A -> a A | a`. -/
theorem C9_conflict_detected_witness :
    ∃ P, Returns (LL1Parser.create ambiguousGrammar) P ∧
      ∃ r, Returns (CreateLL1Table P) r ∧ r.1 = false ∧ ∃ column cell,
        r.2.ll1_t_.find? "A" = some column ∧ column.find? "a" = some cell ∧
          ["a", "A"] ∈ cell ∧ ["a"] ∈ cell :=
  C9_conflict_detected ambiguousGrammar "A" "a" [["a", "A"], ["a"]] (by decide) (by decide)
    (by decide) (by decide) (by decide) (by decide) (by decide)

/-! ## Closure of LR(0) item sets (C10) -/

theorem Grammar.at?_eq_some {gr : Grammar} {k : String} {rules : List production}
    (h : gr.at? k = some rules) : (k, rules) ∈ gr.g_ := by
  unfold Grammar.at? at h
  rw [Option.map_eq_some'] at h
  obtain ⟨r, hr, rfl⟩ := h
  have h1 := List.mem_of_find?_eq_some hr
  have h2 := List.find?_some hr
  simp only [beq_iff_eq] at h2
  rw [← h2]
  exact h1

theorem Grammar.at?_ne_none {gr : Grammar} {k : String} (h : k ∈ gr.keys) :
    gr.at? k ≠ none := by
  unfold Grammar.at?
  simp only [Grammar.keys, List.mem_map] at h
  obtain ⟨r, hr, rfl⟩ := h
  simp only [ne_eq, Option.map_eq_none', List.find?_eq_none, not_forall]
  exact ⟨r, hr, by simp⟩

theorem Lr0Item.create_next_mem (A : String) (rule : List String)
    (h : (Lr0Item.create A rule).NextToDot ≠ EPSILON_) :
    (Lr0Item.create A rule).NextToDot ∈ rule := by
  unfold Lr0Item.create at h ⊢
  split_ifs at h ⊢ with h1
  · exfalso; apply h
    simp [Lr0Item.NextToDot, h1.1]
  · unfold Lr0Item.NextToDot at h ⊢
    simp only at h ⊢
    split_ifs at h ⊢ with h2
    · exact absurd rfl h
    · cases rule with
      | nil => simp at h2
      | cons a rest => simp

theorem mem_closureExpand {gr : Grammar} {B : String} {it : Lr0Item} :
    it ∈ closureExpand gr B ↔ ∃ rules, gr.at? B = some rules ∧ ∃ rule ∈ rules,
      it = Lr0Item.create B rule := by
  unfold closureExpand
  cases h : gr.at? B with
  | none => simp
  | some rules =>
    simp only [List.mem_toFinset, List.mem_map, Option.some.injEq, exists_eq_left']
    constructor
    · rintro ⟨rule, hr, rfl⟩; exact ⟨rule, hr, rfl⟩
    · rintro ⟨rule, hr, rfl⟩; exact ⟨rule, hr, rfl⟩

theorem mem_closureTargets {gr : Grammar} {items : Finset Lr0Item} {visited : Finset String}
    {B : String} : B ∈ closureTargets gr items visited ↔
      (∃ it ∈ items, it.NextToDot = B) ∧ B ≠ EPSILON_ ∧ gr.st_.IsTerminal B = false ∧
        B ∉ visited := by
  unfold closureTargets
  simp only [Finset.mem_filter, Finset.mem_image, Bool.not_eq_true]

theorem knownNext_expand {gr : Grammar} (hg : gr.Defined) (B : String) :
    KnownNext gr (closureExpand gr B) := by
  intro it hit h1 h2
  obtain ⟨rules, hrules, rule, hrule, rfl⟩ := mem_closureExpand.mp hit
  exact hg (B, rules) (Grammar.at?_eq_some hrules) rule hrule _
    (Lr0Item.create_next_mem B rule h1) h1 h2

theorem ClosureUtil_succ (gr : Grammar) (n : Nat) (items : Finset Lr0Item) (size : Nat)
    (visited : Finset String) :
    ClosureUtil gr (n + 1) items size visited =
      if ∃ next ∈ closureTargets gr items visited, gr.at? next = none then some none
      else if size ≠ (items ∪ (closureTargets gr items visited).biUnion (closureExpand gr)).card
        then ClosureUtil gr n
          (items ∪ (closureTargets gr items visited).biUnion (closureExpand gr))
          (items ∪ (closureTargets gr items visited).biUnion (closureExpand gr)).card
          (visited ∪ closureTargets gr items visited)
      else some (some (items ∪ (closureTargets gr items visited).biUnion (closureExpand gr))) :=
  rfl

theorem ClosureUtil_fuelMono (gr : Grammar) (items : Finset Lr0Item) (size : Nat)
    (visited : Finset String) : FuelMono fun n => ClosureUtil gr n items size visited := by
  intro n
  induction n generalizing items size visited with
  | zero => intro a h; simp [ClosureUtil] at h
  | succ n ih =>
    intro a h k hk
    obtain ⟨k, rfl⟩ : ∃ j, k = j + 1 := ⟨k - 1, by omega⟩
    simp only [ClosureUtil_succ] at h ⊢
    split_ifs at h ⊢ with h1 h2
    · exact h
    · exact ih _ _ _ a h k (by omega)
    · exact h

/-- The result of `ClosureUtil`, when it is an item set, is contained in every
closed item set that contains `items`. -/
theorem ClosureUtil_least (gr : Grammar) {n : Nat} {items : Finset Lr0Item} {size : Nat}
    {visited : Finset String} {J : Finset Lr0Item}
    (h : ClosureUtil gr n items size visited = some (some J)) :
    items ⊆ J ∧ ∀ J', items ⊆ J' → ClosedItems gr J' → J ⊆ J' := by
  induction n generalizing items size visited with
  | zero => simp [ClosureUtil] at h
  | succ n ih =>
    have hnew : ∀ J', items ⊆ J' → ClosedItems gr J' →
        items ∪ (closureTargets gr items visited).biUnion (closureExpand gr) ⊆ J' := by
      intro J' hsub hcl
      apply Finset.union_subset hsub
      intro it hit
      obtain ⟨B, hB, hitB⟩ := Finset.mem_biUnion.mp hit
      obtain ⟨⟨it0, hit0, rfl⟩, b1, b2, _⟩ := mem_closureTargets.mp hB
      obtain ⟨rules, hrules, rule, hrule, rfl⟩ := mem_closureExpand.mp hitB
      exact hcl it0 (hsub hit0) b1 b2 rules hrules rule hrule
    simp only [ClosureUtil_succ] at h
    split_ifs at h with h1 h2
    · cases h
    · obtain ⟨i1, i2⟩ := ih h
      exact ⟨Finset.subset_union_left.trans i1, fun J' hsub hcl => i2 J' (hnew J' hsub hcl) hcl⟩
    · simp only [Option.some.injEq] at h
      subst h
      exact ⟨Finset.subset_union_left, hnew⟩

theorem ClosureUtil_exists (gr : Grammar) (hg : gr.Defined) (U : Finset Lr0Item) :
    ∀ d (items : Finset Lr0Item) (visited : Finset String), ClosureInv gr U items visited →
      U.card - items.card ≤ d →
      ∃ J, ClosureUtil gr (d + 1) items items.card visited = some (some J) ∧
        ClosedItems gr J := by
  intro d
  induction d with
  | zero =>
    intro items visited ⟨v1, v2, v3, v4⟩ hd
    have hno : ¬ ∃ next ∈ closureTargets gr items visited, gr.at? next = none := by
      rintro ⟨B, hB, hnone⟩
      obtain ⟨⟨it0, hit0, rfl⟩, b1, b2, _⟩ := mem_closureTargets.mp hB
      exact Grammar.at?_ne_none (v2 it0 hit0 b1 b2) hnone
    have hsubU : items ∪ (closureTargets gr items visited).biUnion (closureExpand gr) ⊆ U :=
      Finset.union_subset v3 (Finset.biUnion_subset.mpr fun B _ => v4 B)
    have hcard : items.card =
        (items ∪ (closureTargets gr items visited).biUnion (closureExpand gr)).card := by
      have h1 := Finset.card_le_card hsubU
      have h2 : items.card ≤
          (items ∪ (closureTargets gr items visited).biUnion (closureExpand gr)).card :=
        Finset.card_le_card Finset.subset_union_left
      have h3 := Finset.card_le_card v3
      omega
    have heq : items ∪ (closureTargets gr items visited).biUnion (closureExpand gr) = items :=
      (Finset.eq_of_subset_of_card_le Finset.subset_union_left (le_of_eq hcard.symm)).symm
    rw [ClosureUtil_succ, if_neg hno, if_neg (not_not.mpr hcard)]
    refine ⟨_, rfl, ?_⟩
    rw [heq]
    intro it hit b1 b2 rules hrules rule hrule
    have hex : Lr0Item.create it.NextToDot rule ∈ closureExpand gr it.NextToDot :=
      mem_closureExpand.mpr ⟨rules, hrules, rule, hrule, rfl⟩
    by_cases hv : it.NextToDot ∈ visited
    · exact v1 _ hv hex
    · rw [← heq]
      apply Finset.mem_union_right
      exact Finset.mem_biUnion.mpr
        ⟨_, mem_closureTargets.mpr ⟨⟨it, hit, rfl⟩, b1, b2, hv⟩, hex⟩
  | succ d ih =>
    intro items visited ⟨v1, v2, v3, v4⟩ hd
    have hno : ¬ ∃ next ∈ closureTargets gr items visited, gr.at? next = none := by
      rintro ⟨B, hB, hnone⟩
      obtain ⟨⟨it0, hit0, rfl⟩, b1, b2, _⟩ := mem_closureTargets.mp hB
      exact Grammar.at?_ne_none (v2 it0 hit0 b1 b2) hnone
    have hsubU : items ∪ (closureTargets gr items visited).biUnion (closureExpand gr) ⊆ U :=
      Finset.union_subset v3 (Finset.biUnion_subset.mpr fun B _ => v4 B)
    rw [ClosureUtil_succ, if_neg hno]
    by_cases hcard : items.card =
        (items ∪ (closureTargets gr items visited).biUnion (closureExpand gr)).card
    · have heq : items ∪ (closureTargets gr items visited).biUnion (closureExpand gr) = items :=
        (Finset.eq_of_subset_of_card_le Finset.subset_union_left (le_of_eq hcard.symm)).symm
      rw [if_neg (not_not.mpr hcard)]
      refine ⟨_, rfl, ?_⟩
      rw [heq]
      intro it hit b1 b2 rules hrules rule hrule
      have hex : Lr0Item.create it.NextToDot rule ∈ closureExpand gr it.NextToDot :=
        mem_closureExpand.mpr ⟨rules, hrules, rule, hrule, rfl⟩
      by_cases hv : it.NextToDot ∈ visited
      · exact v1 _ hv hex
      · rw [← heq]
        apply Finset.mem_union_right
        exact Finset.mem_biUnion.mpr
          ⟨_, mem_closureTargets.mpr ⟨⟨it, hit, rfl⟩, b1, b2, hv⟩, hex⟩
    · rw [if_pos hcard]
      apply ih
      · refine ⟨?_, ?_, hsubU, v4⟩
        · intro B hB
          rcases Finset.mem_union.mp hB with h | h
          · exact (v1 B h).trans Finset.subset_union_left
          · exact (Finset.subset_biUnion_of_mem (closureExpand gr) h).trans
              Finset.subset_union_right
        · intro it hit
          rcases Finset.mem_union.mp hit with h | h
          · exact v2 it h
          · obtain ⟨B, _, hitB⟩ := Finset.mem_biUnion.mp h
            exact knownNext_expand hg B it hitB
      · have h1 := Finset.card_le_card hsubU
        have h2 : items.card ≤
            (items ∪ (closureTargets gr items visited).biUnion (closureExpand gr)).card :=
          Finset.card_le_card Finset.subset_union_left
        omega

theorem closureExpand_subset (gr : Grammar) (B : String) :
    closureExpand gr B ⊆ gr.initialItems := by
  intro it hit
  obtain ⟨rules, hrules, rule, hrule, rfl⟩ := mem_closureExpand.mp hit
  simp only [Grammar.initialItems, List.mem_toFinset, List.mem_flatMap, List.mem_map]
  exact ⟨(B, rules), Grammar.at?_eq_some hrules, rule, hrule, rfl⟩

/-- For every grammar in which each non-terminal occurring in a production
is a key of the rule map, and every item set `I` in which each non-terminal
immediately after a dot is a key of the rule map, `Closure(I)` returns the
least set `J` containing `I` that is closed under the expansion of the
non-terminals after a dot. -/
theorem Closure_least_of_knownNext (gr : Grammar) (I : Finset Lr0Item)
    (hg : ∀ r ∈ gr.g_, ∀ p ∈ r.2, ∀ B ∈ p, B ≠ EPSILON_ → gr.st_.IsTerminal B = false →
      B ∈ gr.keys)
    (hI : ∀ it ∈ I, it.NextToDot ≠ EPSILON_ → gr.st_.IsTerminal it.NextToDot = false →
      it.NextToDot ∈ gr.keys) :
    ∃ J, Returns (Closure gr I) (some J) ∧ I ⊆ J ∧ ClosedItems gr J ∧
      ∀ J', I ⊆ J' → ClosedItems gr J' → J ⊆ J' := by
  have hinv : ClosureInv gr (I ∪ gr.initialItems) I ∅ :=
    ⟨fun B hB => absurd hB (Finset.not_mem_empty _), hI, Finset.subset_union_left,
      fun B => (closureExpand_subset gr B).trans Finset.subset_union_right⟩
  obtain ⟨J, hJ, hcl⟩ := ClosureUtil_exists gr hg _ _ I ∅ hinv (le_refl _)
  obtain ⟨h1, h2⟩ := ClosureUtil_least gr hJ
  exact ⟨J, (ClosureUtil_fuelMono gr I I.card ∅).returns hJ, h1, hcl, h2⟩

/-- An item set returned by `ClosureUtil` is expanded, provided the symbols
already visited were expanded into `items`. -/
theorem ClosureUtil_expanded (gr : Grammar) {n : Nat} {items : Finset Lr0Item}
    {visited : Finset String} {J : Finset Lr0Item}
    (h : ClosureUtil gr n items items.card visited = some (some J))
    (hv : ∀ B ∈ visited, gr.at? B ≠ none ∧ closureExpand gr B ⊆ items) :
    ExpandedItems gr J := by
  induction n generalizing items visited with
  | zero => simp [ClosureUtil] at h
  | succ n ih =>
    simp only [ClosureUtil_succ] at h
    split_ifs at h with h1 h2
    · cases h
    · apply ih h
      intro B hB
      rcases Finset.mem_union.mp hB with hB | hB
      · exact ⟨(hv B hB).1, (hv B hB).2.trans Finset.subset_union_left⟩
      · refine ⟨fun hnone => h1 ⟨B, hB, hnone⟩, ?_⟩
        exact (Finset.subset_biUnion_of_mem (closureExpand gr) hB).trans
          Finset.subset_union_right
    · simp only [Option.some.injEq] at h
      have hcard : items.card =
          (items ∪ (closureTargets gr items visited).biUnion (closureExpand gr)).card :=
        not_not.mp h2
      have heq : items ∪ (closureTargets gr items visited).biUnion (closureExpand gr) = items :=
        (Finset.eq_of_subset_of_card_le Finset.subset_union_left (le_of_eq hcard.symm)).symm
      rw [heq] at h
      subst h
      intro it hit b1 b2
      by_cases hvis : it.NextToDot ∈ visited
      · exact hv _ hvis
      · have ht : it.NextToDot ∈ closureTargets gr items visited :=
          mem_closureTargets.mpr ⟨⟨it, hit, rfl⟩, b1, b2, hvis⟩
        refine ⟨fun hnone => h1 ⟨_, ht, hnone⟩, ?_⟩
        rw [← heq]
        exact (Finset.subset_biUnion_of_mem (closureExpand gr) ht).trans
          Finset.subset_union_right

/-- On an expanded item set `Closure` returns the set itself after one call
of `ClosureUtil`. -/
theorem Closure_of_expanded (gr : Grammar) {J : Finset Lr0Item} (hJ : ExpandedItems gr J)
    (n : Nat) : Closure gr J (n + 1) = some (some J) := by
  have hno : ¬ ∃ next ∈ closureTargets gr J ∅, gr.at? next = none := by
    rintro ⟨B, hB, hnone⟩
    obtain ⟨⟨it0, hit0, rfl⟩, b1, b2, _⟩ := mem_closureTargets.mp hB
    exact (hJ it0 hit0 b1 b2).1 hnone
  have heq : J ∪ (closureTargets gr J ∅).biUnion (closureExpand gr) = J := by
    apply Finset.union_eq_left.mpr
    apply Finset.biUnion_subset.mpr
    intro B hB
    obtain ⟨⟨it0, hit0, rfl⟩, b1, b2, _⟩ := mem_closureTargets.mp hB
    exact (hJ it0 hit0 b1 b2).2
  unfold Closure
  rw [ClosureUtil_succ, if_neg hno, heq, if_neg (not_not.mpr rfl)]

/-- C11: `Closure` is idempotent.  For every grammar and every item set `I`
on which `Closure` is defined (it returns an item set `J` rather than
throwing), `Closure` applied to `J` returns `J` again. -/
theorem C11_closure_idempotent (gr : Grammar) (I J : Finset Lr0Item)
    (h : Returns (Closure gr I) (some J)) : Returns (Closure gr J) (some J) := by
  obtain ⟨N, hN⟩ := h
  have hJ : ExpandedItems gr J :=
    ClosureUtil_expanded gr (hN N (le_refl _))
      (fun B hB => absurd hB (Finset.not_mem_empty _))
  refine ⟨1, fun n hn => ?_⟩
  obtain ⟨k, rfl⟩ : ∃ j, n = j + 1 := ⟨n - 1, by omega⟩
  exact Closure_of_expanded gr hJ k

/-- The hypothesis of C11 holds for `S -> A $`, `A -> a A | b` and the item
set of the initial item. -/
theorem C11_closure_idempotent_witness :
    Returns (Closure classicGrammar {Lr0Item.create "S" ["A", "$"]})
      (some classicInitialClosure) ∧
    Returns (Closure classicGrammar classicInitialClosure) (some classicInitialClosure) :=
  have h : Returns (Closure classicGrammar {Lr0Item.create "S" ["A", "$"]})
      (some classicInitialClosure) :=
    (ClosureUtil_fuelMono classicGrammar _ _ ∅).returns (n := 3) (by decide)
  ⟨h, C11_closure_idempotent classicGrammar _ _ h⟩

/-! ## `Split` (C16 - C19) -/

theorem u32_of_lt {n : Nat} (h : n < 2 ^ 32) : u32 n = n := Nat.mod_eq_of_lt h

theorem u32_sub {a b : Nat} (hab : a ≤ b) (hb : b < 2 ^ 32) : u32 (b + 2 ^ 32 - a) = b - a := by
  unfold u32
  have : b + 2 ^ 32 - a = (b - a) + 2 ^ 32 := by omega
  rw [this, Nat.add_mod_right]
  exact Nat.mod_eq_of_lt (by omega)

theorem substr_eq {s : String} {pos : Nat} (h : pos ≤ s.length) (len : Nat) :
    substr s pos len = some ⟨(s.data.drop pos).take len⟩ := by
  unfold substr
  rw [if_neg (by omega)]

theorem splitLookahead_spec (t : SymbolTable) (s : String) (hlen : s.length + 1 < 2 ^ 32)
    (start : Nat) :
    ∀ k end_ la, start < end_ → end_ < la → la ≤ s.length + 1 → s.length + 1 - la ≤ k →
      ∃ e1, (∀ n, k + 1 ≤ n → splitLookahead t s start n end_ la = some (some e1)) ∧
        end_ ≤ e1 ∧ e1 ≤ s.length ∧
        (e1 = end_ ∨ t.In ⟨(s.data.drop start).take (e1 - start)⟩ = true) ∧
        ∀ j, la ≤ j → j ≤ s.length → t.In ⟨(s.data.drop start).take (j - start)⟩ = true →
          j ≤ e1 := by
  intro k
  induction k with
  | zero =>
    intro end_ la h1 h2 h3 h4
    have hla : la = s.length + 1 := by omega
    refine ⟨end_, fun n hn => ?_, le_refl _, by omega, Or.inl rfl, fun j hj1 hj2 _ => by omega⟩
    obtain ⟨n, rfl⟩ : ∃ m, n = m + 1 := ⟨n - 1, by omega⟩
    simp only [splitLookahead]
    rw [if_neg (by omega)]
  | succ k ih =>
    intro end_ la h1 h2 h3 h4
    by_cases hla : la ≤ s.length
    · have hsub : substr s start (u32 (la + 2 ^ 32 - start)) =
          some ⟨(s.data.drop start).take (la - start)⟩ := by
        rw [u32_sub (by omega) (by omega)]
        exact substr_eq (by omega) _
      have hnext : u32 (la + 1) = la + 1 := u32_of_lt (by omega)
      by_cases hin : t.In ⟨(s.data.drop start).take (la - start)⟩ = true
      · obtain ⟨e1, i1, i2, i3, i4, i5⟩ := ih la (la + 1) (by omega) (by omega) (by omega) (by omega)
        refine ⟨e1, fun n hn => ?_, by omega, i3, ?_, fun j hj1 hj2 hj3 => ?_⟩
        · obtain ⟨n, rfl⟩ : ∃ m, n = m + 1 := ⟨n - 1, by omega⟩
          simp only [splitLookahead]
          rw [if_pos hla, hsub]
          simp only [hin, if_true, hnext]
          exact i1 n (by omega)
        · rcases i4 with h | h
          · right; rw [h]; exact hin
          · right; exact h
        · by_cases hj : j = la
          · omega
          · exact i5 j (by omega) hj2 hj3
      · obtain ⟨e1, i1, i2, i3, i4, i5⟩ := ih end_ (la + 1) h1 (by omega) (by omega) (by omega)
        refine ⟨e1, fun n hn => ?_, i2, i3, i4, fun j hj1 hj2 hj3 => ?_⟩
        · obtain ⟨n, rfl⟩ : ∃ m, n = m + 1 := ⟨n - 1, by omega⟩
          simp only [splitLookahead]
          rw [if_pos hla, hsub]
          simp only [hin, hnext]
          exact i1 n (by omega)
        · by_cases hj : j = la
          · subst hj; exact absurd hj3 hin
          · exact i5 j (by omega) hj2 hj3
    · refine ⟨end_, fun n hn => ?_, le_refl _, by omega, Or.inl rfl, fun j hj1 hj2 _ => by omega⟩
      obtain ⟨n, rfl⟩ : ∃ m, n = m + 1 := ⟨n - 1, by omega⟩
      simp only [splitLookahead]
      rw [if_neg hla]

theorem splitLoop_spec (t : SymbolTable) (s : String) (hlen : s.length + 1 < 2 ^ 32) :
    ∀ m start end_ splitted, start < end_ → end_ ≤ s.length + 1 → start ≤ s.length →
      (∀ j, 1 ≤ j → j < end_ - start → t.In ⟨(s.data.drop start).take j⟩ = false) →
      2 * (s.length - start) + (s.length + 1 - end_) ≤ m →
      ∃ toks ok st, GreedyScan t (s.data.drop start) toks ok ∧
        (∀ fuel n, s.length + 1 ≤ fuel → m + 1 ≤ n →
          splitLoop t s fuel n start end_ splitted =
            some (some (splitted ++ toks, st, s.length + 1))) ∧
        st ≤ s.length ∧ (ok = true ↔ st = s.length) := by
  intro m
  induction m using Nat.strong_induction_on with
  | _ m ih =>
    intro start end_ splitted h1 h2 h3 hinv hm
    have hdl : (s.data.drop start).length = s.length - start := by
      rw [List.length_drop]; rfl
    by_cases hend : end_ ≤ s.length
    · have hsub : substr s start (u32 (end_ + 2 ^ 32 - start)) =
          some ⟨(s.data.drop start).take (end_ - start)⟩ := by
        rw [u32_sub (by omega) (by omega)]
        exact substr_eq (by omega) _
      have hnext : u32 (end_ + 1) = end_ + 1 := u32_of_lt (by omega)
      by_cases hin : t.In ⟨(s.data.drop start).take (end_ - start)⟩ = true
      · obtain ⟨e1, i1, i2, i3, i4, i5⟩ :=
          splitLookahead_spec t s hlen start (s.length + 1 - (end_ + 1)) end_ (end_ + 1) h1
            (by omega) (by omega) (le_refl _)
        have hine1 : t.In ⟨(s.data.drop start).take (e1 - start)⟩ = true := by
          rcases i4 with h | h
          · rw [h]; exact hin
          · exact h
        have hlm : LongestMatch t (s.data.drop start) (e1 - start) := by
          refine ⟨by omega, by omega, hine1, fun j hj1 hj2 => ?_⟩
          by_contra hc
          have hc' : t.In ⟨(s.data.drop start).take (start + j - start)⟩ = true := by
            rw [Nat.add_sub_cancel_left]
            simpa using hc
          have := i5 (start + j) (by omega) (by omega) hc'
          omega
        obtain ⟨toks, ok, st, j1, j2, j3, j4⟩ :=
          ih (2 * (s.length - e1) + (s.length + 1 - (e1 + 1))) (by omega) e1 (e1 + 1)
            (splitted ++ [⟨(s.data.drop start).take (e1 - start)⟩]) (by omega) (by omega) i3
            (fun j hj1 hj2 => by omega) (le_refl _)
        have hdrop : (s.data.drop start).drop (e1 - start) = s.data.drop e1 := by
          rw [List.drop_drop]; congr 1; omega
        refine ⟨_ :: toks, ok, st, GreedyScan.token _ _ toks ok hlm (by rw [hdrop]; exact j1),
          fun fuel n hf hn => ?_, j3, j4⟩
        obtain ⟨n, rfl⟩ : ∃ k, n = k + 1 := ⟨n - 1, by omega⟩
        have hsub2 : substr s start (u32 (e1 + 2 ^ 32 - start)) =
            some ⟨(s.data.drop start).take (e1 - start)⟩ := by
          rw [u32_sub (by omega) (by omega)]
          exact substr_eq (by omega) _
        have hnext2 : u32 (e1 + 1) = e1 + 1 := u32_of_lt (by omega)
        simp only [splitLoop]
        rw [if_pos hend, hsub]
        simp only [hin, if_true, hnext, i1 fuel (by omega), hsub2, hnext2]
        rw [j2 fuel n hf (by omega)]
        simp
      · obtain ⟨toks, ok, st, j1, j2, j3, j4⟩ :=
          ih (m - 1) (by omega) start (end_ + 1) splitted (by omega) (by omega) h3
            (fun j hj1 hj2 => by
              by_cases hj : j = end_ - start
              · subst hj; simpa using hin
              · exact hinv j hj1 (by omega))
            (by omega)
        refine ⟨toks, ok, st, j1, fun fuel n hf hn => ?_, j3, j4⟩
        obtain ⟨n, rfl⟩ : ∃ k, n = k + 1 := ⟨n - 1, by omega⟩
        simp only [splitLoop]
        rw [if_pos hend, hsub]
        simp only [hin, hnext]
        exact j2 fuel n hf (by omega)
    · have hexit : ∀ fuel n, m + 1 ≤ n →
          splitLoop t s fuel n start end_ splitted = some (some (splitted, start, end_)) := by
        intro fuel n hn
        obtain ⟨n, rfl⟩ : ∃ k, n = k + 1 := ⟨n - 1, by omega⟩
        simp only [splitLoop]
        rw [if_neg hend]
      have he : end_ = s.length + 1 := by omega
      by_cases hst : start = s.length
      · refine ⟨[], true, start, ?_, fun fuel n _ hn => ?_, h3, by simp [hst]⟩
        · have : s.data.drop start = [] := by
            apply List.drop_eq_nil_of_le; rw [hst]; exact le_refl _
          rw [this]; exact GreedyScan.done
        · rw [hexit fuel n hn, he, List.append_nil]
      · refine ⟨[], false, start, ?_, fun fuel n _ hn => ?_, h3, by simp [hst]⟩
        · apply GreedyScan.stuck
          · intro h
            have := congrArg List.length h
            rw [hdl] at this
            simp at this
            omega
          · intro j hj1 hj2
            rw [hdl] at hj2
            exact hinv j hj1 (by omega)
        · rw [hexit fuel n hn, he, List.append_nil]

/-- The result of `Split`, for a string other than `EPSILON_` whose length
keeps the `unsigned` indices from wrapping: the tokens of the greedy scan when
it reaches the end of the string, the empty sequence otherwise. -/
theorem Split_spec (gr : Grammar) (s : String) (hs : s ≠ EPSILON_)
    (hlen : s.length + 1 < 2 ^ 32) :
    ∃ toks ok, GreedyScan gr.st_ s.data toks ok ∧
      ∀ n, 3 * s.length + 1 ≤ n → gr.Split s n = some (some (if ok then toks else [])) := by
  obtain ⟨toks, ok, st, h1, h2, h3, h4⟩ :=
    splitLoop_spec gr.st_ s hlen (3 * s.length) 0 1 [] (by omega) (by omega) (by omega)
      (fun j hj1 hj2 => by omega) (by omega)
  refine ⟨toks, ok, h1, fun n hn => ?_⟩
  unfold Grammar.Split
  rw [if_neg hs, h2 n n (by omega) hn]
  have hu : u32 (s.length + 1 + 2 ^ 32 - 1) = s.length :=
    (u32_sub (a := 1) (b := s.length + 1) (by omega) hlen).trans (Nat.add_sub_cancel s.length 1)
  simp only [List.nil_append, hu]
  cases ok with
  | true =>
    have : st = s.length := h4.mp rfl
    simp [this]
  | false =>
    have : st ≠ s.length := fun h => by simpa using h4.mpr h
    have hlt : st < s.length := by omega
    simp [hlt]

theorem String.join_data_aux (l : List String) (acc : String) :
    (l.foldl (fun r s => r ++ s) acc).data = acc.data ++ (l.map String.data).flatten := by
  induction l generalizing acc with
  | nil => simp
  | cons a l ih => simp [ih, String.data_append]

theorem String.join_data (l : List String) :
    (String.join l).data = (l.map String.data).flatten := by
  unfold String.join
  rw [String.join_data_aux]
  rfl

theorem greedyScan_registered {t : SymbolTable} {r : List Char} {toks : List String} {ok : Bool}
    (h : GreedyScan t r toks ok) : ∀ x ∈ toks, t.In x = true := by
  induction h with
  | done => simp
  | stuck r _ _ => simp
  | token r k toks ok hlm _ ih =>
    intro x hx
    rcases List.mem_cons.mp hx with rfl | hx
    · exact hlm.2.2.1
    · exact ih x hx

theorem greedyScan_concat {t : SymbolTable} {r : List Char} {toks : List String}
    (h : GreedyScan t r toks true) : (toks.map String.data).flatten = r := by
  generalize hok : true = ok at h
  induction h with
  | done => rfl
  | stuck r _ _ => cases hok
  | token r k toks ok _ _ ih =>
    simp only [List.map_cons, List.flatten_cons, ih hok]
    exact List.take_append_drop k r

theorem greedyScan_longest {t : SymbolTable} {r : List Char} {toks : List String}
    (h : GreedyScan t r toks true) :
    ∀ pre tok post, toks = pre ++ tok :: post →
      ∀ u : String, t.In u = true → u.data <+: ((tok :: post).map String.data).flatten →
        u.length ≤ tok.length := by
  generalize hok : true = ok at h
  induction h with
  | done => intro pre tok post h; simp at h
  | stuck r _ _ => cases hok
  | token r k toks ok hlm hrest ih =>
    subst hok
    intro pre tok post heq u hu hpre
    cases pre with
    | nil =>
      simp only [List.nil_append, List.cons.injEq] at heq
      obtain ⟨rfl, rfl⟩ := heq
      have hcat : ((⟨r.take k⟩ :: toks : List String).map String.data).flatten = r := by
        simp only [List.map_cons, List.flatten_cons, (greedyScan_concat hrest)]
        exact List.take_append_drop k r
      rw [hcat] at hpre
      have hur : u.data = r.take u.length := by
        have := List.prefix_iff_eq_take.mp hpre
        exact this
      have hule : u.length ≤ r.length := hpre.length_le
      have htl : (⟨r.take k⟩ : String).length = k := by
        show (r.take k).length = k
        rw [List.length_take]; exact Nat.min_eq_left hlm.2.1
      rw [htl]
      by_contra hc
      have hf := hlm.2.2.2 u.length (by omega) hule
      rw [← hur] at hf
      have : (⟨u.data⟩ : String) = u := rfl
      rw [this, hu] at hf
      cases hf
    | cons p pre =>
      simp only [List.cons_append, List.cons.injEq] at heq
      exact ih rfl pre tok post heq.2 u hu hpre

/-- Under prefix-freeness the greedy scan of a concatenation of registered
non-empty symbols takes exactly these symbols and reaches the end. -/
theorem greedyScan_roundtrip {t : SymbolTable}
    (hpf : ∀ a b : String, t.In a = true → t.In b = true → a.data <+: b.data → a = b) :
    ∀ (ws : List String), (∀ w ∈ ws, t.In w = true ∧ w ≠ "") →
      ∀ toks ok, GreedyScan t (ws.map String.data).flatten toks ok → toks = ws ∧ ok = true := by
  intro ws
  induction ws with
  | nil =>
    intro _ toks ok h
    simp only [List.map_nil, List.flatten_nil] at h
    cases h with
    | done => exact ⟨rfl, rfl⟩
    | stuck _ h1 _ => exact absurd rfl h1
    | token _ k toks ok hlm _ =>
      have := hlm.1; have := hlm.2.1
      simp at *
      omega
  | cons w ws ih =>
    intro hws toks ok h
    have hw := hws w (List.mem_cons_self _ _)
    have hwne : w.data ≠ [] := by
      intro hd
      apply hw.2
      show (⟨w.data⟩ : String) = ""
      rw [hd]
    have hwpos : 1 ≤ w.data.length := List.length_pos.mpr hwne
    have hr : ((w :: ws).map String.data).flatten = w.data ++ (ws.map String.data).flatten := by
      simp
    rw [hr] at h
    have htakew : (w.data ++ (ws.map String.data).flatten).take w.data.length = w.data := by
      simp
    generalize hR : w.data ++ (ws.map String.data).flatten = R at h htakew
    cases h with
    | done =>
      exfalso
      have := congrArg List.length hR
      rw [List.length_append, List.length_nil] at this
      omega
    | stuck _ _ h2 =>
      exfalso
      have hle : w.data.length ≤ R.length := by rw [← hR]; simp
      have := h2 w.data.length hwpos hle
      rw [htakew] at this
      have h3 : (⟨w.data⟩ : String) = w := rfl
      rw [h3, hw.1] at this
      cases this
    | token _ k toks ok hlm hrest =>
      have hpre1 : (R.take k) <+: R := List.take_prefix k R
      have hpre2 : w.data <+: R := by rw [← hR]; exact List.prefix_append _ _
      have hkw : (⟨R.take k⟩ : String) = w := by
        rcases List.prefix_or_prefix_of_prefix hpre1 hpre2 with h | h
        · exact hpf _ _ hlm.2.2.1 hw.1 h
        · exact (hpf _ _ hw.1 hlm.2.2.1 h).symm
      have hk : k = w.data.length := by
        have := congrArg String.length hkw
        have h5 : (⟨R.take k⟩ : String).length = k := by
          show (R.take k).length = k
          rw [List.length_take]; exact Nat.min_eq_left hlm.2.1
        rw [h5] at this
        exact this
      have hdrop : R.drop k = (ws.map String.data).flatten := by
        rw [hk, ← hR]; simp
      rw [hdrop] at hrest
      obtain ⟨i1, i2⟩ := ih (fun x hx => hws x (List.mem_cons_of_mem _ hx)) toks ok hrest
      rw [hkw, i1]
      exact ⟨rfl, i2⟩

theorem longestMatch_unique {t : SymbolTable} {r : List Char} {k k' : Nat}
    (h : LongestMatch t r k) (h' : LongestMatch t r k') : k = k' := by
  rcases Nat.lt_trichotomy k k' with hlt | heq | hgt
  · have := h.2.2.2 k' hlt h'.2.1
    rw [h'.2.2.1] at this; cases this
  · exact heq
  · have := h'.2.2.2 k hgt h.2.1
    rw [h.2.2.1] at this; cases this

theorem greedyScan_unique {t : SymbolTable} {r : List Char} {toks toks' : List String}
    {ok ok' : Bool} (h : GreedyScan t r toks ok) (h' : GreedyScan t r toks' ok') :
    toks = toks' ∧ ok = ok' := by
  induction h generalizing toks' ok' with
  | done =>
    cases h' with
    | done => exact ⟨rfl, rfl⟩
    | stuck _ h1 _ => exact absurd rfl h1
    | token _ k _ _ hlm _ =>
      have := hlm.1; have := hlm.2.1
      simp only [List.length_nil] at *
      omega
  | stuck r h1 h2 =>
    cases h' with
    | done => exact absurd rfl h1
    | stuck _ _ _ => exact ⟨rfl, rfl⟩
    | token _ k _ _ hlm _ =>
      have := h2 k hlm.1 hlm.2.1
      rw [hlm.2.2.1] at this; cases this
  | token r k toks ok hlm _ ih =>
    cases h' with
    | done =>
      have := hlm.1; have := hlm.2.1
      simp only [List.length_nil] at *
      omega
    | stuck _ _ h2 =>
      have := h2 k hlm.1 hlm.2.1
      rw [hlm.2.2.1] at this; cases this
    | token _ k' toks' _ hlm' hrest' =>
      have hk := longestMatch_unique hlm hlm'
      subst hk
      obtain ⟨i1, i2⟩ := ih hrest'
      rw [i1]
      exact ⟨rfl, i2⟩

theorem String.join_append_join (a b : List String) :
    String.join (a ++ b) = String.join a ++ String.join b := by
  apply String.ext
  simp [String.join_data, String.data_append]

theorem String.eq_empty_of_data {s : String} (h : s.data = []) : s = "" := by
  apply String.ext
  rw [h]

/-- C16: round trip of the tokenizer.  For every symbol table in which no
registered symbol is a proper prefix of another registered symbol (the
reserved `EPSILON_` is registered) and every sequence of registered, non-empty
symbols whose concatenation keeps the `unsigned` indices of `Split` from
wrapping, `Split` applied to the concatenation returns exactly that
sequence. -/
theorem C16_split_round_trip (gr : Grammar) (ws : List String)
    (hpf : ∀ a ∈ gr.st_.st_.keys, ∀ b ∈ gr.st_.st_.keys, a.data <+: b.data → a = b)
    (hε : EPSILON_ ∈ gr.st_.st_.keys)
    (hws : ∀ w ∈ ws, w ∈ gr.st_.st_.keys ∧ w ≠ "")
    (hlen : (String.join ws).length + 1 < 2 ^ 32) :
    Returns (gr.Split (String.join ws)) (some ws) := by
  have hpf' : ∀ a b : String, gr.st_.In a = true → gr.st_.In b = true → a.data <+: b.data →
      a = b := fun a b ha hb => hpf a (by simpa [SymbolTable.In] using ha) b
        (by simpa [SymbolTable.In] using hb)
  have hws' : ∀ w ∈ ws, gr.st_.In w = true ∧ w ≠ "" := fun w hw =>
    ⟨by simpa [SymbolTable.In] using (hws w hw).1, (hws w hw).2⟩
  by_cases hs : String.join ws = EPSILON_
  · have hws1 : ws = [EPSILON_] := by
      cases ws with
      | nil => exact absurd hs (by decide)
      | cons w ws =>
        have hd := congrArg String.data hs
        rw [String.join_data] at hd
        simp only [List.map_cons, List.flatten_cons] at hd
        have hw := hws w (List.mem_cons_self _ _)
        have hwe : w = EPSILON_ := hpf w hw.1 EPSILON_ hε (by rw [← hd]; exact List.prefix_append _ _)
        subst hwe
        have hrest : (ws.map String.data).flatten = [] := by
          have := @List.append_cancel_left _ EPSILON_.data (ws.map String.data).flatten []
            (by rw [hd]; simp)
          exact this
        cases ws with
        | nil => rfl
        | cons v ws =>
          exfalso
          have hv := hws v (List.mem_cons_of_mem _ (List.mem_cons_self _ _))
          simp only [List.map_cons, List.flatten_cons, List.append_eq_nil] at hrest
          exact hv.2 (String.eq_empty_of_data hrest.1)
    rw [hws1]
    refine ⟨0, fun n _ => ?_⟩
    unfold Grammar.Split
    rw [if_pos (by decide)]
  · obtain ⟨toks, ok, h1, h2⟩ := Split_spec gr _ hs hlen
    rw [String.join_data] at h1
    obtain ⟨i1, i2⟩ := greedyScan_roundtrip hpf' ws hws' toks ok h1
    subst i1 i2
    exact ⟨_, h2⟩

/-- The hypotheses of C16 hold for the table with `a` and `b` registered and
the sequence `a b a`. -/
theorem C16_split_round_trip_witness :
    (∀ a ∈ plainGrammar.st_.st_.keys, ∀ b ∈ plainGrammar.st_.st_.keys, a.data <+: b.data → a = b) ∧
    EPSILON_ ∈ plainGrammar.st_.st_.keys ∧
    (∀ w ∈ ["a", "b", "a"], w ∈ plainGrammar.st_.st_.keys ∧ w ≠ "") ∧
    (String.join ["a", "b", "a"]).length + 1 < 2 ^ 32 ∧
    Returns (plainGrammar.Split (String.join ["a", "b", "a"])) (some ["a", "b", "a"]) :=
  ⟨by decide, by decide, by decide, by decide,
   C16_split_round_trip plainGrammar ["a", "b", "a"] (by decide) (by decide) (by decide)
     (by decide)⟩

/-- C17: for every string `s` (whose length keeps the `unsigned` indices from
wrapping) `Split` returns a sequence and does not raise.  If the sequence is
not empty, every element of it is a registered symbol and the concatenation
of the elements is `s`; the sequence is empty exactly when `s` is empty or the
greedy scan stops before the end of `s`. -/
theorem C17_split_sound_or_empty (gr : Grammar) (s : String)
    (hε : EPSILON_ ∈ gr.st_.st_.keys) (hlen : s.length + 1 < 2 ^ 32) :
    ∃ r, Returns (gr.Split s) (some r) ∧
      (r ≠ [] → (∀ x ∈ r, gr.st_.In x = true) ∧ String.join r = s) ∧
      (r = [] ↔ s = "" ∨ ∃ toks, GreedyScan gr.st_ s.data toks false) := by
  have hεin : gr.st_.In EPSILON_ = true := by simpa [SymbolTable.In] using hε
  by_cases hs : s = EPSILON_
  · subst hs
    refine ⟨[EPSILON_], ⟨0, fun n _ => ?_⟩, fun _ => ⟨?_, ?_⟩, ?_⟩
    · unfold Grammar.Split; rw [if_pos rfl]
    · intro x hx
      rw [List.mem_singleton.mp hx]; exact hεin
    · decide
    · constructor
      · intro h; cases h
      · rintro (h | ⟨toks, h⟩)
        · exact absurd h (by decide)
        · exfalso
          have hlm : LongestMatch gr.st_ EPSILON_.data EPSILON_.data.length :=
            ⟨by decide, le_refl _, by rw [List.take_length]; exact hεin,
              fun j h1 h2 => by omega⟩
          have hscan : GreedyScan gr.st_ EPSILON_.data [⟨EPSILON_.data.take EPSILON_.data.length⟩]
              true :=
            GreedyScan.token _ _ [] true hlm (by rw [List.drop_length]; exact GreedyScan.done)
          have := ((greedyScan_unique hscan) h).2
          cases this
  · obtain ⟨toks, ok, h1, h2⟩ := Split_spec gr s hs hlen
    refine ⟨if ok then toks else [], ⟨_, h2⟩, fun hne => ?_, ?_⟩
    · cases ok with
      | false => exact absurd rfl hne
      | true =>
        simp only [if_true]
        refine ⟨(greedyScan_registered h1), ?_⟩
        apply String.ext
        rw [String.join_data, (greedyScan_concat h1)]
    · cases ok with
      | false =>
        simp only [Bool.false_eq_true, if_false, true_iff]
        exact Or.inr ⟨toks, h1⟩
      | true =>
        simp only [if_true]
        constructor
        · intro h
          left
          apply String.eq_empty_of_data
          rw [← (greedyScan_concat h1), h]; rfl
        · rintro (h | ⟨toks', h⟩)
          · subst h
            cases h1 with
            | done => rfl
            | token _ k _ _ hlm _ =>
              have := hlm.1; have := hlm.2.1
              simp only [String.data, List.length_nil] at *
              omega
          · have := ((greedyScan_unique h1) h).2
            cases this

/-- The hypotheses of C17 hold for the table with `a`, `ab` and `bc`
registered and the string `abbc`. -/
theorem C17_split_sound_or_empty_witness :
    EPSILON_ ∈ greedyGrammar.st_.st_.keys ∧ "abbc".length + 1 < 2 ^ 32 ∧
    ∃ r, Returns (greedyGrammar.Split "abbc") (some r) ∧
      (r ≠ [] → (∀ x ∈ r, greedyGrammar.st_.In x = true) ∧ String.join r = "abbc") ∧
      (r = [] ↔ "abbc" = "" ∨ ∃ toks, GreedyScan greedyGrammar.st_ "abbc".data toks false) :=
  ⟨by decide, by decide, C17_split_sound_or_empty greedyGrammar "abbc" (by decide) (by decide)⟩

/-- C18: `Split` is maximal-munch.  For every string `s` other than
`EPSILON_` (whose length keeps the `unsigned` indices from wrapping) on which
`Split` succeeds, the returned tokens concatenate to `s`, and each token is a
registered symbol that is at least as long as every registered symbol that
is a prefix of the text remaining at the start of the token. -/
theorem C18_split_maximal_munch (gr : Grammar) (s : String) (hs : s ≠ EPSILON_)
    (hlen : s.length + 1 < 2 ^ 32) :
    ∃ r, Returns (gr.Split s) (some r) ∧
      (r ≠ [] → ∀ pre tok post, r = pre ++ tok :: post →
        s = String.join pre ++ String.join (tok :: post) ∧
        gr.st_.In tok = true ∧ tok.data <+: (String.join (tok :: post)).data ∧
        ∀ u : String, gr.st_.In u = true → u.data <+: (String.join (tok :: post)).data →
          u.length ≤ tok.length) := by
  obtain ⟨toks, ok, h1, h2⟩ := Split_spec gr s hs hlen
  refine ⟨if ok then toks else [], ⟨_, h2⟩, fun hne pre tok post heq => ?_⟩
  cases ok with
  | false => exact absurd rfl hne
  | true =>
    simp only [if_true] at heq
    refine ⟨?_, (greedyScan_registered h1) tok (by rw [heq]; simp), ?_, fun u hu hpre => ?_⟩
    · rw [← String.join_append_join, ← heq]
      apply String.ext
      rw [String.join_data, (greedyScan_concat h1)]
    · rw [String.join_data]
      simp only [List.map_cons, List.flatten_cons]
      exact List.prefix_append _ _
    · rw [String.join_data] at hpre
      exact (greedyScan_longest h1) pre tok post heq u hu hpre

/-- The hypotheses of C18 hold for the table with `a`, `ab` and `bc`
registered and the string `abbc`. -/
theorem C18_split_maximal_munch_witness :
    "abbc" ≠ EPSILON_ ∧ "abbc".length + 1 < 2 ^ 32 ∧
    ∃ r, Returns (greedyGrammar.Split "abbc") (some r) ∧
      (r ≠ [] → ∀ pre tok post, r = pre ++ tok :: post →
        "abbc" = String.join pre ++ String.join (tok :: post) ∧
        greedyGrammar.st_.In tok = true ∧ tok.data <+: (String.join (tok :: post)).data ∧
        ∀ u : String, greedyGrammar.st_.In u = true →
          u.data <+: (String.join (tok :: post)).data → u.length ≤ tok.length) :=
  ⟨by decide, by decide, C18_split_maximal_munch greedyGrammar "abbc" (by decide) (by decide)⟩

/-- C19: greedy tokenization is not complete.  With the symbols `a`, `ab` and
`bc` registered, the sequence `a bc` consists of registered symbols, yet
`Split` returns the empty sequence on its concatenation `abc`: the longest
match at the start is `ab`, and no prefix of the remainder `c` is
registered. -/
theorem C19_greedy_not_complete :
    (∀ w ∈ ["a", "bc"], greedyGrammar.st_.In w = true) ∧
    String.join ["a", "bc"] = "abc" ∧
    GreedyScan greedyGrammar.st_ "abc".data ["ab"] false ∧
    Returns (greedyGrammar.Split "abc") (some []) := by
  refine ⟨by decide, by decide, ?_, ?_⟩
  · have hlm : LongestMatch greedyGrammar.st_ "abc".data 2 := by
      refine ⟨by decide, by decide, by decide, fun j h1 h2 => ?_⟩
      have hj : j = 3 := by
        have : "abc".data.length = 3 := rfl
        omega
      subst hj
      decide
    have hstuck : GreedyScan greedyGrammar.st_ ("abc".data.drop 2) [] false := by
      apply GreedyScan.stuck
      · decide
      · intro j h1 h2
        have hj : j = 1 := by
          have : ("abc".data.drop 2).length = 1 := rfl
          omega
        subst hj
        decide
    exact GreedyScan.token _ 2 [] false hlm hstuck
  · obtain ⟨toks, ok, _, h2⟩ := Split_spec greedyGrammar "abc" (by decide) (by decide)
    have h10 := h2 10 (by decide)
    have hv : greedyGrammar.Split "abc" 10 = some (some []) := by decide
    rw [hv] at h10
    simp only [Option.some.injEq] at h10
    rw [← h10] at h2
    exact ⟨_, h2⟩

/-! ## `IsInfinite` (C20) -/

theorem generatingLoop_succ (gr : Grammar) (n : Nat) (G : Finset String) :
    generatingLoop gr (n + 1) G =
      if (gr.g_.foldl (generatingRule gr) (G, false)).2 = true
      then generatingLoop gr n (gr.g_.foldl (generatingRule gr) (G, false)).1
      else some (gr.g_.foldl (generatingRule gr) (G, false)).1 := rfl

theorem generatingLoop_fuelMono (gr : Grammar) (G : Finset String) :
    FuelMono fun n => generatingLoop gr n G := by
  intro n
  induction n generalizing G with
  | zero => intro a h; simp [generatingLoop] at h
  | succ n ih =>
    intro a h k hk
    obtain ⟨k, rfl⟩ : ∃ j, k = j + 1 := ⟨k - 1, by omega⟩
    simp only [generatingLoop_succ] at h ⊢
    split_ifs at h ⊢ with h1
    · exact ih _ a h k (by omega)
    · exact h

theorem IsInfinite_fuelMono (gr : Grammar) : FuelMono (IsInfinite gr) := by
  intro n b h k hk
  unfold IsInfinite at h ⊢
  rw [Option.map_eq_some'] at h ⊢
  obtain ⟨G, h1, h2⟩ := h
  exact ⟨G, generatingLoop_fuelMono gr ∅ n G h1 k hk, h2⟩

theorem allGenerating_iff (gr : Grammar) (G : Finset String) (p : production) :
    allGenerating gr G p = true ↔ ∀ x ∈ p, gr.st_.IsTerminal x = true ∨ x ∈ G := by
  simp [allGenerating]

/-- One pass over the rules `l`: the set grows inside every closed property,
inside the keys, and the flag is raised exactly when the set grew. -/
theorem generatingPass_spec (gr : Grammar) (l : List (String × List production))
    (hl : ∀ r ∈ l, r ∈ gr.g_) (G : Finset String) (c : Bool) :
    G ⊆ (l.foldl (generatingRule gr) (G, c)).1 ∧
    (∀ P, GenClosed gr P → (∀ x ∈ G, P x) → ∀ x ∈ (l.foldl (generatingRule gr) (G, c)).1, P x) ∧
    ((l.foldl (generatingRule gr) (G, c)).2 = true ↔
      c = true ∨ G ⊂ (l.foldl (generatingRule gr) (G, c)).1) ∧
    ((l.foldl (generatingRule gr) (G, c)).1 = G →
      ∀ r ∈ l, ∀ p ∈ r.2, (∀ x ∈ p, gr.st_.IsTerminal x = true ∨ x ∈ G) → r.1 ∈ G) := by
  induction l generalizing G c with
  | nil =>
    simp only [List.foldl_nil]
    refine ⟨Finset.Subset.refl _, fun P _ h => h, ?_, ?_⟩
    · constructor
      · exact fun h => Or.inl h
      · rintro (h | h)
        · exact h
        · exact absurd h (ssubset_irrefl G)
    · intro _ r hr; cases hr
  | cons r l ih =>
    have hl' : ∀ r ∈ l, r ∈ gr.g_ := fun x hx => hl x (List.mem_cons_of_mem _ hx)
    simp only [List.foldl_cons]
    by_cases h1 : r.1 ∈ G
    · have hstep : generatingRule gr (G, c) r = (G, c) := by
        simp only [generatingRule, if_pos h1]
      rw [hstep]
      obtain ⟨i1, i2, i3, i4⟩ := ih hl' G c
      refine ⟨i1, i2, i3, fun heq x hx => ?_⟩
      rcases List.mem_cons.mp hx with rfl | hx
      · intro _ _ _; exact h1
      · exact i4 heq x hx
    · by_cases h2 : r.2.any (allGenerating gr G) = true
      · have hstep : generatingRule gr (G, c) r = (insert r.1 G, true) := by
          simp only [generatingRule, if_neg h1, if_pos h2]
        rw [hstep]
        obtain ⟨i1, i2, i3, i4⟩ := ih hl' (insert r.1 G) true
        have hss : G ⊂ (l.foldl (generatingRule gr) (insert r.1 G, true)).1 := by
          refine ⟨(Finset.subset_insert _ _).trans i1, fun h => h1 (h (i1 ?_))⟩
          exact Finset.mem_insert_self _ _
        refine ⟨(Finset.subset_insert _ _).trans i1, fun P hP hG => ?_, ?_, fun heq => ?_⟩
        · apply i2 P hP
          intro x hx
          rcases Finset.mem_insert.mp hx with rfl | hx
          · rw [List.any_eq_true] at h2
            obtain ⟨p, hp, hall⟩ := h2
            apply hP r (hl r (List.mem_cons_self _ _)) p hp
            intro x hx
            rcases (allGenerating_iff gr G p).mp hall x hx with h | h
            · exact Or.inl h
            · exact Or.inr (hG x h)
          · exact hG x hx
        · rw [i3]
          simp only [true_or, true_iff]
          exact Or.inr hss
        · exact absurd heq (ne_of_gt hss)
      · have hstep : generatingRule gr (G, c) r = (G, c) := by
          simp only [generatingRule, if_neg h1, if_neg h2]
        rw [hstep]
        obtain ⟨i1, i2, i3, i4⟩ := ih hl' G c
        refine ⟨i1, i2, i3, fun heq x hx => ?_⟩
        rcases List.mem_cons.mp hx with rfl | hx
        · intro p hp hall
          exfalso
          apply h2
          rw [List.any_eq_true]
          exact ⟨p, hp, (allGenerating_iff gr G p).mpr hall⟩
        · exact i4 heq x hx

theorem generatingLoop_spec (gr : Grammar) :
    ∀ d (G : Finset String), G ⊆ gr.keys.toFinset → gr.keys.toFinset.card - G.card ≤ d →
      (∀ P, GenClosed gr P → ∀ x ∈ G, P x) →
      ∃ G', generatingLoop gr (d + 1) G = some G' ∧ GenClosed gr (· ∈ G') ∧
        ∀ P, GenClosed gr P → ∀ x ∈ G', P x := by
  have hkeysClosed : GenClosed gr (· ∈ gr.keys.toFinset) := by
    intro r hr p _ _
    simp only [Grammar.keys, List.mem_toFinset, List.mem_map]
    exact ⟨r, hr, rfl⟩
  intro d
  induction d with
  | zero =>
    intro G hG hd hmin
    obtain ⟨i1, i2, i3, i4⟩ := generatingPass_spec gr gr.g_ (fun _ h => h) G false
    have hsub : (gr.g_.foldl (generatingRule gr) (G, false)).1 ⊆ gr.keys.toFinset :=
      fun x hx => i2 _ hkeysClosed (fun y hy => hG hy) x hx
    have hnot : ¬ (gr.g_.foldl (generatingRule gr) (G, false)).2 = true := by
      rw [i3]
      rintro (h | h)
      · cases h
      · have := Finset.card_lt_card h
        have := Finset.card_le_card hsub
        have := Finset.card_le_card hG
        omega
    have heq : (gr.g_.foldl (generatingRule gr) (G, false)).1 = G := by
      by_contra hne
      exact hnot (i3.mpr (Or.inr ⟨i1, fun h => hne (Finset.Subset.antisymm h i1)⟩))
    rw [generatingLoop_succ, if_neg hnot]
    refine ⟨_, rfl, ?_, fun P hP => i2 P hP (hmin P hP)⟩
    rw [heq]
    exact fun r hr p hp hall => i4 heq r hr p hp hall
  | succ d ih =>
    intro G hG hd hmin
    obtain ⟨i1, i2, i3, i4⟩ := generatingPass_spec gr gr.g_ (fun _ h => h) G false
    have hsub : (gr.g_.foldl (generatingRule gr) (G, false)).1 ⊆ gr.keys.toFinset :=
      fun x hx => i2 _ hkeysClosed (fun y hy => hG hy) x hx
    rw [generatingLoop_succ]
    by_cases hc : (gr.g_.foldl (generatingRule gr) (G, false)).2 = true
    · rw [if_pos hc]
      have hss : G ⊂ (gr.g_.foldl (generatingRule gr) (G, false)).1 := by
        rcases i3.mp hc with h | h
        · cases h
        · exact h
      apply ih _ hsub
      · have := Finset.card_lt_card hss
        omega
      · exact fun P hP x hx => i2 P hP (hmin P hP) x hx
    · have heq : (gr.g_.foldl (generatingRule gr) (G, false)).1 = G := by
        by_contra hne
        exact hc (i3.mpr (Or.inr ⟨i1, fun h => hne (Finset.Subset.antisymm h i1)⟩))
      rw [if_neg hc]
      refine ⟨_, rfl, ?_, fun P hP => i2 P hP (hmin P hP)⟩
      rw [heq]
      exact fun r hr p hp hall => i4 heq r hr p hp hall

theorem derives_terminals_of_symbols (gr : Grammar) (α : List String)
    (h : ∀ x ∈ α, gr.st_.IsTerminal x = true ∨ DerivesTerminals gr x) :
    ∃ w, gr.Derives α w ∧ ∀ y ∈ w, gr.st_.IsTerminal y = true := by
  induction α with
  | nil => exact ⟨[], Relation.ReflTransGen.refl, fun y hy => by cases hy⟩
  | cons x rest ih =>
    obtain ⟨w2, d2, t2⟩ := ih fun y hy => h y (List.mem_cons_of_mem _ hy)
    have hx : DerivesTerminals gr x := by
      rcases h x (List.mem_cons_self _ _) with hx | hx
      · exact ⟨[x], Relation.ReflTransGen.refl, fun y hy => by
          rw [List.mem_singleton.mp hy]; exact hx⟩
      · exact hx
    obtain ⟨w1, d1, t1⟩ := hx
    refine ⟨w1 ++ w2, ?_, fun y hy => ?_⟩
    · have e1 : gr.Derives ([x] ++ rest) (w1 ++ rest) := derives_append_right d1 rest
      have e2 : gr.Derives (w1 ++ rest) (w1 ++ w2) := derives_append_left d2 w1
      exact Relation.ReflTransGen.trans e1 e2
    · rcases List.mem_append.mp hy with hy | hy
      · exact t1 y hy
      · exact t2 y hy

/-- The symbols that derive a string of terminals are closed under the rule
of generating symbols. -/
theorem derivesTerminals_closed (gr : Grammar) : GenClosed gr (DerivesTerminals gr) := by
  intro r hr p hp hall
  by_cases hT : gr.st_.IsTerminal r.1 = true
  · exact ⟨[r.1], Relation.ReflTransGen.refl, fun y hy => by
      rw [List.mem_singleton.mp hy]; exact hT⟩
  · have hstep : gr.Produces [r.1] (Grammar.body p) := by
      have := Grammar.Produces.step [] [] r p hr hp (by simpa using hT)
      simpa using this
    by_cases hp1 : p = [EPSILON_]
    · refine ⟨[], ?_, fun y hy => by cases hy⟩
      have hb : Grammar.body p = [] := by simp [Grammar.body, hp1]
      rw [hb] at hstep
      exact Relation.ReflTransGen.single hstep
    · have hb : Grammar.body p = p := by simp [Grammar.body, hp1]
      rw [hb] at hstep
      obtain ⟨w, d, t⟩ := derives_terminals_of_symbols gr p hall
      exact ⟨w, Relation.ReflTransGen.head hstep d, t⟩

/-- Every symbol of a sentential form that derives a string of terminals is
a terminal or belongs to any closed set `G`. -/
theorem generating_of_derives (gr : Grammar) (G : Finset String)
    (hG : GenClosed gr (· ∈ G))
    (hε : (∃ r ∈ gr.g_, [EPSILON_] ∈ r.2) → gr.st_.IsTerminal EPSILON_ = true)
    {α w : List String} (h : gr.Derives α w) (hw : ∀ y ∈ w, gr.st_.IsTerminal y = true) :
    ∀ x ∈ α, gr.st_.IsTerminal x = true ∨ x ∈ G := by
  induction h using Relation.ReflTransGen.head_induction_on with
  | refl => exact fun x hx => Or.inl (hw x hx)
  | head hstep _ ih =>
    obtain ⟨u, v, r, p, hr, hp, _, rfl, rfl⟩ := produces_iff.mp hstep
    intro x hx
    simp only [List.mem_append, List.mem_cons] at hx
    rcases hx with hx | rfl | hx
    · exact ih x (by simp [hx])
    · right
      apply hG r hr p hp
      intro y hy
      by_cases hp1 : p = [EPSILON_]
      · subst hp1
        rw [List.mem_singleton.mp hy]
        exact Or.inl (hε ⟨r, hr, hp⟩)
      · have hb : Grammar.body p = p := by simp [Grammar.body, hp1]
        exact ih y (by rw [hb]; simp [hy])
    · exact ih x (by simp [hx])

theorem IsInfinite_spec (gr : Grammar) (hkeys : ∀ k ∈ gr.keys, k ∈ gr.st_.non_terminals_) :
    ∃ (G : Finset String) (b : Bool), Returns (IsInfinite gr) b ∧ GenClosed gr (· ∈ G) ∧
      (∀ P, GenClosed gr P → ∀ x ∈ G, P x) ∧
      (b = true ↔ ∃ nt ∈ gr.st_.non_terminals_, nt ∉ G) ∧
      ((∀ nt ∈ gr.st_.non_terminals_, gr.st_.IsTerminal nt = false) →
        ((∃ r ∈ gr.g_, [EPSILON_] ∈ r.2) → gr.st_.IsTerminal EPSILON_ = true) →
        (b = false ↔ ∀ nt ∈ gr.st_.non_terminals_, DerivesTerminals gr nt)) := by
  obtain ⟨G, h1, h2, h3⟩ := generatingLoop_spec gr _ ∅ (Finset.empty_subset _) (le_refl _)
    (fun _ _ x hx => absurd hx (Finset.not_mem_empty _))
  have hsub : G ⊆ gr.st_.non_terminals_ := by
    intro x hx
    apply hkeys
    have := h3 (· ∈ gr.keys.toFinset) (fun r hr p _ _ => by
      simp only [Grammar.keys, List.mem_toFinset, List.mem_map]
      exact ⟨r, hr, rfl⟩) x hx
    simpa using this
  refine ⟨G, decide (G ≠ gr.st_.non_terminals_), ?_, h2, h3, ?_, fun hb hε => ?_⟩
  · apply (IsInfinite_fuelMono gr).returns (n := gr.keys.toFinset.card - (∅ : Finset String).card + 1)
    unfold IsInfinite
    rw [h1]; rfl
  · simp only [decide_eq_true_eq]
    constructor
    · intro hne
      by_contra hc
      push_neg at hc
      exact hne (Finset.Subset.antisymm hsub hc)
    · rintro ⟨nt, h4, h5⟩ heq
      rw [heq] at h5
      exact h5 h4
  · simp only [decide_eq_false_iff_not, not_not]
    constructor
    · intro heq nt hnt
      rw [← heq] at hnt
      exact h3 _ (derivesTerminals_closed gr) nt hnt
    · intro hall
      apply Finset.Subset.antisymm hsub
      intro nt hnt
      obtain ⟨w, d, t⟩ := hall nt hnt
      rcases generating_of_derives gr G h2 hε d t nt (List.mem_singleton_self _) with h | h
      · rw [hb nt hnt] at h; cases h
      · exact h

/-- C20 (amended): for every grammar whose rule keys are all registered
non-terminals, `IsInfinite` returns true iff some registered non-terminal is
not in the set `G` of generating symbols, the least set such that a rule key
is in `G` when one of its productions consists only of registered terminals
and members of `G`.  When in addition no registered non-terminal is a
registered terminal and `EPSILON_` is a registered terminal if it is a
production, it returns false iff every registered non-terminal derives some
string of terminals.  For `S -> A $`, `A -> a A` it returns true; with
`A -> b` added it returns false. -/
theorem C20_is_infinite :
    (∀ gr : Grammar, (∀ k ∈ gr.keys, k ∈ gr.st_.non_terminals_) →
      ∃ (G : Finset String) (b : Bool), Returns (IsInfinite gr) b ∧ GenClosed gr (· ∈ G) ∧
        (∀ P, GenClosed gr P → ∀ x ∈ G, P x) ∧
        (b = true ↔ ∃ nt ∈ gr.st_.non_terminals_, nt ∉ G) ∧
        ((∀ nt ∈ gr.st_.non_terminals_, gr.st_.IsTerminal nt = false) →
          ((∃ r ∈ gr.g_, [EPSILON_] ∈ r.2) → gr.st_.IsTerminal EPSILON_ = true) →
          (b = false ↔ ∀ nt ∈ gr.st_.non_terminals_,
            ∃ w, gr.Derives [nt] w ∧ ∀ y ∈ w, gr.st_.IsTerminal y = true))) ∧
    (∀ k ∈ infiniteGrammar.keys, k ∈ infiniteGrammar.st_.non_terminals_) ∧
    Returns (IsInfinite infiniteGrammar) true ∧
    (∀ k ∈ finiteGrammar.keys, k ∈ finiteGrammar.st_.non_terminals_) ∧
    Returns (IsInfinite finiteGrammar) false :=
  ⟨fun gr hkeys => IsInfinite_spec gr hkeys,
   by decide, (IsInfinite_fuelMono infiniteGrammar).returns (n := 1) (by decide),
   by decide, (IsInfinite_fuelMono finiteGrammar).returns (n := 3) (by decide)⟩

/-! ## `SLR1Parser::First`, `ComputeFirstSets` and `ComputeFollowSets` -/

theorem slr_First_spec (gr : Grammar) (rule : List String) (fs : SetMap) (result : Finset String) :
    (SLR1Parser.First gr rule fs result).1 = result ∪ slrFirstOf gr fs.get rule ∧
    (SLR1Parser.First gr rule fs result).2.keys = fs.keys ∪ slrFirstKeys gr fs.get rule ∧
    (SLR1Parser.First gr rule fs result).2.get = fs.get := by
  induction rule generalizing fs result with
  | nil =>
    simp only [SLR1Parser.First, slrFirstOf, slrFirstKeys, Finset.union_empty, and_self, and_true]
    ext a; simp [or_comm]
  | cons x rest ih =>
    simp only [SLR1Parser.First, slrFirstOf, slrFirstKeys, List.length_cons]
    by_cases h1 : rest = [] ∧ x = EPSILON_
    · have h1' : rest.length + 1 = 1 ∧ x = EPSILON_ := by simp [h1.1, h1.2]
      rw [if_pos h1', if_pos h1, if_pos h1]
      simp only [Finset.union_empty, and_self, and_true]
      ext a; simp [or_comm]
    · have h1' : ¬ (rest.length + 1 = 1 ∧ x = EPSILON_) := by
        intro h; apply h1; refine ⟨?_, h.2⟩
        have : rest.length = 0 := by omega
        exact List.length_eq_zero.mp this
      rw [if_neg h1', if_neg h1, if_neg h1]
      by_cases h3 : gr.st_.IsTerminal x = true
      · rw [if_pos h3, if_pos h3, if_pos h3]
        by_cases h4 : x = EOL_
        · rw [if_pos h4, if_pos h4]
          simp only [Finset.union_empty, and_self, and_true]
          ext a; simp [or_comm]
        · rw [if_neg h4, if_neg h4]
          simp only [Finset.union_empty, and_self, and_true]
          ext a; simp [or_comm]
      · rw [if_neg h3, if_neg h3, if_neg h3]
        simp only [UMap.touch_get]
        by_cases h5 : EPSILON_ ∈ fs.get x
        · have h5' : ¬ (EPSILON_ ∉ fs.get x) := fun h => h h5
          rw [if_neg h5', if_pos h5, if_pos h5]
          obtain ⟨i1, i2, i3⟩ := ih (fs.touch x) (result ∪ (fs.get x).erase EPSILON_)
          rw [UMap.touch_get] at i1 i2 i3
          refine ⟨?_, ?_, i3⟩
          · rw [i1, Finset.union_assoc]
          · rw [i2, UMap.touch_keys]
            ext a; simp only [Finset.mem_union, Finset.mem_insert]; tauto
        · have h5' : EPSILON_ ∉ fs.get x := h5
          rw [if_pos h5', if_neg h5, if_neg h5]
          refine ⟨by simp, ?_, UMap.touch_get fs x⟩
          rw [UMap.touch_keys]
          ext a; simp only [Finset.mem_union, Finset.mem_insert, Finset.not_mem_empty]; tauto

theorem slr_firstOf_mono (gr : Grammar) {v w : Family} (h : ∀ k, v k ⊆ w k) (rule : List String) :
    slrFirstOf gr v rule ⊆ slrFirstOf gr w rule := by
  induction rule with
  | nil => exact Finset.Subset.refl _
  | cons x rest ih =>
    simp only [slrFirstOf]
    split_ifs with h1 h3 h4 h5 h6 h6
    all_goals first
      | exact Finset.Subset.refl _
      | exact ih
      | exact Finset.union_subset_union (Finset.erase_subset_erase _ (h x)) ih
      | exact absurd (h x h5) h6
      | exact Finset.union_subset_union (Finset.erase_subset_erase _ (h x)) (Finset.empty_subset _)

theorem slr_firstKeys_mono (gr : Grammar) {v w : Family} (h : ∀ k, v k ⊆ w k) (rule : List String) :
    slrFirstKeys gr v rule ⊆ slrFirstKeys gr w rule := by
  induction rule with
  | nil => exact Finset.Subset.refl _
  | cons x rest ih =>
    simp only [slrFirstKeys]
    split_ifs with h1 h3 h4 h5 h5
    all_goals first
      | exact Finset.Subset.refl _
      | exact ih
      | exact Finset.insert_subset_insert _ ih
      | exact absurd (h x h4) h5
      | exact Finset.insert_subset_insert _ (Finset.empty_subset _)

theorem slr_firstAStep_mono (gr : Grammar) (A : String) (p : production) : (slrFirstAStep gr A p).Mono := by
  intro v w h
  exact ⟨Finset.insert_subset_insert _ (slr_firstKeys_mono gr h p),
    eolToEpsilon_mono (slr_firstOf_mono gr h p)⟩

theorem slr_firstSteps_mono (gr : Grammar) : ∀ s ∈ slrFirstSteps gr, s.Mono := by
  intro s hs
  simp only [slrFirstSteps, List.mem_flatMap, List.mem_map] at hs
  obtain ⟨r, _, p, _, rfl⟩ := hs
  exact slr_firstAStep_mono gr r.1 p

theorem slr_firstProd_abs (gr : Grammar) (A : String) (m : SetMap) (p : production) :
    (SLR1Parser.firstProd gr A m p).abs = astep (slrFirstAStep gr A p) m.abs := by
  obtain ⟨h1, h2, h3⟩ := slr_First_spec gr p m ∅
  apply Prod.ext
  · simp only [SLR1Parser.firstProd, UMap.abs, astep, slrFirstAStep, UMap.set_keys, UMap.touch_keys, h2]
    ext a; simp only [Finset.mem_insert, Finset.mem_union]; tauto
  · simp only [SLR1Parser.firstProd, UMap.abs, astep, slrFirstAStep, UMap.set_get, UMap.touch_get, h3, h1,
      Finset.empty_union]

theorem slr_firstPass_abs (gr : Grammar) (m : SetMap) :
    (SLR1Parser.firstPass gr m).abs = apass (slrFirstSteps gr) m.abs := by
  have h := foldl_nested (fun (r : String × List production) p m1 => SLR1Parser.firstProd gr r.1 m1 p)
    (fun r => r.2) gr.g_ m
  simp only [SLR1Parser.firstPass]
  rw [h]
  apply apass_of_fold
  simp only [slrFirstSteps]
  generalize gr.g_ = l
  induction l with
  | nil => exact List.Forall₂.nil
  | cons r l ih =>
    simp only [List.flatMap_cons]
    refine List.rel_append ?_ ih
    generalize r.2 = ps
    induction ps with
    | nil => exact List.Forall₂.nil
    | cons p ps ih2 => exact List.Forall₂.cons (fun m => slr_firstProd_abs gr r.1 m p) ih2

theorem slr_firstLoop_succ (gr : Grammar) (n : Nat) (m : SetMap) :
    SLR1Parser.firstLoop gr (n + 1) m =
      if UMap.Same m (SLR1Parser.firstPass gr m) then some (SLR1Parser.firstPass gr m)
      else SLR1Parser.firstLoop gr n (SLR1Parser.firstPass gr m) := by
  simp only [SLR1Parser.firstLoop]
  by_cases h : UMap.Same m (SLR1Parser.firstPass gr m)
  · rw [if_neg (not_not.mpr h), if_pos h]
  · rw [if_pos h, if_neg h]

theorem slr_firstLoop_mono (gr : Grammar) {n : Nat} {m T : SetMap} (h : SLR1Parser.firstLoop gr n m = some T) :
    ∀ k, n ≤ k → SLR1Parser.firstLoop gr k m = some T := by
  induction n generalizing m with
  | zero => simp [SLR1Parser.firstLoop] at h
  | succ n ih =>
    intro k hk
    obtain ⟨k, rfl⟩ : ∃ j, k = j + 1 := ⟨k - 1, by omega⟩
    rw [slr_firstLoop_succ] at h ⊢
    by_cases h1 : UMap.Same m (SLR1Parser.firstPass gr m)
    · rw [if_pos h1] at h ⊢; exact h
    · rw [if_neg h1] at h ⊢; exact ih h k (by omega)

theorem slr_firstLoop_props (gr : Grammar) {n : Nat} {m T : SetMap} (h : SLR1Parser.firstLoop gr n m = some T) :
    AState.le m.abs T.abs ∧ (∀ s ∈ slrFirstSteps gr, s.Sat T.abs) ∧
    ∀ y, AState.le m.abs y → (∀ s ∈ slrFirstSteps gr, s.Sat y) → AState.le T.abs y := by
  induction n generalizing m with
  | zero => simp [SLR1Parser.firstLoop] at h
  | succ n ih =>
    rw [slr_firstLoop_succ] at h
    have hle : AState.le m.abs (SLR1Parser.firstPass gr m).abs := by
      rw [slr_firstPass_abs]; exact apass_le _ _
    by_cases h1 : UMap.Same m (SLR1Parser.firstPass gr m)
    · rw [if_pos h1] at h
      have h3 := (UMap.same_iff_abs _ _).mp h1
      cases h
      refine ⟨hle, ?_, fun y hy hs => ?_⟩
      · have : AState.le (apass (slrFirstSteps gr) m.abs) m.abs := by
          rw [← slr_firstPass_abs, ← h3]; exact AState.le_refl _
        rw [← h3]
        exact apass_fixed this
      · rw [slr_firstPass_abs]
        exact apass_least (slr_firstSteps_mono gr) hy hs
    · rw [if_neg h1] at h
      obtain ⟨i1, i2, i3⟩ := ih h
      refine ⟨AState.le_trans hle i1, i2, fun y hy hs => i3 y ?_ hs⟩
      rw [slr_firstPass_abs]
      exact apass_least (slr_firstSteps_mono gr) hy hs

theorem slr_firstLoop_exists (gr : Grammar) (y : AState) (K U : Finset String) (hyK : y.1 ⊆ K)
    (hyU : ∀ k, y.2 k ⊆ U) (hs : ∀ s ∈ slrFirstSteps gr, s.Sat y) :
    ∀ d (m : SetMap), AState.le m.abs y → K.card + K.card * U.card - AState.size K m.abs ≤ d →
      ∃ T, SLR1Parser.firstLoop gr (d + 1) m = some T := by
  intro d
  induction d with
  | zero =>
    intro m hm hd
    rw [slr_firstLoop_succ]
    by_cases h1 : UMap.Same m (SLR1Parser.firstPass gr m)
    · rw [if_pos h1]; exact ⟨_, rfl⟩
    · exfalso
      have h2 : m.abs ≠ (SLR1Parser.firstPass gr m).abs := fun h => h1 ((UMap.same_iff_abs _ _).mpr h)
      have h3 : AState.le (SLR1Parser.firstPass gr m).abs y := by
        rw [slr_firstPass_abs]; exact apass_least (slr_firstSteps_mono gr) hm hs
      have h4 : AState.le m.abs (SLR1Parser.firstPass gr m).abs := by
        rw [slr_firstPass_abs]; exact apass_le _ _
      have h5 := AState.size_lt K h4 h2 (h3.1.trans hyK) (UMap.abs_wf _)
      have h6 := AState.size_le_bound K U (h3.1.trans hyK) (fun k => (h3.2 k).trans (hyU k))
      omega
  | succ d ih =>
    intro m hm hd
    rw [slr_firstLoop_succ]
    by_cases h1 : UMap.Same m (SLR1Parser.firstPass gr m)
    · rw [if_pos h1]; exact ⟨_, rfl⟩
    · rw [if_neg h1]
      have h2 : m.abs ≠ (SLR1Parser.firstPass gr m).abs := fun h => h1 ((UMap.same_iff_abs _ _).mpr h)
      have h3 : AState.le (SLR1Parser.firstPass gr m).abs y := by
        rw [slr_firstPass_abs]; exact apass_least (slr_firstSteps_mono gr) hm hs
      have h4 : AState.le m.abs (SLR1Parser.firstPass gr m).abs := by
        rw [slr_firstPass_abs]; exact apass_le _ _
      have h5 := AState.size_lt K h4 h2 (h3.1.trans hyK) (UMap.abs_wf _)
      exact ih _ h3 (by omega)

theorem slr_firstKeys_subset (gr : Grammar) (v : Family) (rule : List String) :
    slrFirstKeys gr v rule ⊆ rule.toFinset := by
  induction rule with
  | nil => simp [slrFirstKeys]
  | cons x rest ih =>
    simp only [slrFirstKeys, List.toFinset_cons]
    have ih' : slrFirstKeys gr v rest ⊆ insert x rest.toFinset := ih.trans (Finset.subset_insert _ _)
    split_ifs
    all_goals first
      | exact Finset.empty_subset _
      | exact ih'
      | exact Finset.insert_subset_insert _ ih
      | exact Finset.insert_subset_insert _ (Finset.empty_subset _)

theorem slr_firstOf_subset (gr : Grammar) {v : Family} {U : Finset String} (he : EPSILON_ ∈ U)
    {rule : List String} (hv : ∀ k ∈ rule, v k ⊆ U) (hr : rule.toFinset ⊆ U) :
    slrFirstOf gr v rule ⊆ U := by
  induction rule with
  | nil => simpa [slrFirstOf] using he
  | cons x rest ih =>
    have hx : x ∈ U := hr (by simp)
    have hvx : v x ⊆ U := hv x (List.mem_cons_self _ _)
    have hrest : rest.toFinset ⊆ U := fun a ha => hr (by
      simp only [List.toFinset_cons, Finset.mem_insert]; exact Or.inr ha)
    have ih' := ih (fun k hk => hv k (List.mem_cons_of_mem _ hk)) hrest
    simp only [slrFirstOf]
    split_ifs
    all_goals first
      | exact Finset.singleton_subset_iff.mpr he
      | exact Finset.singleton_subset_iff.mpr hx
      | exact ih'
      | exact Finset.union_subset ((Finset.erase_subset _ _).trans hvx) ih'
      | exact Finset.union_subset ((Finset.erase_subset _ _).trans hvx) (Finset.empty_subset _)

theorem slr_mem_firstSteps {gr : Grammar} {s : AStep} :
    s ∈ slrFirstSteps gr ↔ ∃ r ∈ gr.g_, ∃ p ∈ r.2, s = slrFirstAStep gr r.1 p := by
  simp only [slrFirstSteps, List.mem_flatMap, List.mem_map]
  constructor
  · rintro ⟨r, hr, p, hp, rfl⟩; exact ⟨r, hr, p, hp, rfl⟩
  · rintro ⟨r, hr, p, hp, rfl⟩; exact ⟨r, hr, p, hp, rfl⟩

/-- A closed state above any map `m`, used to bound the number of passes. -/
theorem slr_first_bound (gr : Grammar) (m : SetMap) :
    ∃ (y : AState) (K U : Finset String), y.1 ⊆ K ∧ (∀ k, y.2 k ⊆ U) ∧
      (∀ s ∈ slrFirstSteps gr, s.Sat y) ∧ AState.le m.abs y := by
  let U : Finset String := insert EPSILON_ (gr.syms ∪ m.keys.biUnion m.get)
  let K : Finset String := m.keys ∪ gr.syms
  refine ⟨(K, fun _ => U), K, U, Finset.Subset.refl _, fun _ => Finset.Subset.refl _, ?_, ?_⟩
  · intro s hs
    obtain ⟨r, hr, p, hp, rfl⟩ := slr_mem_firstSteps.mp hs
    have hpU : p.toFinset ⊆ U := fun a ha => by
      apply Finset.mem_insert_of_mem
      exact Finset.mem_union_left _ (gr.prod_subset_syms hr hp ha)
    constructor
    · simp only [slrFirstAStep]
      apply Finset.insert_subset
      · exact Finset.mem_union_right _ (gr.key_mem_syms hr)
      · exact (slr_firstKeys_subset gr _ p).trans
          ((gr.prod_subset_syms hr hp).trans Finset.subset_union_right)
    · simp only [slrFirstAStep]
      exact eolToEpsilon_subset
        (slr_firstOf_subset gr (Finset.mem_insert_self _ _) (fun _ _ => Finset.Subset.refl _) hpU)
        (Finset.mem_insert_self _ _)
  · refine ⟨Finset.subset_union_left, fun k => ?_⟩
    by_cases hk : k ∈ m.keys
    · intro a ha
      apply Finset.mem_insert_of_mem
      apply Finset.mem_union_right
      exact Finset.mem_biUnion.mpr ⟨k, hk, ha⟩
    · have : m.get k = ∅ := UMap.abs_wf m k hk
      simp only [UMap.abs, this]; exact Finset.empty_subset _

theorem slr_firstLoop_returns (gr : Grammar) (m : SetMap) :
    ∃ T, Returns (fun n => SLR1Parser.firstLoop gr n m) T := by
  obtain ⟨y, K, U, h1, h2, h3, h4⟩ := slr_first_bound gr m
  obtain ⟨T, hT⟩ := slr_firstLoop_exists gr y K U h1 h2 h3 _ m h4 (le_refl _)
  exact ⟨T, _, fun k hk => slr_firstLoop_mono gr hT k hk⟩

theorem slr_firstClosed_iff (gr : Grammar) (y : AState) :
    SlrFirstClosed gr y ↔ ∀ r ∈ gr.g_, ∀ p ∈ r.2,
      r.1 ∈ y.1 ∧ slrFirstKeys gr y.2 p ⊆ y.1 ∧ eolToEpsilon (slrFirstOf gr y.2 p) ⊆ y.2 r.1 := by
  constructor
  · intro h r hr p hp
    have := h _ (slr_mem_firstSteps.mpr ⟨r, hr, p, hp, rfl⟩)
    simp only [AStep.Sat, slrFirstAStep, Finset.insert_subset_iff] at this
    exact ⟨this.1.1, this.1.2, this.2⟩
  · intro h s hs
    obtain ⟨r, hr, p, hp, rfl⟩ := slr_mem_firstSteps.mp hs
    obtain ⟨i1, i2, i3⟩ := h r hr p hp
    exact ⟨Finset.insert_subset i1 i2, i3⟩

theorem slr_ComputeFirstSets_returns (gr : Grammar) (fs : SetMap) :
    ∃ T, Returns (SLR1Parser.ComputeFirstSets gr fs) T ∧
      AState.le (firstReset gr fs).abs T.abs ∧ SlrFirstClosed gr T.abs ∧
      ∀ y, AState.le (firstReset gr fs).abs y → SlrFirstClosed gr y → AState.le T.abs y := by
  obtain ⟨T, hT⟩ := slr_firstLoop_returns gr (firstReset gr fs)
  refine ⟨T, hT, ?_⟩
  obtain ⟨N, hN⟩ := hT
  exact slr_firstLoop_props gr (hN N (le_refl _))

theorem slr_followAt_terminal (gr : Grammar) (lhs symbol : String) (rest : List String)
    (s : FollowState) (ht : gr.st_.IsTerminal symbol = true) :
    SLR1Parser.followAt gr lhs symbol rest s = s := by
  unfold SLR1Parser.followAt
  rw [if_neg (not_not.mpr ht)]

theorem slr_followAt_sim (gr : Grammar) (lhs symbol : String) (rest : List String) (s : FollowState) :
    FollowSim (slrFollowAtSteps gr s.first.get lhs symbol rest) s (SLR1Parser.followAt gr lhs symbol rest s) := by
  by_cases ht : gr.st_.IsTerminal symbol = true
  · rw [slr_followAt_terminal gr lhs symbol rest s ht]
    unfold slrFollowAtSteps
    rw [if_pos ht]
    exact FollowSim.refl s
  · have hr1 : (if rest ≠ [] then SLR1Parser.First gr rest s.first ∅
        else (insert EPSILON_ ∅, s.first)).1 = slrFirstOf gr s.first.get rest := by
      by_cases hrest : rest = []
      · subst hrest; simp [slrFirstOf]
      · rw [if_pos hrest, (slr_First_spec gr rest s.first ∅).1, Finset.empty_union]
    have hr2 : (if rest ≠ [] then SLR1Parser.First gr rest s.first ∅
        else (insert EPSILON_ ∅, s.first)).2.get = s.first.get := by
      by_cases hrest : rest = []
      · subst hrest; simp
      · rw [if_pos hrest, (slr_First_spec gr rest s.first ∅).2.2]
    unfold SLR1Parser.followAt slrFollowAtSteps
    rw [if_pos ht, if_neg ht]
    simp only []
    rw [hr1]
    generalize (if rest ≠ [] then SLR1Parser.First gr rest s.first ∅
        else (insert EPSILON_ ∅, s.first)).2 = fi1 at hr2 ⊢
    have h0 : FollowSim [] s { s with first := fi1 } := ⟨hr2, rfl, by simp⟩
    have h1 := followInsert_sim symbol ((slrFirstOf gr s.first.get rest).erase EPSILON_)
      { s with first := fi1 }
    have h01 : FollowSim [slrFollowAStep1 gr s.first.get symbol rest] s
        (followInsert symbol ((slrFirstOf gr s.first.get rest).erase EPSILON_)
          { s with first := fi1 }) :=
      FollowSim.trans h0 h1
    by_cases he : EPSILON_ ∈ slrFirstOf gr s.first.get rest
    · rw [if_pos he, if_pos he]
      exact FollowSim.trans h01 (followInsert_touch_sim lhs symbol _)
    · rw [if_neg he, if_neg he]
      exact h01

theorem slr_followProd_sim (gr : Grammar) (lhs : String) (rhs : List String) (s : FollowState) :
    FollowSim (slrFollowProdSteps gr s.first.get lhs rhs) s (SLR1Parser.followProd gr lhs rhs s) := by
  induction rhs generalizing s with
  | nil => exact FollowSim.refl s
  | cons symbol rest ih =>
    simp only [SLR1Parser.followProd, slrFollowProdSteps]
    have h1 := slr_followAt_sim gr lhs symbol rest s
    have h2 := ih (SLR1Parser.followAt gr lhs symbol rest s)
    rw [h1.1] at h2
    exact FollowSim.trans h1 h2

theorem slr_followPass_sim (gr : Grammar) (s : FollowState) :
    FollowSim (slrFollowSteps gr s.first.get) s (SLR1Parser.followPass gr s) := by
  unfold SLR1Parser.followPass slrFollowSteps
  generalize gr.g_ = l
  induction l generalizing s with
  | nil => exact FollowSim.refl s
  | cons r l ih =>
    simp only [List.foldl_cons, List.flatMap_cons]
    have h1 : ∀ (ps : List production) (s : FollowState),
        FollowSim (ps.flatMap fun rhs => slrFollowProdSteps gr s.first.get r.1 rhs) s
          (ps.foldl (fun s2 rhs => SLR1Parser.followProd gr r.1 rhs s2) s) := by
      intro ps
      induction ps with
      | nil => intro s; exact FollowSim.refl s
      | cons p ps ih2 =>
        intro s
        simp only [List.foldl_cons, List.flatMap_cons]
        have a1 := slr_followProd_sim gr r.1 p s
        have a2 := ih2 (SLR1Parser.followProd gr r.1 p s)
        rw [a1.1] at a2
        exact FollowSim.trans a1 a2
    have h2 := h1 r.2 s
    have h3 := ih (r.2.foldl (fun s2 rhs => SLR1Parser.followProd gr r.1 rhs s2) s)
    rw [h2.1] at h3
    exact FollowSim.trans h2 h3

theorem slr_mem_followProdSteps {gr : Grammar} {W : Family} {lhs : String} {rhs : List String}
    {s : AStep} : s ∈ slrFollowProdSteps gr W lhs rhs ↔
      ∃ α B β, rhs = α ++ B :: β ∧ gr.st_.IsTerminal B = false ∧
        (s = slrFollowAStep1 gr W B β ∨ (EPSILON_ ∈ slrFirstOf gr W β ∧ s = followAStep2 lhs B)) := by
  induction rhs with
  | nil => simp [slrFollowProdSteps]
  | cons x rest ih =>
    simp only [slrFollowProdSteps, List.mem_append, ih]
    constructor
    · rintro (h | ⟨α, B, β, h1, h2, h3⟩)
      · unfold slrFollowAtSteps at h
        by_cases ht : gr.st_.IsTerminal x = true
        · rw [if_pos ht] at h; cases h
        · rw [if_neg ht] at h
          refine ⟨[], x, rest, rfl, by simpa using ht, ?_⟩
          rcases List.mem_cons.mp h with h | h
          · exact Or.inl h
          · by_cases he : EPSILON_ ∈ slrFirstOf gr W rest
            · rw [if_pos he] at h
              exact Or.inr ⟨he, List.mem_singleton.mp h⟩
            · rw [if_neg he] at h; cases h
      · exact ⟨x :: α, B, β, by rw [h1]; rfl, h2, h3⟩
    · rintro ⟨α, B, β, h1, h2, h3⟩
      cases α with
      | nil =>
        left
        simp only [List.nil_append, List.cons.injEq] at h1
        obtain ⟨rfl, rfl⟩ := h1
        unfold slrFollowAtSteps
        rw [if_neg (by simp [h2])]
        rcases h3 with h3 | ⟨he, h3⟩
        · rw [h3]; exact List.mem_cons_self _ _
        · rw [if_pos he, h3]; exact List.mem_cons_of_mem _ (List.mem_singleton.mpr rfl)
      | cons a α =>
        right
        simp only [List.cons_append, List.cons.injEq] at h1
        exact ⟨α, B, β, h1.2, h2, h3⟩

theorem slr_mem_followSteps {gr : Grammar} {W : Family} {s : AStep} :
    s ∈ slrFollowSteps gr W ↔ ∃ r ∈ gr.g_, ∃ p ∈ r.2, ∃ α B β, p = α ++ B :: β ∧
      gr.st_.IsTerminal B = false ∧
        (s = slrFollowAStep1 gr W B β ∨ (EPSILON_ ∈ slrFirstOf gr W β ∧ s = followAStep2 r.1 B)) := by
  simp only [slrFollowSteps, List.mem_flatMap, slr_mem_followProdSteps]

theorem slr_followSteps_mono (gr : Grammar) (W : Family) : ∀ s ∈ slrFollowSteps gr W, s.Mono := by
  intro s hs
  obtain ⟨r, _, p, _, α, B, β, _, _, h | ⟨_, h⟩⟩ := slr_mem_followSteps.mp hs
  · subst h; intro v w _
    exact ⟨Finset.Subset.refl _, Finset.Subset.refl _⟩
  · subst h; intro v w hvw
    refine ⟨?_, hvw _⟩
    simp only [followAStep2]
    apply Finset.insert_subset_insert
    by_cases h1 : v r.1 = ∅
    · rw [if_pos h1]; exact Finset.empty_subset _
    · have h2 : w r.1 ≠ ∅ := by
        intro h2
        apply h1
        exact Finset.subset_empty.mp (h2 ▸ hvw r.1)
      rw [if_neg h1, if_neg h2]

theorem slr_followClosed_of_snd_fixed (gr : Grammar) (W : Family) {x : AState} (hwf : AState.WF x)
    (hkeys : ∀ r ∈ gr.g_, r.1 ∈ x.1)
    (h : ∀ k, (apass (slrFollowSteps gr W) x).2 k ⊆ x.2 k) : SlrFollowClosed gr W x := by
  intro s hs
  have hadd := apass_snd_fixed h s hs
  refine ⟨?_, hadd⟩
  obtain ⟨r, hr, p, _, α, B, β, _, _, h1 | ⟨_, h1⟩⟩ := slr_mem_followSteps.mp hs
  · subst h1
    simp only [slrFollowAStep1] at hadd ⊢
    by_cases he : (slrFirstOf gr W β).erase EPSILON_ = ∅
    · rw [if_pos he]; exact Finset.empty_subset _
    · rw [if_neg he]
      apply Finset.singleton_subset_iff.mpr
      by_contra hB
      rw [hwf B hB] at hadd
      exact he (Finset.subset_empty.mp hadd)
  · subst h1
    simp only [followAStep2] at hadd ⊢
    apply Finset.insert_subset (hkeys r hr)
    by_cases he : x.2 r.1 = ∅
    · rw [if_pos he]; exact Finset.empty_subset _
    · rw [if_neg he]
      apply Finset.singleton_subset_iff.mpr
      by_contra hB
      rw [hwf B hB] at hadd
      exact he (Finset.subset_empty.mp hadd)

theorem slr_followLoop_succ (gr : Grammar) (n : Nat) (fi fo : SetMap) :
    SLR1Parser.followLoop gr (n + 1) fi fo =
      if (SLR1Parser.followPass gr ⟨fi, fo, false⟩).changed = true then
        SLR1Parser.followLoop gr n (SLR1Parser.followPass gr ⟨fi, fo, false⟩).first (SLR1Parser.followPass gr ⟨fi, fo, false⟩).follow
      else some ((SLR1Parser.followPass gr ⟨fi, fo, false⟩).first, (SLR1Parser.followPass gr ⟨fi, fo, false⟩).follow) :=
  rfl

theorem slr_followLoop_mono (gr : Grammar) {n : Nat} {fi fo : SetMap} {R : SetMap × SetMap}
    (h : SLR1Parser.followLoop gr n fi fo = some R) : ∀ k, n ≤ k → SLR1Parser.followLoop gr k fi fo = some R := by
  induction n generalizing fi fo with
  | zero => simp [SLR1Parser.followLoop] at h
  | succ n ih =>
    intro k hk
    obtain ⟨k, rfl⟩ : ∃ j, k = j + 1 := ⟨k - 1, by omega⟩
    rw [slr_followLoop_succ] at h ⊢
    by_cases h1 : (SLR1Parser.followPass gr ⟨fi, fo, false⟩).changed = true
    · rw [if_pos h1] at h ⊢; exact ih h k (by omega)
    · rw [if_neg h1] at h ⊢; exact h

theorem slr_followLoop_props (gr : Grammar) {n : Nat} {fi fo : SetMap} {R : SetMap × SetMap}
    (h : SLR1Parser.followLoop gr n fi fo = some R) (hkeys : ∀ r ∈ gr.g_, r.1 ∈ fo.keys) :
    R.1.get = fi.get ∧ AState.le fo.abs R.2.abs ∧ SlrFollowClosed gr fi.get R.2.abs ∧
    ∀ y, AState.le fo.abs y → SlrFollowClosed gr fi.get y → AState.le R.2.abs y := by
  induction n generalizing fi fo with
  | zero => simp [SLR1Parser.followLoop] at h
  | succ n ih =>
    rw [slr_followLoop_succ] at h
    obtain ⟨s1, s2, s3⟩ := slr_followPass_sim gr ⟨fi, fo, false⟩
    simp only at s1 s2 s3
    have hle : AState.le fo.abs (SLR1Parser.followPass gr ⟨fi, fo, false⟩).follow.abs := by
      rw [s2]; exact apass_le _ _
    by_cases h1 : (SLR1Parser.followPass gr ⟨fi, fo, false⟩).changed = true
    · rw [if_pos h1] at h
      obtain ⟨i1, i2, i3, i4⟩ := ih h (fun r hr => hle.1 (hkeys r hr))
      rw [s1] at i1 i3 i4
      refine ⟨i1, AState.le_trans hle i2, i3, fun y hy hs => i4 y ?_ hs⟩
      rw [s2]
      exact apass_least (slr_followSteps_mono gr _) hy hs
    · rw [if_neg h1] at h
      cases h
      have h2 : (SLR1Parser.followPass gr ⟨fi, fo, false⟩).follow.get = fo.get := by
        by_contra hne
        exact h1 (s3.mpr (Or.inr hne))
      refine ⟨s1, hle, ?_, fun y hy hs => ?_⟩
      · have hcl : SlrFollowClosed gr fi.get fo.abs := by
          apply slr_followClosed_of_snd_fixed gr fi.get (UMap.abs_wf fo) hkeys
          intro k
          have : (apass (slrFollowSteps gr fi.get) fo.abs).2 = fo.get := by
            rw [← s2]; exact h2
          rw [this]; exact Finset.Subset.refl _
        have : (SLR1Parser.followPass gr ⟨fi, fo, false⟩).follow.abs = fo.abs := by
          rw [s2]; exact apass_eq_of_sat hcl
        simp only [this]; exact hcl
      · simp only [s2]
        exact apass_least (slr_followSteps_mono gr _) hy hs

theorem slr_followLoop_exists (gr : Grammar) (W : Family) (y : AState) (K U : Finset String)
    (hyK : y.1 ⊆ K) (hyU : ∀ k, y.2 k ⊆ U) (hs : SlrFollowClosed gr W y) :
    ∀ d (fi fo : SetMap), fi.get = W → AState.le fo.abs y →
      K.card + K.card * U.card - AState.size K fo.abs ≤ d →
      ∃ R, SLR1Parser.followLoop gr (d + 1) fi fo = some R := by
  intro d
  induction d with
  | zero =>
    intro fi fo hW hm hd
    rw [slr_followLoop_succ]
    obtain ⟨s1, s2, s3⟩ := slr_followPass_sim gr ⟨fi, fo, false⟩
    simp only at s1 s2 s3
    by_cases h1 : (SLR1Parser.followPass gr ⟨fi, fo, false⟩).changed = true
    · exfalso
      have h2 : fo.abs ≠ (SLR1Parser.followPass gr ⟨fi, fo, false⟩).follow.abs := by
        intro he
        rcases s3.mp h1 with h | h
        · cases h
        · exact h (congrArg Prod.snd he).symm
      have h3 : AState.le (SLR1Parser.followPass gr ⟨fi, fo, false⟩).follow.abs y := by
        rw [s2]; exact apass_least (slr_followSteps_mono gr _) hm (hW ▸ hs)
      have h4 : AState.le fo.abs (SLR1Parser.followPass gr ⟨fi, fo, false⟩).follow.abs := by
        rw [s2]; exact apass_le _ _
      have h5 := AState.size_lt K h4 h2 (h3.1.trans hyK) (UMap.abs_wf _)
      have h6 := AState.size_le_bound K U (h3.1.trans hyK) (fun k => (h3.2 k).trans (hyU k))
      omega
    · rw [if_neg h1]; exact ⟨_, rfl⟩
  | succ d ih =>
    intro fi fo hW hm hd
    rw [slr_followLoop_succ]
    obtain ⟨s1, s2, s3⟩ := slr_followPass_sim gr ⟨fi, fo, false⟩
    simp only at s1 s2 s3
    by_cases h1 : (SLR1Parser.followPass gr ⟨fi, fo, false⟩).changed = true
    · rw [if_pos h1]
      have h2 : fo.abs ≠ (SLR1Parser.followPass gr ⟨fi, fo, false⟩).follow.abs := by
        intro he
        rcases s3.mp h1 with h | h
        · cases h
        · exact h (congrArg Prod.snd he).symm
      have h3 : AState.le (SLR1Parser.followPass gr ⟨fi, fo, false⟩).follow.abs y := by
        rw [s2]; exact apass_least (slr_followSteps_mono gr _) hm (hW ▸ hs)
      have h4 : AState.le fo.abs (SLR1Parser.followPass gr ⟨fi, fo, false⟩).follow.abs := by
        rw [s2]; exact apass_le _ _
      have h5 := AState.size_lt K h4 h2 (h3.1.trans hyK) (UMap.abs_wf _)
      exact ih _ _ (s1.trans hW) h3 (by omega)
    · rw [if_neg h1]; exact ⟨_, rfl⟩

theorem slr_follow_bound (gr : Grammar) (W : Family) (m : SetMap) :
    ∃ (y : AState) (K U : Finset String), y.1 ⊆ K ∧ (∀ k, y.2 k ⊆ U) ∧
      SlrFollowClosed gr W y ∧ AState.le m.abs y := by
  let U : Finset String :=
    insert EPSILON_ (gr.syms ∪ gr.syms.biUnion W ∪ m.keys.biUnion m.get)
  let K : Finset String := m.keys ∪ gr.syms
  refine ⟨(K, fun _ => U), K, U, Finset.Subset.refl _, fun _ => Finset.Subset.refl _, ?_, ?_⟩
  · intro s hs
    obtain ⟨r, hr, p, hp, α, B, β, hsplit, _, h1 | ⟨_, h1⟩⟩ := slr_mem_followSteps.mp hs
    · subst h1
      have hB : B ∈ gr.syms := gr.prod_subset_syms hr hp (by simp [hsplit])
      have hβ : ∀ k ∈ β, k ∈ gr.syms := fun k hk =>
        gr.prod_subset_syms hr hp (by simp [hsplit, hk])
      constructor
      · simp only [slrFollowAStep1]
        split_ifs
        · exact Finset.empty_subset _
        · exact Finset.singleton_subset_iff.mpr (Finset.mem_union_right _ hB)
      · simp only [slrFollowAStep1]
        refine (Finset.erase_subset _ _).trans
          (slr_firstOf_subset gr (Finset.mem_insert_self _ _) (fun k hk => ?_) (fun a ha => ?_))
        · intro a ha
          apply Finset.mem_insert_of_mem
          apply Finset.mem_union_left
          apply Finset.mem_union_right
          exact Finset.mem_biUnion.mpr ⟨k, hβ k hk, ha⟩
        · apply Finset.mem_insert_of_mem
          apply Finset.mem_union_left
          apply Finset.mem_union_left
          exact hβ a (List.mem_toFinset.mp ha)
    · subst h1
      have hB : B ∈ gr.syms := gr.prod_subset_syms hr hp (by simp [hsplit])
      constructor
      · simp only [followAStep2]
        apply Finset.insert_subset (Finset.mem_union_right _ (gr.key_mem_syms hr))
        split_ifs
        · exact Finset.empty_subset _
        · exact Finset.singleton_subset_iff.mpr (Finset.mem_union_right _ hB)
      · exact Finset.Subset.refl _
  · refine ⟨Finset.subset_union_left, fun k => ?_⟩
    by_cases hk : k ∈ m.keys
    · intro a ha
      apply Finset.mem_insert_of_mem
      apply Finset.mem_union_right
      exact Finset.mem_biUnion.mpr ⟨k, hk, ha⟩
    · have : m.get k = ∅ := UMap.abs_wf m k hk
      simp only [UMap.abs, this]; exact Finset.empty_subset _

theorem slr_followLoop_returns (gr : Grammar) (fi fo : SetMap) :
    ∃ R, Returns (fun n => SLR1Parser.followLoop gr n fi fo) R := by
  obtain ⟨y, K, U, h1, h2, h3, h4⟩ := slr_follow_bound gr fi.get fo
  obtain ⟨R, hR⟩ := slr_followLoop_exists gr fi.get y K U h1 h2 h3 _ fi fo rfl h4 (le_refl _)
  exact ⟨R, _, fun k hk => slr_followLoop_mono gr hR k hk⟩

theorem slr_ComputeFollowSets_returns (gr : Grammar) (fi fo : SetMap) :
    ∃ R, Returns (SLR1Parser.ComputeFollowSets gr fi fo) R ∧ R.1.get = fi.get ∧
      AState.le (followReset gr fo).abs R.2.abs ∧ SlrFollowClosed gr fi.get R.2.abs ∧
      ∀ y, AState.le (followReset gr fo).abs y → SlrFollowClosed gr fi.get y →
        AState.le R.2.abs y := by
  obtain ⟨R, hR⟩ := slr_followLoop_returns gr fi (followReset gr fo)
  refine ⟨R, hR, ?_⟩
  obtain ⟨N, hN⟩ := hR
  exact slr_followLoop_props gr (hN N (le_refl _)) (followReset_keys gr fo)

theorem slr_ComputeFirstSets_fuelMono (gr : Grammar) (fs : SetMap) :
    FuelMono (SLR1Parser.ComputeFirstSets gr fs) :=
  fun _ _ h k hk => slr_firstLoop_mono gr h k hk

theorem slr_ComputeFollowSets_fuelMono (gr : Grammar) (fi fo : SetMap) :
    FuelMono (SLR1Parser.ComputeFollowSets gr fi fo) :=
  fun _ _ h k hk => slr_followLoop_mono gr h k hk

/-! ## Maps with numeric keys, the state set and the transition table -/

theorem UMap.insertNew_find? {V : Type} [Inhabited V] (m : UMap V) (k : String) (v : V)
    (j : String) :
    (m.insertNew k v).find? j = if j = k ∧ k ∉ m.keys then some v else m.find? j := by
  by_cases hk : k ∈ m.keys
  · rw [if_neg (fun h => h.2 hk)]
    simp [UMap.insertNew, hk]
  · by_cases hj : j = k
    · subst hj
      rw [if_pos ⟨rfl, hk⟩]
      exact UMap.insertNew_find?_new m j v hk
    · rw [if_neg (fun h => hj h.1)]
      simp only [UMap.insertNew, hk, if_false, UMap.find?, UMap.set, Finset.mem_insert, hj,
        false_or, Function.update_noteq hj, UMap.get]
      split_ifs <;> rfl

theorem IdMap.find?_assign {V : Type} [Inhabited V] (m : IdMap V) (k : Nat) (v : V) (j : Nat) :
    (m.set k v).find? j = if j = k then some v else m.find? j := by
  by_cases hj : j = k
  · subst hj
    simp [IdMap.find?, IdMap.set]
  · rw [if_neg hj]
    simp only [IdMap.find?, IdMap.set, Finset.mem_insert, hj, false_or,
      Function.update_noteq hj, IdMap.get]
    split_ifs <;> rfl

theorem UMap.find?_eq_none {V : Type} (m : UMap V) (k : String) :
    m.find? k = none ↔ k ∉ m.keys := by
  unfold UMap.find?
  split_ifs with h <;> simp [h]

theorem transLookup_transInsert (t : transition_table) (c : Nat) (X : String) (v : Nat)
    (k : Nat) (Y : String) :
    transLookup (transInsert t c X v) k Y =
      if k = c ∧ Y = X ∧ transLookup t c X = none then some v else transLookup t k Y := by
  unfold transLookup transInsert
  cases hc : t.find? c with
  | none =>
    simp only [IdMap.find?_assign]
    by_cases hk : k = c
    · subst hk
      simp only [if_true, Option.some_bind, hc, Option.none_bind, true_and, and_true]
      rw [UMap.insertNew_find?]
      by_cases hY : Y = X
      · rw [if_pos ⟨hY, by simp [UMap.empty]⟩, if_pos hY]
      · rw [if_neg (fun h => hY h.1), if_neg hY]
        simp [UMap.find?, UMap.empty]
    · rw [if_neg hk, if_neg (fun h => hk h.1)]
  | some column =>
    simp only [IdMap.find?_assign]
    by_cases hk : k = c
    · subst hk
      simp only [if_true, Option.some_bind, hc, true_and]
      rw [UMap.insertNew_find?]
      simp only [UMap.find?_eq_none]
    · rw [if_neg hk, if_neg (fun h => hk h.1)]

theorem statesInsert_found {states : List state} {s q : state}
    (h : states.find? (fun q => q.items_ = s.items_) = some q) :
    statesInsert states s = (states, q, false) ∧ q ∈ states ∧ q.items_ = s.items_ := by
  refine ⟨by simp [statesInsert, h], List.mem_of_find?_eq_some h, ?_⟩
  simpa using List.find?_some h

theorem statesInsert_new {states : List state} {s : state}
    (h : states.find? (fun q => q.items_ = s.items_) = none) :
    statesInsert states s = (states ++ [s], s, true) ∧ ∀ q ∈ states, q.items_ ≠ s.items_ := by
  refine ⟨by simp [statesInsert, h], fun q hq => ?_⟩
  have := List.find?_eq_none.mp h q hq
  simpa using this

/-! ## The items of the grammar and the closure of their subsets -/

theorem mem_AllItems {gr : Grammar} {it : Lr0Item} :
    it ∈ SLR1Parser.AllItems gr ↔
      ∃ r ∈ gr.g_, ∃ p ∈ r.2, it.antecedent_ = r.1 ∧ it.consequent_ = p ∧
        it.dot_ ≤ p.length := by
  simp only [SLR1Parser.AllItems, List.mem_toFinset, List.mem_flatMap, List.mem_map,
    List.mem_range]
  constructor
  · rintro ⟨r, hr, p, hp, i, hi, rfl⟩
    exact ⟨r, hr, p, hp, rfl, rfl, Nat.lt_succ_iff.mp hi⟩
  · rintro ⟨r, hr, p, hp, h1, h2, h3⟩
    refine ⟨r, hr, p, hp, it.dot_, by omega, ?_⟩
    cases it
    simp only at h1 h2
    subst h1 h2
    rfl

theorem create_mem_AllItems {gr : Grammar} {r : String × List production} (hr : r ∈ gr.g_)
    {p : production} (hp : p ∈ r.2) : Lr0Item.create r.1 p ∈ SLR1Parser.AllItems gr := by
  rw [mem_AllItems]
  refine ⟨r, hr, p, hp, ?_⟩
  unfold Lr0Item.create
  split_ifs with h
  · exact ⟨rfl, rfl, by simp [h.1]⟩
  · exact ⟨rfl, rfl, Nat.zero_le _⟩

theorem closureExpand_subset_AllItems (gr : Grammar) (B : String) :
    closureExpand gr B ⊆ SLR1Parser.AllItems gr := by
  intro it hit
  obtain ⟨rules, hrules, rule, hrule, rfl⟩ := mem_closureExpand.mp hit
  exact create_mem_AllItems (r := (B, rules)) (Grammar.at?_eq_some hrules) hrule

theorem AdvanceDot_mem_AllItems {gr : Grammar} {it : Lr0Item}
    (h : it ∈ SLR1Parser.AllItems gr) : it.AdvanceDot ∈ SLR1Parser.AllItems gr := by
  rw [mem_AllItems] at h ⊢
  obtain ⟨r, hr, p, hp, h1, h2, h3⟩ := h
  refine ⟨r, hr, p, hp, ?_⟩
  unfold Lr0Item.AdvanceDot
  split_ifs with h4
  · refine ⟨h1, h2, ?_⟩
    show it.dot_ + 1 ≤ p.length
    rw [h2] at h4
    omega
  · exact ⟨h1, h2, h3⟩

theorem kernelItems_subset_AllItems {gr : Grammar} {I : Finset Lr0Item}
    (h : I ⊆ SLR1Parser.AllItems gr) (X : String) :
    kernelItems I X ⊆ SLR1Parser.AllItems gr := by
  intro it hit
  simp only [kernelItems, Finset.mem_image, Finset.mem_filter] at hit
  obtain ⟨it0, ⟨h0, _⟩, rfl⟩ := hit
  exact AdvanceDot_mem_AllItems (h h0)

theorem NextToDot_mem {it : Lr0Item} (h : it.NextToDot ≠ EPSILON_) :
    it.NextToDot ∈ it.consequent_ := by
  unfold Lr0Item.NextToDot at h ⊢
  split_ifs at h ⊢ with h1
  · exact absurd rfl h
  · rw [List.getD_eq_getElem _ _ (by omega)]
    exact List.getElem_mem _

theorem knownNext_of_subset_AllItems {gr : Grammar} (hg : gr.Defined) {I : Finset Lr0Item}
    (h : I ⊆ SLR1Parser.AllItems gr) : KnownNext gr I := by
  intro it hit h1 h2
  obtain ⟨r, hr, p, hp, _, e2, _⟩ := mem_AllItems.mp (h hit)
  exact hg r hr p hp _ (e2 ▸ NextToDot_mem h1) h1 h2

/-- On a grammar whose non-terminals all have rules, `Closure` returns for
every set of items of the grammar, with any fuel above the number of items. -/
theorem Closure_of_subset_AllItems {gr : Grammar} (hg : gr.Defined) {I : Finset Lr0Item}
    (h : I ⊆ SLR1Parser.AllItems gr) :
    ∃ J, (∀ n, (SLR1Parser.AllItems gr).card + 1 ≤ n → Closure gr I n = some (some J)) ∧
      I ⊆ J ∧ J ⊆ SLR1Parser.AllItems gr := by
  have hinv : ClosureInv gr (SLR1Parser.AllItems gr) I ∅ :=
    ⟨fun B hB => absurd hB (Finset.not_mem_empty _), knownNext_of_subset_AllItems hg h, h,
      closureExpand_subset_AllItems gr⟩
  obtain ⟨J, hJ, _⟩ := ClosureUtil_exists gr hg _ _ I ∅ hinv (le_refl _)
  obtain ⟨h1, h2⟩ := ClosureUtil_least gr hJ
  refine ⟨J, fun n hn => ?_, h1, ?_⟩
  · exact ClosureUtil_fuelMono gr I I.card ∅ _ _ hJ n (by
      have := Finset.card_le_card h
      omega)
  · apply h2 _ h
    intro it _ _ _ rules hrules rule hrule
    exact closureExpand_subset_AllItems gr _
      (mem_closureExpand.mpr ⟨rules, hrules, rule, hrule, rfl⟩)

/-! ## The loop of `MakeParser` -/

theorem TransitionOk.append {gr : Grammar} {states : List state} {k : Nat} {X : String} {t : Nat}
    (h : TransitionOk gr states k X t) (ext : List state) :
    TransitionOk gr (states ++ ext) k X t := by
  obtain ⟨q, q', h1, h2, h3, h4⟩ := h
  have hk : k < states.length := by
    by_contra hc
    rw [List.getElem?_eq_none (by omega)] at h1
    cases h1
  have ht : t < states.length := by
    by_contra hc
    rw [List.getElem?_eq_none (by omega)] at h2
    cases h2
  exact ⟨q, q', by rw [List.getElem?_append_left hk]; exact h1,
    by rw [List.getElem?_append_left ht]; exact h2, h3, h4⟩

theorem getElem?_of_mem_ids {states : List state}
    (hids : ∀ (k : Nat) (q : state), states[k]? = some q → q.id_ = k) {q : state} (hq : q ∈ states) :
    states[q.id_]? = some q := by
  obtain ⟨j, hj⟩ := List.mem_iff_getElem?.mp hq
  rw [hids j q hj]
  exact hj

theorem expandSymbol_spec {gr : Grammar} (hg : gr.Defined) (c : Nat) (qc : state)
    (D : Finset String) (s : MakeState) (X : String)
    (hT : StatesOk gr s.states) (hq : qc ∈ s.states) (hX : X ∈ nextSymbols qc.items_) :
    ∃ s', (∀ fuel, (SLR1Parser.AllItems gr).card + 1 ≤ fuel →
        expandSymbol gr fuel c qc s X = some (some s')) ∧ StatesOk gr s'.states ∧
      (∃ ext, s'.states = s.states ++ ext) ∧ s.i ≤ s'.i ∧
      (s.i = s.states.length → s'.i = s'.states.length) ∧
      s'.states.length + s.pending.length = s.states.length + s'.pending.length ∧
      (s'.i ≤ 2 ^ 32 → LoopOk gr c D s → s.states[c]? = some qc →
        LoopOk gr c (insert X D) s') := by
  have hqU := (hT.2 qc hq).1
  obtain ⟨J, hJ, _, hJU⟩ := Closure_of_subset_AllItems hg (kernelItems_subset_AllItems hqU X)
  have hret : Returns (Closure gr (kernelItems qc.items_ X)) (some J) := ⟨_, hJ⟩
  have hreach : ReachableItems gr J := ReachableItems.goto _ _ X (hT.2 qc hq).2 hX hret
  cases hfind : s.states.find? (fun q => q.items_ = J) with
  | some q =>
    obtain ⟨e1, e2, e3⟩ := statesInsert_found (s := ⟨J, u32 s.i⟩) hfind
    refine ⟨{ s with transitions := transInsert s.transitions c X q.id_ }, ?_, hT, ⟨[], by simp⟩,
      le_refl _, fun h => h, rfl, fun _ hL hc => ?_⟩
    · intro fuel hf
      simp only [expandSymbol, hJ fuel hf, andThen, e1]
      simp
    · have hqpos : s.states[q.id_]? = some q := getElem?_of_mem_ids hL.ids e2
      refine ⟨hL.count, hL.ids, hL.current, hL.pending, fun k Y t ht => ?_,
        fun k Y q0 hk hq0 hY => ?_⟩
      · simp only [transLookup_transInsert] at ht
        split_ifs at ht with h1
        · obtain ⟨rfl, rfl, _⟩ := h1
          simp only [Option.some.injEq] at ht
          subst ht
          exact ⟨le_refl _, qc, q, hc, hqpos, hX, by rw [e3]; exact hret⟩
        · exact hL.sound k Y t ht
      · simp only [transLookup_transInsert]
        split_ifs with h1
        · exact ⟨_, rfl⟩
        · rcases hk with hk | ⟨rfl, hYD⟩
          · exact hL.complete k Y q0 (Or.inl hk) hq0 hY
          · rcases Finset.mem_insert.mp hYD with rfl | hYD
            · have hne : transLookup s.transitions k Y ≠ none := fun h => h1 ⟨rfl, rfl, h⟩
              exact Option.ne_none_iff_exists'.mp hne
            · exact hL.complete k Y q0 (Or.inr ⟨rfl, hYD⟩) hq0 hY
  | none =>
    obtain ⟨e1, e2⟩ := statesInsert_new (s := ⟨J, u32 s.i⟩) hfind
    refine ⟨⟨s.states ++ [⟨J, u32 s.i⟩], transInsert s.transitions c X (u32 s.i),
      s.pending ++ [u32 s.i], s.i + 1⟩, ?_, ⟨?_, ?_⟩, ⟨_, rfl⟩, Nat.le_succ _,
      fun h => by simp [h], ?_, fun hi hL hc => ?_⟩
    · intro fuel hf
      simp only [expandSymbol, hJ fuel hf, andThen, e1]
      simp
    · rw [List.map_append, List.nodup_append]
      refine ⟨hT.1, by simp, ?_⟩
      intro a ha hb
      simp only [List.map_cons, List.map_nil, List.mem_singleton] at hb
      obtain ⟨q, hq1, hq2⟩ := List.mem_map.mp ha
      exact e2 q hq1 (by rw [hq2, hb])
    · intro q hq1
      rcases List.mem_append.mp hq1 with h | h
      · exact hT.2 q h
      · rw [List.mem_singleton.mp h]
        exact ⟨hJU, hreach⟩
    · simp only [List.length_append, List.length_singleton]
      omega
    · simp only at hi
      have hu : u32 s.i = s.i := u32_of_lt (by omega)
      have hlen := hL.count
      have hcur := hL.current
      rw [hu]
      have hnew : (s.states ++ [(⟨J, s.i⟩ : state)])[s.i]? = some ⟨J, s.i⟩ := by
        rw [hlen, List.getElem?_append_right (le_refl _)]
        simp
      refine ⟨?_, fun k q hk => ?_, ?_, ?_, fun k Y t ht => ?_, fun k Y q0 hk hq0 hY => ?_⟩
      · simp only [List.length_append, List.length_singleton, hlen]
      · by_cases hk1 : k < s.states.length
        · rw [List.getElem?_append_left hk1] at hk
          exact hL.ids k q hk
        · by_cases hk2 : k = s.states.length
          · subst hk2
            rw [← hlen, hnew] at hk
            simp only [Option.some.injEq] at hk
            rw [← hk, hlen]
          · rw [List.getElem?_eq_none (by simp; omega)] at hk
            cases hk
      · show c < s.i + 1
        omega
      · show s.pending ++ [s.i] = List.range' (c + 1) (s.i + 1 - (c + 1))
        have h1 : s.i + 1 - (c + 1) = (s.i - (c + 1)) + 1 := by omega
        rw [h1, List.range'_concat, ← hL.pending]
        congr 2
        omega
      · simp only [transLookup_transInsert] at ht
        split_ifs at ht with h1
        · obtain ⟨rfl, rfl, _⟩ := h1
          simp only [Option.some.injEq] at ht
          subst ht
          refine ⟨le_refl _, qc, ⟨J, s.i⟩, ?_, hnew, hX, hret⟩
          rw [List.getElem?_append_left (by omega)]
          exact hc
        · obtain ⟨i1, i2⟩ := hL.sound k Y t ht
          exact ⟨i1, i2.append _⟩
      · have hk1 : k < s.states.length := by
          rcases hk with hk | ⟨rfl, _⟩ <;> omega
        rw [List.getElem?_append_left hk1] at hq0
        simp only [transLookup_transInsert]
        split_ifs with h1
        · exact ⟨_, rfl⟩
        · rcases hk with hk | ⟨rfl, hYD⟩
          · exact hL.complete k Y q0 (Or.inl hk) hq0 hY
          · rcases Finset.mem_insert.mp hYD with rfl | hYD
            · have hne : transLookup s.transitions k Y ≠ none := fun h => h1 ⟨rfl, rfl, h⟩
              exact Option.ne_none_iff_exists'.mp hne
            · exact hL.complete k Y q0 (Or.inr ⟨rfl, hYD⟩) hq0 hY

/-! ## The loop of `MakeParser`: all symbols, all states -/

theorem expandAll_spec {gr : Grammar} (hg : gr.Defined) (c : Nat) (qc : state) :
    ∀ (syms : List String) (D : Finset String) (s : MakeState), StatesOk gr s.states →
      qc ∈ s.states → (∀ X ∈ syms, X ∈ nextSymbols qc.items_) →
      ∃ s', (∀ fuel, (SLR1Parser.AllItems gr).card + 1 ≤ fuel →
          forEach (expandSymbol gr fuel c qc) syms s = some (some s')) ∧
        StatesOk gr s'.states ∧ (∃ ext, s'.states = s.states ++ ext) ∧ s.i ≤ s'.i ∧
        (s.i = s.states.length → s'.i = s'.states.length) ∧
        s'.states.length + s.pending.length = s.states.length + s'.pending.length ∧
        (s'.i ≤ 2 ^ 32 → LoopOk gr c D s → s.states[c]? = some qc →
          LoopOk gr c (D ∪ syms.toFinset) s') := by
  intro syms
  induction syms with
  | nil =>
    intro D s hT _ _
    refine ⟨s, fun _ _ => rfl, hT, ⟨[], by simp⟩, le_refl _, fun h => h, rfl, fun _ hL _ => ?_⟩
    simpa using hL
  | cons X rest ih =>
    intro D s hT hq hX
    obtain ⟨s1, a1, a2, ⟨ext1, a3⟩, a4, a5, a6, a7⟩ :=
      expandSymbol_spec hg c qc D s X hT hq (hX X (List.mem_cons_self _ _))
    have hq1 : qc ∈ s1.states := by rw [a3]; exact List.mem_append_left _ hq
    obtain ⟨s', b1, b2, ⟨ext2, b3⟩, b4, b5, b6, b7⟩ :=
      ih (insert X D) s1 a2 hq1 (fun Y hY => hX Y (List.mem_cons_of_mem _ hY))
    refine ⟨s', ?_, b2, ⟨ext1 ++ ext2, by rw [b3, a3, List.append_assoc]⟩, a4.trans b4,
      fun h => b5 (a5 h), by omega, fun hi hL hc => ?_⟩
    · intro fuel hf
      simp only [forEach, a1 fuel hf, andThen]
      exact b1 fuel hf
    · have hL1 := a7 (b4.trans hi) hL hc
      have hc1 : s1.states[c]? = some qc := by
        have hlt : c < s.states.length := by
          have := hL.current; have := hL.count; omega
        rw [a3, List.getElem?_append_left hlt]
        exact hc
      have := b7 hi hL1 hc1
      have heq : insert X D ∪ rest.toFinset = D ∪ (X :: rest).toFinset := by
        ext a
        simp only [Finset.mem_union, Finset.mem_insert, List.toFinset_cons]
        tauto
      rw [← heq]
      exact this

theorem StatesOk.length_le {gr : Grammar} {states : List state} (h : StatesOk gr states) :
    states.length ≤ 2 ^ (SLR1Parser.AllItems gr).card := by
  have h1 : (states.map fun q => q.items_).toFinset ⊆ (SLR1Parser.AllItems gr).powerset := by
    intro I hI
    simp only [List.mem_toFinset, List.mem_map] at hI
    obtain ⟨q, hq, rfl⟩ := hI
    exact Finset.mem_powerset.mpr (h.2 q hq).1
  have h2 := Finset.card_le_card h1
  rw [List.toFinset_card_of_nodup h.1, Finset.card_powerset, List.length_map] at h2
  exact h2

theorem find?_id_of_loopOk {o : HashOrder} (ho : o.Valid) {gr : Grammar} {c : Nat}
    {D : Finset String} {s : MakeState} (hL : LoopOk gr c D s) :
    ∃ qc, (o.states s.states).find? (fun st => st.id_ = c) = some qc ∧
      s.states[c]? = some qc := by
  have hlt : c < s.states.length := by
    have := hL.current; have := hL.count; omega
  have hq0 : s.states[c]? = some s.states[c] := List.getElem?_eq_getElem hlt
  have hmem : s.states[c] ∈ o.states s.states :=
    (ho.2.2.2 s.states).mem_iff.mpr (List.getElem_mem _)
  cases hfind : (o.states s.states).find? (fun st => st.id_ = c) with
  | none =>
    have := List.find?_eq_none.mp hfind _ hmem
    simp [hL.ids c _ hq0] at this
  | some qc =>
    refine ⟨qc, rfl, ?_⟩
    have h1 : qc ∈ s.states := (ho.2.2.2 s.states).mem_iff.mp (List.mem_of_find?_eq_some hfind)
    have h2 : qc.id_ = c := by simpa using List.find?_some hfind
    have := getElem?_of_mem_ids hL.ids h1
    rw [h2] at this
    exact this

theorem makeLoop_spec {gr : Grammar} (hg : gr.Defined) {o : HashOrder} (ho : o.Valid) :
    ∀ (d c : Nat) (s : MakeState), StatesOk gr s.states →
      2 ^ (SLR1Parser.AllItems gr).card - s.states.length + s.pending.length ≤ d →
      s.i = s.states.length → (s.i ≤ 2 ^ 32 → LoopOk gr c ∅ s) →
      ∃ r, (∀ fuel n, (SLR1Parser.AllItems gr).card + 1 ≤ fuel → d + 1 ≤ n →
          makeLoop gr o fuel n c s = some (some r)) ∧
        StatesOk gr r.states ∧ (∃ ext, r.states = s.states ++ ext) ∧
        r.i = r.states.length ∧
        (r.i ≤ 2 ^ 32 → FinalOk gr r.states r.transitions) := by
  intro d
  induction d with
  | zero =>
    intro c s hT hd hcount hL
    have hlen := hT.length_le
    cases hfind : (o.states s.states).find? (fun st => st.id_ = c) with
    | none =>
      refine ⟨s, fun fuel n hf hn => ?_, hT, ⟨[], by simp⟩, hcount, fun hi => ?_⟩
      · obtain ⟨n, rfl⟩ : ∃ m, n = m + 1 := ⟨n - 1, by omega⟩
        simp only [makeLoop, hfind]
      · obtain ⟨qc, h1, _⟩ := find?_id_of_loopOk ho (hL hi)
        rw [hfind] at h1; cases h1
    | some qc =>
      have hq : qc ∈ s.states :=
        (ho.2.2.2 s.states).mem_iff.mp (List.mem_of_find?_eq_some hfind)
      obtain ⟨s1, a1, a2, ⟨ext1, a3⟩, a4, a5, a6, a7⟩ :=
        expandAll_spec hg c qc (o.symbols c (nextSymbols qc.items_)) ∅ s hT hq
          (fun X hX => ((ho.1 c _).2 X).mp hX)
      have hlen1 := a2.length_le
      have hp1 : s1.pending = [] := by
        apply List.eq_nil_of_length_eq_zero
        have : s.states.length ≤ s1.states.length := by rw [a3]; simp
        omega
      refine ⟨s1, fun fuel n hf hn => ?_, a2, ⟨ext1, a3⟩, a5 hcount, fun hi => ?_⟩
      · obtain ⟨n, rfl⟩ : ∃ m, n = m + 1 := ⟨n - 1, by omega⟩
        simp only [makeLoop, hfind, a1 fuel hf, andThen, hp1]
      · have hLs := hL (a4.trans hi)
        obtain ⟨qc', h1, h2⟩ := find?_id_of_loopOk ho hLs
        rw [hfind] at h1
        simp only [Option.some.injEq] at h1
        subst h1
        have hL1 := a7 hi hLs h2
        have hi1 : s1.i = c + 1 := by
          have h3 := hL1.pending
          rw [hp1] at h3
          have h4 := congrArg List.length h3
          simp only [List.length_nil, List.length_range'] at h4
          have := hL1.current
          omega
        refine ⟨hL1.ids, fun k X t ht => (hL1.sound k X t ht).2, fun k X q hq0 hX => ?_⟩
        have hk : k < s1.states.length := by
          by_contra hc
          rw [List.getElem?_eq_none (by omega)] at hq0
          cases hq0
        have hk' : k < c ∨ k = c := by
          have := hL1.count; omega
        rcases hk' with hk' | rfl
        · exact hL1.complete k X q (Or.inl hk') hq0 hX
        · have hqq : q = qc := by
            have hc1 : s1.states[k]? = some qc := by
              have hlt : k < s.states.length := by
                have := hLs.current; have := hLs.count; omega
              rw [a3, List.getElem?_append_left hlt]
              exact h2
            rw [hc1] at hq0
            exact (Option.some.inj hq0).symm
          subst hqq
          refine hL1.complete k X q (Or.inr ⟨rfl, ?_⟩) hq0 hX
          simp only [Finset.empty_union, List.mem_toFinset]
          exact ((ho.1 k _).2 X).mpr hX
  | succ d ih =>
    intro c s hT hd hcount hL
    have hlen := hT.length_le
    cases hfind : (o.states s.states).find? (fun st => st.id_ = c) with
    | none =>
      refine ⟨s, fun fuel n hf hn => ?_, hT, ⟨[], by simp⟩, hcount, fun hi => ?_⟩
      · obtain ⟨n, rfl⟩ : ∃ m, n = m + 1 := ⟨n - 1, by omega⟩
        simp only [makeLoop, hfind]
      · obtain ⟨qc, h1, _⟩ := find?_id_of_loopOk ho (hL hi)
        rw [hfind] at h1; cases h1
    | some qc =>
      have hq : qc ∈ s.states :=
        (ho.2.2.2 s.states).mem_iff.mp (List.mem_of_find?_eq_some hfind)
      obtain ⟨s1, a1, a2, ⟨ext1, a3⟩, a4, a5, a6, a7⟩ :=
        expandAll_spec hg c qc (o.symbols c (nextSymbols qc.items_)) ∅ s hT hq
          (fun X hX => ((ho.1 c _).2 X).mp hX)
      have hlen1 := a2.length_le
      have hle : s.states.length ≤ s1.states.length := by rw [a3]; simp
      have hgood : s1.i ≤ 2 ^ 32 → s.states[c]? = some qc ∧
          LoopOk gr c (nextSymbols qc.items_) s1 := by
        intro hi
        have hLs := hL (a4.trans hi)
        obtain ⟨qc', h1, h2⟩ := find?_id_of_loopOk ho hLs
        rw [hfind] at h1
        simp only [Option.some.injEq] at h1
        subst h1
        refine ⟨h2, ?_⟩
        have hL1 := a7 hi hLs h2
        have heq : (∅ : Finset String) ∪ (o.symbols c (nextSymbols qc.items_)).toFinset =
            nextSymbols qc.items_ := by
          ext X
          simp only [Finset.empty_union, List.mem_toFinset]
          exact (ho.1 c _).2 X
        rw [heq] at hL1
        exact hL1
      have hfinal : s1.i ≤ 2 ^ 32 → s1.i = c + 1 → FinalOk gr s1.states s1.transitions := by
        intro hi hi1
        obtain ⟨h2, hL1⟩ := hgood hi
        have hLs := hL (a4.trans hi)
        refine ⟨hL1.ids, fun k X t ht => (hL1.sound k X t ht).2, fun k X q hq0 hX => ?_⟩
        have hk : k < s1.states.length := by
          by_contra hc
          rw [List.getElem?_eq_none (by omega)] at hq0
          cases hq0
        have hk' : k < c ∨ k = c := by
          have := hL1.count; omega
        rcases hk' with hk' | rfl
        · exact hL1.complete k X q (Or.inl hk') hq0 hX
        · have hqq : q = qc := by
            have hc1 : s1.states[k]? = some qc := by
              have hlt : k < s.states.length := by
                have := hLs.current; have := hLs.count; omega
              rw [a3, List.getElem?_append_left hlt]
              exact h2
            rw [hc1] at hq0
            exact (Option.some.inj hq0).symm
          subst hqq
          exact hL1.complete k X q (Or.inr ⟨rfl, hX⟩) hq0 hX
      cases hp1 : s1.pending with
      | nil =>
        refine ⟨s1, fun fuel n hf hn => ?_, a2, ⟨ext1, a3⟩, a5 hcount, fun hi => ?_⟩
        · obtain ⟨n, rfl⟩ : ∃ m, n = m + 1 := ⟨n - 1, by omega⟩
          simp only [makeLoop, hfind, a1 fuel hf, andThen, hp1]
        · apply hfinal hi
          obtain ⟨_, hL1⟩ := hgood hi
          have h3 := hL1.pending
          rw [hp1] at h3
          have h4 := congrArg List.length h3
          simp only [List.length_nil, List.length_range'] at h4
          have := hL1.current
          omega
      | cons c' rest =>
        have hrec := ih c' { s1 with pending := rest } a2
          (by
            simp only
            rw [hp1] at a6
            simp only [List.length_cons] at a6
            omega)
          (a5 hcount)
          (fun hi => by
            obtain ⟨h2, hL1⟩ := hgood hi
            have h3 := hL1.pending
            rw [hp1] at h3
            have hpos : s1.i - (c + 1) ≠ 0 := by
              intro h0
              rw [h0] at h3
              simp at h3
            obtain ⟨m, hm⟩ : ∃ m, s1.i - (c + 1) = m + 1 := ⟨s1.i - (c + 1) - 1, by omega⟩
            rw [hm, List.range'_succ] at h3
            simp only [List.cons.injEq] at h3
            obtain ⟨rfl, hrest⟩ := h3
            refine ⟨hL1.count, hL1.ids, ?_, ?_, fun k X t ht => ?_, fun k X q hk hq0 hX => ?_⟩
            · show c + 1 < s1.i
              omega
            · show rest = List.range' (c + 1 + 1) (s1.i - (c + 1 + 1))
              rw [hrest]
              congr 1
              omega
            · obtain ⟨i1, i2⟩ := hL1.sound k X t ht
              exact ⟨by omega, i2⟩
            · rcases hk with hk | ⟨_, hk⟩
              · have hk' : k < c ∨ k = c := by omega
                rcases hk' with hk' | rfl
                · exact hL1.complete k X q (Or.inl hk') hq0 hX
                · have hqq : q = qc := by
                    have hLs := hL (a4.trans hi)
                    have hc1 : s1.states[k]? = some qc := by
                      have hlt : k < s.states.length := by
                        have := hLs.current; have := hLs.count; omega
                      rw [a3, List.getElem?_append_left hlt]
                      exact h2
                    change s1.states[k]? = some q at hq0
                    rw [hc1] at hq0
                    exact (Option.some.inj hq0).symm
                  subst hqq
                  exact hL1.complete k X q (Or.inr ⟨rfl, hX⟩) hq0 hX
              · exact absurd hk (Finset.not_mem_empty _))
        obtain ⟨r, r1, r2, ⟨ext2, r3⟩, r4, r5⟩ := hrec
        refine ⟨r, fun fuel n hf hn => ?_, r2, ⟨ext1 ++ ext2, ?_⟩, r4, r5⟩
        · obtain ⟨n, rfl⟩ : ∃ m, n = m + 1 := ⟨n - 1, by omega⟩
          simp only [makeLoop, hfind, a1 fuel hf, andThen, hp1]
          exact r1 fuel n hf (by omega)
        · rw [r3]
          show s1.states ++ ext2 = s.states ++ (ext1 ++ ext2)
          rw [a3, List.append_assoc]

/-! ## `SolveLRConflicts` -/

theorem UMap.find?_set {V : Type} [Inhabited V] (m : UMap V) (k : String) (v : V) (j : String) :
    (m.set k v).find? j = if j = k then some v else m.find? j := by
  by_cases hj : j = k
  · subst hj
    simp [UMap.find?, UMap.set]
  · rw [if_neg hj]
    simp only [UMap.find?, UMap.set, Finset.mem_insert, hj, false_or,
      Function.update_noteq hj, UMap.get]
    split_ifs <;> rfl

theorem IdMap.get_touch {V : Type} [Inhabited V] (m : IdMap V) (k j : Nat) :
    (m.touch k).get j = m.get j := by
  simp only [IdMap.get, IdMap.touch, Finset.mem_insert]
  by_cases hj : j ∈ m.keys
  · simp [hj]
  · by_cases hjk : j = k
    · subst hjk; simp [hj]
    · simp [hj, hjk]

theorem IdMap.get_set {V : Type} [Inhabited V] (m : IdMap V) (k : Nat) (v : V) (j : Nat) :
    (m.set k v).get j = if j = k then v else m.get j := by
  by_cases hj : j = k
  · subst hj
    simp [IdMap.get, IdMap.set]
  · rw [if_neg hj]
    simp only [IdMap.get, IdMap.set, Finset.mem_insert, hj, false_or, Function.update_noteq hj]
    split_ifs <;> rfl

theorem actLookup_touch (a : action_table) (id j : Nat) (y : String) :
    actLookup (a.touch id) j y = actLookup a j y := by
  unfold actLookup
  rw [IdMap.get_touch]

theorem actLookup_write (a : action_table) (id : Nat) (sym : String) (v : s_action) (j : Nat)
    (y : String) :
    actLookup ((a.touch id).set id (((a.touch id).get id).set sym v)) j y =
      if j = id ∧ y = sym then some v else actLookup a j y := by
  unfold actLookup
  rw [IdMap.get_set]
  by_cases hj : j = id
  · subst hj
    simp only [if_true, true_and, UMap.find?_set, IdMap.get_touch]
  · rw [if_neg hj, if_neg (fun h => hj h.1), IdMap.get_touch]

theorem reduceStep_spec (id : Nat) (item : Lr0Item) (a : action_table) (sym : String) :
    ((reduceStep id item a sym).1 = true ↔
      ∀ e, actLookup a id sym = some e → ReduceCompatible e item) ∧
    ∀ j y, actLookup (reduceStep id item a sym).2 j y =
      if (reduceStep id item a sym).1 = true ∧ j = id ∧ y = sym
      then some ⟨some item, Action.Reduce⟩ else actLookup a j y := by
  have hrow : ((a.touch id).get id).find? sym = actLookup a id sym := by
    unfold actLookup; rw [IdMap.get_touch]
  cases hl : actLookup a id sym with
  | none =>
    have hv : reduceStep id item a sym =
        (true, (a.touch id).set id (((a.touch id).get id).set sym ⟨some item, Action.Reduce⟩)) := by
      simp only [reduceStep, hrow, hl]
    rw [hv]
    refine ⟨by simp, fun j y => ?_⟩
    rw [actLookup_write]
    simp
  | some e =>
    simp only [Option.some.injEq, forall_eq']
    by_cases h1 : e.action = Action.Reduce
    · by_cases h2 : e.item.map (fun i => i.antecedent_) = some item.antecedent_ ∧
          e.item.map (fun i => i.consequent_) = some item.consequent_
      · have hv : reduceStep id item a sym =
            (true, (a.touch id).set id
              (((a.touch id).get id).set sym ⟨some item, Action.Reduce⟩)) := by
          simp only [reduceStep, hrow, hl, h1, if_true, if_neg (not_not.mpr h2)]
        rw [hv]
        refine ⟨by simp [ReduceCompatible, h1, h2], fun j y => ?_⟩
        rw [actLookup_write]
        simp
      · have hv : reduceStep id item a sym = (false, a.touch id) := by
          simp only [reduceStep, hrow, hl, h1, if_true, if_pos h2]
        rw [hv]
        refine ⟨?_, fun j y => ?_⟩
        · simp only [Bool.false_eq_true, false_iff]
          exact fun h => h2 h.2
        · simp [actLookup_touch]
    · have hv : reduceStep id item a sym = (false, a.touch id) := by
        simp only [reduceStep, hrow, hl, if_neg h1]
      rw [hv]
      refine ⟨?_, fun j y => ?_⟩
      · simp only [Bool.false_eq_true, false_iff]
        exact fun h => h1 h.1
      · simp [actLookup_touch]

theorem reduceLoop_spec (id : Nat) (item : Lr0Item) :
    ∀ (syms : List String) (a : action_table), syms.Nodup →
      ((forUntilFalse (reduceStep id item) syms a).1 = true ↔
        ∀ sym ∈ syms, ∀ e, actLookup a id sym = some e → ReduceCompatible e item) ∧
      ((forUntilFalse (reduceStep id item) syms a).1 = true →
        ∀ j y, actLookup (forUntilFalse (reduceStep id item) syms a).2 j y =
          if j = id ∧ y ∈ syms then some ⟨some item, Action.Reduce⟩ else actLookup a j y) := by
  intro syms
  induction syms with
  | nil =>
    intro a _
    simp [forUntilFalse]
  | cons sym rest ih =>
    intro a hnd
    obtain ⟨s1, s2⟩ := reduceStep_spec id item a sym
    have hnd' := (List.nodup_cons.mp hnd).2
    have hnotin := (List.nodup_cons.mp hnd).1
    simp only [forUntilFalse]
    by_cases hb : (reduceStep id item a sym).1 = true
    · rw [if_pos hb]
      obtain ⟨i1, i2⟩ := ih (reduceStep id item a sym).2 hnd'
      have hsame : ∀ y ∈ rest, actLookup (reduceStep id item a sym).2 id y = actLookup a id y := by
        intro y hy
        rw [s2 id y, if_neg]
        rintro ⟨_, _, rfl⟩
        exact hnotin hy
      constructor
      · rw [i1]
        constructor
        · intro h y hy e he
          rcases List.mem_cons.mp hy with rfl | hy
          · exact s1.mp hb e he
          · exact h y hy e (by rw [hsame y hy]; exact he)
        · intro h y hy e he
          exact h y (List.mem_cons_of_mem _ hy) e (by rw [← hsame y hy]; exact he)
      · intro hres j y
        rw [i2 hres j y, s2 j y]
        by_cases hj : j = id
        · subst hj
          by_cases hy : y = sym
          · subst hy
            simp [hb, hnotin]
          · simp [hy]
        · simp [hj]
    · rw [if_neg hb]
      constructor
      · simp only [Bool.false_eq_true, false_iff]
        intro h
        exact hb (s1.mpr (h sym (List.mem_cons_self _ _)))
      · intro h; cases h

/-! ## `SolveLRConflicts`: one item, one state, all states -/

theorem AgreesWith.congr {gr : Grammar} {fo : SetMap} {a a' : action_table} {id : Nat}
    {it : Lr0Item} {t : String} (h : AgreesWith gr fo a id it t)
    (he : actLookup a' id t = actLookup a id t) : AgreesWith gr fo a' id it t := by
  unfold AgreesWith at h ⊢
  rw [he]
  exact h

theorem reduceCompatible_iff {e : s_action} {it item : Lr0Item} (h1 : e.action = Action.Reduce)
    (h2 : e.item = some it) : ReduceCompatible e item ↔ SameRule it item := by
  simp [ReduceCompatible, SameRule, h1, h2]

theorem solveItem_spec (gr : Grammar) (fo : SetMap) {o : HashOrder} (ho : o.Valid)
    (I : Finset Lr0Item) (id : Nat) (done : List Lr0Item) (a0 a : action_table)
    (item : Lr0Item) (hitem : item ∈ I) (hR : RowOk gr fo I id done a0 a) :
    ((solveItem gr fo o id a item).1 = true →
      RowOk gr fo I id (item :: done) a0 (solveItem gr fo o id a item).2) ∧
    ((solveItem gr fo o id a item).1 = false → DetectedAt gr fo done item) := by
  have hrow : ∀ y, ((a.touch id).get id).find? y = actLookup a id y := by
    intro y; unfold actLookup; rw [IdMap.get_touch]
  by_cases hc : item.IsComplete = true
  · by_cases hax : item.antecedent_ = gr.axiom_
    · -- Accept
      have hv : solveItem gr fo o id a item =
          (true, (a.touch id).set id (((a.touch id).get id).set EOL_ ⟨none, Action.Accept⟩)) := by
        simp only [solveItem, hc, if_true, hax]
      rw [hv]
      refine ⟨fun _ => ⟨fun j hj y => ?_, fun y e he => ?_, fun y hy it hit => ?_⟩,
        fun h => by cases h⟩
      · rw [actLookup_write, if_neg (fun h => hj h.1)]
        exact hR.others j hj y
      · rw [actLookup_write] at he
        split_ifs at he with h1
        · simp only [Option.some.injEq] at he
          subst he
          exact ⟨item, List.mem_cons_self _ _, Or.inr (Or.inr ⟨rfl, hc, hax, h1.2⟩)⟩
        · obtain ⟨it, hit, hw⟩ := hR.written y e he
          exact ⟨it, List.mem_cons_of_mem _ hit, hw⟩
      · have hy' : y ≠ EOL_ := by
          rcases hy with hy | hy
          · exact hy
          · exact absurd ⟨hc, hax, rfl⟩ (hy item hitem)
        have hsame : actLookup ((a.touch id).set id
            (((a.touch id).get id).set EOL_ ⟨none, Action.Accept⟩)) id y = actLookup a id y := by
          rw [actLookup_write, if_neg (fun h => hy' h.2)]
        rcases List.mem_cons.mp hit with rfl | hit
        · exact ⟨fun h => absurd hax h.2.1, fun h => Bool.noConfusion (hc.symm.trans h.1)⟩
        · exact (hR.agrees y hy it hit).congr hsame
    · -- Reduce
      have hv : solveItem gr fo o id a item =
          forUntilFalse (reduceStep id item)
            (o.follows id item (SLR1Parser.Follow fo item.antecedent_)) a := by
        simp only [solveItem, hc, if_true, if_neg hax]
      rw [hv]
      obtain ⟨hnd, hmem⟩ := ho.2.1 id item (SLR1Parser.Follow fo item.antecedent_)
      obtain ⟨l1, l2⟩ := reduceLoop_spec id item _ a hnd
      constructor
      · intro hb
        have hcompat := l1.mp hb
        have hlook := l2 hb
        refine ⟨fun j hj y => ?_, fun y e he => ?_, fun y hy it hit => ?_⟩
        · rw [hlook, if_neg (fun h => hj h.1)]
          exact hR.others j hj y
        · rw [hlook] at he
          split_ifs at he with h1
          · simp only [Option.some.injEq] at he
            subst he
            exact ⟨item, List.mem_cons_self _ _,
              Or.inl ⟨rfl, rfl, hc, hax, (hmem y).mp h1.2⟩⟩
          · obtain ⟨it, hit, hw⟩ := hR.written y e he
            exact ⟨it, List.mem_cons_of_mem _ hit, hw⟩
        · rcases List.mem_cons.mp hit with rfl | hit
          · refine ⟨fun h => ?_, fun h => Bool.noConfusion (hc.symm.trans h.1)⟩
            refine ⟨⟨some it, Action.Reduce⟩, it, ?_, rfl, rfl, rfl, rfl⟩
            rw [hlook, if_pos ⟨rfl, (hmem y).mpr h.2.2⟩]
          · by_cases hyL : y ∈ o.follows id item (SLR1Parser.Follow fo item.antecedent_)
            · have hold := hR.agrees y hy it hit
              constructor
              · intro hred
                obtain ⟨e, it', e1, e2, e3, e4⟩ := hold.1 hred
                have hcm := hcompat y hyL e e1
                have hs : SameRule it' item := (reduceCompatible_iff e2 e3).mp hcm
                refine ⟨⟨some item, Action.Reduce⟩, item, ?_, rfl, rfl, ?_⟩
                · rw [hlook, if_pos ⟨rfl, hyL⟩]
                · exact ⟨hs.1.symm.trans e4.1, hs.2.symm.trans e4.2⟩
              · intro hsh
                obtain ⟨e, e1, e2⟩ := hold.2 hsh
                have hcm := hcompat y hyL e e1
                rw [hcm.1] at e2
                cases e2
            · refine (hR.agrees y hy it hit).congr ?_
              rw [hlook, if_neg (fun h => hyL h.2)]
      · intro hb
        have hnot : ¬ ∀ sym ∈ o.follows id item (SLR1Parser.Follow fo item.antecedent_),
            ∀ e, actLookup a id sym = some e → ReduceCompatible e item := by
          intro h
          rw [l1.mpr h] at hb
          cases hb
        push_neg at hnot
        obtain ⟨sym, hsym, e, he, hne⟩ := hnot
        obtain ⟨it, hit, hw⟩ := hR.written sym e he
        have hred : Reduces gr fo item sym := ⟨hc, hax, (hmem sym).mp hsym⟩
        refine ⟨it, hit, sym, Or.inl ⟨hred, ?_⟩⟩
        rcases hw with ⟨w1, w2, w3⟩ | ⟨_, w2⟩ | ⟨_, w2⟩
        · exact Or.inr (Or.inr ⟨w3, fun hs => hne ((reduceCompatible_iff w1 w2).mpr hs)⟩)
        · exact Or.inl w2
        · exact Or.inr (Or.inl w2)
  · have hc' : item.IsComplete = false := by simpa using hc
    by_cases ht : gr.st_.IsTerminal item.NextToDot = true
    · -- Shift
      by_cases hred : ∃ e, actLookup a id item.NextToDot = some e ∧ e.action = Action.Reduce
      · obtain ⟨e, he, hea⟩ := hred
        have hv : solveItem gr fo o id a item = (false, a.touch id) := by
          simp only [solveItem, hc', Bool.false_eq_true, if_false, ht, if_true, hrow, he, hea]
        rw [hv]
        refine ⟨fun h => Bool.noConfusion h, fun _ => ?_⟩
        obtain ⟨it, hit, hw⟩ := hR.written _ e he
        refine ⟨it, hit, item.NextToDot, Or.inr ⟨⟨hc', ht, rfl⟩, ?_⟩⟩
        rcases hw with ⟨_, _, w3⟩ | ⟨w1, _⟩ | ⟨w1, _⟩
        · exact w3
        · rw [hea] at w1; cases w1
        · rw [hea] at w1; cases w1
      · have hv : solveItem gr fo o id a item =
            (true, (a.touch id).set id
              (((a.touch id).get id).set item.NextToDot ⟨none, Action.Shift⟩)) := by
          simp only [solveItem, hc', Bool.false_eq_true, if_false, ht, if_true, hrow]
          cases he : actLookup a id item.NextToDot with
          | none => rfl
          | some e =>
            have : ¬ e.action = Action.Reduce := fun h => hred ⟨e, he, h⟩
            simp only [if_neg this]
        rw [hv]
        refine ⟨fun _ => ⟨fun j hj y => ?_, fun y e he => ?_, fun y hy it hit => ?_⟩,
          fun h => by cases h⟩
        · rw [actLookup_write, if_neg (fun h => hj h.1)]
          exact hR.others j hj y
        · rw [actLookup_write] at he
          split_ifs at he with h1
          · simp only [Option.some.injEq] at he
            subst he
            exact ⟨item, List.mem_cons_self _ _, Or.inr (Or.inl ⟨rfl, hc', ht, h1.2.symm⟩)⟩
          · obtain ⟨it, hit, hw⟩ := hR.written y e he
            exact ⟨it, List.mem_cons_of_mem _ hit, hw⟩
        · rcases List.mem_cons.mp hit with rfl | hit
          · refine ⟨fun h => Bool.noConfusion (hc'.symm.trans h.1), fun h => ?_⟩
            refine ⟨⟨none, Action.Shift⟩, ?_, rfl⟩
            rw [actLookup_write, if_pos ⟨rfl, h.2.2.symm⟩]
          · by_cases hy1 : y = item.NextToDot
            · subst hy1
              have hold := hR.agrees _ hy it hit
              constructor
              · intro hr
                obtain ⟨e, _, e1, e2, _, _⟩ := hold.1 hr
                exact absurd ⟨e, e1, e2⟩ hred
              · intro _
                refine ⟨⟨none, Action.Shift⟩, ?_, rfl⟩
                rw [actLookup_write, if_pos ⟨rfl, rfl⟩]
            · refine (hR.agrees y hy it hit).congr ?_
              rw [actLookup_write, if_neg (fun h => hy1 h.2)]
    · have hv : solveItem gr fo o id a item = (true, a) := by
        simp only [solveItem, hc', Bool.false_eq_true, if_false, if_neg ht]
      rw [hv]
      refine ⟨fun _ => ⟨hR.others, fun y e he => ?_, fun y hy it hit => ?_⟩, fun h => by cases h⟩
      · obtain ⟨it, hit, hw⟩ := hR.written y e he
        exact ⟨it, List.mem_cons_of_mem _ hit, hw⟩
      · rcases List.mem_cons.mp hit with rfl | hit
        · exact ⟨fun h => Bool.noConfusion (hc'.symm.trans h.1), fun h => absurd h.2.1 ht⟩
        · exact hR.agrees y hy it hit

/-! ## `SolveLRConflicts`: one state, all states -/

theorem solveItems_spec (gr : Grammar) (fo : SetMap) {o : HashOrder} (ho : o.Valid)
    (I : Finset Lr0Item) (id : Nat) (a0 : action_table) :
    ∀ (todo done : List Lr0Item) (a : action_table), (∀ it ∈ todo, it ∈ I) →
      (∀ it ∈ done, it ∈ I) → RowOk gr fo I id done a0 a →
      ((forUntilFalse (solveItem gr fo o id) todo a).1 = true →
        ∃ done', (∀ it, it ∈ done' ↔ it ∈ todo ∨ it ∈ done) ∧
          RowOk gr fo I id done' a0 (forUntilFalse (solveItem gr fo o id) todo a).2) ∧
      ((forUntilFalse (solveItem gr fo o id) todo a).1 = false →
        DetectedConflict gr fo I) := by
  intro todo
  induction todo with
  | nil =>
    intro done a _ _ hR
    simp only [forUntilFalse]
    exact ⟨fun _ => ⟨done, by simp, hR⟩, fun h => Bool.noConfusion h⟩
  | cons x rest ih =>
    intro done a htodo hdone hR
    obtain ⟨s1, s2⟩ := solveItem_spec gr fo ho I id done a0 a x (htodo x (List.mem_cons_self _ _)) hR
    simp only [forUntilFalse]
    by_cases hb : (solveItem gr fo o id a x).1 = true
    · rw [if_pos hb]
      obtain ⟨i1, i2⟩ := ih (x :: done) (solveItem gr fo o id a x).2
        (fun it hit => htodo it (List.mem_cons_of_mem _ hit))
        (fun it hit => by
          rcases List.mem_cons.mp hit with rfl | hit
          · exact htodo _ (List.mem_cons_self _ _)
          · exact hdone it hit)
        (s1 hb)
      refine ⟨fun h => ?_, i2⟩
      obtain ⟨done', d1, d2⟩ := i1 h
      refine ⟨done', fun it => ?_, d2⟩
      rw [d1]
      simp only [List.mem_cons]
      tauto
    · rw [if_neg hb]
      refine ⟨fun h => Bool.noConfusion h, fun _ => ?_⟩
      obtain ⟨it, hit, t, h | h⟩ := s2 (by simpa using hb)
      · refine ⟨x, htodo x (List.mem_cons_self _ _), it, hdone it hit, t, h.1, ?_⟩
        rcases h.2 with h2 | h2 | ⟨h2, h3⟩
        · exact Or.inl h2
        · exact Or.inr (Or.inl h2)
        · exact Or.inr (Or.inr ⟨h2, fun hs => h3 ⟨hs.1.symm, hs.2.symm⟩⟩)
      · exact ⟨it, hdone it hit, x, htodo x (List.mem_cons_self _ _), t, h.2, Or.inl h.1⟩

/-- The call of `SolveLRConflicts` for a state whose row of the action table
is empty.  When it returns true the other rows are untouched; when it returns
false the state holds a detected conflict; and it returns false when the
state holds a shift/reduce or reduce/reduce conflict on a symbol on which no
item of the state demands `Accept`. -/
theorem SolveLRConflicts_spec (gr : Grammar) (fo : SetMap) {o : HashOrder} (ho : o.Valid)
    (st : state) (a0 : action_table) (hempty : ∀ y, actLookup a0 st.id_ y = none) :
    ((SLR1Parser.SolveLRConflicts gr fo o a0 st).1 = true →
      ∀ j, j ≠ st.id_ → ∀ y,
        actLookup (SLR1Parser.SolveLRConflicts gr fo o a0 st).2 j y = actLookup a0 j y) ∧
    ((SLR1Parser.SolveLRConflicts gr fo o a0 st).1 = false →
      DetectedConflict gr fo st.items_) ∧
    (∀ t, ReduceConflictOn gr fo st.items_ t →
      (t ≠ EOL_ ∨ ∀ it ∈ st.items_, ¬ Accepts gr it EOL_) →
      (SLR1Parser.SolveLRConflicts gr fo o a0 st).1 = false) := by
  have hinit : RowOk gr fo st.items_ st.id_ [] a0 a0 :=
    ⟨fun _ _ _ => rfl, fun y e he => (by rw [hempty y] at he; cases he),
      fun _ _ it hit => (by cases hit)⟩
  obtain ⟨hnd, hmem⟩ := ho.2.2.1 st.id_ st.items_
  obtain ⟨h1, h2⟩ := solveItems_spec gr fo ho st.items_ st.id_ a0
    (o.items st.id_ st.items_) [] a0 (fun it hit => (hmem it).mp hit)
    (fun it hit => by cases hit) hinit
  unfold SLR1Parser.SolveLRConflicts
  refine ⟨fun hb => ?_, h2, fun t hconf hprem => ?_⟩
  · obtain ⟨done', _, d2⟩ := h1 hb
    exact d2.others
  · by_contra hne
    have hb : (forUntilFalse (solveItem gr fo o st.id_) (o.items st.id_ st.items_) a0).1 = true := by
      simpa using hne
    obtain ⟨done', d1, d2⟩ := h1 hb
    have hall : ∀ it ∈ st.items_, it ∈ done' := fun it hit =>
      (d1 it).mpr (Or.inl ((hmem it).mpr hit))
    obtain ⟨a, ha, b, hb', hra, hrest⟩ := hconf
    obtain ⟨e, it', e1, e2, e3, e4⟩ := (d2.agrees t hprem a (hall a ha)).1 hra
    rcases hrest with hsh | ⟨hrb, hns⟩
    · obtain ⟨e', f1, f2⟩ := (d2.agrees t hprem b (hall b hb')).2 hsh
      rw [e1] at f1
      simp only [Option.some.injEq] at f1
      subst f1
      rw [e2] at f2
      cases f2
    · obtain ⟨e', it'', f1, f2, f3, f4⟩ := (d2.agrees t hprem b (hall b hb')).1 hrb
      rw [e1] at f1
      simp only [Option.some.injEq] at f1
      subst f1
      rw [e3] at f3
      simp only [Option.some.injEq] at f3
      subst f3
      exact hns ⟨e4.1.symm.trans f4.1, e4.2.symm.trans f4.2⟩

/-- The loop of `MakeParser` over the states, for states with pairwise
different ids whose rows of the action table are empty. -/
theorem solveAll_spec (gr : Grammar) (fo : SetMap) {o : HashOrder} (ho : o.Valid) :
    ∀ (l : List state) (a : action_table), (l.map fun q => q.id_).Nodup →
      (∀ q ∈ l, ∀ y, actLookup a q.id_ y = none) →
      ((forUntilFalse (SLR1Parser.SolveLRConflicts gr fo o) l a).1 = false →
        ∃ q ∈ l, DetectedConflict gr fo q.items_) ∧
      (∀ q ∈ l, ∀ t, ReduceConflictOn gr fo q.items_ t →
        (t ≠ EOL_ ∨ ∀ it ∈ q.items_, ¬ Accepts gr it EOL_) →
        (forUntilFalse (SLR1Parser.SolveLRConflicts gr fo o) l a).1 = false) := by
  intro l
  induction l with
  | nil =>
    intro a _ _
    simp only [forUntilFalse]
    exact ⟨fun h => Bool.noConfusion h, fun q hq => by cases hq⟩
  | cons q rest ih =>
    intro a hnd hempty
    simp only [List.map_cons, List.nodup_cons] at hnd
    obtain ⟨s1, s2, s3⟩ := SolveLRConflicts_spec gr fo ho q a
      (hempty q (List.mem_cons_self _ _))
    simp only [forUntilFalse]
    by_cases hb : (SLR1Parser.SolveLRConflicts gr fo o a q).1 = true
    · rw [if_pos hb]
      obtain ⟨i1, i2⟩ := ih (SLR1Parser.SolveLRConflicts gr fo o a q).2 hnd.2
        (fun q' hq' y => by
          have hne : q'.id_ ≠ q.id_ := fun h => hnd.1 (List.mem_map.mpr ⟨q', hq', h⟩)
          rw [s1 hb q'.id_ hne y]
          exact hempty q' (List.mem_cons_of_mem _ hq') y)
      refine ⟨fun h => ?_, fun q' hq' t hc hp => ?_⟩
      · obtain ⟨q', hq', hd⟩ := i1 h
        exact ⟨q', List.mem_cons_of_mem _ hq', hd⟩
      · rcases List.mem_cons.mp hq' with rfl | hq'
        · have := s3 t hc hp
          rw [hb] at this
          cases this
        · exact i2 q' hq' t hc hp
    · rw [if_neg hb]
      exact ⟨fun _ => ⟨q, List.mem_cons_self _ _, s2 (by simpa using hb)⟩, fun _ _ _ _ _ => rfl⟩

/-! ## `MakeParser` -/

theorem transLookup_of_keys_empty {t : transition_table} (h : t.keys = ∅) (k : Nat) (X : String) :
    transLookup t k X = none := by
  simp [transLookup, IdMap.find?, h]

theorem actLookup_of_keys_empty {a : action_table} (h : a.keys = ∅) (k : Nat) (y : String) :
    actLookup a k y = none := by
  simp only [actLookup, IdMap.get, h, Finset.not_mem_empty, if_false, UMap.find?]
  exact if_neg (Finset.not_mem_empty y)

/-- The run of `MakeParser` on a fresh parser, for a grammar whose
non-terminals all have rules and whose axiom has a production. -/
theorem MakeParser_spec (P : SLR1Parser) (o : HashOrder) (p0 : production)
    (ps : List production) (hfresh : P.Fresh) (hg : P.gr_.Defined)
    (hax : P.gr_.at? P.gr_.axiom_ = some (p0 :: ps)) (ho : o.Valid) :
    ∃ (b : Bool) (P' : SLR1Parser), Returns (P.MakeParser o) (some (b, P')) ∧ P'.gr_ = P.gr_ ∧
      (∃ fi, Returns (SLR1Parser.ComputeFirstSets P.gr_ P.first_sets_) fi ∧
        Returns (SLR1Parser.ComputeFollowSets P.gr_ fi P.follow_sets_)
          (P'.first_sets_, P'.follow_sets_)) ∧
      b = (forUntilFalse (SLR1Parser.SolveLRConflicts P.gr_ P'.follow_sets_ o)
        (o.states P'.states_) P.actions_).1 ∧
      StatesOk P.gr_ P'.states_ ∧
      (∃ I0 rest, P'.states_ = ⟨I0, 0⟩ :: rest ∧
        Returns (Closure P.gr_ {Lr0Item.create P.gr_.axiom_ p0}) (some I0)) ∧
      (P'.states_.length ≤ 2 ^ 32 → FinalOk P.gr_ P'.states_ P'.transitions_) := by
  obtain ⟨fi, ⟨N1, hN1⟩, _⟩ := slr_ComputeFirstSets_returns P.gr_ P.first_sets_
  obtain ⟨R, ⟨N2, hN2⟩, _⟩ := slr_ComputeFollowSets_returns P.gr_ fi P.follow_sets_
  have hinitU : ({Lr0Item.create P.gr_.axiom_ p0} : Finset Lr0Item) ⊆ SLR1Parser.AllItems P.gr_ := by
    rw [Finset.singleton_subset_iff]
    exact create_mem_AllItems (r := (P.gr_.axiom_, p0 :: ps)) (Grammar.at?_eq_some hax)
      (List.mem_cons_self _ _)
  obtain ⟨I0, hI0, _, hI0U⟩ := Closure_of_subset_AllItems hg hinitU
  have hret0 : Returns (Closure P.gr_ {Lr0Item.create P.gr_.axiom_ p0}) (some I0) := ⟨_, hI0⟩
  have hT0 : StatesOk P.gr_ [⟨I0, 0⟩] := by
    refine ⟨by simp, fun q hq => ?_⟩
    rw [List.mem_singleton.mp hq]
    exact ⟨hI0U, ReachableItems.initial p0 ps I0 hax hret0⟩
  have hL0 : LoopOk P.gr_ 0 ∅ ⟨[⟨I0, 0⟩], P.transitions_, [], 1⟩ := by
    refine ⟨rfl, fun k q hk => ?_, by simp, by simp, fun k X t ht => ?_, fun k X q hk _ _ => ?_⟩
    · cases k with
      | zero => simp at hk; rw [← hk]
      | succ k => simp at hk
    · rw [transLookup_of_keys_empty hfresh.2.1] at ht; cases ht
    · rcases hk with hk | ⟨_, hk⟩
      · omega
      · exact absurd hk (Finset.not_mem_empty _)
  obtain ⟨r, r1, r2, ⟨ext, r3⟩, r4, r5⟩ := makeLoop_spec hg ho
    (2 ^ (SLR1Parser.AllItems P.gr_).card - 1 + 0) 0 ⟨[⟨I0, 0⟩], P.transitions_, [], 1⟩ hT0
    (le_refl _) rfl (fun _ => hL0)
  refine ⟨(forUntilFalse (SLR1Parser.SolveLRConflicts P.gr_ R.2 o) (o.states r.states)
      P.actions_).1,
    { P with first_sets_ := R.1, follow_sets_ := R.2, states_ := r.states,
             transitions_ := r.transitions,
             actions_ := (forUntilFalse (SLR1Parser.SolveLRConflicts P.gr_ R.2 o)
               (o.states r.states) P.actions_).2 },
    ?_, rfl, ⟨fi, ⟨N1, hN1⟩, ⟨N2, hN2⟩⟩, rfl, r2, ⟨I0, ext, r3, hret0⟩, fun hlen => ?_⟩
  · refine ⟨max (max N1 N2) (max ((SLR1Parser.AllItems P.gr_).card + 1)
      (2 ^ (SLR1Parser.AllItems P.gr_).card - 1 + 0 + 1)), fun n hn => ?_⟩
    have h1 : N1 ≤ n := by omega
    have h2 : N2 ≤ n := by omega
    have h3 : (SLR1Parser.AllItems P.gr_).card + 1 ≤ n := by omega
    have h4 : 2 ^ (SLR1Parser.AllItems P.gr_).card - 1 + 0 + 1 ≤ n := by omega
    simp only [SLR1Parser.MakeParser, hN1 n h1, hN2 n h2, SLR1Parser.MakeInitialState, hax,
      hI0 n h3, andThen, hfresh.1, statesInsert, List.find?_nil, List.nil_append,
      r1 n n h3 h4]
  · exact r5 (by rw [r4]; exact hlen)

/-! ## The canonical collection (C14, C15) -/

theorem sortedOrder_valid : sortedOrder.Valid :=
  ⟨fun _ s => ⟨Finset.sort_nodup _ s, fun _ => Finset.mem_sort _⟩,
   fun _ _ s => ⟨Finset.sort_nodup _ s, fun _ => Finset.mem_sort _⟩,
   fun _ s => ⟨Finset.sort_nodup _ s, fun _ => Finset.mem_sort _⟩,
   fun l => List.Perm.refl l⟩

theorem mem_nextSymbols {I : Finset Lr0Item} {X : String} :
    X ∈ nextSymbols I ↔ (∃ it ∈ I, it.NextToDot = X) ∧ X ≠ EPSILON_ := by
  simp [nextSymbols]

theorem ids_eq_range {states : List state}
    (h : ∀ (k : Nat) (q : state), states[k]? = some q → q.id_ = k) :
    states.map (fun q => q.id_) = List.range states.length := by
  apply List.ext_getElem?
  intro k
  by_cases hk : k < states.length
  · rw [List.getElem?_map, List.getElem?_eq_getElem hk, List.getElem?_range hk]
    simp only [Option.map_some', Option.some.injEq]
    exact h k _ (List.getElem?_eq_getElem hk)
  · rw [List.getElem?_eq_none (by simpa using hk), List.getElem?_eq_none (by simpa using hk)]

/-- C14: after `MakeParser` on a fresh parser (for a grammar whose
non-terminals all have rules and whose axiom has a production, and for any
traversal order of the hash containers) the states are deduplicated and
numbered sequentially: no two states have equal item sets, the ids of the
states are `0, 1, ..., |states_| - 1` in the order of insertion (as long as
there are at most `2^32` states, the range of `unsigned int`), and the state
with id 0 is the closure of the initial item of the first production of the
axiom. -/
theorem C14_states_deduplicated_numbered (P : SLR1Parser) (o : HashOrder) (p0 : production)
    (ps : List production) (hfresh : P.Fresh) (hg : P.gr_.Defined)
    (hax : P.gr_.at? P.gr_.axiom_ = some (p0 :: ps)) (ho : o.Valid) :
    ∃ (b : Bool) (P' : SLR1Parser), Returns (P.MakeParser o) (some (b, P')) ∧
      (P'.states_.map fun q => q.items_).Nodup ∧
      (P'.states_.length ≤ 2 ^ 32 →
        P'.states_.map (fun q => q.id_) = List.range P'.states_.length) ∧
      ∃ q0 ∈ P'.states_, q0.id_ = 0 ∧
        Returns (Closure P.gr_ {Lr0Item.create P.gr_.axiom_ p0}) (some q0.items_) := by
  obtain ⟨b, P', h1, _, _, _, h5, ⟨I0, rest, h6, h7⟩, h8⟩ :=
    MakeParser_spec P o p0 ps hfresh hg hax ho
  refine ⟨b, P', h1, h5.1, fun hlen => ids_eq_range (h8 hlen).ids, ⟨I0, 0⟩, ?_, rfl, h7⟩
  rw [h6]
  exact List.mem_cons_self _ _

/-- The hypotheses of C14 hold for the fresh parser of `S -> A $`,
`A -> a A | b` and the sorted traversal. -/
theorem C14_states_deduplicated_numbered_witness :
    classicSLR.Fresh ∧ classicSLR.gr_.Defined ∧
    classicSLR.gr_.at? classicSLR.gr_.axiom_ = some (["A", "$"] :: []) ∧ sortedOrder.Valid ∧
    ∃ (b : Bool) (P' : SLR1Parser), Returns (classicSLR.MakeParser sortedOrder) (some (b, P')) ∧
      (P'.states_.map fun q => q.items_).Nodup ∧
      (P'.states_.length ≤ 2 ^ 32 →
        P'.states_.map (fun q => q.id_) = List.range P'.states_.length) ∧
      ∃ q0 ∈ P'.states_, q0.id_ = 0 ∧
        Returns (Closure classicSLR.gr_ {Lr0Item.create classicSLR.gr_.axiom_ ["A", "$"]})
          (some q0.items_) :=
  ⟨⟨rfl, rfl, rfl⟩, by unfold Grammar.Defined; decide, by decide, sortedOrder_valid,
   C14_states_deduplicated_numbered classicSLR sortedOrder ["A", "$"] [] ⟨rfl, rfl, rfl⟩
     (by unfold Grammar.Defined; decide) (by decide) sortedOrder_valid⟩

/-- C15: after `MakeParser` on a fresh parser (same hypotheses as C14, at
most `2^32` states) the transition table is complete and correct.  For every
state `q` and every symbol `X` other than `EPSILON_` next to the dot of an
item of `q`, `transitions_[q][X]` is defined and is the id of a state whose
item set is the closure of the items of `q` with `X` next to the dot, each
with its dot advanced; and every recorded transition is of this kind. -/
theorem C15_transition_table (P : SLR1Parser) (o : HashOrder) (p0 : production)
    (ps : List production) (hfresh : P.Fresh) (hg : P.gr_.Defined)
    (hax : P.gr_.at? P.gr_.axiom_ = some (p0 :: ps)) (ho : o.Valid) :
    ∃ (b : Bool) (P' : SLR1Parser), Returns (P.MakeParser o) (some (b, P')) ∧
      (P'.states_.length ≤ 2 ^ 32 →
        (∀ q ∈ P'.states_, ∀ X, X ≠ EPSILON_ → (∃ it ∈ q.items_, it.NextToDot = X) →
          ∃ t, transLookup P'.transitions_ q.id_ X = some t ∧ ∃ q' ∈ P'.states_, q'.id_ = t ∧
            Returns (Closure P.gr_ (kernelItems q.items_ X)) (some q'.items_)) ∧
        (∀ k X t, transLookup P'.transitions_ k X = some t →
          ∃ q ∈ P'.states_, q.id_ = k ∧ X ≠ EPSILON_ ∧ (∃ it ∈ q.items_, it.NextToDot = X) ∧
            ∃ q' ∈ P'.states_, q'.id_ = t ∧
              Returns (Closure P.gr_ (kernelItems q.items_ X)) (some q'.items_))) := by
  obtain ⟨b, P', h1, _, _, _, _, _, h8⟩ := MakeParser_spec P o p0 ps hfresh hg hax ho
  refine ⟨b, P', h1, fun hlen => ?_⟩
  have hF := h8 hlen
  have hsound : ∀ k X t, transLookup P'.transitions_ k X = some t →
      ∃ q ∈ P'.states_, q.id_ = k ∧ X ≠ EPSILON_ ∧ (∃ it ∈ q.items_, it.NextToDot = X) ∧
        ∃ q' ∈ P'.states_, q'.id_ = t ∧
          Returns (Closure P.gr_ (kernelItems q.items_ X)) (some q'.items_) := by
    intro k X t ht
    obtain ⟨q, q', e1, e2, e3, e4⟩ := hF.sound k X t ht
    obtain ⟨e5, e6⟩ := mem_nextSymbols.mp e3
    exact ⟨q, List.getElem?_mem e1, hF.ids k q e1, e6, e5, q', List.getElem?_mem e2,
      hF.ids t q' e2, e4⟩
  refine ⟨fun q hq X hX hit => ?_, hsound⟩
  have hpos : P'.states_[q.id_]? = some q := getElem?_of_mem_ids hF.ids hq
  obtain ⟨t, ht⟩ := hF.complete q.id_ X q hpos (mem_nextSymbols.mpr ⟨hit, hX⟩)
  refine ⟨t, ht, ?_⟩
  obtain ⟨q1, hq1, e1, _, _, q', hq', e2, e3⟩ := hsound _ X t ht
  have : q1 = q := by
    have h2 := getElem?_of_mem_ids hF.ids hq1
    rw [e1, hpos] at h2
    exact (Option.some.inj h2).symm
  subst this
  exact ⟨q', hq', e2, e3⟩

/-- The hypotheses of C15 hold for the fresh parser of `S -> A $`,
`A -> a A | b` and the sorted traversal. -/
theorem C15_transition_table_witness :
    classicSLR.Fresh ∧ classicSLR.gr_.Defined ∧
    classicSLR.gr_.at? classicSLR.gr_.axiom_ = some (["A", "$"] :: []) ∧ sortedOrder.Valid ∧
    ∃ (b : Bool) (P' : SLR1Parser), Returns (classicSLR.MakeParser sortedOrder) (some (b, P')) ∧
      (P'.states_.length ≤ 2 ^ 32 →
        (∀ q ∈ P'.states_, ∀ X, X ≠ EPSILON_ → (∃ it ∈ q.items_, it.NextToDot = X) →
          ∃ t, transLookup P'.transitions_ q.id_ X = some t ∧ ∃ q' ∈ P'.states_, q'.id_ = t ∧
            Returns (Closure classicSLR.gr_ (kernelItems q.items_ X)) (some q'.items_)) ∧
        (∀ k X t, transLookup P'.transitions_ k X = some t →
          ∃ q ∈ P'.states_, q.id_ = k ∧ X ≠ EPSILON_ ∧ (∃ it ∈ q.items_, it.NextToDot = X) ∧
            ∃ q' ∈ P'.states_, q'.id_ = t ∧
              Returns (Closure classicSLR.gr_ (kernelItems q.items_ X)) (some q'.items_))) :=
  ⟨⟨rfl, rfl, rfl⟩, by unfold Grammar.Defined; decide, by decide, sortedOrder_valid,
   C15_transition_table classicSLR sortedOrder ["A", "$"] [] ⟨rfl, rfl, rfl⟩
     (by unfold Grammar.Defined; decide) (by decide) sortedOrder_valid⟩

/-! ## The flag of `MakeParser` (C12) -/

/-- The flag returned by `MakeParser` on a fresh parser: `false` only if some
state holds a conflict met during the traversal, and `false` whenever some
state holds a shift/reduce or reduce/reduce conflict that no `Accept` can
hide. -/
theorem MakeParser_flag (P : SLR1Parser) (o : HashOrder) (p0 : production)
    (ps : List production) (hfresh : P.Fresh) (hg : P.gr_.Defined)
    (hax : P.gr_.at? P.gr_.axiom_ = some (p0 :: ps)) (ho : o.Valid) :
    ∃ (b : Bool) (P' : SLR1Parser), Returns (P.MakeParser o) (some (b, P')) ∧
      (∃ fi, Returns (SLR1Parser.ComputeFirstSets P.gr_ P.first_sets_) fi ∧
        Returns (SLR1Parser.ComputeFollowSets P.gr_ fi P.follow_sets_)
          (P'.first_sets_, P'.follow_sets_)) ∧
      StatesOk P.gr_ P'.states_ ∧
      (P'.states_.length ≤ 2 ^ 32 →
        (b = false → ∃ q ∈ P'.states_, DetectedConflict P.gr_ P'.follow_sets_ q.items_) ∧
        (∀ q ∈ P'.states_, ∀ t, ReduceConflictOn P.gr_ P'.follow_sets_ q.items_ t →
          (t ≠ EOL_ ∨ ∀ it ∈ q.items_, ¬ Accepts P.gr_ it EOL_) → b = false)) := by
  obtain ⟨b, P', h1, _, h3, h4, h5, _, h8⟩ := MakeParser_spec P o p0 ps hfresh hg hax ho
  refine ⟨b, P', h1, h3, h5, fun hlen => ?_⟩
  have hF := h8 hlen
  have hperm := ho.2.2.2 P'.states_
  have hnd : ((o.states P'.states_).map fun q => q.id_).Nodup := by
    have h := (hperm.map fun q => q.id_).nodup_iff
    rw [h, ids_eq_range hF.ids]
    exact List.nodup_range _
  obtain ⟨s1, s2⟩ := solveAll_spec P.gr_ P'.follow_sets_ ho (o.states P'.states_) P.actions_ hnd
    (fun q _ y => actLookup_of_keys_empty hfresh.2.2 q.id_ y)
  rw [← h4] at s1 s2
  refine ⟨fun hb => ?_, fun q hq t hc hm => s2 q (hperm.mem_iff.mpr hq) t hc hm⟩
  obtain ⟨q, hq, hd⟩ := s1 hb
  exact ⟨q, hperm.mem_iff.mp hq, hd⟩

/-- C12 (amended): on a fresh parser (for a grammar whose non-terminals all
have rules and whose axiom has a production, for any traversal order, at most
`2^32` states) `MakeParser` returns `false` only if some state holds an item
demanding `Reduce` on a symbol and another item demanding `Shift`, `Accept`
or `Reduce` by a different production on it; it returns `false` whenever some
state holds a shift/reduce or reduce/reduce conflict on a symbol on which
no item of the state demands `Accept`; and when no state holds an item
demanding `Accept` together with an item demanding `Reduce` on the end marker,
it returns `false` iff some state holds a shift/reduce or a reduce/reduce
conflict.  An `Accept` together with a `Shift` on the end marker is never
reported. -/
theorem C12_make_parser_false_iff_conflict (P : SLR1Parser) (o : HashOrder) (p0 : production)
    (ps : List production) (hfresh : P.Fresh) (hg : P.gr_.Defined)
    (hax : P.gr_.at? P.gr_.axiom_ = some (p0 :: ps)) (ho : o.Valid) :
    ∃ (b : Bool) (P' : SLR1Parser), Returns (P.MakeParser o) (some (b, P')) ∧
      (P'.states_.length ≤ 2 ^ 32 →
        (b = false → ∃ q ∈ P'.states_, DetectedConflict P.gr_ P'.follow_sets_ q.items_) ∧
        (∀ q ∈ P'.states_, ∀ t, ReduceConflictOn P.gr_ P'.follow_sets_ q.items_ t →
          (t ≠ EOL_ ∨ ∀ it ∈ q.items_, ¬ Accepts P.gr_ it EOL_) → b = false) ∧
        ((∀ q ∈ P'.states_, ¬ AcceptReduceConflict P.gr_ P'.follow_sets_ q.items_) →
          (b = false ↔
            ∃ q ∈ P'.states_, ∃ t, ReduceConflictOn P.gr_ P'.follow_sets_ q.items_ t))) := by
  obtain ⟨b, P', h1, _, _, h4⟩ := MakeParser_flag P o p0 ps hfresh hg hax ho
  refine ⟨b, P', h1, fun hlen => ?_⟩
  obtain ⟨s1, s2⟩ := h4 hlen
  refine ⟨s1, s2, fun hno => ⟨fun hb => ?_, fun hc => ?_⟩⟩
  · obtain ⟨q, hq, x, hx, y, hy, t, hr, hc⟩ := s1 hb
    refine ⟨q, hq, t, x, hx, y, hy, hr, ?_⟩
    rcases hc with hc | hc | hc
    · exact Or.inl hc
    · exfalso
      have ht : t = EOL_ := hc.2.2
      subst ht
      exact hno q hq ⟨y, hy, x, hx, hc, hr⟩
    · exact Or.inr hc
  · obtain ⟨q, hq, t, hc⟩ := hc
    refine s2 q hq t hc ?_
    by_cases ht : t = EOL_
    · right
      intro it hit hacc
      obtain ⟨x, hx, _, _, hr, _⟩ := hc
      subst ht
      exact hno q hq ⟨it, hit, x, hx, hacc, hr⟩
    · exact Or.inl ht

/-- The hypotheses of C12 hold for the fresh parser of `S -> A $`,
`A -> a A | b` and the sorted traversal. -/
theorem C12_make_parser_false_iff_conflict_witness :
    classicSLR.Fresh ∧ classicSLR.gr_.Defined ∧
    classicSLR.gr_.at? classicSLR.gr_.axiom_ = some (["A", "$"] :: []) ∧ sortedOrder.Valid ∧
    ∃ (b : Bool) (P' : SLR1Parser), Returns (classicSLR.MakeParser sortedOrder) (some (b, P')) ∧
      (P'.states_.length ≤ 2 ^ 32 →
        (b = false →
          ∃ q ∈ P'.states_, DetectedConflict classicSLR.gr_ P'.follow_sets_ q.items_) ∧
        (∀ q ∈ P'.states_, ∀ t, ReduceConflictOn classicSLR.gr_ P'.follow_sets_ q.items_ t →
          (t ≠ EOL_ ∨ ∀ it ∈ q.items_, ¬ Accepts classicSLR.gr_ it EOL_) → b = false) ∧
        ((∀ q ∈ P'.states_, ¬ AcceptReduceConflict classicSLR.gr_ P'.follow_sets_ q.items_) →
          (b = false ↔
            ∃ q ∈ P'.states_, ∃ t,
              ReduceConflictOn classicSLR.gr_ P'.follow_sets_ q.items_ t))) :=
  ⟨⟨rfl, rfl, rfl⟩, by unfold Grammar.Defined; decide, by decide, sortedOrder_valid,
   C12_make_parser_false_iff_conflict classicSLR sortedOrder ["A", "$"] [] ⟨rfl, rfl, rfl⟩
     (by unfold Grammar.Defined; decide) (by decide) sortedOrder_valid⟩

/-! ## Evaluation of `MakeParser` on a concrete grammar -/

theorem Closure_fuelMono (gr : Grammar) (items : Finset Lr0Item) : FuelMono (Closure gr items) :=
  ClosureUtil_fuelMono gr items items.card ∅

theorem reachable_mem_of_closed (gr : Grammar) (L : List (Finset Lr0Item)) (N : Nat)
    (p0 : production) (ps : List production) (hax : gr.at? gr.axiom_ = some (p0 :: ps))
    (hinit : ∃ r ∈ Closure gr {Lr0Item.create gr.axiom_ p0} N, ∃ J ∈ r, J ∈ L)
    (hstep : ∀ I ∈ L, ∀ X ∈ nextSymbols I,
      ∃ r ∈ Closure gr (kernelItems I X) N, ∃ J ∈ r, J ∈ L) :
    ∀ I, ReachableItems gr I → I ∈ L := by
  intro I h
  induction h with
  | initial p0' ps' I h1 h2 =>
    rw [hax] at h1
    obtain ⟨rfl, -⟩ := List.cons.inj (Option.some.inj h1)
    obtain ⟨r, hc, I', hr, hI'⟩ := hinit
    cases Option.mem_def.mp hr
    have := Returns.unique h2 ((Closure_fuelMono gr _).returns (Option.mem_def.mp hc))
    rw [Option.some.inj this]
    exact hI'
  | goto I J X _ hX hJ ih =>
    obtain ⟨r, hc, J', hr, hJ'⟩ := hstep I ih X hX
    cases Option.mem_def.mp hr
    have := Returns.unique hJ ((Closure_fuelMono gr _).returns (Option.mem_def.mp hc))
    rw [Option.some.inj this]
    exact hJ'

theorem detectedWith_of_conflict {gr : Grammar} {fo : SetMap} {F : Family} {I : Finset Lr0Item}
    (hF : ∀ it ∈ I, SLR1Parser.Follow fo it.antecedent_ = F it.antecedent_)
    (h : DetectedConflict gr fo I) : DetectedWith gr F I := by
  obtain ⟨a, ha, b, hb, t, ⟨r1, r2, r3⟩, hc⟩ := h
  rw [hF a ha] at r3
  refine ⟨a, ha, b, hb, ⟨r1, r2⟩, t, r3, ?_⟩
  rcases hc with hc | hc | ⟨⟨c1, c2, c3⟩, hs⟩
  · exact Or.inl hc
  · exact Or.inr (Or.inl hc)
  · rw [hF b hb] at c3
    exact Or.inr (Or.inr ⟨⟨c1, c2, c3⟩, hs⟩)

theorem goto_state_mem {gr : Grammar} {states : List state} {tr : transition_table}
    (hF : FinalOk gr states tr) {q : state} (hq : q ∈ states) {X : String}
    (hX : X ∈ nextSymbols q.items_) :
    ∃ q' ∈ states, Returns (Closure gr (kernelItems q.items_ X)) (some q'.items_) := by
  have hpos : states[q.id_]? = some q := getElem?_of_mem_ids hF.ids hq
  obtain ⟨t, ht⟩ := hF.complete q.id_ X q hpos hX
  obtain ⟨q1, q', e1, e2, _, e4⟩ := hF.sound _ X t ht
  rw [hpos] at e1
  cases e1
  exact ⟨q', List.getElem?_mem e2, e4⟩

theorem states_of_chain {gr : Grammar} {states : List state} {tr : transition_table}
    (hF : FinalOk gr states tr) (L : List (Finset Lr0Item)) (N : Nat)
    (h0 : ∀ J ∈ L.head?, ∃ q ∈ states, q.items_ = J)
    (hchain : ∀ k ∈ List.range L.length, k = 0 ∨ ∃ I ∈ L.take k, ∃ X ∈ nextSymbols I,
      ∃ r ∈ Closure gr (kernelItems I X) N, ∃ J ∈ r, ∃ J' ∈ L[k]?, J = J') :
    ∀ I ∈ L, ∃ q ∈ states, q.items_ = I := by
  have key : ∀ k, ∀ I ∈ L.take k, ∃ q ∈ states, q.items_ = I := by
    intro k
    induction k with
    | zero => intro I hI; simp at hI
    | succ k ih =>
      intro I hI
      rw [List.take_succ, List.mem_append] at hI
      rcases hI with hI | hI
      · exact ih I hI
      · have hk : L[k]? = some I := by
          cases h : L[k]? with
          | none => rw [h] at hI; simp at hI
          | some J => rw [h] at hI; simp at hI; rw [hI]
        have hlt : k < L.length := by
          by_contra hcon
          rw [List.getElem?_eq_none (by omega)] at hk
          cases hk
        rcases hchain k (List.mem_range.mpr hlt) with h | ⟨I', hI', X, hX, r, hr, J, hJ, J', hJ', e⟩
        · subst h
          refine h0 I ?_
          rw [List.head?_eq_getElem?]
          exact hk
        · obtain ⟨q, hq, rfl⟩ := ih I' hI'
          obtain ⟨q', hq', hc⟩ := goto_state_mem hF hq hX
          cases Option.mem_def.mp hJ
          have hJI : J = I := by
            rw [Option.mem_def, hk] at hJ'
            rw [e]
            exact (Option.some.inj hJ').symm
          have := Returns.unique hc ((Closure_fuelMono gr _).returns (Option.mem_def.mp hr))
          exact ⟨q', hq', (Option.some.inj this).trans hJI⟩
  intro I hI
  refine key L.length I ?_
  rw [List.take_length]
  exact hI

/-- A run of `MakeParser` returns `true` and builds the states of `L` when the
item sets of `L` are closed under the transitions, each reached from the first
one, which is the initial state, and hold no conflict for the FOLLOW sets `F`,
which are those computed with fuel `N`. -/
theorem MakeParser_true_of_check (P : SLR1Parser) (o : HashOrder) (p0 : production)
    (ps : List production) (hfresh : P.Fresh) (hg : P.gr_.Defined)
    (hax : P.gr_.at? P.gr_.axiom_ = some (p0 :: ps)) (ho : o.Valid)
    (L : List (Finset Lr0Item)) (F : Family) (nts : List String) (N : Nat)
    (hlen : L.length ≤ 2 ^ 32) (hnd : L.Nodup)
    (hinit : ∃ r ∈ Closure P.gr_ {Lr0Item.create P.gr_.axiom_ p0} N, ∃ J ∈ r,
      ∃ J' ∈ L.head?, J = J')
    (hstep : ∀ I ∈ L, ∀ X ∈ nextSymbols I,
      ∃ r ∈ Closure P.gr_ (kernelItems I X) N, ∃ J ∈ r, J ∈ L)
    (hchain : ∀ k ∈ List.range L.length, k = 0 ∨ ∃ I ∈ L.take k, ∃ X ∈ nextSymbols I,
      ∃ r ∈ Closure P.gr_ (kernelItems I X) N, ∃ J ∈ r, ∃ J' ∈ L[k]?, J = J')
    (hnts : ∀ I ∈ L, ∀ it ∈ I, it.antecedent_ ∈ nts)
    (hfol : ∃ fi ∈ SLR1Parser.ComputeFirstSets P.gr_ P.first_sets_ N,
      ∃ r ∈ SLR1Parser.ComputeFollowSets P.gr_ fi P.follow_sets_ N,
        ∀ A ∈ nts, SLR1Parser.Follow r.2 A = F A)
    (hno : ∀ I ∈ L, ¬ DetectedWith P.gr_ F I) :
    ∃ P' : SLR1Parser, Returns (P.MakeParser o) (some (true, P')) ∧
      (P'.states_.map fun q => q.items_).Perm L ∧
      ∀ A ∈ nts, SLR1Parser.Follow P'.follow_sets_ A = F A := by
  obtain ⟨b, P', h1, ⟨fi', f1, f2⟩, hS, h4⟩ := MakeParser_flag P o p0 ps hfresh hg hax ho
  obtain ⟨b2, P2, g1, _, _, _, _, ⟨I0, rest, g6, g7⟩, g8⟩ :=
    MakeParser_spec P o p0 ps hfresh hg hax ho
  have e0 := Option.some.inj (Returns.unique g1 h1)
  obtain ⟨rfl, rfl⟩ := Prod.mk.inj e0
  have hinit' : ∃ r ∈ Closure P.gr_ {Lr0Item.create P.gr_.axiom_ p0} N, ∃ J ∈ r, J ∈ L := by
    obtain ⟨r, hr, J, hJ, J', hJ', e⟩ := hinit
    refine ⟨r, hr, J, hJ, ?_⟩
    rw [e]
    exact List.mem_of_mem_head? hJ'
  have hL := reachable_mem_of_closed P.gr_ L N p0 ps hax hinit' hstep
  have hmem : ∀ q ∈ P2.states_, q.items_ ∈ L := fun q hq => hL _ (hS.2 q hq).2
  obtain ⟨fi, hfi, r, hr, hF⟩ := hfol
  have e1 : fi' = fi :=
    Returns.unique f1 ((slr_ComputeFirstSets_fuelMono P.gr_ P.first_sets_).returns hfi)
  subst e1
  have e2 : (P2.first_sets_, P2.follow_sets_) = r :=
    Returns.unique f2 ((slr_ComputeFollowSets_fuelMono P.gr_ fi' P.follow_sets_).returns hr)
  subst e2
  have hlen' : P2.states_.length ≤ 2 ^ 32 := by
    have h := (List.Nodup.subperm hS.1 (fun x hx => by
      obtain ⟨q, hq, rfl⟩ := List.mem_map.mp hx
      exact hmem q hq)).length_le
    rw [List.length_map] at h
    exact h.trans hlen
  have hb : b2 = true := by
    cases b2 with
    | true => rfl
    | false =>
      exfalso
      obtain ⟨q, hq, hd⟩ := (h4 hlen').1 rfl
      exact hno _ (hmem q hq)
        (detectedWith_of_conflict (fun it hit => hF _ (hnts _ (hmem q hq) it hit)) hd)
  subst hb
  have hall : ∀ I ∈ L, ∃ q ∈ P2.states_, q.items_ = I := by
    refine states_of_chain (g8 hlen') L N (fun J hJ => ?_) hchain
    obtain ⟨r, hr, J1, hJ1, J', hJ', e⟩ := hinit
    cases Option.mem_def.mp hJ1
    have e3 : J' = J := Option.some.inj ((Option.mem_def.mp hJ').symm.trans (Option.mem_def.mp hJ))
    have := Returns.unique g7 ((Closure_fuelMono P.gr_ _).returns (Option.mem_def.mp hr))
    refine ⟨⟨I0, 0⟩, ?_, ?_⟩
    · rw [g6]; exact List.mem_cons_self _ _
    · exact (Option.some.inj this).trans (e.trans e3)
  refine ⟨P2, h1, ?_, hF⟩
  refine (List.perm_ext_iff_of_nodup hS.1 hnd).mpr fun I => ⟨fun hI => ?_, fun hI => ?_⟩
  · obtain ⟨q, hq, rfl⟩ := List.mem_map.mp hI
    exact hmem q hq
  · obtain ⟨q, hq, rfl⟩ := hall I hI
    exact List.mem_map.mpr ⟨q, hq, rfl⟩

theorem acceptShift_run (o : HashOrder) (ho : o.Valid) :
    ∃ P' : SLR1Parser, Returns (acceptShiftSLR.MakeParser o) (some (true, P')) ∧
      (P'.states_.map fun q => q.items_).Perm acceptShiftStates ∧
      ∀ A ∈ ["S", "A"], SLR1Parser.Follow P'.follow_sets_ A = acceptShiftFollow A :=
  MakeParser_true_of_check acceptShiftSLR o ["A"] [] ⟨rfl, rfl, rfl⟩
    (by unfold Grammar.Defined; decide) (by decide) ho acceptShiftStates acceptShiftFollow
    ["S", "A"] 5 (by decide) (by decide) (by decide) (by decide) (by decide) (by decide) (by decide)
    (by decide)

theorem expr_run (o : HashOrder) (ho : o.Valid) :
    ∃ P' : SLR1Parser, Returns (exprSLR.MakeParser o) (some (true, P')) ∧
      (P'.states_.map fun q => q.items_).Perm exprStates ∧
      ∀ A ∈ ["S", "E", "E'", "T"], SLR1Parser.Follow P'.follow_sets_ A = exprFollow A :=
  MakeParser_true_of_check exprSLR o ["E", "$"] [] ⟨rfl, rfl, rfl⟩
    (by unfold Grammar.Defined; decide) (by decide) ho exprStates exprFollow
    ["S", "E", "E'", "T"] 13 (by decide) (by decide) (by decide) (by decide) (by decide) (by decide)
    (by decide) (by decide)

theorem exprEpsilon_run (o : HashOrder) (ho : o.Valid) :
    ∃ P' : SLR1Parser, Returns (exprEpsilonSLR.MakeParser o) (some (true, P')) ∧
      (P'.states_.map fun q => q.items_).Perm exprStates ∧
      ∀ A ∈ ["S", "E", "E'", "T"], SLR1Parser.Follow P'.follow_sets_ A = exprFollow A :=
  MakeParser_true_of_check exprEpsilonSLR o ["E", "$"] [] ⟨rfl, rfl, rfl⟩
    (by unfold Grammar.Defined; decide) (by decide) ho exprStates exprFollow
    ["S", "E", "E'", "T"] 13 (by decide) (by decide) (by decide) (by decide) (by decide) (by decide)
    (by decide) (by decide)

/-- C12 fails as stated: for the grammar `S -> A`, `A -> A $ | a` and every
traversal order `MakeParser` returns `true`, although the state
`S -> A . `, `A -> A . $` holds a complete item of the axiom, which demands
`Accept` on the end marker, and an item that demands `Shift` on the end
marker. -/
theorem C12_accept_shift_counterexample :
    acceptShiftSLR.Fresh ∧ acceptShiftSLR.gr_.Defined ∧
    acceptShiftSLR.gr_.at? acceptShiftSLR.gr_.axiom_ = some [["A"]] ∧
    ∀ o : HashOrder, o.Valid → ∃ P' : SLR1Parser,
      Returns (acceptShiftSLR.MakeParser o) (some (true, P')) ∧
      ∃ q ∈ P'.states_, ∃ a ∈ q.items_, ∃ b ∈ q.items_,
        Accepts acceptShiftGrammar a EOL_ ∧ Shifts acceptShiftGrammar b EOL_ := by
  refine ⟨⟨rfl, rfl, rfl⟩, by unfold Grammar.Defined; decide, by decide, fun o ho => ?_⟩
  obtain ⟨P', h1, h2, _⟩ := acceptShift_run o ho
  refine ⟨P', h1, ?_⟩
  have hI : ({⟨"A", ["A", "$"], 1⟩, ⟨"S", ["A"], 1⟩} : Finset Lr0Item) ∈
      P'.states_.map fun q => q.items_ := h2.mem_iff.mpr (by decide)
  obtain ⟨q, hq, hq'⟩ := List.mem_map.mp hI
  refine ⟨q, hq, ⟨"S", ["A"], 1⟩, ?_, ⟨"A", ["A", "$"], 1⟩, ?_, by decide, by decide⟩
  · rw [hq']; decide
  · rw [hq']; decide

/-- C13: for the expression grammar `S -> E $`, `E -> T E'`,
`E' -> + T E' | EPSILON`, `T -> ( E ) | n` with `+`, `(`, `)`, `n` registered
as terminals (and also with `EPSILON` registered as a terminal besides), for
every traversal order of the hash containers, `MakeParser` on a fresh parser
returns `true`, and the item sets of its states are the twelve item sets of
the canonical collection. -/
theorem C13_expression_grammar_accepted (o : HashOrder) (ho : o.Valid) :
    (∃ P' : SLR1Parser, Returns (exprSLR.MakeParser o) (some (true, P')) ∧
      (P'.states_.map fun q => q.items_).Perm exprStates) ∧
    (∃ P' : SLR1Parser, Returns (exprEpsilonSLR.MakeParser o) (some (true, P')) ∧
      (P'.states_.map fun q => q.items_).Perm exprStates) := by
  obtain ⟨P1, a1, a2, _⟩ := expr_run o ho
  obtain ⟨P2, b1, b2, _⟩ := exprEpsilon_run o ho
  exact ⟨⟨P1, a1, a2⟩, ⟨P2, b1, b2⟩⟩

/-- The hypothesis of C13 holds for the sorted traversal. -/
theorem C13_expression_grammar_accepted_witness :
    sortedOrder.Valid ∧
    (∃ P' : SLR1Parser, Returns (exprSLR.MakeParser sortedOrder) (some (true, P')) ∧
      (P'.states_.map fun q => q.items_).Perm exprStates) ∧
    (∃ P' : SLR1Parser, Returns (exprEpsilonSLR.MakeParser sortedOrder) (some (true, P')) ∧
      (P'.states_.map fun q => q.items_).Perm exprStates) :=
  ⟨sortedOrder_valid, C13_expression_grammar_accepted sortedOrder sortedOrder_valid⟩

/-! ## `NullableSymbols` (C23) -/

theorem nullableLoop_succ (gr : Grammar) (n : Nat) (G : Finset String) :
    nullableLoop gr (n + 1) G =
      if (gr.g_.foldl nullableRule (G, false)).2 = true
      then nullableLoop gr n (gr.g_.foldl nullableRule (G, false)).1
      else some (gr.g_.foldl nullableRule (G, false)).1 := rfl

theorem nullableLoop_fuelMono (gr : Grammar) (G : Finset String) :
    FuelMono fun n => nullableLoop gr n G := by
  intro n
  induction n generalizing G with
  | zero => intro a h; simp [nullableLoop] at h
  | succ n ih =>
    intro a h k hk
    obtain ⟨k, rfl⟩ : ∃ j, k = j + 1 := ⟨k - 1, by omega⟩
    simp only [nullableLoop_succ] at h ⊢
    split_ifs at h ⊢ with h1
    · exact ih _ a h k (by omega)
    · exact h

theorem NullableSymbols_fuelMono (gr : Grammar) : FuelMono (NullableSymbols gr) :=
  nullableLoop_fuelMono gr ∅

/-- The test made for one production of `nt`. -/
theorem nullableProd_eq (nt : String) (s : Finset String × Bool) (prod : production) :
    nullableProd nt s prod =
      if prod = [EPSILON_] ∨ ∀ sym ∈ prod, sym ∈ s.1 ∨ sym = EOL_ then (insert nt s.1, true)
      else s := by
  have h1 : (prod.length = 1 ∧ prod.head? = some EPSILON_) ↔ prod = [EPSILON_] := by
    constructor
    · rintro ⟨hl, hh⟩
      match prod, hl, hh with
      | [x], _, hh =>
        simp only [List.head?_cons, Option.some.injEq] at hh
        rw [hh]
    · rintro rfl
      exact ⟨rfl, rfl⟩
  have h2 : allNullable s.1 prod = true ↔ ∀ sym ∈ prod, sym ∈ s.1 ∨ sym = EOL_ := by
    simp [allNullable]
  unfold nullableProd
  by_cases c1 : prod = [EPSILON_]
  · rw [if_pos (h1.mpr c1), if_pos (Or.inl c1)]
  · rw [if_neg (fun h => c1 (h1.mp h))]
    by_cases c2 : ∀ sym ∈ prod, sym ∈ s.1 ∨ sym = EOL_
    · rw [if_pos (h2.mpr c2), if_pos (Or.inr c2)]
    · rw [if_neg (fun h => c2 (h2.mp h)), if_neg (fun h => h.elim c1 c2)]

/-- Once `nt` is in the set, the loop over its productions leaves the set
alone and never lowers the flag. -/
theorem nullableProds_of_mem (nt : String) (ps : List production) (G : Finset String) (c : Bool)
    (h : nt ∈ G) :
    (ps.foldl (nullableProd nt) (G, c)).1 = G ∧
    (c = true → (ps.foldl (nullableProd nt) (G, c)).2 = true) := by
  induction ps generalizing c with
  | nil => exact ⟨rfl, fun h => h⟩
  | cons p ps ih =>
    simp only [List.foldl_cons]
    rw [nullableProd_eq]
    split_ifs with h1
    · simp only [Finset.insert_eq_of_mem h]
      exact ⟨(ih true).1, fun _ => (ih true).2 rfl⟩
    · exact ih c

/-- The loop over the productions of a key `nt`: `nt` is inserted, and the flag raised, exactly when some production passes
the test against the set at the start. -/
theorem nullableProds_spec (nt : String) (ps : List production) (G : Finset String) (c : Bool) :
    ((∃ p ∈ ps, p = [EPSILON_] ∨ ∀ sym ∈ p, sym ∈ G ∨ sym = EOL_) →
      ps.foldl (nullableProd nt) (G, c) = (insert nt G, true)) ∧
    ((¬ ∃ p ∈ ps, p = [EPSILON_] ∨ ∀ sym ∈ p, sym ∈ G ∨ sym = EOL_) →
      ps.foldl (nullableProd nt) (G, c) = (G, c)) := by
  induction ps generalizing c with
  | nil =>
    refine ⟨?_, fun _ => rfl⟩
    rintro ⟨p, hp, _⟩
    cases hp
  | cons p ps ih =>
    simp only [List.foldl_cons]
    rw [nullableProd_eq]
    by_cases h1 : p = [EPSILON_] ∨ ∀ sym ∈ p, sym ∈ G ∨ sym = EOL_
    · rw [if_pos h1]
      have h2 := nullableProds_of_mem nt ps (insert nt G) true (Finset.mem_insert_self _ _)
      refine ⟨fun _ => Prod.ext h2.1 (h2.2 rfl), fun hn => ?_⟩
      exact absurd ⟨p, List.mem_cons_self _ _, h1⟩ hn
    · rw [if_neg h1]
      refine ⟨?_, fun hn => (ih c).2 fun ⟨q, hq, hq'⟩ => hn ⟨q, List.mem_cons_of_mem _ hq, hq'⟩⟩
      rintro ⟨q, hq, hq'⟩
      rcases List.mem_cons.mp hq with rfl | hq
      · exact absurd hq' h1
      · exact (ih c).1 ⟨q, hq, hq'⟩

/-- One pass over the rules `l`: the set grows inside every closed property,
the flag is raised exactly when the set grew, and a set that did not grow is
closed for the rules of `l`. -/
theorem nullablePass_spec (gr : Grammar) (l : List (String × List production))
    (hl : ∀ r ∈ l, r ∈ gr.g_) (G : Finset String) (c : Bool) :
    G ⊆ (l.foldl nullableRule (G, c)).1 ∧
    (∀ P, NullClosed gr P → (∀ x ∈ G, P x) → ∀ x ∈ (l.foldl nullableRule (G, c)).1, P x) ∧
    ((l.foldl nullableRule (G, c)).2 = true ↔ c = true ∨ G ⊂ (l.foldl nullableRule (G, c)).1) ∧
    ((l.foldl nullableRule (G, c)).1 = G →
      ∀ r ∈ l, ∀ p ∈ r.2, (p = [EPSILON_] ∨ ∀ sym ∈ p, sym ∈ G ∨ sym = EOL_) → r.1 ∈ G) := by
  induction l generalizing G c with
  | nil =>
    simp only [List.foldl_nil]
    refine ⟨Finset.Subset.refl _, fun P _ h => h, ?_, ?_⟩
    · constructor
      · exact fun h => Or.inl h
      · rintro (h | h)
        · exact h
        · exact absurd h (ssubset_irrefl G)
    · intro _ r hr; cases hr
  | cons r l ih =>
    have hl' : ∀ r ∈ l, r ∈ gr.g_ := fun x hx => hl x (List.mem_cons_of_mem _ hx)
    simp only [List.foldl_cons]
    by_cases h1 : r.1 ∈ G
    · have hstep : nullableRule (G, c) r = (G, c) := by
        simp only [nullableRule, if_pos h1]
      rw [hstep]
      obtain ⟨i1, i2, i3, i4⟩ := ih hl' G c
      refine ⟨i1, i2, i3, fun heq x hx => ?_⟩
      rcases List.mem_cons.mp hx with rfl | hx
      · intro _ _ _; exact h1
      · exact i4 heq x hx
    · by_cases h2 : ∃ p ∈ r.2, p = [EPSILON_] ∨ ∀ sym ∈ p, sym ∈ G ∨ sym = EOL_
      · have hstep : nullableRule (G, c) r = (insert r.1 G, true) := by
          simp only [nullableRule, if_neg h1]
          exact (nullableProds_spec r.1 r.2 G c).1 h2
        rw [hstep]
        obtain ⟨i1, i2, i3, i4⟩ := ih hl' (insert r.1 G) true
        have hss : G ⊂ (l.foldl nullableRule (insert r.1 G, true)).1 := by
          refine ⟨(Finset.subset_insert _ _).trans i1, fun h => h1 (h (i1 ?_))⟩
          exact Finset.mem_insert_self _ _
        refine ⟨(Finset.subset_insert _ _).trans i1, fun P hP hG => ?_, ?_, fun heq => ?_⟩
        · apply i2 P hP
          intro x hx
          rcases Finset.mem_insert.mp hx with rfl | hx
          · obtain ⟨p, hp, hall⟩ := h2
            apply hP r (hl r (List.mem_cons_self _ _)) p hp
            rcases hall with hall | hall
            · exact Or.inl hall
            · exact Or.inr fun sym hs => (hall sym hs).imp (hG sym) id
          · exact hG x hx
        · rw [i3]
          simp only [true_or, true_iff]
          exact Or.inr hss
        · exact absurd heq (ne_of_gt hss)
      · have hstep : nullableRule (G, c) r = (G, c) := by
          simp only [nullableRule, if_neg h1]
          exact (nullableProds_spec r.1 r.2 G c).2 h2
        rw [hstep]
        obtain ⟨i1, i2, i3, i4⟩ := ih hl' G c
        refine ⟨i1, i2, i3, fun heq x hx => ?_⟩
        rcases List.mem_cons.mp hx with rfl | hx
        · intro p hp hall
          exact absurd ⟨p, hp, hall⟩ h2
        · exact i4 heq x hx

theorem nullableLoop_spec (gr : Grammar) :
    ∀ d (G : Finset String), G ⊆ gr.keys.toFinset → gr.keys.toFinset.card - G.card ≤ d →
      (∀ P, NullClosed gr P → ∀ x ∈ G, P x) →
      ∃ G', nullableLoop gr (d + 1) G = some G' ∧ NullClosed gr (· ∈ G') ∧
        ∀ P, NullClosed gr P → ∀ x ∈ G', P x := by
  have hkeysClosed : NullClosed gr (· ∈ gr.keys.toFinset) := by
    intro r hr p _ _
    simp only [Grammar.keys, List.mem_toFinset, List.mem_map]
    exact ⟨r, hr, rfl⟩
  intro d
  induction d with
  | zero =>
    intro G hG hd hmin
    obtain ⟨i1, i2, i3, i4⟩ := nullablePass_spec gr gr.g_ (fun _ h => h) G false
    have hsub : (gr.g_.foldl nullableRule (G, false)).1 ⊆ gr.keys.toFinset :=
      fun x hx => i2 _ hkeysClosed (fun y hy => hG hy) x hx
    have hnot : ¬ (gr.g_.foldl nullableRule (G, false)).2 = true := by
      rw [i3]
      rintro (h | h)
      · cases h
      · have := Finset.card_lt_card h
        have := Finset.card_le_card hsub
        have := Finset.card_le_card hG
        omega
    have heq : (gr.g_.foldl nullableRule (G, false)).1 = G := by
      by_contra hne
      exact hnot (i3.mpr (Or.inr ⟨i1, fun h => hne (Finset.Subset.antisymm h i1)⟩))
    rw [nullableLoop_succ, if_neg hnot]
    refine ⟨_, rfl, ?_, fun P hP => i2 P hP (hmin P hP)⟩
    rw [heq]
    exact fun r hr p hp hall => i4 heq r hr p hp hall
  | succ d ih =>
    intro G hG hd hmin
    obtain ⟨i1, i2, i3, i4⟩ := nullablePass_spec gr gr.g_ (fun _ h => h) G false
    have hsub : (gr.g_.foldl nullableRule (G, false)).1 ⊆ gr.keys.toFinset :=
      fun x hx => i2 _ hkeysClosed (fun y hy => hG hy) x hx
    rw [nullableLoop_succ]
    by_cases hc : (gr.g_.foldl nullableRule (G, false)).2 = true
    · rw [if_pos hc]
      have hss : G ⊂ (gr.g_.foldl nullableRule (G, false)).1 := by
        rcases i3.mp hc with h | h
        · cases h
        · exact h
      apply ih _ hsub
      · have := Finset.card_lt_card hss
        omega
      · exact fun P hP x hx => i2 P hP (hmin P hP) x hx
    · have heq : (gr.g_.foldl nullableRule (G, false)).1 = G := by
        by_contra hne
        exact hc (i3.mpr (Or.inr ⟨i1, fun h => hne (Finset.Subset.antisymm h i1)⟩))
      rw [if_neg hc]
      refine ⟨_, rfl, ?_, fun P hP => i2 P hP (hmin P hP)⟩
      rw [heq]
      exact fun r hr p hp hall => i4 heq r hr p hp hall

theorem NullableSymbols_spec (gr : Grammar) :
    ∃ N : Finset String, Returns (NullableSymbols gr) N ∧ N ⊆ gr.keys.toFinset ∧
      NullClosed gr (· ∈ N) ∧ ∀ P, NullClosed gr P → ∀ x ∈ N, P x := by
  obtain ⟨G, h1, h2, h3⟩ := nullableLoop_spec gr _ ∅ (Finset.empty_subset _) (le_refl _)
    (fun _ _ x hx => absurd hx (Finset.not_mem_empty _))
  refine ⟨G, (NullableSymbols_fuelMono gr).returns h1, fun x hx => ?_, h2, h3⟩
  exact h3 (· ∈ gr.keys.toFinset) (fun r hr p _ _ => by
    simp only [Grammar.keys, List.mem_toFinset, List.mem_map]
    exact ⟨r, hr, rfl⟩) x hx

/-- C23 (amended): for every grammar `NullableSymbols` returns the least set
`N` of rule keys such that `A` is in `N` when `A` has the production
consisting only of `EPSILON_` or has a production every symbol of which is in
`N` or is the end marker `$`. -/
theorem C23_nullable_symbols_least (gr : Grammar) :
    ∃ N : Finset String, Returns (NullableSymbols gr) N ∧ N ⊆ gr.keys.toFinset ∧
      NullClosed gr (· ∈ N) ∧ ∀ P, NullClosed gr P → ∀ x ∈ N, P x :=
  NullableSymbols_spec gr

/-- C23 fails as stated: for `S -> A $`, `A -> EPSILON` the result holds `S`,
whose only production contains the end marker, although the set holding only
`A` is closed under the rule of the claim, so that the least such set does not hold
`S`. -/
theorem C23_end_marker_counterexample :
    ∃ N : Finset String, Returns (NullableSymbols nullGrammar) N ∧ "S" ∈ N ∧
      NullClosedPlain nullGrammar (· ∈ ({"A"} : Finset String)) ∧
      "S" ∉ ({"A"} : Finset String) := by
  have h : ∃ N ∈ NullableSymbols nullGrammar 4, "S" ∈ N := by decide
  obtain ⟨N, h1, h2⟩ := h
  refine ⟨N, (NullableSymbols_fuelMono nullGrammar).returns (Option.mem_def.mp h1), h2, ?_,
    by decide⟩
  intro r hr p hp hc
  simp only [nullGrammar, List.mem_cons, List.mem_singleton, List.not_mem_nil, or_false] at hr
  rcases hr with rfl | rfl
  · simp only [List.mem_singleton] at hp
    subst hp
    rcases hc with hc | hc
    · exact absurd hc (by decide)
    · exact absurd (hc "$" (by simp)) (by decide)
  · simp

/-! ## `HasUnreachableSymbols` (C21) -/

theorem foldl_flatten_eq {α β : Type} (f : α → β → α) (l : List (List β)) (x : α) :
    l.foldl (fun s p => p.foldl f s) x = l.flatten.foldl f x := by
  induction l generalizing x with
  | nil => rfl
  | cons p l ih => simp only [List.foldl_cons, List.flatten_cons, List.foldl_append, ih]

/-- The loop over a list of symbols: the symbols that are not registered
terminals are inserted, the new ones are queued once each. -/
theorem reachSymbols_spec (gr : Grammar) (syms : List String) (R : Finset String)
    (Q : List String) :
    ∃ new : List String, syms.foldl (reachSymbol gr) (R, Q) =
        (R ∪ new.toFinset, Q ++ new) ∧ new.Nodup ∧ (∀ x ∈ new, x ∉ R) ∧
      (∀ x ∈ new, x ∈ syms ∧ gr.st_.IsTerminal x = false) ∧
      ∀ x ∈ syms, gr.st_.IsTerminal x = false → x ∈ R ∪ new.toFinset := by
  induction syms generalizing R Q with
  | nil => exact ⟨[], by simp, List.nodup_nil, by simp, by simp, by simp⟩
  | cons a syms ih =>
    simp only [List.foldl_cons]
    by_cases h : gr.st_.IsTerminal a = false ∧ a ∉ R
    · have hstep : reachSymbol gr (R, Q) a = (insert a R, Q ++ [a]) := by
        simp only [reachSymbol, if_pos h]
      rw [hstep]
      obtain ⟨new, e, nd, dis, src, cov⟩ := ih (insert a R) (Q ++ [a])
      refine ⟨a :: new, ?_, ?_, ?_, ?_, ?_⟩
      · rw [e]
        refine Prod.ext ?_ (by simp)
        ext x
        simp only [Finset.mem_union, Finset.mem_insert, List.mem_toFinset, List.toFinset_cons]
        tauto
      · refine List.nodup_cons.mpr ⟨fun ha => dis a ha (Finset.mem_insert_self _ _), nd⟩
      · intro x hx
        rcases List.mem_cons.mp hx with rfl | hx
        · exact h.2
        · exact fun hR => dis x hx (Finset.mem_insert_of_mem hR)
      · intro x hx
        rcases List.mem_cons.mp hx with rfl | hx
        · exact ⟨List.mem_cons_self _ _, h.1⟩
        · exact ⟨List.mem_cons_of_mem _ (src x hx).1, (src x hx).2⟩
      · intro x hx hT
        simp only [Finset.mem_union, List.mem_toFinset, List.mem_cons]
        rcases List.mem_cons.mp hx with rfl | hx
        · exact Or.inr (Or.inl rfl)
        · have := cov x hx hT
          simp only [Finset.mem_union, Finset.mem_insert, List.mem_toFinset] at this
          tauto
    · have hstep : reachSymbol gr (R, Q) a = (R, Q) := by
        simp only [reachSymbol, if_neg h]
      rw [hstep]
      obtain ⟨new, e, nd, dis, src, cov⟩ := ih R Q
      refine ⟨new, e, nd, dis, fun x hx => ⟨List.mem_cons_of_mem _ (src x hx).1, (src x hx).2⟩, ?_⟩
      intro x hx hT
      rcases List.mem_cons.mp hx with rfl | hx
      · have : x ∈ R := by
          by_contra hn
          exact h ⟨hT, hn⟩
        exact Finset.mem_union_left _ this
      · exact cov x hx hT

theorem reachExpand_spec (gr : Grammar) (current : String) (R : Finset String)
    (Q : List String) (h : ReachInv gr (R, current :: Q)) :
    ReachInv gr (reachExpand gr current (R, Q)) ∧
    2 * (gr.universe.card - (reachExpand gr current (R, Q)).1.card) +
      (reachExpand gr current (R, Q)).2.length + 1 ≤
      2 * (gr.universe.card - R.card) + (current :: Q).length := by
  obtain ⟨h1, h2, h3, h4, h5⟩ := h
  have hcur : current ∈ R := h3 current (List.mem_cons_self _ _)
  cases hat : gr.at? current with
  | none =>
    have e : reachExpand gr current (R, Q) = (R, Q) := by
      simp only [reachExpand, hat]
    rw [e]
    refine ⟨⟨h1, h2, fun x hx => h3 x (List.mem_cons_of_mem _ hx), h4, ?_⟩,
      by simp only [List.length_cons]; omega⟩
    intro A hA hAQ productions p B hp
    by_cases hAc : A = current
    · subst hAc
      rw [hat] at hp
      cases hp
    · exact h5 A hA (fun hm => (List.mem_cons.mp hm).elim hAc hAQ) productions p B hp
  | some productions =>
    have e : reachExpand gr current (R, Q) =
        productions.flatten.foldl (reachSymbol gr) (R, Q) := by
      simp only [reachExpand, hat]
      exact foldl_flatten_eq _ _ _
    obtain ⟨new, e2, nd, dis, src, cov⟩ := reachSymbols_spec gr productions.flatten R Q
    rw [e, e2]
    have hmemU : ∀ x ∈ new, x ∈ gr.universe := by
      intro x hx
      have hx1 := (src x hx).1
      simp only [Grammar.universe, Finset.mem_insert, List.mem_toFinset, List.mem_flatMap]
      exact Or.inr ⟨(current, productions), Grammar.at?_eq_some hat, hx1⟩
    have hsub : R ∪ new.toFinset ⊆ gr.universe := by
      intro x hx
      rcases Finset.mem_union.mp hx with hx | hx
      · exact h4 hx
      · exact hmemU x (List.mem_toFinset.mp hx)
    have hcard : (R ∪ new.toFinset).card = R.card + new.length := by
      rw [Finset.card_union_of_disjoint, List.toFinset_card_of_nodup nd]
      rw [Finset.disjoint_left]
      intro x hx hn
      exact dis x (List.mem_toFinset.mp hn) hx
    refine ⟨⟨Finset.mem_union_left _ h1, ?_, ?_, hsub, ?_⟩, ?_⟩
    · intro x hx
      rcases Finset.mem_union.mp hx with hx | hx
      · exact h2 x hx
      · have hx' := List.mem_toFinset.mp hx
        obtain ⟨p, hp, hxp⟩ := List.mem_flatten.mp (src x hx').1
        exact Reach.step current x productions p (h2 current hcur) hat hp hxp (src x hx').2
    · intro x hx
      rcases List.mem_append.mp hx with hx | hx
      · exact Finset.mem_union_left _ (h3 x (List.mem_cons_of_mem _ hx))
      · exact Finset.mem_union_right _ (List.mem_toFinset.mpr hx)
    · intro A hA hAQ productions' p B hp hpp hB hT
      have hAQ1 : A ∉ Q := fun h => hAQ (List.mem_append_left _ h)
      have hAn : A ∉ new := fun h => hAQ (List.mem_append_right _ h)
      have hAR : A ∈ R := by
        rcases Finset.mem_union.mp hA with hA | hA
        · exact hA
        · exact absurd (List.mem_toFinset.mp hA) hAn
      by_cases hAc : A = current
      · subst hAc
        rw [hat] at hp
        cases hp
        exact cov B (List.mem_flatten.mpr ⟨p, hpp, hB⟩) hT
      · exact Finset.mem_union_left _
          (h5 A hAR (fun hm => (List.mem_cons.mp hm).elim hAc hAQ1) productions' p B hp hpp hB hT)
    · have hle := Finset.card_le_card hsub
      rw [hcard] at hle ⊢
      simp only [List.length_append, List.length_cons]
      omega

theorem reachLoop_spec (gr : Grammar) :
    ∀ (d : Nat) (s : Finset String × List String), ReachInv gr s →
      2 * (gr.universe.card - s.1.card) + s.2.length ≤ d →
      ∃ R : Finset String, (∀ n, d + 1 ≤ n → reachLoop gr n s = some R) ∧
        ∀ x, x ∈ R ↔ Reach gr x := by
  intro d
  induction d with
  | zero =>
    rintro ⟨R, Q⟩ hinv hd
    have hQ : Q = [] := List.length_eq_zero.mp (by simp only at hd; omega)
    subst hQ
    refine ⟨R, fun n hn => ?_, fun x => ⟨hinv.2.1 x, fun hx => ?_⟩⟩
    · obtain ⟨n, rfl⟩ : ∃ j, n = j + 1 := ⟨n - 1, by omega⟩
      rfl
    · induction hx with
      | start => exact hinv.1
      | step A B productions p _ hat hp hB hT ih =>
        exact hinv.2.2.2.2 A ih (List.not_mem_nil _) productions p B hat hp hB hT
  | succ d ih =>
    rintro ⟨R, Q⟩ hinv hd
    cases Q with
    | nil =>
      refine ⟨R, fun n hn => ?_, fun x => ⟨hinv.2.1 x, fun hx => ?_⟩⟩
      · obtain ⟨n, rfl⟩ : ∃ j, n = j + 1 := ⟨n - 1, by omega⟩
        rfl
      · induction hx with
        | start => exact hinv.1
        | step A B productions p _ hat hp hB hT ih =>
          exact hinv.2.2.2.2 A ih (List.not_mem_nil _) productions p B hat hp hB hT
    | cons current Q =>
      obtain ⟨hinv', hm⟩ := reachExpand_spec gr current R Q hinv
      obtain ⟨R', hR', hchar⟩ := ih _ hinv' (by simp only at hd ⊢; omega)
      refine ⟨R', fun n hn => ?_, hchar⟩
      obtain ⟨n, rfl⟩ : ∃ j, n = j + 1 := ⟨n - 1, by omega⟩
      exact hR' n (by omega)

theorem HasUnreachableSymbols_fuelMono (gr : Grammar) : FuelMono (HasUnreachableSymbols gr) := by
  have key : ∀ (n : Nat) (s : Finset String × List String) (R : Finset String),
      reachLoop gr n s = some R → ∀ k, n ≤ k → reachLoop gr k s = some R := by
    intro n
    induction n with
    | zero => intro s R h; simp [reachLoop] at h
    | succ n ih =>
      rintro ⟨R0, Q⟩ R h k hk
      obtain ⟨k, rfl⟩ : ∃ j, k = j + 1 := ⟨k - 1, by omega⟩
      cases Q with
      | nil => exact h
      | cons c Q => exact ih _ R h k (by omega)
  intro n b h k hk
  unfold HasUnreachableSymbols at h ⊢
  rw [Option.map_eq_some'] at h ⊢
  obtain ⟨R, h1, h2⟩ := h
  exact ⟨R, key n _ R h1 k hk, h2⟩

theorem HasUnreachableSymbols_spec (gr : Grammar) :
    ∃ b : Bool, Returns (HasUnreachableSymbols gr) b ∧
      (b = true ↔ ∃ nt ∈ gr.st_.non_terminals_, ¬ Reach gr nt) := by
  have hinv : ReachInv gr ({gr.axiom_}, [gr.axiom_]) := by
    refine ⟨Finset.mem_singleton_self _, ?_, ?_, ?_, ?_⟩
    · intro x hx
      rw [Finset.mem_singleton.mp hx]
      exact Reach.start
    · intro x hx
      rw [List.mem_singleton.mp hx]
      exact Finset.mem_singleton_self _
    · intro x hx
      rw [Finset.mem_singleton.mp hx]
      exact Finset.mem_insert_self _ _
    · intro A hA hAQ
      rw [Finset.mem_singleton.mp hA] at hAQ
      exact absurd (List.mem_singleton_self _) hAQ
  obtain ⟨R, hR, hchar⟩ := reachLoop_spec gr _ _ hinv (le_refl _)
  have hret : Returns (HasUnreachableSymbols gr)
      (decide (∃ nt ∈ gr.st_.non_terminals_, nt ∉ R)) := by
    refine ⟨2 * (gr.universe.card - ({gr.axiom_} : Finset String).card) + 1 + 1, fun n hn => ?_⟩
    unfold HasUnreachableSymbols
    rw [hR n hn]
    rfl
  refine ⟨_, hret, ?_⟩
  simp only [decide_eq_true_eq, hchar]

/-- C21: for every grammar `HasUnreachableSymbols` returns, and it returns
true iff some registered non-terminal is not reachable from the axiom, where
the axiom is reachable and a symbol that is not a registered terminal is
reachable when it occurs in a production of a reachable symbol.  For the
grammars of the tests: `S -> A $`, `A -> a b`, `B -> c` gives true, and
`S -> A $`, `A -> a b B`, `B -> c` gives false. -/
theorem C21_has_unreachable_symbols :
    (∀ gr : Grammar, ∃ b : Bool, Returns (HasUnreachableSymbols gr) b ∧
      (b = true ↔ ∃ nt ∈ gr.st_.non_terminals_, ¬ Reach gr nt)) ∧
    Returns (HasUnreachableSymbols unreachGrammar) true ∧
    Returns (HasUnreachableSymbols reachGrammar) false :=
  ⟨HasUnreachableSymbols_spec,
   (HasUnreachableSymbols_fuelMono unreachGrammar).returns (n := 10) (by decide),
   (HasUnreachableSymbols_fuelMono reachGrammar).returns (n := 10) (by decide)⟩

/-! ## `GenerateNewNonTerminal` -/

theorem addPrimes_length (base : String) (n : Nat) :
    (addPrimes base n).length = base.length + n := by
  induction n with
  | zero => rfl
  | succ n ih =>
    simp only [addPrimes, String.length_append, ih]
    rfl

theorem addPrimes_injective (base : String) : Function.Injective (addPrimes base) := by
  intro a b h
  have := congrArg String.length h
  rw [addPrimes_length, addPrimes_length] at this
  omega

theorem primeLoop_spec (nts : Finset String) (base : String) (n : Nat)
    (hn : addPrimes base n ∉ nts) :
    ∀ (f i : Nat), i ≤ n → n < i + f → (∀ k, i ≤ k → k < n → addPrimes base k ∈ nts) →
      primeLoop nts f (addPrimes base i) = addPrimes base n := by
  intro f
  induction f with
  | zero => intro i h1 h2; omega
  | succ f ih =>
    intro i h1 h2 h3
    simp only [primeLoop]
    by_cases hi : i = n
    · subst hi
      rw [if_neg hn]
    · rw [if_pos (h3 i (le_refl _) (by omega))]
      exact ih (i + 1) (by omega) (by omega) fun k hk hk' => h3 k (by omega) hk'

/-- The result of `GenerateNewNonTerminal` is `base` followed by the fewest
primes that give a name that is not a registered non-terminal. -/
theorem GenerateNewNonTerminal_spec (st : SymbolTable) (base : String) :
    ∃ n, GenerateNewNonTerminal st base = addPrimes base n ∧
      addPrimes base n ∉ st.non_terminals_ ∧ ∀ k < n, addPrimes base k ∈ st.non_terminals_ := by
  have hex : ∃ n, n ≤ st.non_terminals_.card ∧ addPrimes base n ∉ st.non_terminals_ := by
    by_contra hcon
    push_neg at hcon
    have hsub : (Finset.range (st.non_terminals_.card + 1)).image (addPrimes base) ⊆
        st.non_terminals_ := by
      intro x hx
      obtain ⟨k, hk, rfl⟩ := Finset.mem_image.mp hx
      exact hcon k (by have := Finset.mem_range.mp hk; omega)
    have h1 := Finset.card_le_card hsub
    rw [Finset.card_image_of_injective _ (addPrimes_injective base), Finset.card_range] at h1
    omega
  classical
  have hex' : ∃ n, addPrimes base n ∉ st.non_terminals_ := ⟨hex.choose, hex.choose_spec.2⟩
  refine ⟨Nat.find hex', ?_, Nat.find_spec hex', fun k hk => ?_⟩
  · have hle : Nat.find hex' ≤ st.non_terminals_.card :=
      (Nat.find_min' hex' hex.choose_spec.2).trans hex.choose_spec.1
    exact primeLoop_spec st.non_terminals_ base _ (Nat.find_spec hex') _ 0 (Nat.zero_le _)
      (by omega) fun k _ hk => not_not.mp (Nat.find_min hex' hk)
  · exact not_not.mp (Nat.find_min hex' hk)

/-! ## `RemoveLeftRecursion`: the rewriting of the rules -/

theorem hasDirectLeftRecursion_iff (gr : Grammar) :
    HasDirectLeftRecursion gr = true ↔ ∃ r ∈ gr.g_, LeftRecursive r := by
  simp [HasDirectLeftRecursion, LeftRecursive]

theorem putSymbol_non_terminals (st : SymbolTable) (N : String) :
    (st.PutSymbol N false).non_terminals_ = insert N st.non_terminals_ := by
  simp [SymbolTable.PutSymbol]

theorem putSymbol_terminal_non_terminals (st : SymbolTable) (N : String) :
    (st.PutSymbol N true).non_terminals_ = st.non_terminals_ := by
  simp [SymbolTable.PutSymbol]

theorem ruleAssign_new {m : List (String × List production)} {k : String}
    (h : k ∉ m.map Prod.fst) (v : List production) : ruleAssign m k v = m ++ [(k, v)] := by
  simp only [ruleAssign, if_neg h]

theorem recursionSplit_fold (nt : String) (ps : List production) (a b : List production) :
    ps.foldl (recursionSplit nt) (a, b) =
      (a ++ ps.filterMap (fun p => if p.head? = some nt then some p.tail else none),
       b ++ ps.filter fun p => ¬ p.head? = some nt ∧ ¬ p.head? = some EPSILON_) := by
  induction ps generalizing a b with
  | nil => simp
  | cons p ps ih =>
    simp only [List.foldl_cons, recursionSplit]
    by_cases h1 : p.head? = some nt
    · rw [if_pos h1, ih]
      simp [List.filterMap_cons, List.filter_cons, h1]
    · rw [if_neg h1]
      by_cases h2 : p.head? = some EPSILON_
      · have h3 : ¬ EPSILON_ = nt := fun e => h1 (e ▸ h2)
        rw [if_pos h2, ih]
        simp [List.filterMap_cons, List.filter_cons, h2, h3]
      · rw [if_neg h2, ih]
        simp [List.filterMap_cons, List.filter_cons, h1, h2]

theorem recursionAlpha_ne_nil (r : String × List production) :
    recursionAlpha r ≠ [] ↔ LeftRecursive r := by
  unfold recursionAlpha LeftRecursive
  constructor
  · intro h
    obtain ⟨a, ha⟩ := List.exists_mem_of_ne_nil _ h
    obtain ⟨p, hp, hpa⟩ := List.mem_filterMap.mp ha
    by_cases h1 : p.head? = some r.1
    · exact ⟨p, hp, h1⟩
    · rw [if_neg h1] at hpa
      cases hpa
  · rintro ⟨p, hp, h1⟩ hnil
    have : p.tail ∈ r.2.filterMap fun p => if p.head? = some r.1 then some p.tail else none :=
      List.mem_filterMap.mpr ⟨p, hp, by rw [if_pos h1]⟩
    rw [hnil] at this
    cases this

/-- The body of the loop over the rules, in terms of the rewriting. -/
theorem recursionRule_eq (s : RuleState) (r : String × List production) :
    recursionRule s r =
      if LeftRecursive r then
        ⟨s.st_.PutSymbol (GenerateNewNonTerminal s.st_ r.1) false,
          ruleAssign (ruleAssign s.new_rules r.1 (keptRule r (GenerateNewNonTerminal s.st_ r.1)))
            (GenerateNewNonTerminal s.st_ r.1) (addedRule r (GenerateNewNonTerminal s.st_ r.1))⟩
      else ⟨s.st_, ruleAssign s.new_rules r.1 r.2⟩ := by
  have hf : r.2.foldl (recursionSplit r.1) ([], []) = (recursionAlpha r, recursionBeta r) := by
    rw [recursionSplit_fold]
    rfl
  unfold recursionRule
  simp only [hf]
  by_cases h : LeftRecursive r
  · rw [if_pos h, if_pos ((recursionAlpha_ne_nil r).mpr h)]
    rfl
  · rw [if_neg h, if_neg (fun h' => h ((recursionAlpha_ne_nil r).mp h'))]

/-- The loop over the rules of `RemoveLeftRecursion` appends to `new_rules`
the entries of the rewriting, when the keys are different registered
non-terminals. -/
theorem recursionFold_spec :
    ∀ (l : List (String × List production)) (s : RuleState), (l.map Prod.fst).Nodup →
      (∀ k ∈ l.map Prod.fst, k ∈ s.st_.non_terminals_) →
      (∀ k ∈ s.new_rules.map Prod.fst, k ∈ s.st_.non_terminals_) →
      (∀ k ∈ l.map Prod.fst, k ∉ s.new_rules.map Prod.fst) →
      ∃ outs, (l.foldl recursionRule s).new_rules = s.new_rules ++ outs ∧
        RemoveRel s.st_ l outs (l.foldl recursionRule s).st_ := by
  intro l
  induction l with
  | nil => intro s _ _ _ _; exact ⟨[], by simp, RemoveRel.nil _⟩
  | cons r l ih =>
    intro s hnd hreg hnew hfresh
    simp only [List.map_cons, List.nodup_cons] at hnd
    have hr1 : r.1 ∉ s.new_rules.map Prod.fst := hfresh r.1 (by simp)
    simp only [List.foldl_cons]
    rw [recursionRule_eq]
    by_cases h : LeftRecursive r
    · rw [if_pos h]
      obtain ⟨n, hN, hN1, hN2⟩ := GenerateNewNonTerminal_spec s.st_ r.1
      rw [hN]
      have hrN : r.1 ≠ addPrimes r.1 n := fun e => hN1 (e ▸ hreg r.1 (by simp))
      have e1 : ruleAssign s.new_rules r.1 (keptRule r (addPrimes r.1 n)) =
          s.new_rules ++ [(r.1, keptRule r (addPrimes r.1 n))] := ruleAssign_new hr1 _
      have hN3 : addPrimes r.1 n ∉
          (s.new_rules ++ [(r.1, keptRule r (addPrimes r.1 n))]).map Prod.fst := by
        simp only [List.map_append, List.map_cons, List.map_nil, List.mem_append,
          List.mem_singleton, not_or]
        exact ⟨fun hm => hN1 (hnew _ hm), fun e => hrN e.symm⟩
      rw [e1, ruleAssign_new hN3]
      obtain ⟨outs, e2, rel⟩ := ih ⟨s.st_.PutSymbol (addPrimes r.1 n) false,
        s.new_rules ++ [(r.1, keptRule r (addPrimes r.1 n))] ++
          [(addPrimes r.1 n, addedRule r (addPrimes r.1 n))]⟩ hnd.2
        (fun k hk => by
          rw [putSymbol_non_terminals]
          exact Finset.mem_insert_of_mem (hreg k (List.mem_cons_of_mem _ hk)))
        (fun k hk => by
          rw [putSymbol_non_terminals]
          simp only [List.map_append, List.map_cons, List.map_nil, List.mem_append,
            List.mem_singleton] at hk
          rcases hk with (hk | rfl) | rfl
          · exact Finset.mem_insert_of_mem (hnew k hk)
          · exact Finset.mem_insert_of_mem (hreg r.1 (by simp))
          · exact Finset.mem_insert_self _ _)
        (fun k hk => by
          simp only [List.map_append, List.map_cons, List.map_nil, List.mem_append,
            List.mem_singleton, not_or]
          refine ⟨⟨hfresh k (List.mem_cons_of_mem _ hk), fun e => hnd.1 (e ▸ hk)⟩, fun e => ?_⟩
          exact hN1 (e ▸ hreg k (List.mem_cons_of_mem _ hk)))
      refine ⟨(r.1, keptRule r (addPrimes r.1 n)) ::
        (addPrimes r.1 n, addedRule r (addPrimes r.1 n)) :: outs, ?_, ?_⟩
      · rw [e2]; simp
      · exact RemoveRel.split _ _ r l outs n h hN1 hN2 rel
    · rw [if_neg h, ruleAssign_new hr1]
      obtain ⟨outs, e2, rel⟩ := ih ⟨s.st_, s.new_rules ++ [(r.1, r.2)]⟩ hnd.2
        (fun k hk => hreg k (List.mem_cons_of_mem _ hk))
        (fun k hk => by
          simp only [List.map_append, List.map_cons, List.map_nil, List.mem_append,
            List.mem_singleton] at hk
          rcases hk with hk | rfl
          · exact hnew k hk
          · exact hreg r.1 (by simp))
        (fun k hk => by
          simp only [List.map_append, List.map_cons, List.map_nil, List.mem_append,
            List.mem_singleton, not_or]
          exact ⟨hfresh k (List.mem_cons_of_mem _ hk), fun e => hnd.1 (e ▸ hk)⟩)
      refine ⟨(r.1, r.2) :: outs, ?_, ?_⟩
      · rw [e2]; simp
      · exact RemoveRel.keep _ _ r l outs h rel

/-! ## The rewriting of the rules: its entries -/

theorem removeRel_mono {st st' : SymbolTable} {l outs : List (String × List production)}
    (h : RemoveRel st l outs st') : st.non_terminals_ ⊆ st'.non_terminals_ := by
  induction h with
  | nil st => exact Finset.Subset.refl _
  | keep st st' r l outs _ _ ih => exact ih
  | split st st' r l outs n _ _ _ _ ih =>
    rw [putSymbol_non_terminals] at ih
    exact (Finset.subset_insert _ _).trans ih

theorem removeRel_entries {st st' : SymbolTable} {l outs : List (String × List production)}
    (h : RemoveRel st l outs st') :
    ∀ e ∈ outs, (∃ r ∈ l, ¬ LeftRecursive r ∧ e = (r.1, r.2)) ∨
      ∃ r ∈ l, LeftRecursive r ∧ ∃ n, addPrimes r.1 n ∉ st.non_terminals_ ∧
        addPrimes r.1 n ∈ st'.non_terminals_ ∧
        (e = (r.1, keptRule r (addPrimes r.1 n)) ∨
          e = (addPrimes r.1 n, addedRule r (addPrimes r.1 n))) := by
  induction h with
  | nil st => intro e he; cases he
  | keep st st' r l outs hr _ ih =>
    intro e he
    rcases List.mem_cons.mp he with rfl | he
    · exact Or.inl ⟨r, List.mem_cons_self _ _, hr, rfl⟩
    · rcases ih e he with ⟨r', hr', h1, h2⟩ | ⟨r', hr', h1, n, h2, h3, h4⟩
      · exact Or.inl ⟨r', List.mem_cons_of_mem _ hr', h1, h2⟩
      · exact Or.inr ⟨r', List.mem_cons_of_mem _ hr', h1, n, h2, h3, h4⟩
  | split st st' r l outs n hr hN _ hrel ih =>
    have hmono := removeRel_mono hrel
    rw [putSymbol_non_terminals] at hmono
    intro e he
    rcases List.mem_cons.mp he with rfl | he
    · exact Or.inr ⟨r, List.mem_cons_self _ _, hr, n, hN, hmono (Finset.mem_insert_self _ _),
        Or.inl rfl⟩
    · rcases List.mem_cons.mp he with rfl | he
      · exact Or.inr ⟨r, List.mem_cons_self _ _, hr, n, hN,
          hmono (Finset.mem_insert_self _ _), Or.inr rfl⟩
      · rcases ih e he with ⟨r', hr', h1, h2⟩ | ⟨r', hr', h1, m, h2, h3, h4⟩
        · exact Or.inl ⟨r', List.mem_cons_of_mem _ hr', h1, h2⟩
        · refine Or.inr ⟨r', List.mem_cons_of_mem _ hr', h1, m, ?_, h3, h4⟩
          rw [putSymbol_non_terminals] at h2
          exact fun hm => h2 (Finset.mem_insert_of_mem hm)

theorem removeRel_complete {st st' : SymbolTable} {l outs : List (String × List production)}
    (h : RemoveRel st l outs st') :
    (∀ r ∈ l, ¬ LeftRecursive r → (r.1, r.2) ∈ outs) ∧
    ∀ r ∈ l, LeftRecursive r → ∃ n, addPrimes r.1 n ∉ st.non_terminals_ ∧
      (∀ k < n, addPrimes r.1 k ∈ st'.non_terminals_) ∧
      (r.1, keptRule r (addPrimes r.1 n)) ∈ outs ∧
      (addPrimes r.1 n, addedRule r (addPrimes r.1 n)) ∈ outs := by
  induction h with
  | nil st => exact ⟨fun r hr => (by cases hr), fun r hr => (by cases hr)⟩
  | keep st st' r l outs hr _ ih =>
    refine ⟨fun r' hr' h1 => ?_, fun r' hr' h1 => ?_⟩
    · rcases List.mem_cons.mp hr' with rfl | hr'
      · exact List.mem_cons_self _ _
      · exact List.mem_cons_of_mem _ (ih.1 r' hr' h1)
    · rcases List.mem_cons.mp hr' with rfl | hr'
      · exact absurd h1 hr
      · obtain ⟨n, a, b, c, d⟩ := ih.2 r' hr' h1
        exact ⟨n, a, b, List.mem_cons_of_mem _ c, List.mem_cons_of_mem _ d⟩
  | split st st' r l outs n hr hN hmin hrel ih =>
    have hmono := removeRel_mono hrel
    rw [putSymbol_non_terminals] at hmono
    refine ⟨fun r' hr' h1 => ?_, fun r' hr' h1 => ?_⟩
    · rcases List.mem_cons.mp hr' with rfl | hr'
      · exact absurd hr h1
      · exact List.mem_cons_of_mem _ (List.mem_cons_of_mem _ (ih.1 r' hr' h1))
    · rcases List.mem_cons.mp hr' with rfl | hr'
      · exact ⟨n, hN, fun k hk => hmono (Finset.mem_insert_of_mem (hmin k hk)),
          List.mem_cons_self _ _, List.mem_cons_of_mem _ (List.mem_cons_self _ _)⟩
      · obtain ⟨m, a, b, c, d⟩ := ih.2 r' hr' h1
        rw [putSymbol_non_terminals] at a
        exact ⟨m, fun hm => a (Finset.mem_insert_of_mem hm), b,
          List.mem_cons_of_mem _ (List.mem_cons_of_mem _ c),
          List.mem_cons_of_mem _ (List.mem_cons_of_mem _ d)⟩

theorem find?_of_mem_nodup {l : List (String × List production)} (hnd : (l.map Prod.fst).Nodup)
    {k : String} {v : List production} (h : (k, v) ∈ l) :
    (l.find? fun r => r.1 == k) = some (k, v) := by
  induction l with
  | nil => cases h
  | cons r l ih =>
    simp only [List.map_cons, List.nodup_cons] at hnd
    rcases List.mem_cons.mp h with rfl | h
    · simp
    · have hne : ¬ r.1 = k := by
        intro e
        apply hnd.1
        rw [e]
        exact List.mem_map.mpr ⟨(k, v), h, rfl⟩
      rw [List.find?_cons_of_neg _ (by simpa using hne)]
      exact ih hnd.2 h

/-- In a rule map the entry of a key is the value looked up. -/
theorem Grammar.at?_of_mem {gr : Grammar} (hnd : gr.keys.Nodup) {k : String}
    {v : List production} (h : (k, v) ∈ gr.g_) : gr.at? k = some v := by
  unfold Grammar.at?
  rw [find?_of_mem_nodup hnd h]
  rfl

/-- The grammar returned by `RemoveLeftRecursion` when there is direct left
recursion: the rule map holds the entries of the rewriting. -/
theorem RemoveLeftRecursion_spec (gr : Grammar) (o : MapOrder) (ho : o.Valid)
    (hrec : HasDirectLeftRecursion gr = true) (hnd : gr.keys.Nodup)
    (hkeys : ∀ k ∈ gr.keys, k ∈ gr.st_.non_terminals_) :
    ∃ outs st', RemoveRel gr.st_ gr.g_ outs st' ∧ (RemoveLeftRecursion gr o).g_.Perm outs ∧
      (RemoveLeftRecursion gr o).st_ = st'.PutSymbol EPSILON_ true ∧
      (RemoveLeftRecursion gr o).axiom_ = gr.axiom_ := by
  obtain ⟨outs, e, rel⟩ := recursionFold_spec gr.g_ ⟨gr.st_, []⟩ hnd hkeys
    (fun k hk => (by cases hk)) (fun k _ hk => (by cases hk))
  simp only [List.nil_append] at e
  refine ⟨outs, _, rel, ?_, ?_, ?_⟩
  · simp only [RemoveLeftRecursion, hrec, Bool.true_eq_false, if_false, e]
    exact ho outs
  · simp only [RemoveLeftRecursion, hrec, Bool.true_eq_false, if_false]
  · simp only [RemoveLeftRecursion, hrec, Bool.true_eq_false, if_false]

theorem primed_addPrimes_succ (base : String) (n : Nat) : Primed (addPrimes base (n + 1)) := by
  simp only [Primed, addPrimes, String.data_append]
  exact List.getLast?_append_of_ne_nil _ (by decide)

theorem addPrimes_primed_of_not_mem {nts : Finset String} {base : String} {n : Nat}
    (hb : base ∈ nts) (hn : addPrimes base n ∉ nts) : Primed (addPrimes base n) := by
  cases n with
  | zero => exact absurd hb hn
  | succ n => exact primed_addPrimes_succ base n

theorem head?_append_singleton (a : List String) (N : String) :
    (a ++ [N]).head? = some (a.head?.getD N) := by
  cases a <;> rfl

/-- After `RemoveLeftRecursion` no rule is left-recursive, when the
left-recursive productions `A -> A X ...` have a symbol `X` after the
leading `A` that is a registered non-terminal or does not end in a prime. -/
theorem RemoveLeftRecursion_no_recursion (gr : Grammar) (o : MapOrder) (ho : o.Valid)
    (hnd : gr.keys.Nodup) (hkeys : ∀ k ∈ gr.keys, k ∈ gr.st_.non_terminals_)
    (hsec : ∀ r ∈ gr.g_, ∀ p ∈ r.2, p.head? = some r.1 →
      p.tail ≠ [] ∧ ∀ X ∈ p.tail.head?, X ∈ gr.st_.non_terminals_ ∨ ¬ Primed X) :
    HasDirectLeftRecursion (RemoveLeftRecursion gr o) = false := by
  by_cases hrec : HasDirectLeftRecursion gr = true
  · obtain ⟨outs, st', rel, hperm, _, _⟩ := RemoveLeftRecursion_spec gr o ho hrec hnd hkeys
    rw [Bool.eq_false_iff]
    intro hcon
    obtain ⟨e, he, p, hp, hhead⟩ := (hasDirectLeftRecursion_iff _).mp hcon
    rcases removeRel_entries rel e (hperm.mem_iff.mp he) with
      ⟨r, hr, h1, rfl⟩ | ⟨r, hr, h1, n, hN, _, rfl | rfl⟩
    · exact h1 ⟨p, hp, hhead⟩
    · have hr1 : r.1 ∈ gr.st_.non_terminals_ :=
        hkeys r.1 (List.mem_map.mpr ⟨r, hr, rfl⟩)
      simp only [keptRule, List.mem_map] at hp
      obtain ⟨b, hb, rfl⟩ := hp
      rw [head?_append_singleton] at hhead
      have hhead' := Option.some.inj hhead
      cases hb0 : b.head? with
      | none =>
        rw [hb0] at hhead'
        simp only [Option.getD_none] at hhead'
        exact hN (hhead'.symm ▸ hr1 : addPrimes r.1 n ∈ gr.st_.non_terminals_)
      | some x =>
        rw [hb0] at hhead'
        simp only [Option.getD_some] at hhead'
        subst hhead'
        split_ifs at hb with hnil
        · rw [List.mem_singleton.mp hb] at hb0
          cases hb0
        · simp only [recursionBeta, List.mem_filter, decide_eq_true_eq] at hb
          exact hb.2.1 hb0
    · have hr1 : r.1 ∈ gr.st_.non_terminals_ :=
        hkeys r.1 (List.mem_map.mpr ⟨r, hr, rfl⟩)
      have hprimed := addPrimes_primed_of_not_mem hr1 hN
      simp only [addedRule, List.mem_append, List.mem_map, List.mem_singleton] at hp
      rcases hp with ⟨a, ha, rfl⟩ | rfl
      · simp only [recursionAlpha, List.mem_filterMap] at ha
        obtain ⟨q, hq, hqa⟩ := ha
        by_cases hq1 : q.head? = some r.1
        · rw [if_pos hq1] at hqa
          cases hqa
          obtain ⟨hne, hX⟩ := hsec r hr q hq hq1
          rw [head?_append_singleton] at hhead
          have hhead' := Option.some.inj hhead
          cases hq0 : q.tail.head? with
          | none =>
            rw [List.head?_eq_none_iff] at hq0
            exact hne hq0
          | some X =>
            rw [hq0] at hhead'
            simp only [Option.getD_some] at hhead'
            subst hhead'
            rcases hX _ hq0 with h2 | h2
            · exact hN h2
            · exact h2 hprimed
        · rw [if_neg hq1] at hqa
          cases hqa
      · simp only [List.head?_cons, Option.some.injEq] at hhead
        rw [← hhead] at hprimed
        exact absurd hprimed (by decide)
  · have e : RemoveLeftRecursion gr o = gr := by
      simp only [RemoveLeftRecursion, Bool.not_eq_true] at hrec ⊢
      rw [if_pos hrec]
    rw [e]
    simpa using hrec

theorem insertionOrder_valid : insertionOrder.Valid := fun l => List.Perm.refl l

/-- C24 (amended): for every grammar whose rule keys are different
registered non-terminals, whose productions are non-empty, and in which every
left-recursive production `A -> A X ...` has a symbol `X` after the leading
`A` (there is no production `A -> A`) that is a registered non-terminal or
does not end in a prime, and for every traversal order of the new rule map,
the grammar after `RemoveLeftRecursion` has no direct left recursion:
`HasDirectLeftRecursion` returns false. -/
theorem C24_no_direct_left_recursion_after (gr : Grammar) (o : MapOrder) (ho : o.Valid)
    (hnd : gr.keys.Nodup) (hkeys : ∀ k ∈ gr.keys, k ∈ gr.st_.non_terminals_)
    (_hne : ∀ r ∈ gr.g_, ∀ p ∈ r.2, p ≠ [])
    (hsec : ∀ r ∈ gr.g_, ∀ p ∈ r.2, p.head? = some r.1 →
      p.tail ≠ [] ∧ ∀ X ∈ p.tail.head?, X ∈ gr.st_.non_terminals_ ∨ ¬ Primed X) :
    HasDirectLeftRecursion (RemoveLeftRecursion gr o) = false :=
  RemoveLeftRecursion_no_recursion gr o ho hnd hkeys hsec

/-- The hypotheses of C24 hold for the grammar `S -> A $`, `A -> A a | b` of
the tests. -/
theorem C24_no_direct_left_recursion_after_witness :
    insertionOrder.Valid ∧ recursionGrammar.keys.Nodup ∧
    (∀ k ∈ recursionGrammar.keys, k ∈ recursionGrammar.st_.non_terminals_) ∧
    (∀ r ∈ recursionGrammar.g_, ∀ p ∈ r.2, p ≠ []) ∧
    (∀ r ∈ recursionGrammar.g_, ∀ p ∈ r.2, p.head? = some r.1 →
      p.tail ≠ [] ∧ ∀ X ∈ p.tail.head?, X ∈ recursionGrammar.st_.non_terminals_ ∨ ¬ Primed X) ∧
    HasDirectLeftRecursion recursionGrammar = true ∧
    HasDirectLeftRecursion (RemoveLeftRecursion recursionGrammar insertionOrder) = false :=
  ⟨insertionOrder_valid, by decide, by decide, by decide, by decide, by decide,
   C24_no_direct_left_recursion_after recursionGrammar insertionOrder insertionOrder_valid
     (by decide) (by decide) (by decide) (by decide)⟩

/-- C24 fails as stated: the grammar `S -> A $`, `A -> A | b` has direct left
recursion, its rule keys are registered non-terminals and its productions
are non-empty, but for every traversal order the grammar after
`RemoveLeftRecursion` has the rule `A' -> A' | EPSILON`, so that
`HasDirectLeftRecursion` returns true. -/
theorem C24_self_loop_counterexample :
    HasDirectLeftRecursion selfLoopGrammar = true ∧ selfLoopGrammar.keys.Nodup ∧
    (∀ k ∈ selfLoopGrammar.keys, k ∈ selfLoopGrammar.st_.non_terminals_) ∧
    (∀ r ∈ selfLoopGrammar.g_, ∀ p ∈ r.2, p ≠ []) ∧
    (∀ o : MapOrder, o.Valid →
      HasDirectLeftRecursion (RemoveLeftRecursion selfLoopGrammar o) = true) ∧
    (RemoveLeftRecursion selfLoopGrammar insertionOrder).g_ =
      [("S", [["A", "$"]]), ("A", [["b", "A'"]]), ("A'", [["A'"], ["EPSILON"]])] := by
  refine ⟨by decide, by decide, by decide, by decide, fun o ho => ?_, by decide⟩
  obtain ⟨outs, st', rel, hperm, _, _⟩ :=
    RemoveLeftRecursion_spec selfLoopGrammar o ho (by decide) (by decide) (by decide)
  obtain ⟨n, _, _, _, h4⟩ := (removeRel_complete rel).2 ("A", [["A"], ["b"]]) (by decide)
    (by decide)
  rw [hasDirectLeftRecursion_iff]
  refine ⟨_, hperm.mem_iff.mpr h4, [addPrimes "A" n], ?_, rfl⟩
  simp [addedRule, recursionAlpha]

theorem matchLength_self (p : List String) : matchLength p p = p.length := by
  induction p with
  | nil => rfl
  | cons x p ih => simp [matchLength, ih]

theorem matchLength_append (pre a b : List String) :
    matchLength (pre ++ a) (pre ++ b) = pre.length + matchLength a b := by
  induction pre with
  | nil => simp
  | cons x pre ih =>
    show matchLength (x :: (pre ++ a)) (x :: (pre ++ b)) = _
    simp only [matchLength, if_true, ih, List.length_cons]
    omega

theorem matchLength_eq_zero {a b : List String}
    (h : ∀ x, a.head? = some x → b.head? ≠ some x) : matchLength a b = 0 := by
  cases a with
  | nil => simp [matchLength]
  | cons x a =>
    cases b with
    | nil => simp [matchLength]
    | cons y b =>
      have hne : x ≠ y := fun e => h x rfl (by rw [e]; rfl)
      simp [matchLength, hne]

theorem matchLength_pos {a b : List String} {x : String} (ha : a.head? = some x)
    (hb : b.head? = some x) : 0 < matchLength a b := by
  cases a with
  | nil => cases ha
  | cons x' a =>
    cases b with
    | nil => cases hb
    | cons y b =>
      simp only [List.head?_cons, Option.some.injEq] at ha hb
      subst ha hb
      simp [matchLength]

theorem StartsWith_append (pre r : List String) : StartsWith (pre ++ r) pre = true := by
  have h : matchLength (pre ++ r) pre = pre.length := by
    have := matchLength_append pre r []
    simp only [List.append_nil] at this
    rw [this]
    cases r <;> simp [matchLength]
  simp [StartsWith, h]

/-- The sorted list of at least two productions: a first element, and a last
one at another position. -/
theorem sorted_first_last (ps : List production) (h : 2 ≤ ps.length) :
    ∃ first rest, rest ≠ [] ∧ (first :: rest).Perm ps ∧
      LongestCommonPrefix ps = first.take (matchLength first (rest.getLast?.getD first)) ∧
      rest.getLast?.getD first ∈ rest := by
  have hperm := List.perm_insertionSort (fun a b => productionLess b a = false) ps
  have hlen := hperm.length_eq
  cases hs : ps.insertionSort (fun a b => productionLess b a = false) with
  | nil => rw [hs] at hlen; simp at hlen; omega
  | cons first rest =>
    cases rest with
    | nil => rw [hs] at hlen; simp at hlen; omega
    | cons b rest =>
      rw [hs] at hperm
      refine ⟨first, b :: rest, List.cons_ne_nil _ _, hperm, ?_, ?_⟩
      · have hl : ¬ ps.length < 2 := by omega
        simp only [LongestCommonPrefix, if_neg hl, hs, List.head?_cons]
        rw [List.getLast?_cons_cons]
        cases hg : (b :: rest).getLast? with
        | none => simp at hg
        | some last => rfl
      · cases hg : (b :: rest).getLast? with
        | none => simp at hg
        | some last =>
          simp only [Option.getD_some]
          exact List.mem_of_getLast?_eq_some hg

theorem LongestCommonPrefix_of_distinctHeads {ps : List production} (h : DistinctHeads ps) :
    LongestCommonPrefix ps = [] := by
  by_cases hl : ps.length < 2
  · simp [LongestCommonPrefix, hl]
  · obtain ⟨first, rest, _, hperm, e, hlast⟩ := sorted_first_last ps (by omega)
    have hsym : ∀ {p q : production}, (p.head? = none ∨ p.head? ≠ q.head?) →
        (q.head? = none ∨ q.head? ≠ p.head?) := by
      intro p q hpq
      rcases hpq with hpq | hpq
      · by_cases hq : q.head? = none
        · exact Or.inl hq
        · exact Or.inr (by rw [hpq]; exact hq)
      · exact Or.inr (Ne.symm hpq)
    have h' : (first :: rest).Pairwise fun p q => p.head? = none ∨ p.head? ≠ q.head? :=
      (hperm.pairwise_iff hsym).mpr h
    have h0 := (List.pairwise_cons.mp h').1 _ hlast
    rw [e, matchLength_eq_zero fun x hp hq => ?_]
    · rfl
    · rcases h0 with h0 | h0
      · rw [h0] at hp; cases hp
      · exact h0 (hp.trans hq.symm)

theorem factorFree_of_distinctHeads {ps : List production} (h : DistinctHeads ps) :
    FactorFree ps := by
  intro t ht
  apply LongestCommonPrefix_of_distinctHeads
  exact List.Pairwise.sublist ((List.mem_tails _ _).mp ht).sublist h

/-- At least two productions that all begin with the same symbol have a
common prefix. -/
theorem LongestCommonPrefix_ne_nil {ps : List production} (hl : 2 ≤ ps.length) {x : String}
    (h : ∀ p ∈ ps, p.head? = some x) : LongestCommonPrefix ps ≠ [] := by
  obtain ⟨first, rest, _, hperm, e, hlast⟩ := sorted_first_last ps hl
  have h1 : first.head? = some x := h first (hperm.mem_iff.mp (List.mem_cons_self _ _))
  have h2 : (rest.getLast?.getD first).head? = some x :=
    h _ (hperm.mem_iff.mp (List.mem_cons_of_mem _ hlast))
  have hpos := matchLength_pos h1 h2
  rw [e]
  cases first with
  | nil => cases h1
  | cons y first =>
    obtain ⟨m, hm⟩ : ∃ m, matchLength (y :: first) (rest.getLast?.getD (y :: first)) = m + 1 :=
      ⟨_, (Nat.succ_pred_eq_of_pos hpos).symm⟩
    rw [hm]
    simp

/-- The productions `pre ++ r` whose remainders `r` begin with different
symbols (nothing counting as `EPSILON_`) have the longest common prefix
`pre`. -/
theorem LongestCommonPrefix_of_remainders {ps : List production} {pre : List String}
    (hl : 2 ≤ ps.length) (hpre : ∀ p ∈ ps, pre <+: p)
    (hd : (ps.map (factorRemainder pre)).Pairwise fun a b => a.head? ≠ b.head?) :
    LongestCommonPrefix ps = pre := by
  obtain ⟨first, rest, _, hperm, e, hlast⟩ := sorted_first_last ps hl
  have hsym : ∀ {a b : production}, a.head? ≠ b.head? → b.head? ≠ a.head? := fun h => Ne.symm h
  have hd' : ((first :: rest).map (factorRemainder pre)).Pairwise fun a b => a.head? ≠ b.head? :=
    ((hperm.map _).pairwise_iff hsym).mpr hd
  have hne : (factorRemainder pre first).head? ≠
      (factorRemainder pre (rest.getLast?.getD first)).head? := by
    simp only [List.map_cons, List.pairwise_cons] at hd'
    exact hd'.1 _ (List.mem_map.mpr ⟨_, hlast, rfl⟩)
  obtain ⟨r1, rfl⟩ := hpre first (hperm.mem_iff.mp (List.mem_cons_self _ _))
  obtain ⟨r2, h2⟩ := hpre _ (hperm.mem_iff.mp (List.mem_cons_of_mem _ hlast))
  rw [e, ← h2, matchLength_append]
  simp only [factorRemainder, ← h2, List.drop_left] at hne
  have hz : matchLength r1 r2 = 0 := by
    cases r1 with
    | nil => simp [matchLength]
    | cons x r1 =>
      cases r2 with
      | nil => simp [matchLength]
      | cons y r2 =>
        simp only [List.cons_ne_nil, if_false, List.head?_cons, ne_eq, Option.some.injEq]
          at hne
        simp [matchLength, hne]
  rw [hz, Nat.add_zero, List.take_left]

theorem LongestCommonPrefix_pair (p : production) : LongestCommonPrefix [p, p] = p := by
  have hs : [p, p].insertionSort (fun a b => productionLess b a = false) = [p, p] := by
    simp only [List.insertionSort, List.orderedInsert]
    split_ifs <;> rfl
  simp [LongestCommonPrefix, hs, matchLength_self]

/-- Productions without common prefix: in no suffix of at least two do all
productions begin with the same symbol. -/
theorem factorFree_heads {ps : List production} (h : FactorFree ps) :
    ∀ t ∈ ps.tails, 2 ≤ t.length → ¬ ∃ x, ∀ p ∈ t, p.head? = some x := by
  rintro t ht hl ⟨x, hx⟩
  exact LongestCommonPrefix_ne_nil hl hx (h t ht)

/-! ## `LeftFactorize`: one rule -/

theorem factorSplit_non_terminals (cp : List String) (ps : List production)
    (x : SymbolTable × List production × List production) :
    (ps.foldl (factorSplit cp) x).1.non_terminals_ = x.1.non_terminals_ := by
  induction ps generalizing x with
  | nil => rfl
  | cons p ps ih =>
    simp only [List.foldl_cons]
    rw [ih]
    unfold factorSplit
    split_ifs
    · exact putSymbol_terminal_non_terminals _ _
    · rfl
    · rfl

/-- The loop over the remaining productions when all of them start with the
common prefix: the remainders are collected. -/
theorem factorSplit_all (cp : List String) (ps : List production)
    (hp : ∀ p ∈ ps, StartsWith p cp = true)
    (x : SymbolTable × List production × List production) :
    (ps.foldl (factorSplit cp) x).2 = (x.2.1 ++ ps.map (factorRemainder cp), x.2.2) := by
  induction ps generalizing x with
  | nil => simp
  | cons p ps ih =>
    simp only [List.foldl_cons]
    rw [ih (fun q hq => hp q (List.mem_cons_of_mem _ hq))]
    have h1 := hp p (List.mem_cons_self _ _)
    unfold factorSplit
    rw [if_pos h1]
    by_cases h2 : p.drop cp.length = []
    · rw [if_pos h2]
      simp [factorRemainder, h2]
    · rw [if_neg h2]
      simp [factorRemainder, h2]

theorem factorFree_cons {p : production} {rest : List production} :
    FactorFree (p :: rest) ↔ LongestCommonPrefix (p :: rest) = [] ∧ FactorFree rest := by
  simp only [FactorFree, List.tails, List.mem_cons, forall_eq_or_imp]

theorem factorWhile_free (nt : String) :
    ∀ (ps factored : List production) (s : FactorState), FactorFree ps →
      factorWhile nt ps factored s = (factored ++ ps, s) := by
  intro ps
  induction ps with
  | nil => intro factored s _; simp [factorWhile]
  | cons p rest ih =>
    intro factored s h
    obtain ⟨h1, h2⟩ := factorFree_cons.mp h
    rw [factorWhile, if_pos h1, ih _ _ h2]
    simp

/-- The loop for one rule, when some suffix of the productions has a common
prefix: the flag is raised, a name is generated from the symbol table at the
start and registered, and its entry is assigned. -/
theorem factorWhile_factor (nt : String) :
    ∀ (ps factored : List production) (s : FactorState), ¬ FactorFree ps →
      (factorWhile nt ps factored s).2.changed = true ∧
      (factorWhile nt ps factored s).2.st_.non_terminals_ =
        insert (GenerateNewNonTerminal s.st_ nt) s.st_.non_terminals_ ∧
      ∃ v, (factorWhile nt ps factored s).2.new_rules =
        ruleAssign s.new_rules (GenerateNewNonTerminal s.st_ nt) v := by
  intro ps
  induction ps with
  | nil =>
    intro factored s h
    exact absurd (by intro t ht; simp only [List.tails, List.mem_singleton] at ht; rw [ht]; rfl) h
  | cons p rest ih =>
    intro factored s h
    by_cases h1 : LongestCommonPrefix (p :: rest) = []
    · rw [factorWhile, if_pos h1]
      exact ih _ s fun h2 => h (factorFree_cons.mpr ⟨h1, h2⟩)
    · rw [factorWhile, if_neg h1]
      refine ⟨rfl, ?_, _, rfl⟩
      simp only
      rw [factorSplit_non_terminals, putSymbol_non_terminals]

/-- The loop for one rule whose productions all start with their longest
common prefix: the single production `pre A'` is left, and `A'` receives
the remainders. -/
theorem factorWhile_head (nt : String) (ps : List production) (s : FactorState)
    (h1 : LongestCommonPrefix ps ≠ [])
    (h2 : ∀ p ∈ ps, StartsWith p (LongestCommonPrefix ps) = true) :
    (factorWhile nt ps [] s).1 = [LongestCommonPrefix ps ++ [GenerateNewNonTerminal s.st_ nt]] ∧
    (factorWhile nt ps [] s).2.new_rules =
      ruleAssign s.new_rules (GenerateNewNonTerminal s.st_ nt)
        (ps.map (factorRemainder (LongestCommonPrefix ps))) := by
  cases ps with
  | nil => exact absurd rfl h1
  | cons p rest =>
    rw [factorWhile, if_neg h1]
    simp only
    rw [factorSplit_all _ _ h2]
    simp

/-! ## `LeftFactorize`: one pass -/

theorem ruleAssign_keys (m : List (String × List production)) (k : String)
    (v : List production) :
    (ruleAssign m k v).map Prod.fst = if k ∈ m.map Prod.fst then m.map Prod.fst
      else m.map Prod.fst ++ [k] := by
  unfold ruleAssign
  split_ifs with h
  · rw [List.map_map]
    apply List.map_congr_left
    intro r _
    simp only [Function.comp]
    split_ifs with h2
    · exact h2.symm
    · rfl
  · simp

theorem ruleAssign_nodup {m : List (String × List production)} (h : (m.map Prod.fst).Nodup)
    (k : String) (v : List production) : ((ruleAssign m k v).map Prod.fst).Nodup := by
  rw [ruleAssign_keys]
  split_ifs with h1
  · exact h
  · exact List.Nodup.append h (List.nodup_singleton _) (by simpa using h1)

theorem factorRule_free (s : FactorState) (r : String × List production) (h : FactorFree r.2) :
    factorRule s r = ⟨s.st_, ruleAssign s.new_rules r.1 r.2, s.changed⟩ := by
  simp only [factorRule, factorWhile_free r.1 r.2 [] s h, List.nil_append]

/-- A pass over rules without common prefixes copies them. -/
theorem factorPass_free :
    ∀ (l : List (String × List production)) (s : FactorState), (∀ r ∈ l, FactorFree r.2) →
      ((s.new_rules ++ l).map Prod.fst).Nodup →
      l.foldl factorRule s = ⟨s.st_, s.new_rules ++ l, s.changed⟩ := by
  intro l
  induction l with
  | nil => intro s _ _; simp
  | cons r l ih =>
    intro s h hnd
    have hr : r.1 ∉ s.new_rules.map Prod.fst := by
      intro hm
      simp only [List.map_append, List.map_cons] at hnd
      exact (List.nodup_append.mp hnd).2.2 hm (List.mem_cons_self _ _)
    simp only [List.foldl_cons]
    rw [factorRule_free s r (h r (List.mem_cons_self _ _)), ruleAssign_new hr,
      ih _ (fun q hq => h q (List.mem_cons_of_mem _ hq)) (by simpa using hnd)]
    simp

theorem factorRule_changed (s : FactorState) (r : String × List production) :
    (factorRule s r).changed = true ↔ s.changed = true ∨ ¬ FactorFree r.2 := by
  by_cases h : FactorFree r.2
  · rw [factorRule_free s r h]
    simp [h]
  · have := (factorWhile_factor r.1 r.2 [] s h).1
    simp only [factorRule, this, true_iff]
    exact Or.inr h

theorem factorPass_changed :
    ∀ (l : List (String × List production)) (s : FactorState),
      (l.foldl factorRule s).changed = true ↔
        s.changed = true ∨ ∃ r ∈ l, ¬ FactorFree r.2 := by
  intro l
  induction l with
  | nil => intro s; simp
  | cons r l ih =>
    intro s
    simp only [List.foldl_cons]
    rw [ih, factorRule_changed]
    simp only [List.mem_cons, exists_eq_or_imp]
    tauto

theorem factorRule_keys_nodup (s : FactorState) (r : String × List production)
    (h : (s.new_rules.map Prod.fst).Nodup) : ((factorRule s r).new_rules.map Prod.fst).Nodup := by
  by_cases hf : FactorFree r.2
  · rw [factorRule_free s r hf]
    exact ruleAssign_nodup h _ _
  · obtain ⟨_, _, v, hv⟩ := factorWhile_factor r.1 r.2 [] s hf
    simp only [factorRule]
    rw [hv]
    exact ruleAssign_nodup (ruleAssign_nodup h _ _) _ _

theorem factorPass_keys_nodup :
    ∀ (l : List (String × List production)) (s : FactorState),
      (s.new_rules.map Prod.fst).Nodup → ((l.foldl factorRule s).new_rules.map Prod.fst).Nodup := by
  intro l
  induction l with
  | nil => intro s h; exact h
  | cons r l ih =>
    intro s h
    simp only [List.foldl_cons]
    exact ih _ (factorRule_keys_nodup s r h)

/-! ## `LeftFactorize`: the loop -/

theorem factorLoop_fuelMono (o : MapOrder) (gr : Grammar) :
    FuelMono fun n => factorLoop o n gr := by
  intro n
  induction n generalizing gr with
  | zero => intro a h; simp [factorLoop] at h
  | succ n ih =>
    intro a h k hk
    obtain ⟨k, rfl⟩ : ∃ j, k = j + 1 := ⟨k - 1, by omega⟩
    simp only [factorLoop] at h ⊢
    split_ifs at h ⊢ with h1
    · exact ih _ a h k (by omega)
    · exact h

theorem LeftFactorize_fuelMono (gr : Grammar) (o : MapOrder) : FuelMono (LeftFactorize gr o) :=
  factorLoop_fuelMono o gr

/-- A grammar whose rules have no common prefixes is returned by the first
pass. -/
theorem factorLoop_fixed (o : MapOrder) (gr : Grammar) (hnd : gr.keys.Nodup)
    (hf : ∀ r ∈ gr.g_, FactorFree r.2) (n : Nat) :
    factorLoop o (n + 1) gr = some { gr with g_ := o.order gr.g_ } := by
  have h := factorPass_free gr.g_ ⟨gr.st_, [], false⟩ hf (by simpa using hnd)
  simp only [List.nil_append] at h
  simp only [factorLoop, h, Bool.false_eq_true, if_false]

/-- The grammar returned by the loop is the rule map of a grammar whose rules
have no common prefixes, traversed once more. -/
theorem factorLoop_result (o : MapOrder) (ho : o.Valid) :
    ∀ (n : Nat) (gr gr' : Grammar), gr.keys.Nodup → factorLoop o n gr = some gr' →
      ∃ g0 : Grammar, g0.keys.Nodup ∧ (∀ r ∈ g0.g_, FactorFree r.2) ∧
        gr' = { g0 with g_ := o.order g0.g_ } := by
  intro n
  induction n with
  | zero => intro gr gr' _ h; simp [factorLoop] at h
  | succ n ih =>
    intro gr gr' hnd h
    simp only [factorLoop] at h
    by_cases hc : (gr.g_.foldl factorRule ⟨gr.st_, [], false⟩).changed = true
    · rw [if_pos hc] at h
      refine ih _ gr' ?_ h
      have h1 := factorPass_keys_nodup gr.g_ ⟨gr.st_, [], false⟩ List.nodup_nil
      exact (((ho _).map Prod.fst).nodup_iff).mpr h1
    · rw [if_neg hc] at h
      have hf : ∀ r ∈ gr.g_, FactorFree r.2 := by
        intro r hr
        by_contra hn
        exact hc ((factorPass_changed _ _).mpr (Or.inr ⟨r, hr, hn⟩))
      have h2 := factorPass_free gr.g_ ⟨gr.st_, [], false⟩ hf (by simpa using hnd)
      simp only [List.nil_append] at h2
      rw [h2] at h
      exact ⟨gr, hnd, hf, (Option.some.inj h).symm⟩

theorem Grammar.at?_congr_of_perm {g1 g2 : Grammar} (hp : g1.g_.Perm g2.g_)
    (hnd : g1.keys.Nodup) (k : String) : g1.at? k = g2.at? k := by
  cases h2 : g2.at? k with
  | some v => exact Grammar.at?_of_mem hnd (hp.mem_iff.mpr (Grammar.at?_eq_some h2))
  | none =>
    cases h1 : g1.at? k with
    | none => rfl
    | some v =>
      exfalso
      have hm : k ∈ g2.keys :=
        List.mem_map.mpr ⟨(k, v), hp.mem_iff.mp (Grammar.at?_eq_some h1), rfl⟩
      exact Grammar.at?_ne_none hm h2

/-- A second call of `LeftFactorize` returns the same rule map. -/
theorem LeftFactorize_again (gr gr' : Grammar) (o : MapOrder) (ho : o.Valid)
    (hnd : gr.keys.Nodup) (h : Returns (LeftFactorize gr o) gr') :
    (∀ r ∈ gr'.g_, FactorFree r.2) ∧ gr'.keys.Nodup ∧
    ∃ gr2 : Grammar, Returns (LeftFactorize gr' o) gr2 ∧ gr2.g_.Perm gr'.g_ ∧
      gr2.keys.Nodup ∧ (∀ k, gr2.at? k = gr'.at? k) ∧ gr2.st_ = gr'.st_ ∧
      gr2.axiom_ = gr'.axiom_ := by
  obtain ⟨N, hN⟩ := h
  obtain ⟨g0, h0, hf0, rfl⟩ := factorLoop_result o ho N gr gr' hnd (hN N (le_refl _))
  have hnd' : ({ g0 with g_ := o.order g0.g_ } : Grammar).keys.Nodup :=
    (((ho _).map Prod.fst).nodup_iff).mpr h0
  have hf' : ∀ r ∈ ({ g0 with g_ := o.order g0.g_ } : Grammar).g_, FactorFree r.2 :=
    fun r hr => hf0 r ((ho _).mem_iff.mp hr)
  have hnd2 : ({ g0 with g_ := o.order (o.order g0.g_) } : Grammar).keys.Nodup :=
    (((ho _).map Prod.fst).nodup_iff).mpr hnd'
  refine ⟨hf', hnd', { g0 with g_ := o.order (o.order g0.g_) }, ⟨1, fun n hn => ?_⟩, ho _, hnd2,
    Grammar.at?_congr_of_perm (ho _) hnd2, rfl, rfl⟩
  obtain ⟨n, rfl⟩ : ∃ j, n = j + 1 := ⟨n - 1, by omega⟩
  exact factorLoop_fixed o _ hnd' hf' n

theorem isSome_eq_getD {α : Type} {x : Option α} (h : x.isSome = true) (d : α) :
    x = some (x.getD d) := by
  cases x with
  | none => cases h
  | some a => rfl

/-- C28: `LeftFactorize` is idempotent.  For every grammar (its rule map
having pairwise different keys) on which `LeftFactorize` returns, and every
traversal order of the new rule maps, the call of `LeftFactorize` on the
result returns a grammar with the same rule map: the same entries, so the
same keys with the same productions in the same order, and the same symbol
table. -/
theorem C28_left_factorize_idempotent (gr gr' : Grammar) (o : MapOrder) (ho : o.Valid)
    (hnd : gr.keys.Nodup) (h : Returns (LeftFactorize gr o) gr') :
    ∃ gr2 : Grammar, Returns (LeftFactorize gr' o) gr2 ∧ gr2.g_.Perm gr'.g_ ∧
      gr2.keys.Nodup ∧ (∀ k, gr2.at? k = gr'.at? k) ∧ gr2.st_ = gr'.st_ ∧
      gr2.axiom_ = gr'.axiom_ :=
  (LeftFactorize_again gr gr' o ho hnd h).2.2

/-- The hypotheses of C28 hold for the grammar `S -> A $`,
`A -> a b B | a b c` of the tests, which becomes `S -> A $`, `A -> a b A'`,
`A' -> B | c`. -/
theorem C28_left_factorize_idempotent_witness :
    insertionOrder.Valid ∧ factorGrammar.keys.Nodup ∧
    Returns (LeftFactorize factorGrammar insertionOrder)
      ((LeftFactorize factorGrammar insertionOrder 3).getD factorGrammar) ∧
    ((LeftFactorize factorGrammar insertionOrder 3).getD factorGrammar).g_ =
      [("S", [["A", "$"]]), ("A'", [["B"], ["c"]]), ("A", [["a", "b", "A'"]])] ∧
    ∃ gr2 : Grammar,
      Returns (LeftFactorize ((LeftFactorize factorGrammar insertionOrder 3).getD factorGrammar)
        insertionOrder) gr2 ∧
      gr2.g_.Perm ((LeftFactorize factorGrammar insertionOrder 3).getD factorGrammar).g_ ∧
      gr2.keys.Nodup ∧
      (∀ k, gr2.at? k =
        ((LeftFactorize factorGrammar insertionOrder 3).getD factorGrammar).at? k) ∧
      gr2.st_ = ((LeftFactorize factorGrammar insertionOrder 3).getD factorGrammar).st_ ∧
      gr2.axiom_ = ((LeftFactorize factorGrammar insertionOrder 3).getD factorGrammar).axiom_ :=
  have hr : Returns (LeftFactorize factorGrammar insertionOrder)
      ((LeftFactorize factorGrammar insertionOrder 3).getD factorGrammar) :=
    (LeftFactorize_fuelMono factorGrammar insertionOrder).returns
      (isSome_eq_getD (by decide) factorGrammar)
  ⟨insertionOrder_valid, by decide, hr, by decide,
   C28_left_factorize_idempotent factorGrammar _ insertionOrder insertionOrder_valid
     (by decide) hr⟩

/-- C30: `LeftFactorize` changes nothing when there is nothing to factor.
For every grammar (its rule map having pairwise different keys) in which no
rule has two productions beginning with the same symbol, and every traversal
order, `LeftFactorize` returns a grammar with the same rule map (the same
entries) and the same symbol table, hence the same set of
non-terminals. -/
theorem C30_left_factorize_nothing_to_factor (gr : Grammar) (o : MapOrder) (ho : o.Valid)
    (hnd : gr.keys.Nodup) (hd : ∀ r ∈ gr.g_, DistinctHeads r.2) :
    ∃ gr' : Grammar, Returns (LeftFactorize gr o) gr' ∧ gr'.g_.Perm gr.g_ ∧
      (∀ k, gr'.at? k = gr.at? k) ∧ gr'.st_ = gr.st_ ∧
      gr'.st_.non_terminals_ = gr.st_.non_terminals_ ∧ gr'.axiom_ = gr.axiom_ := by
  have hnd' : ({ gr with g_ := o.order gr.g_ } : Grammar).keys.Nodup :=
    (((ho _).map Prod.fst).nodup_iff).mpr hnd
  refine ⟨{ gr with g_ := o.order gr.g_ }, ⟨1, fun n hn => ?_⟩, ho _,
    Grammar.at?_congr_of_perm (ho _) hnd', rfl, rfl, rfl⟩
  obtain ⟨n, rfl⟩ : ∃ j, n = j + 1 := ⟨n - 1, by omega⟩
  exact factorLoop_fixed o gr hnd (fun r hr => factorFree_of_distinctHeads (hd r hr)) n

/-- The hypotheses of C30 hold for the grammar `S -> A $`, `A -> a b | c` of
the tests. -/
theorem C30_left_factorize_nothing_to_factor_witness :
    insertionOrder.Valid ∧ noPrefixGrammar.keys.Nodup ∧
    (∀ r ∈ noPrefixGrammar.g_, DistinctHeads r.2) ∧
    ∃ gr' : Grammar, Returns (LeftFactorize noPrefixGrammar insertionOrder) gr' ∧
      gr'.g_.Perm noPrefixGrammar.g_ ∧ (∀ k, gr'.at? k = noPrefixGrammar.at? k) ∧
      gr'.st_ = noPrefixGrammar.st_ ∧
      gr'.st_.non_terminals_ = noPrefixGrammar.st_.non_terminals_ ∧
      gr'.axiom_ = noPrefixGrammar.axiom_ :=
  ⟨insertionOrder_valid, by decide, by decide,
   C30_left_factorize_nothing_to_factor noPrefixGrammar insertionOrder insertionOrder_valid
     (by decide) (by decide)⟩

/-- C26 fails: `LeftFactorize` factors the productions of a rule only when
all the productions from some position on share a prefix.  What holds for
every grammar on which it returns: in no rule do all the productions of a
suffix of at least two productions begin with the same symbol.  For
`S -> A $`, `A -> a b | a c | d` it returns, for every traversal order, with
the rule of `A` unchanged, where `a b` and `a c` share the prefix `a`. -/
theorem C26_left_factorize_leaves_common_prefix :
    (∀ (gr gr' : Grammar) (o : MapOrder), o.Valid → gr.keys.Nodup →
      Returns (LeftFactorize gr o) gr' →
      ∀ r ∈ gr'.g_, ∀ t ∈ r.2.tails, 2 ≤ t.length → ¬ ∃ x, ∀ p ∈ t, p.head? = some x) ∧
    ∀ o : MapOrder, o.Valid →
      ∃ gr' : Grammar, Returns (LeftFactorize partialGrammar o) gr' ∧
        gr'.at? "A" = some [["a", "b"], ["a", "c"], ["d"]] ∧
        gr'.st_.non_terminals_ = partialGrammar.st_.non_terminals_ := by
  refine ⟨fun gr gr' o ho hnd h r hr =>
    factorFree_heads ((LeftFactorize_again gr gr' o ho hnd h).1 r hr), fun o ho => ?_⟩
  have hnd' : ({ partialGrammar with g_ := o.order partialGrammar.g_ } : Grammar).keys.Nodup :=
    (((ho _).map Prod.fst).nodup_iff).mpr (by decide)
  refine ⟨{ partialGrammar with g_ := o.order partialGrammar.g_ }, ⟨1, fun n hn => ?_⟩, ?_, rfl⟩
  · obtain ⟨n, rfl⟩ : ∃ j, n = j + 1 := ⟨n - 1, by omega⟩
    exact factorLoop_fixed o partialGrammar (by decide) (by decide) n
  · rw [Grammar.at?_congr_of_perm (ho _) hnd']
    decide

/-! ## `LeftFactorize` on registered keys -/

theorem factorFree_of_length_le_one {ps : List production} (h : ps.length ≤ 1) :
    FactorFree ps := by
  intro t ht
  have hl : t.length < 2 := by
    have := ((List.mem_tails _ _).mp ht).length_le
    omega
  simp [LongestCommonPrefix, hl]

/-- One rule of a pass: the invariant is kept, the entries of `new_rules`
stay, a rule without common prefix is copied, and a rule whose productions
all start with their longest common prefix is split. -/
theorem factorRule_inv (s : FactorState) (r : String × List production)
    (l : List (String × List production)) (h : PassInv s (r :: l)) :
    PassInv (factorRule s r) l ∧ (∀ e ∈ s.new_rules, e ∈ (factorRule s r).new_rules) ∧
    s.st_.non_terminals_ ⊆ (factorRule s r).st_.non_terminals_ ∧
    (FactorFree r.2 → (r.1, r.2) ∈ (factorRule s r).new_rules) ∧
    (LongestCommonPrefix r.2 ≠ [] →
      (∀ p ∈ r.2, StartsWith p (LongestCommonPrefix r.2) = true) →
      ∃ n, addPrimes r.1 n ∉ s.st_.non_terminals_ ∧
        (r.1, [LongestCommonPrefix r.2 ++ [addPrimes r.1 n]]) ∈ (factorRule s r).new_rules ∧
        (addPrimes r.1 n, r.2.map (factorRemainder (LongestCommonPrefix r.2))) ∈
          (factorRule s r).new_rules) := by
  obtain ⟨h1, h2, h3, h4, h5⟩ := h
  simp only [List.map_cons, List.nodup_cons] at h1
  have hr1 : r.1 ∉ s.new_rules.map Prod.fst := h3 r.1 (by simp)
  have hr2 : r.1 ∈ s.st_.non_terminals_ := h2 r.1 (by simp)
  by_cases hf : FactorFree r.2
  · rw [factorRule_free s r hf, ruleAssign_new hr1]
    refine ⟨⟨h1.2, fun k hk => h2 k (List.mem_cons_of_mem _ hk), ?_, ?_, ?_⟩,
      fun e he => List.mem_append_left _ he, Finset.Subset.refl _, fun _ => by simp, ?_⟩
    · intro k hk
      simp only [List.map_append, List.map_cons, List.map_nil, List.mem_append,
        List.mem_singleton, not_or]
      exact ⟨h3 k (List.mem_cons_of_mem _ hk), fun e => h1.1 (e ▸ hk)⟩
    · intro k hk
      simp only [List.map_append, List.map_cons, List.map_nil, List.mem_append,
        List.mem_singleton] at hk
      rcases hk with hk | rfl
      · exact h4 k hk
      · exact hr2
    · simp only [List.map_append, List.map_cons, List.map_nil]
      exact List.Nodup.append h5 (List.nodup_singleton _) (by simpa using hr1)
    · intro hne
      exact absurd (hf r.2 ((List.mem_tails _ _).mpr (List.suffix_refl _))) hne
  · obtain ⟨n, hN, hN1, _⟩ := GenerateNewNonTerminal_spec s.st_ r.1
    obtain ⟨_, f2, v, hv⟩ := factorWhile_factor r.1 r.2 [] s hf
    have hNk : addPrimes r.1 n ∉ s.new_rules.map Prod.fst := fun hm => hN1 (h4 _ hm)
    have hrN : r.1 ≠ addPrimes r.1 n := fun e => hN1 (e ▸ hr2)
    rw [hN] at hv f2
    rw [ruleAssign_new hNk] at hv
    have hr3 : r.1 ∉ (s.new_rules ++ [(addPrimes r.1 n, v)]).map Prod.fst := by
      simp only [List.map_append, List.map_cons, List.map_nil, List.mem_append,
        List.mem_singleton, not_or]
      exact ⟨hr1, hrN⟩
    have hnew : (factorRule s r).new_rules =
        s.new_rules ++ [(addPrimes r.1 n, v)] ++ [(r.1, (factorWhile r.1 r.2 [] s).1)] := by
      simp only [factorRule]
      rw [hv, ruleAssign_new hr3]
    have hst : (factorRule s r).st_.non_terminals_ =
        insert (addPrimes r.1 n) s.st_.non_terminals_ := f2
    refine ⟨⟨h1.2, ?_, ?_, ?_, ?_⟩, ?_, ?_, fun hff => absurd hff hf, ?_⟩
    · intro k hk
      rw [hst]
      exact Finset.mem_insert_of_mem (h2 k (List.mem_cons_of_mem _ hk))
    · intro k hk
      rw [hnew]
      simp only [List.map_append, List.map_cons, List.map_nil, List.mem_append,
        List.mem_singleton, not_or]
      refine ⟨⟨h3 k (List.mem_cons_of_mem _ hk), fun e => ?_⟩, fun e => h1.1 (e ▸ hk)⟩
      exact hN1 (e ▸ h2 k (List.mem_cons_of_mem _ hk))
    · intro k hk
      rw [hnew] at hk
      rw [hst]
      simp only [List.map_append, List.map_cons, List.map_nil, List.mem_append,
        List.mem_singleton] at hk
      rcases hk with (hk | rfl) | rfl
      · exact Finset.mem_insert_of_mem (h4 k hk)
      · exact Finset.mem_insert_self _ _
      · exact Finset.mem_insert_of_mem hr2
    · rw [hnew]
      simp only [List.map_append, List.map_cons, List.map_nil]
      refine List.Nodup.append (List.Nodup.append h5 (List.nodup_singleton _)
        (by simpa using hNk)) (List.nodup_singleton _) ?_
      simp only [List.disjoint_singleton, List.mem_append, List.mem_singleton, not_or]
      exact ⟨hr1, hrN⟩
    · intro e he
      rw [hnew]
      exact List.mem_append_left _ (List.mem_append_left _ he)
    · rw [hst]
      exact Finset.subset_insert _ _
    · intro hne hall
      obtain ⟨g1, g2⟩ := factorWhile_head r.1 r.2 s hne hall
      rw [hN] at g1 g2
      rw [ruleAssign_new hNk] at g2
      have hveq : v = r.2.map (factorRemainder (LongestCommonPrefix r.2)) := by
        have := hv.symm.trans g2
        simpa using this
      refine ⟨n, hN1, ?_, ?_⟩
      · rw [hnew, g1]
        simp
      · rw [hnew, hveq]
        simp

/-- A pass over the rules: what `factorRule_inv` says of each rule holds at
the end of the pass. -/
theorem factorPass_inv :
    ∀ (l : List (String × List production)) (s : FactorState), PassInv s l →
      PassInv (l.foldl factorRule s) [] ∧
      (∀ e ∈ s.new_rules, e ∈ (l.foldl factorRule s).new_rules) ∧
      s.st_.non_terminals_ ⊆ (l.foldl factorRule s).st_.non_terminals_ ∧
      (∀ r ∈ l, FactorFree r.2 → (r.1, r.2) ∈ (l.foldl factorRule s).new_rules) ∧
      ∀ r ∈ l, LongestCommonPrefix r.2 ≠ [] →
        (∀ p ∈ r.2, StartsWith p (LongestCommonPrefix r.2) = true) →
        ∃ n, addPrimes r.1 n ∉ s.st_.non_terminals_ ∧
          (r.1, [LongestCommonPrefix r.2 ++ [addPrimes r.1 n]]) ∈
            (l.foldl factorRule s).new_rules ∧
          (addPrimes r.1 n, r.2.map (factorRemainder (LongestCommonPrefix r.2))) ∈
            (l.foldl factorRule s).new_rules := by
  intro l
  induction l with
  | nil =>
    intro s h
    exact ⟨h, fun e he => he, Finset.Subset.refl _, fun r hr => (by cases hr),
      fun r hr => (by cases hr)⟩
  | cons r l ih =>
    intro s h
    obtain ⟨a1, a2, a3, a4, a5⟩ := factorRule_inv s r l h
    obtain ⟨b1, b2, b3, b4, b5⟩ := ih _ a1
    simp only [List.foldl_cons]
    refine ⟨b1, fun e he => b2 e (a2 e he), a3.trans b3, fun q hq hf => ?_,
      fun q hq hne hall => ?_⟩
    · rcases List.mem_cons.mp hq with rfl | hq
      · exact b2 _ (a4 hf)
      · exact b4 q hq hf
    · rcases List.mem_cons.mp hq with rfl | hq
      · obtain ⟨n, c1, c2, c3⟩ := a5 hne hall
        exact ⟨n, c1, b2 _ c2, b2 _ c3⟩
      · obtain ⟨n, c1, c2, c3⟩ := b5 q hq hne hall
        exact ⟨n, fun hm => c1 (a3 hm), c2, c3⟩

theorem passInv_start (gr : Grammar) (h : gr.KeysRegistered) :
    PassInv ⟨gr.st_, [], false⟩ gr.g_ :=
  ⟨h.1, h.2, fun k _ hk => (by cases hk), fun k hk => (by cases hk), List.nodup_nil⟩

/-- The grammar after a pass has registered keys again. -/
theorem keysRegistered_pass (gr : Grammar) (o : MapOrder) (ho : o.Valid)
    (h : gr.KeysRegistered) :
    ({ gr with st_ := (gr.g_.foldl factorRule ⟨gr.st_, [], false⟩).st_,
               g_ := o.order (gr.g_.foldl factorRule ⟨gr.st_, [], false⟩).new_rules } :
      Grammar).KeysRegistered := by
  obtain ⟨⟨_, _, _, b4, b5⟩, _⟩ := factorPass_inv gr.g_ _ (passInv_start gr h)
  refine ⟨(((ho _).map Prod.fst).nodup_iff).mpr b5, fun k hk => b4 k ?_⟩
  exact ((ho _).map Prod.fst).mem_iff.mp hk

/-- A rule without common prefix stays in the rule map through the loop. -/
theorem factorLoop_keeps (o : MapOrder) (ho : o.Valid) (k : String) (v : List production)
    (hv : FactorFree v) :
    ∀ (n : Nat) (gr gr' : Grammar), gr.KeysRegistered → (k, v) ∈ gr.g_ →
      factorLoop o n gr = some gr' → (k, v) ∈ gr'.g_ ∧ gr'.KeysRegistered := by
  intro n
  induction n with
  | zero => intro gr gr' _ _ h; simp [factorLoop] at h
  | succ n ih =>
    intro gr gr' hk hm h
    have hreg := keysRegistered_pass gr o ho hk
    have hmem : (k, v) ∈ o.order (gr.g_.foldl factorRule ⟨gr.st_, [], false⟩).new_rules :=
      (ho _).mem_iff.mpr ((factorPass_inv gr.g_ _ (passInv_start gr hk)).2.2.2.1 (k, v) hm hv)
    simp only [factorLoop] at h
    split_ifs at h with hc
    · exact ih _ gr' hreg hmem h
    · cases h
      exact ⟨hmem, hreg⟩

/-- For every grammar whose rule keys are different registered
non-terminals, in which the rule of `A` has at least two productions that
all begin with `pre` (not empty) and whose remainders after `pre` begin with
pairwise different symbols (an empty remainder counting as `EPSILON_`), for
every traversal order: a grammar returned by `LeftFactorize` has the single
production `pre A'` in the rule of `A` and the remainders in the rule of
`A'`, where `A'` is `A` followed by at least one prime and is not a
registered non-terminal of the grammar. -/
theorem LeftFactorize_common_prefix (gr gr' : Grammar) (o : MapOrder) (ho : o.Valid)
    (hk : gr.KeysRegistered) (A : String) (ps : List production) (pre : List String)
    (hA : (A, ps) ∈ gr.g_) (hpre : pre ≠ []) (hl : 2 ≤ ps.length)
    (hall : ∀ p ∈ ps, pre <+: p)
    (hd : (ps.map (factorRemainder pre)).Pairwise fun a b => a.head? ≠ b.head?)
    (h : Returns (LeftFactorize gr o) gr') :
    ∃ n, 0 < n ∧ addPrimes A n ∉ gr.st_.non_terminals_ ∧
      gr'.at? A = some [pre ++ [addPrimes A n]] ∧
      gr'.at? (addPrimes A n) = some (ps.map (factorRemainder pre)) := by
  have hlcp : LongestCommonPrefix ps = pre := LongestCommonPrefix_of_remainders hl hall hd
  have hsw : ∀ p ∈ ps, StartsWith p (LongestCommonPrefix ps) = true := by
    intro p hp
    obtain ⟨r, rfl⟩ := hall p hp
    rw [hlcp]
    exact StartsWith_append pre r
  obtain ⟨n, c1, c2, c3⟩ := (factorPass_inv gr.g_ _ (passInv_start gr hk)).2.2.2.2 (A, ps) hA
    (by rw [hlcp]; exact hpre) hsw
  simp only [hlcp] at c2 c3
  have hn : 0 < n := by
    rcases Nat.eq_zero_or_pos n with h0 | h0
    · subst h0
      exact absurd (hk.2 A (List.mem_map.mpr ⟨(A, ps), hA, rfl⟩)) c1
    · exact h0
  obtain ⟨N, hN⟩ := h
  have hret := hN (N + 1) (Nat.le_succ N)
  have hchanged : (gr.g_.foldl factorRule ⟨gr.st_, [], false⟩).changed = true := by
    rw [factorPass_changed]
    refine Or.inr ⟨(A, ps), hA, fun hf => ?_⟩
    have := hf ps ((List.mem_tails _ _).mpr (List.suffix_refl _))
    rw [hlcp] at this
    exact hpre this
  simp only [LeftFactorize, factorLoop, hchanged, if_true] at hret
  have hreg := keysRegistered_pass gr o ho hk
  have hf1 : FactorFree [pre ++ [addPrimes A n]] := factorFree_of_length_le_one (by simp)
  have hf2 : FactorFree (ps.map (factorRemainder pre)) := by
    apply factorFree_of_distinctHeads
    exact List.Pairwise.imp (fun hne => Or.inr hne) hd
  obtain ⟨m1, hreg'⟩ := factorLoop_keeps o ho _ _ hf1 N _ gr' hreg ((ho _).mem_iff.mpr c2) hret
  obtain ⟨m2, _⟩ := factorLoop_keeps o ho _ _ hf2 N _ gr' hreg ((ho _).mem_iff.mpr c3) hret
  exact ⟨n, hn, c1, Grammar.at?_of_mem hreg'.1 m1, Grammar.at?_of_mem hreg'.1 m2⟩

/-- The loop never ends on a grammar with registered keys in which a rule
lists the same non-empty production twice. -/
theorem factorLoop_diverges (o : MapOrder) (ho : o.Valid) :
    ∀ (n : Nat) (gr : Grammar), gr.KeysRegistered →
      (∃ K p, p ≠ [] ∧ (K, [p, p]) ∈ gr.g_) → factorLoop o n gr = none := by
  intro n
  induction n with
  | zero => intro gr _ _; rfl
  | succ n ih =>
    rintro gr hk ⟨K, p, hp, hm⟩
    have hlcp : LongestCommonPrefix [p, p] = p := LongestCommonPrefix_pair p
    have hsw : ∀ q ∈ [p, p], StartsWith q (LongestCommonPrefix [p, p]) = true := by
      intro q hq
      rw [hlcp]
      have hq' : q = p := by simpa using hq
      rw [hq']
      have := StartsWith_append p []
      simpa using this
    obtain ⟨m, _, _, c3⟩ := (factorPass_inv gr.g_ _ (passInv_start gr hk)).2.2.2.2 (K, [p, p]) hm
      (by rw [hlcp]; exact hp) hsw
    have hchanged : (gr.g_.foldl factorRule ⟨gr.st_, [], false⟩).changed = true := by
      rw [factorPass_changed]
      refine Or.inr ⟨(K, [p, p]), hm, fun hf => ?_⟩
      have := hf [p, p] ((List.mem_tails _ _).mpr (List.suffix_refl _))
      rw [hlcp] at this
      exact hp this
    simp only [factorLoop, hchanged, if_true]
    refine ih _ (keysRegistered_pass gr o ho hk) ⟨addPrimes K m, [EPSILON_], by simp, ?_⟩
    have hrem : [p, p].map (factorRemainder (LongestCommonPrefix [p, p])) =
        [[EPSILON_], [EPSILON_]] := by
      simp [hlcp, factorRemainder]
    rw [hrem] at c3
    exact (ho _).mem_iff.mpr c3

/-- C29 fails: `LeftFactorize` does not terminate on the grammar `S -> A $`,
`A -> a | a`, whatever the traversal order: no amount of fuel lets the loop
return.  Each pass factors the rule that lists a production twice into
`K -> p K'`, `K' -> EPSILON | EPSILON`, which lists a production twice
again. -/
theorem C29_left_factorize_diverges :
    dupGrammar.KeysRegistered ∧
    ∀ o : MapOrder, o.Valid → ∀ fuel, LeftFactorize dupGrammar o fuel = none :=
  ⟨by decide, fun o ho fuel =>
    factorLoop_diverges o ho fuel dupGrammar (by decide) ⟨"A", ["a"], by decide, by decide⟩⟩

/-! ### The graph of `HasIndirectLeftRecursion` -/

theorem i32_of_bounds (x : Int) (h1 : -2147483648 ≤ x) (h2 : x < 2147483648) : i32 x = x := by
  unfold i32; omega

theorem UMap.get_set_any {V : Type} [Inhabited V] (m : UMap V) (k : String) (v : V) (j : String) :
    (m.set k v).get j = if j = k then v else m.get j := by
  by_cases hj : j = k
  · subst hj
    simp [UMap.get, UMap.set]
  · rw [if_neg hj]
    simp only [UMap.get, UMap.set, Finset.mem_insert, hj, false_or, Function.update_noteq hj]
    split_ifs <;> rfl

theorem scanHit_nil (gr : Grammar) (N : Finset String) (B : String) : ¬ ScanHit gr N [] B := by
  rintro ⟨pre, γ, h, _⟩
  cases pre <;> simp at h

theorem scanHit_cons (gr : Grammar) (N : Finset String) (sym : String) (rest : List String)
    (B : String) :
    ScanHit gr N (sym :: rest) B ↔
      gr.st_.IsTerminal sym = false ∧ (B = sym ∨ (sym ∈ N ∧ ScanHit gr N rest B)) := by
  constructor
  · rintro ⟨pre, γ, h, hpre, hB⟩
    rcases pre with _ | ⟨y, pre⟩
    · simp only [List.nil_append, List.cons.injEq] at h
      obtain ⟨h1, _⟩ := h
      subst h1
      exact ⟨hB, Or.inl rfl⟩
    · simp only [List.cons_append, List.cons.injEq] at h
      obtain ⟨h1, h2⟩ := h
      subst h1
      have hy := hpre sym (List.mem_cons_self _ _)
      exact ⟨hy.1, Or.inr ⟨hy.2, pre, γ, h2, fun z hz => hpre z (List.mem_cons_of_mem _ hz), hB⟩⟩
  · rintro ⟨hs, h | ⟨hN, pre, γ, h, hpre, hB⟩⟩
    · subst h
      exact ⟨[], rest, rfl, by simp, hs⟩
    · refine ⟨sym :: pre, γ, by simp [h], ?_, hB⟩
      intro y hy
      rcases List.mem_cons.mp hy with rfl | hy
      · exact ⟨hs, hN⟩
      · exact hpre y hy

theorem firstScan_mem (gr : Grammar) (N : Finset String) (B : String) :
    ∀ (rest : List String) (adj : Finset String),
      B ∈ firstScan gr N rest adj ↔ B ∈ adj ∨ ScanHit gr N rest B := by
  intro rest
  induction rest with
  | nil =>
    intro adj
    simp [firstScan, scanHit_nil]
  | cons sym rest ih =>
    intro adj
    rw [scanHit_cons]
    unfold firstScan
    by_cases ht : gr.st_.IsTerminal sym = true
    · simp [ht]
    · have ht' : gr.st_.IsTerminal sym = false := by simpa using ht
      by_cases hN : sym ∈ N
      · simp only [ht', Bool.false_eq_true, ↓reduceIte, hN, ih, Finset.mem_insert, true_and]
        tauto
      · simp only [ht', Bool.false_eq_true, ↓reduceIte, hN, Finset.mem_insert, true_and,
          false_and, or_false]
        tauto

theorem firstEdges_mem (gr : Grammar) (N : Finset String) (B : String) (adj : Finset String)
    (p : production) :
    B ∈ firstEdges gr N adj p ↔ B ∈ adj ∨ ∃ x rest, p = x :: rest ∧
      ((gr.st_.IsTerminal x = false ∧ B = x) ∨ ScanHit gr N rest B) := by
  cases p with
  | nil => simp [firstEdges]
  | cons x rest =>
    rw [show firstEdges gr N adj (x :: rest) =
      firstScan gr N rest (if gr.st_.IsTerminal x then adj else insert x adj) from rfl,
      firstScan_mem]
    constructor
    · rintro (h | h)
      · by_cases ht : gr.st_.IsTerminal x = true
        · rw [if_pos ht] at h
          exact Or.inl h
        · rw [if_neg ht, Finset.mem_insert] at h
          rcases h with h | h
          · exact Or.inr ⟨x, rest, rfl, Or.inl ⟨by simpa using ht, h⟩⟩
          · exact Or.inl h
      · exact Or.inr ⟨x, rest, rfl, Or.inr h⟩
    · rintro (h | ⟨x', rest', he, h⟩)
      · left
        split_ifs
        · exact h
        · exact Finset.mem_insert_of_mem h
      · cases he
        rcases h with ⟨h1, h2⟩ | h
        · left
          rw [if_neg (by simp [h1]), h2]
          exact Finset.mem_insert_self _ _
        · exact Or.inr h

theorem firstEdges_fold_mem (gr : Grammar) (N : Finset String) (B : String) :
    ∀ (ps : List production) (adj : Finset String),
      B ∈ ps.foldl (firstEdges gr N) adj ↔ B ∈ adj ∨ ∃ p ∈ ps, ∃ x rest, p = x :: rest ∧
        ((gr.st_.IsTerminal x = false ∧ B = x) ∨ ScanHit gr N rest B) := by
  intro ps
  induction ps with
  | nil => intro adj; simp
  | cons p ps ih =>
    intro adj
    rw [List.foldl_cons, ih, firstEdges_mem]
    constructor
    · rintro ((h | h) | ⟨q, hq, h⟩)
      · exact Or.inl h
      · exact Or.inr ⟨p, List.mem_cons_self _ _, h⟩
      · exact Or.inr ⟨q, List.mem_cons_of_mem _ hq, h⟩
    · rintro (h | ⟨q, hq, h⟩)
      · exact Or.inl (Or.inl h)
      · rcases List.mem_cons.mp hq with rfl | hq
        · exact Or.inl (Or.inr h)
        · exact Or.inr ⟨q, hq, h⟩

theorem leftGraph_fold (gr : Grammar) (N : Finset String) (l : List (String × List production))
    (hnd : (l.map Prod.fst).Nodup) :
    (l.foldl (leftGraphRule gr N) UMap.empty).keys = (l.map Prod.fst).toFinset ∧
    ∀ r ∈ l, (l.foldl (leftGraphRule gr N) UMap.empty).get r.1 =
      r.2.foldl (firstEdges gr N) ∅ := by
  induction l using List.reverseRecOn with
  | nil => simp [UMap.empty]
  | append_singleton l a ih =>
    rw [List.map_append, List.nodup_append] at hnd
    obtain ⟨h1, _, h3⟩ := hnd
    obtain ⟨ih1, ih2⟩ := ih h1
    rw [List.foldl_append, List.foldl_cons, List.foldl_nil]
    constructor
    · show insert a.1 _ = _
      rw [ih1]
      ext x
      simp only [Finset.mem_insert, List.mem_toFinset, List.map_append, List.map_cons,
        List.map_nil, List.mem_append, List.mem_singleton]
      tauto
    · intro r hr
      unfold leftGraphRule
      rw [UMap.get_set_any]
      rcases List.mem_append.mp hr with hr | hr
      · have hne : r.1 ≠ a.1 := by
          intro he
          exact h3 (List.mem_map_of_mem Prod.fst hr) (by simp [he])
        rw [if_neg hne]
        exact ih2 r hr
      · rw [List.mem_singleton] at hr
        subst hr
        simp

theorem leftGraph_keys (gr : Grammar) (N : Finset String) (hnd : gr.keys.Nodup) :
    (leftGraph gr N).keys = gr.keys.toFinset :=
  (leftGraph_fold gr N gr.g_ hnd).1

theorem leftGraph_edge (gr : Grammar) (N : Finset String) (hnd : gr.keys.Nodup) (A B : String) :
    GraphEdge (leftGraph gr N) A B ↔ LeftEdge gr N A B := by
  unfold GraphEdge LeftEdge
  rw [leftGraph_keys gr N hnd]
  constructor
  · rintro ⟨hA, hB⟩
    simp only [List.mem_toFinset, Grammar.keys, List.mem_map] at hA
    obtain ⟨r, hr, rfl⟩ := hA
    have h := (leftGraph_fold gr N gr.g_ hnd).2 r hr
    change B ∈ (leftGraph gr N).get r.1 at hB
    unfold leftGraph at hB
    rw [h, firstEdges_fold_mem] at hB
    rcases hB with hB | hB
    · simp at hB
    · exact ⟨r, hr, rfl, hB⟩
  · rintro ⟨r, hr, rfl, h⟩
    refine ⟨?_, ?_⟩
    · simp only [List.mem_toFinset, Grammar.keys, List.mem_map]
      exact ⟨r, hr, rfl⟩
    · have h' := (leftGraph_fold gr N gr.g_ hnd).2 r hr
      unfold leftGraph
      rw [h', firstEdges_fold_mem]
      exact Or.inr h

theorem leftGraph_closed (gr : Grammar) (N : Finset String) (hnd : gr.keys.Nodup)
    (hkeys : ∀ r ∈ gr.g_, ∀ p ∈ r.2, ∀ x ∈ p, gr.st_.IsTerminal x = false → x ∈ gr.keys) :
    ∀ u ∈ (leftGraph gr N).keys, (leftGraph gr N).get u ⊆ (leftGraph gr N).keys := by
  intro u hu B hB
  have he : GraphEdge (leftGraph gr N) u B := ⟨hu, hB⟩
  rw [leftGraph_edge gr N hnd] at he
  obtain ⟨r, hr, _, p, hp, x, rest, hpe, h⟩ := he
  rw [leftGraph_keys gr N hnd, List.mem_toFinset]
  rcases h with ⟨h1, h2⟩ | ⟨pre, γ, h1, _, h3⟩
  · subst h2
    exact hkeys r hr p hp B (by simp [hpe]) h1
  · exact hkeys r hr p hp B (by simp [hpe, h1]) h3

/-! ### The in-degrees of `HasCycle` -/

theorem degreeInit_fold (L : List String) : ∀ m : UMap Int, (∀ v, m.get v = 0) →
    (L.foldl degreeInit m).keys = m.keys ∪ L.toFinset ∧
    ∀ v, (L.foldl degreeInit m).get v = 0 := by
  induction L with
  | nil => intro m hm; simpa using hm
  | cons a L ih =>
    intro m hm
    have hm' : ∀ v, (degreeInit m a).get v = 0 := by
      intro v
      unfold degreeInit
      rw [UMap.get_set_any]
      split_ifs
      · rfl
      · exact hm v
    obtain ⟨h1, h2⟩ := ih (degreeInit m a) hm'
    refine ⟨?_, h2⟩
    rw [List.foldl_cons, h1]
    show insert a m.keys ∪ _ = _
    ext x
    simp only [Finset.mem_union, Finset.mem_insert, List.mem_toFinset, List.toFinset_cons]
    tauto

theorem degreeCount_fold (l : List String) : ∀ m : UMap Int, l.Nodup →
    (∀ v ∈ l, 0 ≤ m.get v ∧ m.get v + 1 < 2147483648) →
    (l.foldl degreeCount m).keys = m.keys ∪ l.toFinset ∧
    ∀ v, (l.foldl degreeCount m).get v = m.get v + if v ∈ l then 1 else 0 := by
  induction l with
  | nil => intro m _ _; simp
  | cons a l ih =>
    intro m hnd hb
    rw [List.nodup_cons] at hnd
    have ha := hb a (List.mem_cons_self _ _)
    have hget : ∀ v, (degreeCount m a).get v = if v = a then m.get a + 1 else m.get v := by
      intro v
      unfold degreeCount
      rw [UMap.get_set_any, i32_of_bounds _ (by omega) (by omega)]
    have hb' : ∀ v ∈ l, 0 ≤ (degreeCount m a).get v ∧ (degreeCount m a).get v + 1 < 2147483648 := by
      intro v hv
      have hne : v ≠ a := fun h => hnd.1 (h ▸ hv)
      rw [hget, if_neg hne]
      exact hb v (List.mem_cons_of_mem _ hv)
    obtain ⟨h1, h2⟩ := ih (degreeCount m a) hnd.2 hb'
    rw [List.foldl_cons]
    constructor
    · rw [h1]
      show insert a m.keys ∪ _ = _
      ext x
      simp only [Finset.mem_union, Finset.mem_insert, List.mem_toFinset, List.toFinset_cons]
      tauto
    · intro v
      rw [h2, hget]
      by_cases hv : v = a
      · subst hv
        simp [hnd.1]
      · simp [hv]

theorem degreeNode_fold (graph : SetMap) (o : GraphOrder) (ho : o.Valid) (L : List String) :
    ∀ m : UMap Int, (∀ v, 0 ≤ m.get v ∧ m.get v + L.length < 2147483648) →
    (L.foldl (degreeNode graph o) m).keys = m.keys ∪ L.toFinset.biUnion (fun u => graph.get u) ∧
    ∀ v, (L.foldl (degreeNode graph o) m).get v =
      m.get v + ((L.filter fun u => v ∈ graph.get u).length : Int) := by
  induction L with
  | nil => intro m _; simp
  | cons a L ih =>
    intro m hb
    obtain ⟨hl1, hl2⟩ := ho.2.1 a (graph.get a)
    have hb0 : ∀ v ∈ o.adjacents a (graph.get a), 0 ≤ m.get v ∧ m.get v + 1 < 2147483648 := by
      intro v _
      have := hb v
      simp only [List.length_cons, Nat.cast_add, Nat.cast_one] at this
      omega
    obtain ⟨h1, h2⟩ := degreeCount_fold (o.adjacents a (graph.get a)) m hl1 hb0
    have hb' : ∀ v, 0 ≤ (degreeNode graph o m a).get v ∧
        (degreeNode graph o m a).get v + L.length < 2147483648 := by
      intro v
      unfold degreeNode
      rw [h2]
      have := hb v
      simp only [List.length_cons, Nat.cast_add, Nat.cast_one] at this
      split_ifs <;> omega
    obtain ⟨h3, h4⟩ := ih (degreeNode graph o m a) hb'
    rw [List.foldl_cons]
    constructor
    · rw [h3]
      unfold degreeNode
      rw [h1]
      ext x
      simp only [Finset.mem_union, List.mem_toFinset, hl2, Finset.mem_biUnion, List.toFinset_cons,
        Finset.mem_insert, exists_eq_or_imp]
      tauto
    · intro v
      rw [h4]
      unfold degreeNode
      rw [h2, List.filter_cons]
      by_cases hv : v ∈ graph.get a
      · simp only [hl2, hv, ↓reduceIte, decide_True, List.length_cons, Nat.cast_add, Nat.cast_one]
        ring
      · simp [hl2, hv]

theorem filter_length_eq_card (L : List String) (s : Finset String) (hnd : L.Nodup)
    (hmem : ∀ x, x ∈ L ↔ x ∈ s) (p : String → Prop) [DecidablePred p] :
    (L.filter fun u => p u).length = (s.filter p).card := by
  rw [← List.toFinset_card_of_nodup (hnd.filter _)]
  congr 1
  ext x
  simp [hmem]

theorem inDegrees_spec (graph : SetMap) (o : GraphOrder) (ho : o.Valid)
    (hcl : ∀ u ∈ graph.keys, graph.get u ⊆ graph.keys) (hsize : graph.keys.card < 2147483648) :
    (inDegrees graph o).keys = graph.keys ∧
    ∀ v, (inDegrees graph o).get v = ((graph.keys.filter fun u => v ∈ graph.get u).card : Int) := by
  obtain ⟨hn1, hn2⟩ := ho.1 graph.keys
  have hlen : (o.nodes graph.keys).length = graph.keys.card := by
    have := filter_length_eq_card (o.nodes graph.keys) graph.keys hn1 hn2 (fun _ => True)
    simpa using this
  obtain ⟨h1, h2⟩ := degreeInit_fold (o.nodes graph.keys) UMap.empty
    (fun v => UMap.empty_get_any v)
  have hb : ∀ v, 0 ≤ ((o.nodes graph.keys).foldl degreeInit UMap.empty).get v ∧
      ((o.nodes graph.keys).foldl degreeInit UMap.empty).get v + (o.nodes graph.keys).length <
        2147483648 := by
    intro v
    rw [h2, hlen]
    omega
  obtain ⟨h3, h4⟩ := degreeNode_fold graph o ho (o.nodes graph.keys) _ hb
  unfold inDegrees
  constructor
  · rw [h3, h1]
    ext x
    simp only [UMap.empty, Finset.empty_union, Finset.mem_union, List.mem_toFinset, hn2,
      Finset.mem_biUnion]
    constructor
    · rintro (h | ⟨u, hu, hx⟩)
      · exact h
      · exact hcl u hu hx
    · exact Or.inl
  · intro v
    rw [h4, h2, zero_add, filter_length_eq_card _ graph.keys hn1 hn2]

/-! ### The loop of `HasCycle` -/

theorem cycleVisit_eq (d : UMap Int) (q : List String) (a : String) :
    cycleVisit (d, q) a =
      (d.set a (i32 (d.get a - 1)), if i32 (d.get a - 1) = 0 then q ++ [a] else q) := by
  unfold cycleVisit
  split_ifs <;> rfl

theorem cycleVisit_fold (l : List String) : ∀ (d : UMap Int) (q : List String), l.Nodup →
    (∀ v ∈ l, 1 ≤ d.get v ∧ d.get v < 2147483648) →
    (l.foldl cycleVisit (d, q)).1.keys = d.keys ∪ l.toFinset ∧
    (∀ v, (l.foldl cycleVisit (d, q)).1.get v = d.get v - if v ∈ l then 1 else 0) ∧
    (l.foldl cycleVisit (d, q)).2 = q ++ l.filter fun v => d.get v = 1 := by
  induction l with
  | nil => intro d q _ _; simp
  | cons a l ih =>
    intro d q hnd hb
    rw [List.nodup_cons] at hnd
    have ha := hb a (List.mem_cons_self _ _)
    have hi : i32 (d.get a - 1) = d.get a - 1 := i32_of_bounds _ (by omega) (by omega)
    have hget : ∀ v, (d.set a (d.get a - 1)).get v = if v = a then d.get a - 1 else d.get v :=
      fun v => UMap.get_set_any d a _ v
    have hb' : ∀ v ∈ l, 1 ≤ (d.set a (d.get a - 1)).get v ∧
        (d.set a (d.get a - 1)).get v < 2147483648 := by
      intro v hv
      have hne : v ≠ a := fun h => hnd.1 (h ▸ hv)
      rw [hget, if_neg hne]
      exact hb v (List.mem_cons_of_mem _ hv)
    rw [List.foldl_cons, cycleVisit_eq, hi]
    obtain ⟨h1, h2, h3⟩ := ih (d.set a (d.get a - 1)) (if d.get a - 1 = 0 then q ++ [a] else q)
      hnd.2 hb'
    refine ⟨?_, ?_, ?_⟩
    · rw [h1]
      show insert a d.keys ∪ _ = _
      ext x
      simp only [Finset.mem_union, Finset.mem_insert, List.mem_toFinset, List.toFinset_cons]
      tauto
    · intro v
      rw [h2, hget]
      by_cases hv : v = a
      · subst hv
        simp [hnd.1]
      · simp [hv]
    · rw [h3]
      have hf : (l.filter fun v => decide ((d.set a (d.get a - 1)).get v = 1)) =
          l.filter fun v => decide (d.get v = 1) := by
        apply List.filter_congr
        intro v hv
        have hne : v ≠ a := fun h => hnd.1 (h ▸ hv)
        rw [hget, if_neg hne]
      rw [hf, List.filter_cons]
      by_cases h1 : d.get a = 1
      · have h0 : d.get a - 1 = 0 := by omega
        simp [h1, h0]
      · have h0 : ¬ d.get a - 1 = 0 := by omega
        simp [h1, h0]

theorem pred_closed_path (graph : SetMap) (P : Finset String)
    (hclosed : ∀ u ∈ graph.keys, ∀ w ∈ graph.get u, w ∈ P → u ∈ P) {a b : String}
    (h : Relation.ReflTransGen (GraphEdge graph) a b) (hb : b ∈ P) : a ∈ P := by
  induction h using Relation.ReflTransGen.head_induction_on with
  | refl => exact hb
  | head hac _ ih => exact hclosed _ hac.1 _ hac.2 ih

theorem sdiff_insert_filter_card (V P : Finset String) (u : String) (hu : u ∈ V) (hP : u ∉ P)
    (p : String → Prop) [DecidablePred p] :
    (((V \ P).filter p).card : Int) =
      ((V \ insert u P).filter p).card + if p u then 1 else 0 := by
  have he : (V \ insert u P).filter p = ((V \ P).filter p).erase u := by
    ext x
    simp only [Finset.mem_filter, Finset.mem_sdiff, Finset.mem_insert, Finset.mem_erase]
    tauto
  rw [he]
  by_cases hp : p u
  · have hmem : u ∈ (V \ P).filter p := by
      simp [hu, hP, hp]
    have := Finset.card_erase_add_one hmem
    rw [if_pos hp]
    omega
  · have hmem : u ∉ (V \ P).filter p := by
      simp [hp]
    rw [Finset.erase_eq_of_not_mem hmem, if_neg hp]
    simp

theorem kahn_step (graph : SetMap) (o : GraphOrder) (ho : o.Valid)
    (hsize : graph.keys.card < 2147483648) (P : Finset String) (d : UMap Int) (u : String)
    (q : List String) (c : Int) (h : KahnInv graph P d (u :: q) c) :
    (u ∈ graph.keys ∧ u ∉ P) ∧
    KahnInv graph (insert u P) ((o.adjacents u (graph.get u)).foldl cycleVisit (d, q)).1
      ((o.adjacents u (graph.get u)).foldl cycleVisit (d, q)).2 (i32 (c + 1)) := by
  obtain ⟨huV, huP, hu0⟩ := (h.queue u).mp (List.mem_cons_self _ _)
  obtain ⟨hl1, hl2⟩ := ho.2.1 u (graph.get u)
  have hnd := List.nodup_cons.mp h.nodup
  have hnopred : ∀ x ∈ graph.keys, u ∈ graph.get x → x ∈ P := by
    intro x hx hux
    by_contra hxP
    have h0 := h.deg u
    rw [hu0] at h0
    have : x ∈ (graph.keys \ P).filter fun y => u ∈ graph.get y := by
      simp [hx, hxP, hux]
    have hpos := Finset.card_pos.mpr ⟨x, this⟩
    omega
  have hle : ∀ v, d.get v ≤ graph.keys.card := by
    intro v
    rw [h.deg v]
    exact_mod_cast (Finset.card_le_card (Finset.filter_subset _ _)).trans
      (Finset.card_le_card Finset.sdiff_subset)
  have hpos : ∀ v ∈ graph.get u, 1 ≤ d.get v := by
    intro v hv
    rw [h.deg v]
    have : u ∈ (graph.keys \ P).filter fun y => v ∈ graph.get y := by
      simp [huV, huP, hv]
    have hp := Finset.card_pos.mpr ⟨u, this⟩
    omega
  have hb : ∀ v ∈ o.adjacents u (graph.get u), 1 ≤ d.get v ∧ d.get v < 2147483648 := by
    intro v hv
    have := hle v
    exact ⟨hpos v ((hl2 v).mp hv), by omega⟩
  obtain ⟨k1, k2, k3⟩ := cycleVisit_fold (o.adjacents u (graph.get u)) d q hl1 hb
  have hsubV : ∀ v ∈ graph.get u, v ∈ graph.keys := by
    intro v hv
    by_contra hvV
    have h1 := hpos v hv
    have h2 : d.get v = 0 := by
      unfold UMap.get
      rw [h.keys, if_neg hvV]
      rfl
    omega
  have hcard : P.card + 1 ≤ graph.keys.card := by
    have : insert u P ⊆ graph.keys := Finset.insert_subset huV h.sub
    have := Finset.card_le_card this
    rwa [Finset.card_insert_of_not_mem huP] at this
  refine ⟨⟨huV, huP⟩, ?_⟩
  refine ⟨?_, Finset.insert_subset huV h.sub, ?_, ?_, ?_, ?_, ?_, ?_⟩
  · -- keys
    rw [k1, h.keys]
    ext x
    simp only [Finset.mem_union, List.mem_toFinset, hl2]
    constructor
    · rintro (hx | hx)
      · exact hx
      · exact hsubV x hx
    · exact Or.inl
  · -- count
    rw [h.count, i32_of_bounds _ (by omega) (by omega), Finset.card_insert_of_not_mem huP]
    push_cast
    rfl
  · -- deg
    intro v
    rw [k2, h.deg v, sdiff_insert_filter_card graph.keys P u huV huP (fun y => v ∈ graph.get y)]
    simp only [hl2]
    ring
  · -- nodup
    rw [k3]
    refine List.Nodup.append hnd.2 (hl1.filter _) ?_
    intro x hx1 hx2
    have := ((h.queue x).mp (List.mem_cons_of_mem _ hx1)).2.2
    have h1 := (List.mem_filter.mp hx2).2
    simp only [decide_eq_true_eq] at h1
    omega
  · -- queue
    intro v
    rw [k3, k2]
    simp only [List.mem_append, List.mem_filter, hl2, decide_eq_true_eq, Finset.mem_insert, not_or]
    constructor
    · rintro (hv | ⟨hv1, hv2⟩)
      · obtain ⟨a1, a2, a3⟩ := (h.queue v).mp (List.mem_cons_of_mem _ hv)
        have hne : v ≠ u := fun he => hnd.1 (he ▸ hv)
        refine ⟨a1, ⟨hne, a2⟩, ?_⟩
        have : v ∉ graph.get u := fun hvu => by
          have := hpos v hvu
          omega
        rw [if_neg this, a3]
        rfl
      · refine ⟨hsubV v hv1, ⟨?_, ?_⟩, ?_⟩
        · intro he
          rw [he, hu0] at hv2
          omega
        · intro hvP
          exact huP (h.closed u huV v hv1 hvP)
        · rw [if_pos hv1, hv2]
          rfl
    · rintro ⟨a1, ⟨a2, a3⟩, a4⟩
      by_cases hvu : v ∈ graph.get u
      · rw [if_pos hvu] at a4
        exact Or.inr ⟨hvu, by omega⟩
      · rw [if_neg hvu] at a4
        have : v ∈ u :: q := (h.queue v).mpr ⟨a1, a3, by omega⟩
        rcases List.mem_cons.mp this with he | hq
        · exact absurd he a2
        · exact Or.inl hq
  · -- closed
    intro x hx w hw hwP
    rcases Finset.mem_insert.mp hwP with he | hwP
    · subst he
      exact Finset.mem_insert_of_mem (hnopred x hx hw)
    · exact Finset.mem_insert_of_mem (h.closed x hx w hw hwP)
  · -- acyclic
    intro w hw hcyc
    rcases Finset.mem_insert.mp hw with he | hwP
    · subst he
      obtain ⟨x, hpath, hedge⟩ := Relation.TransGen.tail'_iff.mp hcyc
      exact huP (pred_closed_path graph P h.closed hpath (hnopred x hedge.1 hedge.2))
    · exact h.acyclic w hwP hcyc

theorem cycleLoop_spec (graph : SetMap) (o : GraphOrder) (ho : o.Valid)
    (hsize : graph.keys.card < 2147483648) :
    ∀ (n : Nat) (P : Finset String) (d : UMap Int) (q : List String) (c : Int),
      KahnInv graph P d q c → (graph.keys \ P).card < n →
      ∃ P' d' c', cycleLoop graph o n d q c = some (some (d', c')) ∧
        KahnInv graph P' d' [] c' := by
  intro n
  induction n with
  | zero => intro P d q c _ hn; omega
  | succ n ih =>
    intro P d q c h hn
    cases q with
    | nil => exact ⟨P, d, c, rfl, h⟩
    | cons u q =>
      obtain ⟨⟨huV, huP⟩, hstep⟩ := kahn_step graph o ho hsize P d u q c h
      have hfind : graph.find? u = some (graph.get u) := by
        rw [UMap.find?_eq_get, if_pos huV]
      have hm : (graph.keys \ insert u P).card < n := by
        have he : graph.keys \ insert u P = (graph.keys \ P).erase u := by
          ext x
          simp only [Finset.mem_sdiff, Finset.mem_insert, Finset.mem_erase]
          tauto
        have hmem : u ∈ graph.keys \ P := by simp [huV, huP]
        have := Finset.card_erase_add_one hmem
        rw [he]
        omega
      obtain ⟨P', d', c', h1, h2⟩ := ih _ _ _ _ hstep hm
      refine ⟨P', d', c', ?_, h2⟩
      rw [← h1]
      simp only [cycleLoop, hfind]

theorem exists_cycle_of_pred {α : Type} (r : α → α → Prop) (s : Finset α) (hs : s.Nonempty)
    (h : ∀ v ∈ s, ∃ u ∈ s, r u v) : ∃ a, Relation.TransGen r a a := by
  by_contra hno
  push_neg at hno
  let r' : s → s → Prop := fun a b => Relation.TransGen r a.1 b.1
  haveI : IsTrans s r' := ⟨fun _ _ _ h1 h2 => Relation.TransGen.trans h1 h2⟩
  haveI : IsIrrefl s r' := ⟨fun a => hno a.1⟩
  have hwf : WellFounded r' := Finite.wellFounded_of_trans_of_irrefl r'
  obtain ⟨x, hx⟩ := hs
  obtain ⟨m, _, hm⟩ := hwf.has_min Set.univ ⟨⟨x, hx⟩, trivial⟩
  obtain ⟨u, hu, hum⟩ := h m.1 m.2
  exact hm ⟨u, hu⟩ trivial (Relation.TransGen.single hum)

theorem kahn_final (graph : SetMap) (hsize : graph.keys.card < 2147483648) (P : Finset String)
    (d : UMap Int) (c : Int) (h : KahnInv graph P d [] c) :
    sizeCast c ≠ (d.keys.card : Int) ↔ ∃ A, Relation.TransGen (GraphEdge graph) A A := by
  have hle := Finset.card_le_card h.sub
  have hc : sizeCast c = P.card := by
    rw [h.count]
    unfold sizeCast
    omega
  rw [hc, h.keys]
  constructor
  · intro hne
    have hne' : P ≠ graph.keys := fun he => hne (by rw [he])
    have hs : (graph.keys \ P).Nonempty := by
      rw [Finset.nonempty_iff_ne_empty]
      intro he
      exact hne' (Finset.Subset.antisymm h.sub (Finset.sdiff_eq_empty_iff_subset.mp he))
    apply exists_cycle_of_pred (GraphEdge graph) (graph.keys \ P) hs
    intro v hv
    obtain ⟨hvV, hvP⟩ := Finset.mem_sdiff.mp hv
    have hq : ¬ d.get v = 0 := fun h0 => by
      have := (h.queue v).mpr ⟨hvV, hvP, h0⟩
      simp at this
    rw [h.deg v] at hq
    have hpos : ((graph.keys \ P).filter fun u => v ∈ graph.get u).Nonempty := by
      rw [Finset.nonempty_iff_ne_empty]
      intro he
      rw [he] at hq
      simp at hq
    obtain ⟨u, hu⟩ := hpos
    obtain ⟨hu1, hu2⟩ := Finset.mem_filter.mp hu
    exact ⟨u, hu1, (Finset.mem_sdiff.mp hu1).1, hu2⟩
  · rintro ⟨A, hA⟩ he
    have hPV : P = graph.keys := Finset.eq_of_subset_of_card_le h.sub (by exact_mod_cast he.ge)
    obtain ⟨b, hab, _⟩ := Relation.TransGen.head'_iff.mp hA
    exact h.acyclic A (hPV ▸ hab.1) hA

theorem HasCycle_spec (graph : SetMap) (o : GraphOrder) (ho : o.Valid)
    (hcl : ∀ u ∈ graph.keys, graph.get u ⊆ graph.keys) (hsize : graph.keys.card < 2147483648) :
    ∃ b : Bool, (b = true ↔ ∃ A, Relation.TransGen (GraphEdge graph) A A) ∧
      ∀ n, graph.keys.card < n → HasCycle graph o n = some (some b) := by
  classical
  refine ⟨decide (∃ A, Relation.TransGen (GraphEdge graph) A A), by simp, ?_⟩
  intro n hn
  obtain ⟨hk, hd⟩ := inDegrees_spec graph o ho hcl hsize
  obtain ⟨hg1, hg2⟩ := ho.2.2 (inDegrees graph o).keys
  have hinv : KahnInv graph ∅ (inDegrees graph o)
      ((o.degrees (inDegrees graph o).keys).filter fun node => (inDegrees graph o).get node = 0)
      0 := by
    refine ⟨hk, Finset.empty_subset _, by simp, ?_, hg1.filter _, ?_, ?_, ?_⟩
    · intro v
      rw [hd v, Finset.sdiff_empty]
    · intro v
      rw [List.mem_filter, hg2 v, hk]
      simp
    · intro u _ w _ hw
      exact absurd hw (Finset.not_mem_empty _)
    · intro w hw
      exact absurd hw (Finset.not_mem_empty _)
  obtain ⟨P', d', c', h1, h2⟩ := cycleLoop_spec graph o ho hsize n ∅ _ _ 0 hinv
    (by rw [Finset.sdiff_empty]; exact hn)
  unfold HasCycle
  simp only [h1, Option.map_some']
  congr 2
  exact decide_eq_decide.mpr (kahn_final graph hsize P' d' c' h2)

/-! ### `HasIndirectLeftRecursion` -/

theorem HasIndirectLeftRecursion_spec (gr : Grammar) (o : GraphOrder) (ho : o.Valid)
    (hnd : gr.keys.Nodup) (hsize : gr.g_.length < 2147483648)
    (hkeys : ∀ r ∈ gr.g_, ∀ p ∈ r.2, ∀ x ∈ p, gr.st_.IsTerminal x = false → x ∈ gr.keys) :
    ∃ (N : Finset String) (b : Bool), Returns (NullableSymbols gr) N ∧
      Returns (HasIndirectLeftRecursion gr o) (some b) ∧
      (b = true ↔ ∃ A, Relation.TransGen (LeftEdge gr N) A A) := by
  obtain ⟨N, hN, _⟩ := NullableSymbols_spec gr
  have hcard : (leftGraph gr N).keys.card < 2147483648 := by
    rw [leftGraph_keys gr N hnd, List.toFinset_card_of_nodup hnd]
    simpa [Grammar.keys] using hsize
  obtain ⟨b, hb, hret⟩ := HasCycle_spec (leftGraph gr N) o ho (leftGraph_closed gr N hnd hkeys)
    hcard
  have hrel : GraphEdge (leftGraph gr N) = LeftEdge gr N := by
    funext A B
    exact propext (leftGraph_edge gr N hnd A B)
  rw [hrel] at hb
  refine ⟨N, b, hN, ?_, hb⟩
  obtain ⟨n0, hn0⟩ := hN
  refine ⟨max n0 ((leftGraph gr N).keys.card + 1), fun n hn => ?_⟩
  unfold HasIndirectLeftRecursion
  rw [hn0 n (le_of_max_le_left hn)]
  simp only
  split_ifs with hempty
  · congr 2
    symm
    rw [Bool.eq_false_iff]
    intro hbt
    obtain ⟨A, hA⟩ := hb.mp hbt
    obtain ⟨B, hAB, _⟩ := Relation.TransGen.head'_iff.mp hA
    rw [← hrel] at hAB
    have := hAB.1
    rw [hempty] at this
    exact absurd this (Finset.not_mem_empty _)
  · exact hret n (by have := le_of_max_le_right hn; omega)

theorem graphOrder_sorted_valid : sortedGraphOrder.Valid := by
  refine ⟨fun s => ⟨Finset.sort_nodup _ _, fun x => Finset.mem_sort _⟩,
    fun _ s => ⟨Finset.sort_nodup _ _, fun x => Finset.mem_sort _⟩,
    fun s => ⟨Finset.sort_nodup _ _, fun x => Finset.mem_sort _⟩⟩

theorem classic_first_edge_rank (N : Finset String) (A B : String)
    (h : FirstEdge classicGrammar N A B) : classicRank B < classicRank A := by
  obtain ⟨r, hr, hA, p, hp, pre, γ, hpe, hpre⟩ := h
  have ha : classicGrammar.st_.IsTerminal "a" = true := by decide
  simp only [classicGrammar, List.mem_cons, List.mem_singleton, List.not_mem_nil, or_false] at hr
  rcases hr with rfl | rfl
  · simp only [List.mem_singleton] at hp
    subst hp hA
    rcases pre with _ | ⟨y, _ | ⟨z, pre⟩⟩
    · simp only [List.nil_append, List.cons.injEq] at hpe
      rw [← hpe.1]
      decide
    · simp only [List.cons_append, List.nil_append, List.cons.injEq] at hpe
      rw [← hpe.2.1]
      decide
    · simp at hpe
  · simp only [List.mem_cons, List.mem_singleton, List.not_mem_nil, or_false] at hp
    subst hA
    rcases hp with rfl | rfl
    · rcases pre with _ | ⟨y, pre⟩
      · simp only [List.nil_append, List.cons.injEq] at hpe
        rw [← hpe.1]
        decide
      · simp only [List.cons_append, List.cons.injEq] at hpe
        have := (hpre y (List.mem_cons_self _ _)).1
        rw [← hpe.1, ha] at this
        cases this
    · rcases pre with _ | ⟨y, pre⟩
      · simp only [List.nil_append, List.cons.injEq] at hpe
        rw [← hpe.1]
        decide
      · simp at hpe

theorem classic_first_edge_acyclic (N : Finset String) :
    ¬ ∃ A, Relation.TransGen (FirstEdge classicGrammar N) A A := by
  rintro ⟨A, hA⟩
  have hlt : ∀ X Y, Relation.TransGen (FirstEdge classicGrammar N) X Y →
      classicRank Y < classicRank X := by
    intro X Y h
    induction h with
    | single h => exact classic_first_edge_rank N _ _ h
    | tail _ h ih => exact (classic_first_edge_rank N _ _ h).trans ih
  exact lt_irrefl _ (hlt A A hA)

theorem classic_left_edge (N : Finset String) : LeftEdge classicGrammar N "A" "A" := by
  refine ⟨("A", [["a", "A"], ["b"]]), by simp [classicGrammar], rfl, ["a", "A"], by simp,
    "a", ["A"], rfl, Or.inr ⟨[], [], rfl, by simp, by decide⟩⟩

/-- C22 fails: `HasIndirectLeftRecursion` does not test the first symbol of a
production before it scans the symbols after it.  For every grammar with
distinct keys and fewer than `2^31` rules, whose productions are non-empty
and whose non-terminals all have productions, and for every traversal order of
the hash containers, it returns `true` iff the graph of `LeftEdge` has a
cycle, where `A -> B` when some production `x rest` of `A` has `B = x` a
non-terminal or `B` a non-terminal of `rest` preceded in `rest` by nullable
non-terminals only, whatever `x` is.  For `S -> A $`, `A -> a A | b`, which
has no left recursion and whose graph of the symbols that can appear first
has no cycle, it returns `true`, for the edge `A -> A` taken behind the
terminal `a`. -/
theorem C22_indirect_left_recursion_skips_first_symbol :
    (∀ (gr : Grammar) (o : GraphOrder), o.Valid → gr.keys.Nodup → gr.g_.length < 2147483648 →
      (∀ r ∈ gr.g_, ∀ p ∈ r.2, p ≠ []) →
      (∀ r ∈ gr.g_, ∀ p ∈ r.2, ∀ x ∈ p, gr.st_.IsTerminal x = false → x ∈ gr.keys) →
      ∃ (N : Finset String) (b : Bool), Returns (NullableSymbols gr) N ∧
        Returns (HasIndirectLeftRecursion gr o) (some b) ∧
        (b = true ↔ ∃ A, Relation.TransGen (LeftEdge gr N) A A)) ∧
    sortedGraphOrder.Valid ∧
    (∀ o : GraphOrder, o.Valid →
      Returns (HasIndirectLeftRecursion classicGrammar o) (some true)) ∧
    (∀ N, ¬ ∃ A, Relation.TransGen (FirstEdge classicGrammar N) A A) ∧
    HasDirectLeftRecursion classicGrammar = false := by
  refine ⟨fun gr o ho hnd hsize _ hkeys => HasIndirectLeftRecursion_spec gr o ho hnd hsize hkeys,
    graphOrder_sorted_valid, ?_, classic_first_edge_acyclic, by decide⟩
  intro o ho
  obtain ⟨N, b, _, hret, hb⟩ := HasIndirectLeftRecursion_spec classicGrammar o ho (by decide)
    (by simp [classicGrammar]) (by decide)
  have : b = true := hb.mpr ⟨"A", Relation.TransGen.single (classic_left_edge N)⟩
  rw [this] at hret
  exact hret

/-! ### `IsTerminalWthoEol` (C31) -/

/-- C31 fails: `IsTerminalWthoEol` excludes `EPSILON_`, not the end marker.
It is true exactly for the members of `terminals_` other than `EPSILON_`; so
on every symbol table built from the default one by `PutSymbol` it is true
for the end marker `$`, as `IsTerminal` is, although the end marker is not in
the set `terminals_wtho_eol_` of the default table; and it is false for
`EPSILON_` once `EPSILON_` is a registered terminal. -/
theorem C31_terminal_without_eol_keeps_eol :
    (∀ (t : SymbolTable) (s : String),
      t.IsTerminalWthoEol s = true ↔ s ∈ t.terminals_ ∧ s ≠ EPSILON_) ∧
    (∀ t : SymbolTable, t.Reachable →
      t.IsTerminal "$" = true ∧ t.IsTerminalWthoEol "$" = true) ∧
    "$" ∉ SymbolTable.init.terminals_wtho_eol_ ∧
    (∀ t : SymbolTable, (t.PutSymbol EPSILON_ true).IsTerminal EPSILON_ = true ∧
      (t.PutSymbol EPSILON_ true).IsTerminalWthoEol EPSILON_ = false) := by
  refine ⟨fun t s => ?_, fun t ht => ?_, by decide, fun t => ?_⟩
  · simp only [SymbolTable.IsTerminalWthoEol, Bool.and_eq_true, decide_eq_true_eq]
    tauto
  · have h := ht.eol_terminal
    refine ⟨h, ?_⟩
    simp only [SymbolTable.IsTerminal, decide_eq_true_eq] at h
    simp only [SymbolTable.IsTerminalWthoEol, Bool.and_eq_true, decide_eq_true_eq]
    exact ⟨by decide, h⟩
  · simp [SymbolTable.IsTerminal, SymbolTable.IsTerminalWthoEol, SymbolTable.PutSymbol]

/-! ### `HasEmptyProduction` (C32) -/

theorem HasEmptyProduction_spec (gr : Grammar) (A : String) :
    (A ∉ gr.keys → gr.HasEmptyProduction A = none) ∧
    (A ∈ gr.keys → ∃ ps b, gr.at? A = some ps ∧ (A, ps) ∈ gr.g_ ∧
      gr.HasEmptyProduction A = some b ∧ (b = true ↔ ∃ p ∈ ps, ∃ rest, p = EPSILON_ :: rest)) := by
  constructor
  · intro hA
    cases h : gr.at? A with
    | none => simp [Grammar.HasEmptyProduction, h]
    | some ps =>
      exact absurd (List.mem_map.mpr ⟨(A, ps), Grammar.at?_eq_some h, rfl⟩) hA
  · intro hA
    cases h : gr.at? A with
    | none => exact absurd h (Grammar.at?_ne_none hA)
    | some ps =>
      refine ⟨ps, ps.any fun rule => decide (rule.head? = some EPSILON_), rfl,
        Grammar.at?_eq_some h, by simp only [Grammar.HasEmptyProduction, h], ?_⟩
      simp only [List.any_eq_true, decide_eq_true_eq]
      constructor
      · rintro ⟨p, hp, he⟩
        cases p with
        | nil => cases he
        | cons x rest =>
          simp only [List.head?_cons, Option.some.injEq] at he
          exact ⟨_, hp, rest, by rw [he]⟩
      · rintro ⟨p, hp, rest, rfl⟩
        exact ⟨_, hp, rfl⟩

/-! ### `TransformToAugmentedGrammar` (C33) -/

theorem ruleAssign_mem (m : List (String × List production)) (k : String) (v : List production) :
    (k, v) ∈ ruleAssign m k v ∧
    ∀ r ∈ m, r.1 ≠ k → r ∈ ruleAssign m k v := by
  unfold ruleAssign
  split_ifs with h
  · constructor
    · obtain ⟨r, hr, hk⟩ := List.mem_map.mp h
      exact List.mem_map.mpr ⟨r, hr, by simp [hk]⟩
    · intro r hr hne
      exact List.mem_map.mpr ⟨r, hr, by simp [hne]⟩
  · exact ⟨by simp, fun r hr _ => List.mem_append_left _ hr⟩

theorem ruleAssign_mem_iff (m : List (String × List production)) (k : String)
    (v : List production) (r : String × List production) :
    r ∈ ruleAssign m k v ↔ r = (k, v) ∨ (r ∈ m ∧ r.1 ≠ k) := by
  constructor
  · intro hr
    unfold ruleAssign at hr
    split_ifs at hr with h
    · obtain ⟨r', hr', e⟩ := List.mem_map.mp hr
      by_cases hk : r'.1 = k
      · rw [if_pos hk] at e
        exact Or.inl e.symm
      · rw [if_neg hk] at e
        subst e
        exact Or.inr ⟨hr', hk⟩
    · rcases List.mem_append.mp hr with hr | hr
      · refine Or.inr ⟨hr, fun e => h ?_⟩
        exact List.mem_map.mpr ⟨r, hr, e⟩
      · exact Or.inl (List.mem_singleton.mp hr)
  · rintro (rfl | ⟨h1, h2⟩)
    · exact (ruleAssign_mem m k v).1
    · exact (ruleAssign_mem m k v).2 r h1 h2

/-- The grammar after `TransformToAugmentedGrammar`: the new axiom with its
rule, the other rules, the symbol table. -/
theorem TransformToAugmentedGrammar_spec (gr : Grammar) (o : MapOrder) (ho : o.Valid)
    (hnd : gr.keys.Nodup) :
    (gr.TransformToAugmentedGrammar o).axiom_ = gr.axiom_ ++ "'" ∧
    (gr.TransformToAugmentedGrammar o).keys.Nodup ∧
    (gr.TransformToAugmentedGrammar o).at? (gr.axiom_ ++ "'") = some [[gr.axiom_]] ∧
    gr.axiom_ ++ "'" ∈ (gr.TransformToAugmentedGrammar o).st_.non_terminals_ ∧
    (∀ k, k ≠ gr.axiom_ ++ "'" → (gr.TransformToAugmentedGrammar o).at? k = gr.at? k) ∧
    (∀ k, k ∈ (gr.TransformToAugmentedGrammar o).keys ↔ k = gr.axiom_ ++ "'" ∨ k ∈ gr.keys) ∧
    (gr.TransformToAugmentedGrammar o).st_.non_terminals_ =
      insert (gr.axiom_ ++ "'") gr.st_.non_terminals_ ∧
    (gr.TransformToAugmentedGrammar o).st_.terminals_ = gr.st_.terminals_ := by
  have hperm := ho (ruleAssign gr.g_ (gr.axiom_ ++ "'") [[gr.axiom_]])
  have hnd1 : ((ruleAssign gr.g_ (gr.axiom_ ++ "'") [[gr.axiom_]]).map Prod.fst).Nodup :=
    ruleAssign_nodup hnd _ _
  have hnd' : (gr.TransformToAugmentedGrammar o).keys.Nodup :=
    ((hperm.map Prod.fst).nodup_iff).mpr hnd1
  have hmem : ∀ r, r ∈ (gr.TransformToAugmentedGrammar o).g_ ↔
      r = (gr.axiom_ ++ "'", [[gr.axiom_]]) ∨ (r ∈ gr.g_ ∧ r.1 ≠ gr.axiom_ ++ "'") := by
    intro r
    rw [← ruleAssign_mem_iff]
    exact hperm.mem_iff
  refine ⟨rfl, hnd', ?_, ?_, ?_, ?_, ?_, ?_⟩
  · exact Grammar.at?_of_mem hnd' ((hmem _).mpr (Or.inl rfl))
  · simp [Grammar.TransformToAugmentedGrammar, SymbolTable.PutSymbol]
  · intro k hk
    cases h : gr.at? k with
    | some v =>
      exact Grammar.at?_of_mem hnd' ((hmem _).mpr (Or.inr ⟨Grammar.at?_eq_some h, hk⟩))
    | none =>
      cases h' : (gr.TransformToAugmentedGrammar o).at? k with
      | none => rfl
      | some v =>
        exfalso
        rcases (hmem _).mp (Grammar.at?_eq_some h') with e | ⟨e, _⟩
        · exact hk (Prod.mk.inj e).1
        · exact Grammar.at?_ne_none (List.mem_map.mpr ⟨(k, v), e, rfl⟩) h
  · intro k
    simp only [Grammar.keys, List.mem_map]
    constructor
    · rintro ⟨r, hr, rfl⟩
      rcases (hmem r).mp hr with e | ⟨e, _⟩
      · exact Or.inl (by rw [e])
      · exact Or.inr ⟨r, e, rfl⟩
    · rintro (rfl | ⟨r, hr, rfl⟩)
      · exact ⟨_, (hmem _).mpr (Or.inl rfl), rfl⟩
      · by_cases hk : r.1 = gr.axiom_ ++ "'"
        · exact ⟨_, (hmem _).mpr (Or.inl rfl), hk.symm⟩
        · exact ⟨r, (hmem r).mpr (Or.inr ⟨hr, hk⟩), rfl⟩
  · simp [Grammar.TransformToAugmentedGrammar, SymbolTable.PutSymbol]
  · simp [Grammar.TransformToAugmentedGrammar, SymbolTable.PutSymbol]

/-- C33 (amended): for every grammar with axiom `S` (its rule map having
pairwise different keys) and every traversal order, after
`TransformToAugmentedGrammar` the axiom is `S` followed by a prime, its only
production is `[S]`, it is registered as a non-terminal, the rule of every
key other than the new axiom is unchanged, the keys are the old keys and the
new axiom, and the symbol table has gained the new axiom as a non-terminal
and nothing else.  The rule of a key that already bore the name of the new
axiom is replaced. -/
theorem C33_augmented_grammar_frame (gr : Grammar) (o : MapOrder) (ho : o.Valid)
    (hnd : gr.keys.Nodup) :
    (gr.TransformToAugmentedGrammar o).axiom_ = gr.axiom_ ++ "'" ∧
    (gr.TransformToAugmentedGrammar o).keys.Nodup ∧
    (gr.TransformToAugmentedGrammar o).at? (gr.axiom_ ++ "'") = some [[gr.axiom_]] ∧
    gr.axiom_ ++ "'" ∈ (gr.TransformToAugmentedGrammar o).st_.non_terminals_ ∧
    (∀ k, k ≠ gr.axiom_ ++ "'" → (gr.TransformToAugmentedGrammar o).at? k = gr.at? k) ∧
    (∀ k, k ∈ (gr.TransformToAugmentedGrammar o).keys ↔ k = gr.axiom_ ++ "'" ∨ k ∈ gr.keys) ∧
    (gr.TransformToAugmentedGrammar o).st_.non_terminals_ =
      insert (gr.axiom_ ++ "'") gr.st_.non_terminals_ ∧
    (gr.TransformToAugmentedGrammar o).st_.terminals_ = gr.st_.terminals_ :=
  TransformToAugmentedGrammar_spec gr o ho hnd

/-- The hypotheses of C33 hold for the grammar `S -> A $`, `A -> a A | b`,
which gains the rule `S' -> S`. -/
theorem C33_augmented_grammar_frame_witness :
    insertionOrder.Valid ∧ classicGrammar.keys.Nodup ∧
    (classicGrammar.TransformToAugmentedGrammar insertionOrder).g_ =
      [("S", [["A", "$"]]), ("A", [["a", "A"], ["b"]]), ("S'", [["S"]])] ∧
    ((classicGrammar.TransformToAugmentedGrammar insertionOrder).axiom_ =
      classicGrammar.axiom_ ++ "'" ∧
    (classicGrammar.TransformToAugmentedGrammar insertionOrder).keys.Nodup ∧
    (classicGrammar.TransformToAugmentedGrammar insertionOrder).at?
      (classicGrammar.axiom_ ++ "'") = some [[classicGrammar.axiom_]] ∧
    classicGrammar.axiom_ ++ "'" ∈
      (classicGrammar.TransformToAugmentedGrammar insertionOrder).st_.non_terminals_ ∧
    (∀ k, k ≠ classicGrammar.axiom_ ++ "'" →
      (classicGrammar.TransformToAugmentedGrammar insertionOrder).at? k = classicGrammar.at? k) ∧
    (∀ k, k ∈ (classicGrammar.TransformToAugmentedGrammar insertionOrder).keys ↔
      k = classicGrammar.axiom_ ++ "'" ∨ k ∈ classicGrammar.keys) ∧
    (classicGrammar.TransformToAugmentedGrammar insertionOrder).st_.non_terminals_ =
      insert (classicGrammar.axiom_ ++ "'") classicGrammar.st_.non_terminals_ ∧
    (classicGrammar.TransformToAugmentedGrammar insertionOrder).st_.terminals_ =
      classicGrammar.st_.terminals_) :=
  ⟨insertionOrder_valid, by decide, by decide,
   C33_augmented_grammar_frame classicGrammar insertionOrder insertionOrder_valid (by decide)⟩

/-- C33 fails as stated: in the grammar `S -> A $`, `S' -> b`, `A -> a S'`
the non-terminal `S'` has the production `b` before the call, and for every
traversal order its only production after `TransformToAugmentedGrammar` is
`S`. -/
theorem C33_primed_axiom_counterexample :
    primedGrammar.keys.Nodup ∧ primedGrammar.axiom_ = "S" ∧
    primedGrammar.at? "S'" = some [["b"]] ∧
    ∀ o : MapOrder, o.Valid →
      (primedGrammar.TransformToAugmentedGrammar o).at? "S'" = some [["S"]] := by
  refine ⟨by decide, rfl, by decide, fun o ho => ?_⟩
  exact (TransformToAugmentedGrammar_spec primedGrammar o ho (by decide)).2.2.1

theorem symbolTable_le_refl (a : SymbolTable) : SymbolTable.Le a a :=
  ⟨Finset.Subset.refl _, Finset.Subset.refl _⟩

theorem symbolTable_le_trans {a b c : SymbolTable} (h1 : SymbolTable.Le a b)
    (h2 : SymbolTable.Le b c) : SymbolTable.Le a c :=
  ⟨h1.1.trans h2.1, h1.2.trans h2.2⟩

theorem putSymbol_le (st : SymbolTable) (s : String) (b : Bool) :
    SymbolTable.Le st (st.PutSymbol s b) := by
  unfold SymbolTable.PutSymbol
  split_ifs
  · exact ⟨Finset.subset_insert _ _, Finset.Subset.refl _⟩
  · exact ⟨Finset.Subset.refl _, Finset.subset_insert _ _⟩

theorem putSymbol_terminal_mem (st : SymbolTable) (s : String) :
    s ∈ (st.PutSymbol s true).terminals_ := by
  simp [SymbolTable.PutSymbol]

theorem putSymbol_non_terminal_mem (st : SymbolTable) (s : String) :
    s ∈ (st.PutSymbol s false).non_terminals_ := by
  simp [SymbolTable.PutSymbol]

theorem registerSymbol_le (st : SymbolTable) (s : String) :
    SymbolTable.Le st (registerSymbol st s) := by
  unfold registerSymbol
  split_ifs
  · exact putSymbol_le _ _ _
  · exact putSymbol_le _ _ _
  · exact symbolTable_le_refl _

theorem registerSymbol_mem (st : SymbolTable) (s : String)
    (h : s = "EPSILON" ∨ startsLower s = true) : s ∈ (registerSymbol st s).terminals_ := by
  unfold registerSymbol
  split_ifs with h1 h2
  · exact putSymbol_terminal_mem _ _
  · exact putSymbol_terminal_mem _ _
  · rcases h with h | h
    · exact absurd h h1
    · exact absurd h h2

theorem registerSymbols_spec (p : List String) : ∀ st : SymbolTable,
    SymbolTable.Le st (p.foldl registerSymbol st) ∧
    ∀ x ∈ p, x = "EPSILON" ∨ startsLower x = true → x ∈ (p.foldl registerSymbol st).terminals_ := by
  induction p with
  | nil => intro st; exact ⟨symbolTable_le_refl _, fun x hx => by cases hx⟩
  | cons a p ih =>
    intro st
    obtain ⟨h1, h2⟩ := ih (registerSymbol st a)
    rw [List.foldl_cons]
    refine ⟨symbolTable_le_trans (registerSymbol_le st a) h1, fun x hx hlow => ?_⟩
    rcases List.mem_cons.mp hx with rfl | hx
    · exact h1.1 (registerSymbol_mem st x hlow)
    · exact h2 x hx hlow

theorem registerProds_spec (ps : List production) : ∀ st : SymbolTable,
    SymbolTable.Le st (ps.foldl (fun st1 prod => prod.foldl registerSymbol st1) st) ∧
    ∀ p ∈ ps, ∀ x ∈ p, x = "EPSILON" ∨ startsLower x = true →
      x ∈ (ps.foldl (fun st1 prod => prod.foldl registerSymbol st1) st).terminals_ := by
  induction ps with
  | nil => intro st; exact ⟨symbolTable_le_refl _, fun p hp => by cases hp⟩
  | cons a ps ih =>
    intro st
    obtain ⟨h1, h2⟩ := ih (a.foldl registerSymbol st)
    obtain ⟨g1, g2⟩ := registerSymbols_spec a st
    rw [List.foldl_cons]
    refine ⟨symbolTable_le_trans g1 h1, fun p hp x hx hlow => ?_⟩
    rcases List.mem_cons.mp hp with rfl | hp
    · exact h1.1 (g2 x hx hlow)
    · exact h2 p hp x hx hlow

theorem registerRules_spec (l : List (String × List production)) : ∀ st : SymbolTable,
    SymbolTable.Le st (l.foldl registerRule st) ∧
    ∀ r ∈ l, r.1 ∈ (l.foldl registerRule st).non_terminals_ ∧
      ∀ p ∈ r.2, ∀ x ∈ p, x = "EPSILON" ∨ startsLower x = true →
        x ∈ (l.foldl registerRule st).terminals_ := by
  induction l with
  | nil => intro st; exact ⟨symbolTable_le_refl _, fun r hr => by cases hr⟩
  | cons a l ih =>
    intro st
    obtain ⟨h1, h2⟩ := ih (registerRule st a)
    obtain ⟨g1, g2⟩ := registerProds_spec a.2 (st.PutSymbol a.1 false)
    rw [List.foldl_cons]
    refine ⟨symbolTable_le_trans (symbolTable_le_trans (putSymbol_le st a.1 false) g1) h1,
      fun r hr => ?_⟩
    rcases List.mem_cons.mp hr with rfl | hr
    · exact ⟨h1.2 (g1.2 (putSymbol_non_terminal_mem _ _)),
        fun p hp x hx hlow => h1.1 (g2 p hp x hx hlow)⟩
    · exact h2 r hr

/-- The symbols that the constructors register: the keys, the end marker,
the axiom `S`, and the symbols of the productions that are `EPSILON` or
begin with a lower-case letter. -/
theorem registered_of_rawClosed (grammar : List (String × List production))
    (hcl : RawClosed grammar) :
    (∀ k ∈ grammar.map Prod.fst,
      k ∈ ((grammar.foldl registerRule SymbolTable.init).PutSymbol "S" false).non_terminals_) ∧
    ((grammar.foldl registerRule SymbolTable.init).PutSymbol "S" false).Registered EOL_ ∧
    ((grammar.foldl registerRule SymbolTable.init).PutSymbol "S" false).Registered "S" ∧
    (∀ r ∈ grammar, ∀ p ∈ r.2, ∀ x ∈ p,
      ((grammar.foldl registerRule SymbolTable.init).PutSymbol "S" false).Registered x) ∧
    ("S" ∈ grammar.map Prod.fst → ∀ r ∈ grammar, ∀ p ∈ r.2, ∀ x ∈ p,
      (grammar.foldl registerRule SymbolTable.init).Registered x) := by
  obtain ⟨h1, h2⟩ := registerRules_spec grammar SymbolTable.init
  have hle := putSymbol_le (grammar.foldl registerRule SymbolTable.init) "S" false
  have hkey : ∀ k ∈ grammar.map Prod.fst,
      k ∈ (grammar.foldl registerRule SymbolTable.init).non_terminals_ := by
    intro k hk
    obtain ⟨r, hr, rfl⟩ := List.mem_map.mp hk
    exact (h2 r hr).1
  have heol : EOL_ ∈ (grammar.foldl registerRule SymbolTable.init).terminals_ :=
    h1.1 (by simp [SymbolTable.init])
  refine ⟨fun k hk => hle.2 (hkey k hk), Or.inl (hle.1 heol),
    Or.inr (putSymbol_non_terminal_mem _ _), fun r hr p hp x hx => ?_,
    fun hS r hr p hp x hx => ?_⟩
  · rcases hcl r hr p hp x hx with h | h | h | h | h
    · exact Or.inl (hle.1 ((h2 r hr).2 p hp x hx (Or.inl h)))
    · exact Or.inl (hle.1 ((h2 r hr).2 p hp x hx (Or.inr h)))
    · exact Or.inl (hle.1 (h ▸ heol))
    · exact Or.inr (h ▸ putSymbol_non_terminal_mem _ _)
    · exact Or.inr (hle.2 (hkey x h))
  · rcases hcl r hr p hp x hx with h | h | h | h | h
    · exact Or.inl ((h2 r hr).2 p hp x hx (Or.inl h))
    · exact Or.inl ((h2 r hr).2 p hp x hx (Or.inr h))
    · exact Or.inl (h ▸ heol)
    · exact Or.inr (h ▸ hkey "S" hS)
    · exact Or.inr (hkey x h)

theorem head?_mem_of_valid {so : SetOrder} (hso : so.Valid) {s : Finset String} {x : String}
    (h : (so.elems s).head? = some x) : x ∈ s :=
  ((hso s).2 x).mp (List.mem_of_mem_head? h)

/-- C34 (amended): for a raw production map in which every symbol of a
production is `EPSILON`, begins with a lower-case letter, is the end marker
or `S`, or is a key of the map, every symbol that appears in a production of
the constructed grammar is registered in the symbol table as a terminal or a
non-terminal: for the constructor of `src/backend/grammar.cpp`, which writes
the rule `S -> A $`, when `A` is a key of the map, and for the constructor of
`src/backend/src/grammar.cpp`, which writes the rule of `S` from a registered
non-terminal, always; the latter constructor returns when the map is not
empty. -/
theorem C34_symbols_registered (grammar : List (String × List production)) (o : MapOrder)
    (so : SetOrder) (ho : o.Valid) (hso : so.Valid) (hcl : RawClosed grammar) :
    ("A" ∈ grammar.map Prod.fst → ∀ r ∈ (Grammar.create grammar o).g_, ∀ p ∈ r.2, ∀ x ∈ p,
      (Grammar.create grammar o).st_.Registered x) ∧
    (∀ g ∈ Grammar.createSrc grammar o so, ∀ r ∈ g.g_, ∀ p ∈ r.2, ∀ x ∈ p,
      g.st_.Registered x) ∧
    (grammar ≠ [] → (Grammar.createSrc grammar o so).isSome = true) := by
  obtain ⟨c1, c2, c3, c4, c5⟩ := registered_of_rawClosed grammar hcl
  refine ⟨fun hA r hr p hp x hx => ?_, fun g hg r hr p hp x hx => ?_, fun hne => ?_⟩
  · have hr' := (ho _).mem_iff.mp hr
    rcases (ruleAssign_mem_iff _ _ _ _).mp hr' with e | ⟨e, _⟩
    · subst e
      simp only [List.mem_singleton] at hp
      subst hp
      simp only [List.mem_cons, List.mem_singleton, List.not_mem_nil, or_false] at hx
      rcases hx with rfl | rfl
      · exact Or.inr (c1 "A" hA)
      · exact c2
    · exact c4 r e p hp x hx
  · unfold Grammar.createSrc at hg
    by_cases hS : "S" ∈ grammar.map Prod.fst
    · simp only [if_pos hS, Option.mem_def, Option.some.injEq] at hg
      subst hg
      exact c5 hS r ((ho _).mem_iff.mp hr) p hp x hx
    · simp only [if_neg hS] at hg
      cases hh : (so.elems (grammar.foldl registerRule SymbolTable.init).non_terminals_).head? with
      | none => rw [hh] at hg; cases hg
      | some nt =>
        rw [hh] at hg
        simp only [Option.mem_def, Option.some.injEq] at hg
        subst hg
        have hr' := (ho _).mem_iff.mp hr
        rcases (ruleAssign_mem_iff _ _ _ _).mp hr' with e | ⟨e, _⟩
        · subst e
          simp only [List.mem_singleton] at hp
          subst hp
          simp only [List.mem_cons, List.mem_singleton, List.not_mem_nil, or_false] at hx
          rcases hx with rfl | rfl
          · exact Or.inr ((putSymbol_le _ "S" false).2 (head?_mem_of_valid hso hh))
          · exact c2
        · exact c4 r e p hp x hx
  · unfold Grammar.createSrc
    by_cases hS : "S" ∈ grammar.map Prod.fst
    · simp [if_pos hS]
    · simp only [if_neg hS]
      cases hh : (so.elems (grammar.foldl registerRule SymbolTable.init).non_terminals_).head? with
      | some nt => rfl
      | none =>
        exfalso
        cases grammar with
        | nil => exact hne rfl
        | cons a l =>
          have hmem : a.1 ∈ ((a :: l).foldl registerRule SymbolTable.init).non_terminals_ :=
            ((registerRules_spec (a :: l) SymbolTable.init).2 a (List.mem_cons_self _ _)).1
          have := ((hso _).2 a.1).mpr hmem
          rw [List.head?_eq_none_iff] at hh
          rw [hh] at this
          cases this

theorem sortedSetOrder_valid : sortedSetOrder.Valid :=
  fun _ => ⟨Finset.sort_nodup _ _, fun _ => Finset.mem_sort _⟩

/-- The hypotheses of C34 hold for the raw map `A -> a B | c`, `B -> EPSILON`. -/
theorem C34_symbols_registered_witness :
    insertionOrder.Valid ∧ sortedSetOrder.Valid ∧
    RawClosed [("A", [["a", "B"], ["c"]]), ("B", [["EPSILON"]])] ∧
    (("A" ∈ [("A", [["a", "B"], ["c"]]), ("B", [["EPSILON"]])].map Prod.fst →
      ∀ r ∈ (Grammar.create [("A", [["a", "B"], ["c"]]), ("B", [["EPSILON"]])] insertionOrder).g_,
        ∀ p ∈ r.2, ∀ x ∈ p,
          (Grammar.create [("A", [["a", "B"], ["c"]]), ("B", [["EPSILON"]])]
            insertionOrder).st_.Registered x) ∧
    (∀ g ∈ Grammar.createSrc [("A", [["a", "B"], ["c"]]), ("B", [["EPSILON"]])] insertionOrder
        sortedSetOrder, ∀ r ∈ g.g_, ∀ p ∈ r.2, ∀ x ∈ p, g.st_.Registered x) ∧
    (([("A", [["a", "B"], ["c"]]), ("B", [["EPSILON"]])] : List (String × List production)) ≠ [] →
      (Grammar.createSrc [("A", [["a", "B"], ["c"]]), ("B", [["EPSILON"]])] insertionOrder
        sortedSetOrder).isSome = true)) :=
  ⟨insertionOrder_valid, sortedSetOrder_valid, by decide,
   C34_symbols_registered _ insertionOrder sortedSetOrder insertionOrder_valid
     sortedSetOrder_valid (by decide)⟩

/-- C34 fails as stated: from the raw map `B -> C` both constructors build,
for every traversal order, a grammar with the production `B -> C` whose symbol
`C` is registered neither as a terminal nor as a non-terminal, and the
constructor of `src/backend/grammar.cpp` writes the rule `S -> A $` whose
symbol `A` is not registered either. -/
theorem C34_unregistered_symbol_counterexample :
    rawGrammar = [("B", [["C"]])] ∧ ¬ RawClosed rawGrammar ∧
    ∀ (o : MapOrder) (so : SetOrder), o.Valid → so.Valid →
      (("B", [["C"]]) ∈ (Grammar.create rawGrammar o).g_ ∧
        ("S", [["A", "$"]]) ∈ (Grammar.create rawGrammar o).g_ ∧
        ¬ (Grammar.create rawGrammar o).st_.Registered "C" ∧
        ¬ (Grammar.create rawGrammar o).st_.Registered "A" ∧
        (Grammar.create rawGrammar o).st_.In "A" = false) ∧
      ∃ g, Grammar.createSrc rawGrammar o so = some g ∧ ("B", [["C"]]) ∈ g.g_ ∧
        ¬ g.st_.Registered "C" ∧ g.st_.In "C" = false := by
  refine ⟨rfl, by decide, ?_⟩
  intro o so ho hso
  have hC : ¬ ((rawGrammar.foldl registerRule SymbolTable.init).PutSymbol "S" false).Registered
      "C" := by decide
  have hA : ¬ ((rawGrammar.foldl registerRule SymbolTable.init).PutSymbol "S" false).Registered
      "A" := by decide
  have hA' : ((rawGrammar.foldl registerRule SymbolTable.init).PutSymbol "S" false).In "A" =
      false := by decide
  have hC' : ((rawGrammar.foldl registerRule SymbolTable.init).PutSymbol "S" false).In "C" =
      false := by decide
  refine ⟨⟨(ho _).mem_iff.mpr (by decide), (ho _).mem_iff.mpr (by decide), hC, hA, hA'⟩, ?_⟩
  unfold Grammar.createSrc
  rw [if_neg (by decide)]
  cases hh : (so.elems (rawGrammar.foldl registerRule SymbolTable.init).non_terminals_).head? with
  | none =>
    exfalso
    have := ((hso (rawGrammar.foldl registerRule SymbolTable.init).non_terminals_).2 "B").mpr
      (by decide)
    rw [List.head?_eq_none_iff] at hh
    rw [hh] at this
    cases this
  | some nt =>
    exact ⟨_, rfl, (ho _).mem_iff.mpr ((ruleAssign_mem _ _ _).2 _ (by decide) (by decide)),
      hC, hC'⟩

theorem cycleLoop_fuelMono (graph : SetMap) (o : GraphOrder) (d : UMap Int) (q : List String)
    (c : Int) : FuelMono (fun n => cycleLoop graph o n d q c) := by
  intro n
  induction n generalizing d q c with
  | zero => intro a h; cases h
  | succ n ih =>
    intro a h k hk
    obtain ⟨k, rfl⟩ : ∃ j, k = j + 1 := ⟨k - 1, by omega⟩
    cases q with
    | nil => exact h
    | cons u q =>
      simp only [cycleLoop] at h ⊢
      cases hf : graph.find? u with
      | none => rw [hf] at h; exact h
      | some adj =>
        rw [hf] at h
        exact ih _ _ _ a h k (by omega)

/-- C35: for every graph given as an adjacency map in which every adjacent
node is a key, with fewer than `2^31` nodes, and every traversal order of the
hash containers, `HasCycle` returns, its loop ends with `in_degree` holding
the nodes of the graph and a number of processed nodes that is at most the
number of nodes, and the result is true iff fewer nodes were processed than
the graph has, iff the graph has a directed cycle (a path of at least one
edge from a node to itself, so a self-loop is a cycle). -/
theorem C35_has_cycle_iff_cycle (graph : SetMap) (o : GraphOrder) (ho : o.Valid)
    (hcl : ∀ u ∈ graph.keys, graph.get u ⊆ graph.keys) (hsize : graph.keys.card < 2147483648) :
    ∃ (b : Bool) (d : UMap Int) (c : Int),
      Returns (HasCycle graph o) (some b) ∧
      Returns (fun n => cycleLoop graph o n (inDegrees graph o)
        ((o.degrees (inDegrees graph o).keys).filter fun node => (inDegrees graph o).get node = 0)
        0) (some (d, c)) ∧
      d.keys = graph.keys ∧ 0 ≤ c ∧ c ≤ graph.keys.card ∧
      (b = true ↔ c < graph.keys.card) ∧
      (b = true ↔ ∃ A, Relation.TransGen (GraphEdge graph) A A) := by
  obtain ⟨b, hb, hret⟩ := HasCycle_spec graph o ho hcl hsize
  have h1 := hret (graph.keys.card + 1) (by omega)
  cases hl : cycleLoop graph o (graph.keys.card + 1) (inDegrees graph o)
      ((o.degrees (inDegrees graph o).keys).filter fun node => (inDegrees graph o).get node = 0)
      0 with
  | none =>
    simp only [HasCycle, hl, Option.map_none'] at h1
    cases h1
  | some r =>
    cases r with
    | none =>
      simp only [HasCycle, hl, Option.map_some', Option.map_none'] at h1
      cases h1
    | some s =>
      obtain ⟨hk, hd⟩ := inDegrees_spec graph o ho hcl hsize
      obtain ⟨hg1, hg2⟩ := ho.2.2 (inDegrees graph o).keys
      have hinv : KahnInv graph ∅ (inDegrees graph o)
          ((o.degrees (inDegrees graph o).keys).filter fun node =>
            (inDegrees graph o).get node = 0) 0 := by
        refine ⟨hk, Finset.empty_subset _, by simp, ?_, hg1.filter _, ?_, ?_, ?_⟩
        · intro v
          rw [hd v, Finset.sdiff_empty]
        · intro v
          rw [List.mem_filter, hg2 v, hk]
          simp
        · intro u _ w _ hw
          exact absurd hw (Finset.not_mem_empty _)
        · intro w hw
          exact absurd hw (Finset.not_mem_empty _)
      obtain ⟨P', d', c', e1, e2⟩ := cycleLoop_spec graph o ho hsize (graph.keys.card + 1) ∅ _ _ 0
        hinv (by rw [Finset.sdiff_empty]; omega)
      rw [hl] at e1
      have hs : s = (d', c') := Option.some.inj (Option.some.inj e1)
      subst hs
      have hle := Finset.card_le_card e2.sub
      have hc := e2.count
      have hbv : b = decide (sizeCast c' ≠ (d'.keys.card : Int)) := by
        simp only [HasCycle, hl, Option.map_some'] at h1
        exact (Option.some.inj (Option.some.inj h1)).symm
      have hsc : sizeCast c' = c' := by
        unfold sizeCast
        omega
      refine ⟨b, d', c', ⟨graph.keys.card + 1, fun n hn => hret n (by omega)⟩,
        (cycleLoop_fuelMono graph o _ _ _).returns hl, e2.keys, by omega, by omega, ?_, hb⟩
      rw [hbv, hsc, e2.keys]
      simp only [ne_eq, decide_eq_true_eq]
      omega

/-- The hypotheses of C35 hold for the graph `A -> B`, `B -> A`, `C -> A`,
which has the cycle `A -> B -> A`. -/
theorem C35_has_cycle_iff_cycle_witness :
    sortedGraphOrder.Valid ∧ (∀ u ∈ loopGraph.keys, loopGraph.get u ⊆ loopGraph.keys) ∧
    loopGraph.keys.card < 2147483648 ∧
    (∃ A, Relation.TransGen (GraphEdge loopGraph) A A) ∧
    ∃ (b : Bool) (d : UMap Int) (c : Int),
      Returns (HasCycle loopGraph sortedGraphOrder) (some b) ∧
      Returns (fun n => cycleLoop loopGraph sortedGraphOrder n (inDegrees loopGraph sortedGraphOrder)
        ((sortedGraphOrder.degrees (inDegrees loopGraph sortedGraphOrder).keys).filter fun node =>
          (inDegrees loopGraph sortedGraphOrder).get node = 0) 0) (some (d, c)) ∧
      d.keys = loopGraph.keys ∧ 0 ≤ c ∧ c ≤ loopGraph.keys.card ∧
      (b = true ↔ c < loopGraph.keys.card) ∧
      (b = true ↔ ∃ A, Relation.TransGen (GraphEdge loopGraph) A A) :=
  ⟨graphOrder_sorted_valid, by decide, by decide,
   ⟨"A", Relation.TransGen.tail
     (Relation.TransGen.single (⟨by decide, by decide⟩ : GraphEdge loopGraph "A" "B"))
     (⟨by decide, by decide⟩ : GraphEdge loopGraph "B" "A")⟩,
   C35_has_cycle_iff_cycle loopGraph sortedGraphOrder graphOrder_sorted_valid (by decide)
     (by decide)⟩

/-! ## `LongestCommonPrefix` (C36) -/

theorem stringLess_cons (x y : Char) (a b : List Char) :
    stringLess (x :: a) (y :: b) = true ↔
      x.toNat < y.toNat ∨ (x.toNat = y.toNat ∧ stringLess a b = true) := by
  simp only [stringLess]
  split_ifs with h1 h2
  · simp [h1]
  · constructor
    · intro h; cases h
    · rintro (h | ⟨h, _⟩) <;> omega
  · constructor
    · intro h; exact Or.inr ⟨by omega, h⟩
    · rintro (h | ⟨_, h⟩)
      · omega
      · exact h

theorem stringLess_irrefl (a : List Char) : stringLess a a = false := by
  induction a with
  | nil => rfl
  | cons x a ih =>
    rw [Bool.eq_false_iff]
    intro h
    rcases (stringLess_cons x x a a).mp h with h | ⟨_, h⟩
    · omega
    · rw [ih] at h; cases h

theorem stringLess_trans : ∀ (a b c : List Char), stringLess a b = true →
    stringLess b c = true → stringLess a c = true := by
  intro a
  induction a with
  | nil =>
    intro b c h1 h2
    cases b with
    | nil => cases h1
    | cons y b =>
      cases c with
      | nil => cases h2
      | cons z c => rfl
  | cons x a ih =>
    intro b c h1 h2
    cases b with
    | nil => cases h1
    | cons y b =>
      cases c with
      | nil => cases h2
      | cons z c =>
        rw [stringLess_cons] at h1 h2 ⊢
        rcases h1 with h1 | ⟨e1, h1⟩
        · rcases h2 with h2 | ⟨e2, _⟩
          · exact Or.inl (by omega)
          · exact Or.inl (by omega)
        · rcases h2 with h2 | ⟨e2, h2⟩
          · exact Or.inl (by omega)
          · exact Or.inr ⟨by omega, ih b c h1 h2⟩

theorem stringLess_tri : ∀ (a b : List Char), stringLess a b = false →
    stringLess b a = false → a = b := by
  intro a
  induction a with
  | nil =>
    intro b h1 _
    cases b with
    | nil => rfl
    | cons y b => cases h1
  | cons x a ih =>
    intro b h1 h2
    cases b with
    | nil => cases h2
    | cons y b =>
      rw [Bool.eq_false_iff, ne_eq, stringLess_cons] at h1 h2
      push_neg at h1 h2
      have hxy : x.toNat = y.toNat := by omega
      have hx : x = y := Char.ext (UInt32.toNat.inj hxy)
      have e1 : stringLess a b = false := by
        rw [Bool.eq_false_iff]; exact h1.2 hxy
      have e2 : stringLess b a = false := by
        rw [Bool.eq_false_iff]; exact h2.2 hxy.symm
      rw [hx, ih b e1 e2]

theorem productionLess_cons (x y : String) (a b : List String) :
    productionLess (x :: a) (y :: b) = true ↔
      stringLess x.data y.data = true ∨ (x = y ∧ productionLess a b = true) := by
  simp only [productionLess]
  split_ifs with h1 h2
  · simp [h1]
  · constructor
    · intro h; cases h
    · rintro (h | ⟨h, _⟩)
      · exact absurd h h1
      · rw [h, stringLess_irrefl] at h2; cases h2
  · have hxy : x = y := String.ext (stringLess_tri _ _ (by simpa using h1) (by simpa using h2))
    constructor
    · intro h; exact Or.inr ⟨hxy, h⟩
    · rintro (h | ⟨_, h⟩)
      · exact absurd h h1
      · exact h

theorem productionLess_irrefl (a : List String) : productionLess a a = false := by
  induction a with
  | nil => rfl
  | cons x a ih =>
    rw [Bool.eq_false_iff]
    intro h
    rcases (productionLess_cons x x a a).mp h with h | ⟨_, h⟩
    · rw [stringLess_irrefl] at h; cases h
    · rw [ih] at h; cases h

theorem productionLess_trans : ∀ (a b c : List String), productionLess a b = true →
    productionLess b c = true → productionLess a c = true := by
  intro a
  induction a with
  | nil =>
    intro b c h1 h2
    cases b with
    | nil => cases h1
    | cons y b =>
      cases c with
      | nil => cases h2
      | cons z c => rfl
  | cons x a ih =>
    intro b c h1 h2
    cases b with
    | nil => cases h1
    | cons y b =>
      cases c with
      | nil => cases h2
      | cons z c =>
        rw [productionLess_cons] at h1 h2 ⊢
        rcases h1 with h1 | ⟨e1, h1⟩
        · rcases h2 with h2 | ⟨e2, _⟩
          · exact Or.inl (stringLess_trans _ _ _ h1 h2)
          · exact Or.inl (e2 ▸ h1)
        · rcases h2 with h2 | ⟨e2, h2⟩
          · exact Or.inl (e1 ▸ h2)
          · exact Or.inr ⟨e1.trans e2, ih b c h1 h2⟩

theorem productionLess_tri : ∀ (a b : List String), productionLess a b = false →
    productionLess b a = false → a = b := by
  intro a
  induction a with
  | nil =>
    intro b h1 _
    cases b with
    | nil => rfl
    | cons y b => cases h1
  | cons x a ih =>
    intro b h1 h2
    cases b with
    | nil => cases h2
    | cons y b =>
      rw [Bool.eq_false_iff, ne_eq, productionLess_cons] at h1 h2
      push_neg at h1 h2
      have hxy : x = y := String.ext (stringLess_tri _ _ (by simpa using h1.1) (by simpa using h2.1))
      have e1 : productionLess a b = false := by
        rw [Bool.eq_false_iff]; exact h1.2 hxy
      have e2 : productionLess b a = false := by
        rw [Bool.eq_false_iff]; exact h2.2 hxy.symm
      rw [hxy, ih b e1 e2]

theorem productionLe_total (a b : List String) : productionLe a b ∨ productionLe b a := by
  by_contra h
  push_neg at h
  have h1 : productionLess b a = true := by simpa [productionLe] using h.1
  have h2 : productionLess a b = true := by simpa [productionLe] using h.2
  have := productionLess_trans a b a h2 h1
  rw [productionLess_irrefl] at this
  cases this

theorem productionLe_trans (a b c : List String) (h1 : productionLe a b)
    (h2 : productionLe b c) : productionLe a c := by
  show productionLess c a = false
  rw [Bool.eq_false_iff]
  intro h
  cases hab : productionLess a b with
  | true =>
    have := productionLess_trans c a b h hab
    rw [h2] at this
    cases this
  | false =>
    have e := productionLess_tri a b hab h1
    subst e
    rw [h2] at h
    cases h

/-- The first and the last of the sorted productions bound every
production. -/
theorem insertionSort_bounds (ps : List production) (first last : production)
    (hf : (ps.insertionSort productionLe).head? = some first)
    (hl : (ps.insertionSort productionLe).getLast? = some last) :
    first ∈ ps ∧ last ∈ ps ∧ ∀ p ∈ ps, productionLe first p ∧ productionLe p last := by
  haveI : IsTotal (List String) productionLe := ⟨productionLe_total⟩
  haveI : IsTrans (List String) productionLe := ⟨productionLe_trans⟩
  have hs := List.sorted_insertionSort productionLe ps
  have hperm := List.perm_insertionSort productionLe ps
  obtain ⟨init, hinit⟩ := List.getLast?_eq_some_iff.mp hl
  refine ⟨hperm.mem_iff.mp (List.mem_of_mem_head? hf),
    hperm.mem_iff.mp (by rw [hinit]; simp), fun p hp => ?_⟩
  have hp' := hperm.mem_iff.mpr hp
  constructor
  · cases hc : ps.insertionSort productionLe with
    | nil => rw [hc] at hf; cases hf
    | cons x rest =>
      rw [hc] at hf hs hp'
      simp only [List.head?_cons, Option.some.injEq] at hf
      subst hf
      rcases List.mem_cons.mp hp' with rfl | hp'
      · exact productionLess_irrefl _
      · exact List.rel_of_sorted_cons hs p hp'
  · rw [hinit] at hs hp'
    rcases List.mem_append.mp hp' with hp' | hp'
    · exact (List.pairwise_append.mp hs).2.2 p hp' last (List.mem_singleton_self _)
    · rw [List.mem_singleton.mp hp']
      exact productionLess_irrefl _

/-- A production between `a` and `c` in the order begins with the symbols on
which `a` and `c` agree. -/
theorem take_matchLength_prefix : ∀ (a b c : List String), productionLe a b →
    productionLe b c → a.take (matchLength a c) <+: b := by
  intro a
  induction a with
  | nil => intro b c _ _; simp
  | cons x a ih =>
    intro b c h1 h2
    cases c with
    | nil => simp [matchLength]
    | cons z c =>
      by_cases hxz : x = z
      · subst hxz
        cases b with
        | nil => cases h1
        | cons y b =>
          have g1 : ¬ productionLess (y :: b) (x :: a) = true := by
            rw [show productionLess (y :: b) (x :: a) = false from h1]; simp
          have g2 : ¬ productionLess (x :: c) (y :: b) = true := by
            rw [show productionLess (x :: c) (y :: b) = false from h2]; simp
          rw [productionLess_cons] at g1 g2
          push_neg at g1 g2
          have hxy : x = y :=
            String.ext (stringLess_tri _ _ (by simpa using g2.1) (by simpa using g1.1))
          subst hxy
          have e1 : productionLe a b := by
            show productionLess b a = false
            rw [Bool.eq_false_iff]; exact g1.2 rfl
          have e2 : productionLe b c := by
            show productionLess c b = false
            rw [Bool.eq_false_iff]; exact g2.2 rfl
          simp only [matchLength, if_true, List.take_succ_cons]
          exact (List.prefix_cons_inj x).mpr (ih b c e1 e2)
      · simp [matchLength, hxz]

/-- A common prefix of `a` and `c` is a prefix of the symbols on which they
agree. -/
theorem prefix_take_matchLength : ∀ (q a c : List String), q <+: a → q <+: c →
    q <+: a.take (matchLength a c) := by
  intro q
  induction q with
  | nil => intro a c _ _; exact List.nil_prefix
  | cons x q ih =>
    intro a c h1 h2
    obtain ⟨r1, rfl⟩ := h1
    obtain ⟨r2, rfl⟩ := h2
    simp only [List.cons_append, matchLength, if_true, List.take_succ_cons]
    exact (List.prefix_cons_inj x).mpr (ih _ _ (List.prefix_append _ _) (List.prefix_append _ _))

/-- C36: for every list of productions, `LongestCommonPrefix` returns the
empty sequence when the list has fewer than two productions, and otherwise
the longest sequence that is a prefix of every production of the list: it is
a prefix of every production, and every sequence that is a prefix of every
production is a prefix of it. -/
theorem C36_longest_common_prefix (ps : List production) :
    (ps.length < 2 → LongestCommonPrefix ps = []) ∧
    (2 ≤ ps.length →
      (∀ p ∈ ps, LongestCommonPrefix ps <+: p) ∧
      ∀ q : List String, (∀ p ∈ ps, q <+: p) → q <+: LongestCommonPrefix ps) := by
  constructor
  · intro h
    simp [LongestCommonPrefix, h]
  · intro h
    have hlen := (List.perm_insertionSort productionLe ps).length_eq
    cases hf : (ps.insertionSort productionLe).head? with
    | none =>
      rw [List.head?_eq_none_iff] at hf
      rw [hf] at hlen
      simp at hlen
      omega
    | some first =>
      cases hl : (ps.insertionSort productionLe).getLast? with
      | none =>
        rw [List.getLast?_eq_none_iff] at hl
        rw [hl] at hf
        cases hf
      | some last =>
        obtain ⟨m1, m2, hb⟩ := insertionSort_bounds ps first last hf hl
        have e : LongestCommonPrefix ps = first.take (matchLength first last) := by
          unfold LongestCommonPrefix
          rw [if_neg (by omega)]
          simp only
          rw [show (ps.insertionSort fun a b => productionLess b a = false) =
            ps.insertionSort productionLe from rfl, hf, hl]
        rw [e]
        exact ⟨fun p hp => take_matchLength_prefix first p last (hb p hp).1 (hb p hp).2,
          fun q hq => prefix_take_matchLength q first last (hq first m1) (hq last m2)⟩

/-! ## `EPSILON_` in the FOLLOW sets and the prediction symbols (C37) -/

/-- The FOLLOW sets of a new `LL1Parser` form the least family that satisfies
the conditions of the FOLLOW computation. -/
theorem create_follow_least (gr : Grammar) :
    ∃ P, Returns (LL1Parser.create gr) P ∧
      FollowConditions gr P.first_sets_ P.follow_sets_.get ∧
      ∀ F, FollowConditions gr P.first_sets_ F → ∀ X, P.follow_sets_.get X ⊆ F X := by
  obtain ⟨P, T, R, hP, hT, hR, rfl⟩ := create_returns gr
  obtain ⟨R', hR', hW, hle, hcl, hleast⟩ := ComputeFollowSets_returns gr T UMap.empty
  obtain rfl := Returns.unique hR hR'
  refine ⟨_, hP, ?_, ?_⟩
  · simp only
    rw [followConditions_iff, hW]
    obtain ⟨_, _, _, a4, _⟩ := (followReset_le_iff gr UMap.empty _).mp hle
    exact ⟨a4, fun s hs => (hcl s hs).2⟩
  · simp only
    intro F hF X
    rw [followConditions_iff, hW] at hF
    obtain ⟨a1, a2, a3, a4, a5⟩ := (followReset_le_iff gr UMap.empty _).mp hle
    have hy : AState.le R.2.abs (R.2.abs.1, fun k => F k ∩ R.2.abs.2 k) := by
      apply hleast
      · apply (followReset_le_iff gr UMap.empty _).mpr
        refine ⟨a1, a2, a3, Finset.mem_inter.mpr ⟨hF.1, a4⟩, fun k hk => ?_⟩
        rw [UMap.empty_get]; exact Finset.empty_subset _
      · exact meet_closed (followSteps_mono gr T.get) hcl hF.2
    exact (hy.2 X).trans Finset.inter_subset_left

/-- The conditions of the FOLLOW computation survive the removal of
`EPSILON_` from every set. -/
theorem followConditions_erase (gr : Grammar) (fi : SetMap) (F : Family)
    (h : FollowConditions gr fi F) :
    FollowConditions gr fi fun X => (F X).erase EPSILON_ := by
  obtain ⟨h1, h2⟩ := h
  refine ⟨Finset.mem_erase.mpr ⟨by decide, h1⟩, fun r hr p hp α B β hsplit hB => ?_⟩
  obtain ⟨g1, g2⟩ := h2 r hr p hp α B β hsplit hB
  constructor
  · intro x hx
    exact Finset.mem_erase.mpr ⟨(Finset.mem_erase.mp hx).1, g1 hx⟩
  · intro he x hx
    obtain ⟨hne, hx'⟩ := Finset.mem_erase.mp hx
    exact Finset.mem_erase.mpr ⟨hne, g2 he hx'⟩

/-- C37: for every grammar, the parser built by the constructor of `LL1Parser`
(`ComputeFirstSets` followed by `ComputeFollowSets`) has no `EPSILON_` in any
entry of `follow_sets_`, and with these FOLLOW sets `PredictionSymbols(A, p)`
holds no `EPSILON_`, for every antecedent `A`, every sequence `p` and every
state of the cache `first_sets_`. -/
theorem C37_epsilon_never_in_follow (gr : Grammar) :
    ∃ P, Returns (LL1Parser.create gr) P ∧
      (∀ X, EPSILON_ ∉ P.follow_sets_.get X) ∧
      (∀ X s, P.follow_sets_.find? X = some s → EPSILON_ ∉ s) ∧
      ∀ (fi : SetMap) (A : String) (p : List String),
        EPSILON_ ∉ (PredictionSymbols gr fi P.follow_sets_ A p).1 := by
  obtain ⟨P, hP, hc, hleast⟩ := create_follow_least gr
  have hfree : ∀ X, EPSILON_ ∉ P.follow_sets_.get X := by
    intro X hX
    have := hleast _ (followConditions_erase gr _ _ hc) X hX
    exact (Finset.mem_erase.mp this).1 rfl
  have hfind : ∀ X s, P.follow_sets_.find? X = some s → EPSILON_ ∉ s := by
    intro X s hs
    rw [find?_eq_some_get _ hs]
    exact hfree X
  refine ⟨P, hP, hfree, hfind, fun fi A p => ?_⟩
  unfold PredictionSymbols
  simp only
  split_ifs with h
  · intro hmem
    rcases Finset.mem_union.mp hmem with h1 | h1
    · exact (Finset.mem_erase.mp h1).1 rfl
    · unfold Follow at h1
      cases hf : P.follow_sets_.find? A with
      | none => rw [hf] at h1; simp at h1
      | some s =>
        rw [hf] at h1
        exact hfind A s hf h1
  · exact h

theorem epsilonLast_cons {x : String} {rest : List String} (h : EpsilonLast (x :: rest)) :
    EpsilonLast rest ∧ (x = EPSILON_ → rest = []) := by
  constructor
  · intro t ht
    exact h t (by simp [List.tails, ht])
  · intro hx
    have := h (x :: rest) (by simp [List.tails]) (by simp [hx])
    simp only [List.length_cons, add_left_eq_self, List.length_eq_zero] at this
    exact this

theorem First_eq_of_epsilonLast (gr : Grammar) : ∀ (rule : List String) (fs : SetMap)
    (result : Finset String), EpsilonLast rule →
    First gr rule fs result = SLR1Parser.First gr rule fs result := by
  intro rule
  induction rule with
  | nil => intro fs result _; rfl
  | cons x rest ih =>
    intro fs result h
    obtain ⟨h1, h2⟩ := epsilonLast_cons h
    unfold First SLR1Parser.First
    by_cases hc : (x :: rest).length = 1 ∧ x = EPSILON_
    · rw [if_pos hc, if_pos hc]
    · rw [if_neg hc, if_neg hc]
      have hc2 : ¬ (1 < (x :: rest).length ∧ x = EPSILON_) := by
        rintro ⟨_, hx⟩
        exact hc ⟨by rw [h2 hx]; rfl, hx⟩
      rw [if_neg hc2]
      simp only [ih _ _ h1]

theorem firstPass_eq_of_epsilonLast (gr : Grammar)
    (h : ∀ r ∈ gr.g_, ∀ p ∈ r.2, EpsilonLast p) (fs : SetMap) :
    firstPass gr fs = SLR1Parser.firstPass gr fs := by
  unfold firstPass SLR1Parser.firstPass
  apply List.foldl_ext
  intro m r hr
  apply List.foldl_ext
  intro m' p hp
  unfold firstProd SLR1Parser.firstProd
  rw [First_eq_of_epsilonLast gr p m' ∅ (h r hr p hp)]

theorem firstLoop_eq_of_epsilonLast (gr : Grammar)
    (h : ∀ r ∈ gr.g_, ∀ p ∈ r.2, EpsilonLast p) :
    ∀ (n : Nat) (fs : SetMap), firstLoop gr n fs = SLR1Parser.firstLoop gr n fs := by
  intro n
  induction n with
  | zero => intro fs; rfl
  | succ n ih =>
    intro fs
    unfold firstLoop SLR1Parser.firstLoop
    simp only [firstPass_eq_of_epsilonLast gr h, ih]

theorem followProd_eq_of_epsilonLast (gr : Grammar) (lhs : String) :
    ∀ (rhs : List String) (s : FollowState), EpsilonLast rhs →
      followProd gr lhs rhs s = SLR1Parser.followProd gr lhs rhs s := by
  intro rhs
  induction rhs with
  | nil => intro s _; rfl
  | cons x rest ih =>
    intro s h
    obtain ⟨h1, _⟩ := epsilonLast_cons h
    unfold followProd SLR1Parser.followProd
    have hat : followAt gr lhs x rest s = SLR1Parser.followAt gr lhs x rest s := by
      unfold followAt SLR1Parser.followAt
      rw [First_eq_of_epsilonLast gr rest s.first ∅ h1]
    rw [hat, ih _ h1]

theorem followLoop_eq_of_epsilonLast (gr : Grammar)
    (h : ∀ r ∈ gr.g_, ∀ p ∈ r.2, EpsilonLast p) :
    ∀ (n : Nat) (fi fo : SetMap), followLoop gr n fi fo = SLR1Parser.followLoop gr n fi fo := by
  have hpass : ∀ s, followPass gr s = SLR1Parser.followPass gr s := by
    intro s
    unfold followPass SLR1Parser.followPass
    apply List.foldl_ext
    intro s1 r hr
    apply List.foldl_ext
    intro s2 p hp
    exact followProd_eq_of_epsilonLast gr r.1 p s2 (h r hr p hp)
  intro n
  induction n with
  | zero => intro fi fo; rfl
  | succ n ih =>
    intro fi fo
    unfold followLoop SLR1Parser.followLoop
    simp only [hpass, ih]

/-- C39 fails: `SLR1Parser::First` has no case for `EPSILON_` at the head of
a longer sequence, which `LL1Parser::First` skips.  The two agree on every
sequence in which no `EPSILON_` is followed by a further symbol, and compute
the same `first_sets_` and `follow_sets_` for every grammar all of whose
productions are such.  For the grammar `S -> A $`,
`A -> B EPSILON a | EPSILON c`, `B -> b` (with `EPSILON` a registered
terminal) they differ: on the sequence `EPSILON c` the one yields `c` and the
other `EPSILON`, the computed `first_sets_` of `A` are `b, c` and
`b, EPSILON`, and the computed `follow_sets_` of `B` are `a` and `$`. -/
theorem C39_first_implementations_differ :
    (∀ (gr : Grammar) (rule : List String) (fs : SetMap) (result : Finset String),
      EpsilonLast rule → First gr rule fs result = SLR1Parser.First gr rule fs result) ∧
    (∀ gr : Grammar, (∀ r ∈ gr.g_, ∀ p ∈ r.2, EpsilonLast p) → ∀ (fi fo : SetMap) (fuel : Nat),
      ComputeFirstSets gr fi fuel = SLR1Parser.ComputeFirstSets gr fi fuel ∧
      ComputeFollowSets gr fi fo fuel = SLR1Parser.ComputeFollowSets gr fi fo fuel) ∧
    (∀ fs : SetMap, (First epsilonMidGrammar ["EPSILON", "c"] fs ∅).1 = {"c"} ∧
      (SLR1Parser.First epsilonMidGrammar ["EPSILON", "c"] fs ∅).1 = {"EPSILON"}) ∧
    (∃ T1 T2 R1 R2, Returns (ComputeFirstSets epsilonMidGrammar UMap.empty) T1 ∧
      Returns (SLR1Parser.ComputeFirstSets epsilonMidGrammar UMap.empty) T2 ∧
      Returns (ComputeFollowSets epsilonMidGrammar T1 UMap.empty) R1 ∧
      Returns (SLR1Parser.ComputeFollowSets epsilonMidGrammar T2 UMap.empty) R2 ∧
      T1.get "A" = {"b", "c"} ∧ T2.get "A" = {"b", "EPSILON"} ∧
      R1.2.get "B" = {"a"} ∧ R2.2.get "B" = {"$"}) := by
  refine ⟨fun gr rule fs result h => First_eq_of_epsilonLast gr rule fs result h,
    fun gr h fi fo fuel => ⟨firstLoop_eq_of_epsilonLast gr h fuel _,
      followLoop_eq_of_epsilonLast gr h fuel _ _⟩, fun fs => ?_, ?_⟩
  · have ht : epsilonMidGrammar.st_.IsTerminal "EPSILON" = true := by decide
    have hc : epsilonMidGrammar.st_.IsTerminal "c" = true := by decide
    constructor
    · simp [First, EPSILON_, EOL_, hc]
    · simp [SLR1Parser.First, EPSILON_, EOL_, ht]
  · have e1 : ∃ T ∈ ComputeFirstSets epsilonMidGrammar UMap.empty 6, T.get "A" = {"b", "c"} ∧
        ∃ R ∈ ComputeFollowSets epsilonMidGrammar T UMap.empty 6, R.2.get "B" = {"a"} := by
      decide
    have e2 : ∃ T ∈ SLR1Parser.ComputeFirstSets epsilonMidGrammar UMap.empty 6,
        T.get "A" = {"b", "EPSILON"} ∧
        ∃ R ∈ SLR1Parser.ComputeFollowSets epsilonMidGrammar T UMap.empty 6,
          R.2.get "B" = {"$"} := by
      decide
    obtain ⟨T1, a1, a2, R1, a3, a4⟩ := e1
    obtain ⟨T2, b1, b2, R2, b3, b4⟩ := e2
    exact ⟨T1, T2, R1, R2, (ComputeFirstSets_fuelMono _ _).returns a1,
      (slr_ComputeFirstSets_fuelMono _ _).returns b1,
      (ComputeFollowSets_fuelMono _ _ _).returns a3,
      (slr_ComputeFollowSets_fuelMono _ _ _).returns b3, a2, b2, a4, b4⟩

theorem frontOrder_valid (x : Lr0Item) : (frontOrder x).Valid := by
  refine ⟨fun _ s => ⟨Finset.sort_nodup _ s, fun _ => Finset.mem_sort _⟩,
    fun _ _ s => ⟨Finset.sort_nodup _ s, fun _ => Finset.mem_sort _⟩,
    fun _ s => ?_, fun l => List.Perm.refl l⟩
  show (if x ∈ s then x :: (s.erase x).sort (· ≤ ·) else s.sort (· ≤ ·)).Nodup ∧
    ∀ y, y ∈ (if x ∈ s then x :: (s.erase x).sort (· ≤ ·) else s.sort (· ≤ ·)) ↔ y ∈ s
  split_ifs with hx
  · refine ⟨List.nodup_cons.mpr ⟨by simp, Finset.sort_nodup _ _⟩, fun y => ?_⟩
    simp only [List.mem_cons, Finset.mem_sort, Finset.mem_erase]
    constructor
    · rintro (rfl | ⟨_, h⟩)
      · exact hx
      · exact h
    · intro hy
      by_cases e : y = x
      · exact Or.inl e
      · exact Or.inr ⟨e, hy⟩
  · exact ⟨Finset.sort_nodup _ s, fun _ => Finset.mem_sort _⟩

theorem frontOrder_items_pair (x y : Lr0Item) (hxy : x ≠ y) (c : Nat) :
    (frontOrder x).items c {x, y} = [x, y] ∧ (frontOrder y).items c {x, y} = [y, x] := by
  constructor
  · show (if x ∈ ({x, y} : Finset Lr0Item) then x :: (({x, y} : Finset Lr0Item).erase x).sort
      (· ≤ ·) else _) = _
    rw [if_pos (by simp)]
    have : (({x, y} : Finset Lr0Item).erase x) = {y} := by
      ext z
      simp only [Finset.mem_erase, Finset.mem_insert, Finset.mem_singleton]
      constructor
      · rintro ⟨h1, h2 | h2⟩
        · exact absurd h2 h1
        · exact h2
      · rintro rfl
        exact ⟨fun e => hxy e.symm, Or.inr rfl⟩
    rw [this, Finset.sort_singleton]
  · show (if y ∈ ({x, y} : Finset Lr0Item) then y :: (({x, y} : Finset Lr0Item).erase y).sort
      (· ≤ ·) else _) = _
    rw [if_pos (by simp)]
    have : (({x, y} : Finset Lr0Item).erase y) = {x} := by
      ext z
      simp only [Finset.mem_erase, Finset.mem_insert, Finset.mem_singleton]
      constructor
      · rintro ⟨h1, h2 | h2⟩
        · exact h2
        · exact absurd h2 h1
      · rintro rfl
        exact ⟨hxy, Or.inl rfl⟩
    rw [this, Finset.sort_singleton]

theorem list_eq_singleton_of_nodup {α : Type} {l : List α} {a : α} (hnd : l.Nodup)
    (hmem : ∀ x, x ∈ l ↔ x = a) : l = [a] := by
  cases l with
  | nil => exact absurd ((hmem a).mpr rfl) (List.not_mem_nil a)
  | cons x l =>
    have hx : x = a := (hmem x).mp (List.mem_cons_self _ _)
    subst hx
    cases l with
    | nil => rfl
    | cons y l =>
      have hy : y = x := (hmem y).mp (by simp)
      subst hy
      simp at hnd

theorem list_eq_pair_of_nodup {α : Type} {l : List α} {a b : α} (hnd : l.Nodup)
    (hmem : ∀ x, x ∈ l ↔ x = a ∨ x = b) (hab : a ≠ b) : l = [a, b] ∨ l = [b, a] := by
  cases l with
  | nil => exact absurd ((hmem a).mpr (Or.inl rfl)) (List.not_mem_nil a)
  | cons x l =>
    rw [List.nodup_cons] at hnd
    rcases (hmem x).mp (List.mem_cons_self _ _) with rfl | rfl
    · left
      congr 1
      apply list_eq_singleton_of_nodup hnd.2
      intro z
      constructor
      · intro hz
        rcases (hmem z).mp (List.mem_cons_of_mem _ hz) with e | e
        · subst e; exact absurd hz hnd.1
        · exact e
      · rintro rfl
        rcases List.mem_cons.mp ((hmem z).mpr (Or.inr rfl)) with e | e
        · exact absurd e.symm hab
        · exact e
    · right
      congr 1
      apply list_eq_singleton_of_nodup hnd.2
      intro z
      constructor
      · intro hz
        rcases (hmem z).mp (List.mem_cons_of_mem _ hz) with e | e
        · exact e
        · subst e; exact absurd hz hnd.1
      · rintro rfl
        rcases List.mem_cons.mp ((hmem z).mpr (Or.inl rfl)) with e | e
        · exact absurd e hab
        · exact e

/-- Without an `Accept` against a `Reduce` on the end marker, the verdict of
`SolveLRConflicts` on an empty row is `false` iff the state holds a
shift/reduce or a reduce/reduce conflict. -/
theorem solve_verdict_iff (gr : Grammar) (fo : SetMap) {o : HashOrder} (ho : o.Valid)
    (st : state) (a0 : action_table) (hempty : ∀ y, actLookup a0 st.id_ y = none)
    (hno : ¬ AcceptReduceConflict gr fo st.items_) :
    (SLR1Parser.SolveLRConflicts gr fo o a0 st).1 = false ↔
      ∃ t, ReduceConflictOn gr fo st.items_ t := by
  obtain ⟨_, s2, s3⟩ := SolveLRConflicts_spec gr fo ho st a0 hempty
  constructor
  · intro hb
    obtain ⟨x, hx, y, hy, t, hr, hc⟩ := s2 hb
    refine ⟨t, x, hx, y, hy, hr, ?_⟩
    rcases hc with hc | hc | hc
    · exact Or.inl hc
    · exfalso
      have ht : t = EOL_ := hc.2.2
      subst ht
      exact hno ⟨y, hy, x, hx, hc, hr⟩
    · exact Or.inr hc
  · rintro ⟨t, hc⟩
    refine s3 t hc ?_
    by_cases ht : t = EOL_
    · right
      intro it hit hacc
      obtain ⟨x, hx, _, _, hr, _⟩ := hc
      subst ht
      exact hno ⟨it, hit, x, hx, hacc, hr⟩
    · exact Or.inl ht

/-- The verdict on the state `S -> A .`, `A -> A .` when the end marker is
the FOLLOW set of `A`: `false` when the item of the axiom is visited first,
`true` when it is visited last. -/
theorem accept_reduce_verdict (fo : SetMap) (hfo : SLR1Parser.Follow fo "A" = {"$"})
    (o : HashOrder) (ho : o.Valid) :
    (o.items 1 {acceptItem, reduceItem} = [acceptItem, reduceItem] →
      (SLR1Parser.SolveLRConflicts acceptReduceGrammar fo o IdMap.empty acceptReduceState).1 =
        false) ∧
    (o.items 1 {acceptItem, reduceItem} = [reduceItem, acceptItem] →
      (SLR1Parser.SolveLRConflicts acceptReduceGrammar fo o IdMap.empty acceptReduceState).1 =
        true) := by
  have hfl : o.follows 1 reduceItem (SLR1Parser.Follow fo "A") = ["$"] := by
    rw [hfo]
    obtain ⟨hnd, hmem⟩ := ho.2.1 1 reduceItem {"$"}
    exact list_eq_singleton_of_nodup hnd (fun x => by rw [hmem]; simp)
  have hacc : ∀ a, solveItem acceptReduceGrammar fo o 1 a acceptItem =
      (true, (a.touch 1).set 1 (((a.touch 1).get 1).set EOL_ ⟨none, Action.Accept⟩)) :=
    fun a => rfl
  have hred : ∀ a, solveItem acceptReduceGrammar fo o 1 a reduceItem =
      forUntilFalse (reduceStep 1 reduceItem) (o.follows 1 reduceItem (SLR1Parser.Follow fo "A"))
        a :=
    fun a => rfl
  constructor
  · intro hi
    show (forUntilFalse (solveItem acceptReduceGrammar fo o 1) (o.items 1 {acceptItem, reduceItem})
      IdMap.empty).1 = false
    rw [hi]
    simp only [forUntilFalse, hacc, hred, hfl, if_true]
    decide
  · intro hi
    show (forUntilFalse (solveItem acceptReduceGrammar fo o 1) (o.items 1 {acceptItem, reduceItem})
      IdMap.empty).1 = true
    rw [hi]
    simp only [forUntilFalse, hacc, hred, hfl]
    decide

theorem acceptReduce_follow :
    ∃ fi R, Returns (SLR1Parser.ComputeFirstSets acceptReduceGrammar UMap.empty) fi ∧
      Returns (SLR1Parser.ComputeFollowSets acceptReduceGrammar fi UMap.empty) R ∧
      SLR1Parser.Follow R.2 "A" = {"$"} := by
  have e : ∃ fi ∈ SLR1Parser.ComputeFirstSets acceptReduceGrammar UMap.empty 5,
      ∃ R ∈ SLR1Parser.ComputeFollowSets acceptReduceGrammar fi UMap.empty 5,
        SLR1Parser.Follow R.2 "A" = {"$"} := by decide
  obtain ⟨fi, h1, R, h2, h3⟩ := e
  exact ⟨fi, R, (slr_ComputeFirstSets_fuelMono _ _).returns h1,
    (slr_ComputeFollowSets_fuelMono _ _ _).returns h2, h3⟩

theorem acceptReduce_reachable : ReachableItems acceptReduceGrammar {acceptItem, reduceItem} := by
  have e0 : ∃ r ∈ Closure acceptReduceGrammar {Lr0Item.create "S" ["A"]} 5, ∃ J ∈ r,
      J = {⟨"S", ["A"], 0⟩, ⟨"A", ["A"], 0⟩, ⟨"A", ["a"], 0⟩} := by decide
  have e1 : ∃ r ∈ Closure acceptReduceGrammar
      (kernelItems {⟨"S", ["A"], 0⟩, ⟨"A", ["A"], 0⟩, ⟨"A", ["a"], 0⟩} "A") 5, ∃ J ∈ r,
      J = {acceptItem, reduceItem} := by decide
  obtain ⟨r0, h0, J0, g0, rfl⟩ := e0
  obtain ⟨r1, h1, J1, g1, rfl⟩ := e1
  have g0' : r0 = some _ := g0
  have g1' : r1 = some _ := g1
  subst g0' g1'
  refine ReachableItems.goto _ _ "A" (ReachableItems.initial ["A"] [] _ (by decide)
    ((Closure_fuelMono _ _).returns h0)) (by decide) ((Closure_fuelMono _ _).returns h1)

/-- C38 fails: the verdict of `SolveLRConflicts` depends on the order in which
the items of a state are visited when the state holds a complete item of
the axiom and a complete item of another non-terminal whose FOLLOW set
holds the end marker.  The `Accept` is written without a look at the cell,
and the `Reduce` is refused on a cell that holds an `Accept`.  For every
state that holds no such pair the verdict on an empty row is the same for any two
traversal orders.  For the grammar `S -> A`, `A -> A | a`, its state
`S -> A .`, `A -> A .` and its computed FOLLOW sets, the verdict is `true`
exactly when the item `A -> A .` is visited before the item of the axiom;
the order with the item of the axiom in front gives `false` and the order
with the other item in front gives `true`. -/
theorem C38_conflict_verdict_depends_on_order :
    (∀ (gr : Grammar) (fo : SetMap) (o1 o2 : HashOrder) (st : state) (a0 : action_table),
      o1.Valid → o2.Valid → (∀ y, actLookup a0 st.id_ y = none) →
      ¬ AcceptReduceConflict gr fo st.items_ →
      (SLR1Parser.SolveLRConflicts gr fo o1 a0 st).1 =
        (SLR1Parser.SolveLRConflicts gr fo o2 a0 st).1) ∧
    ReachableItems acceptReduceGrammar acceptReduceState.items_ ∧
    (∃ fi R, Returns (SLR1Parser.ComputeFirstSets acceptReduceGrammar UMap.empty) fi ∧
      Returns (SLR1Parser.ComputeFollowSets acceptReduceGrammar fi UMap.empty) R ∧
      SLR1Parser.Follow R.2 "A" = {"$"} ∧
      AcceptReduceConflict acceptReduceGrammar R.2 acceptReduceState.items_ ∧
      (∀ o : HashOrder, o.Valid →
        ((SLR1Parser.SolveLRConflicts acceptReduceGrammar R.2 o IdMap.empty
            acceptReduceState).1 = true ↔
          o.items 1 acceptReduceState.items_ = [reduceItem, acceptItem])) ∧
      (frontOrder acceptItem).Valid ∧ (frontOrder reduceItem).Valid ∧
      (SLR1Parser.SolveLRConflicts acceptReduceGrammar R.2 (frontOrder acceptItem) IdMap.empty
        acceptReduceState).1 = false ∧
      (SLR1Parser.SolveLRConflicts acceptReduceGrammar R.2 (frontOrder reduceItem) IdMap.empty
        acceptReduceState).1 = true) := by
  refine ⟨fun gr fo o1 o2 st a0 h1 h2 hempty hno => ?_, acceptReduce_reachable, ?_⟩
  · have e1 := solve_verdict_iff gr fo h1 st a0 hempty hno
    have e2 := solve_verdict_iff gr fo h2 st a0 hempty hno
    cases hb1 : (SLR1Parser.SolveLRConflicts gr fo o1 a0 st).1 with
    | false => exact (e2.mpr (e1.mp hb1)).symm
    | true =>
      cases hb2 : (SLR1Parser.SolveLRConflicts gr fo o2 a0 st).1 with
      | true => rfl
      | false =>
        have := e1.mpr (e2.mp hb2)
        rw [hb1] at this
        cases this
  · obtain ⟨fi, R, h1, h2, h3⟩ := acceptReduce_follow
    have hne : acceptItem ≠ reduceItem := by decide
    have hp := frontOrder_items_pair acceptItem reduceItem hne 1
    have hconf : AcceptReduceConflict acceptReduceGrammar R.2 acceptReduceState.items_ :=
      ⟨acceptItem, by decide, reduceItem, by decide, by decide,
        ⟨by decide, by decide, by
          rw [show reduceItem.antecedent_ = "A" from rfl, h3]
          decide⟩⟩
    refine ⟨fi, R, h1, h2, h3, hconf, fun o ho => ?_, frontOrder_valid _, frontOrder_valid _,
      (accept_reduce_verdict R.2 h3 _ (frontOrder_valid _)).1 hp.1,
      (accept_reduce_verdict R.2 h3 _ (frontOrder_valid _)).2 hp.2⟩
    obtain ⟨v1, v2⟩ := accept_reduce_verdict R.2 h3 o ho
    obtain ⟨hnd, hmem⟩ := ho.2.2.1 1 {acceptItem, reduceItem}
    have hcases := list_eq_pair_of_nodup hnd
      (fun x => by rw [hmem]; simp) hne
    constructor
    · intro hb
      rcases hcases with hc | hc
      · have := v1 hc
        rw [hb] at this
        cases this
      · exact hc
    · intro hc
      exact v2 hc

theorem TeachClosureUtil_succ (gr : Grammar) (n : Nat) (items : Finset Lr0Item) (size : Nat)
    (visited : Finset String) :
    TeachClosureUtil gr (n + 1) items size visited =
      if ∃ next ∈ closureTargets gr items visited, gr.at? next = none then some none
      else if size ≠ (items ∪ (closureTargets gr items visited).biUnion (teachExpand gr)).card
        then TeachClosureUtil gr n
          (items ∪ (closureTargets gr items visited).biUnion (teachExpand gr))
          (items ∪ (closureTargets gr items visited).biUnion (teachExpand gr)).card
          (visited ∪ closureTargets gr items visited)
      else some (some (items ∪ (closureTargets gr items visited).biUnion (teachExpand gr))) :=
  rfl

theorem TeachClosureUtil_fuelMono (gr : Grammar) (items : Finset Lr0Item) (size : Nat)
    (visited : Finset String) : FuelMono fun n => TeachClosureUtil gr n items size visited := by
  intro n
  induction n generalizing items size visited with
  | zero => intro a h; simp [TeachClosureUtil] at h
  | succ n ih =>
    intro a h k hk
    obtain ⟨k, rfl⟩ : ∃ j, k = j + 1 := ⟨k - 1, by omega⟩
    simp only [TeachClosureUtil_succ] at h ⊢
    split_ifs at h ⊢ with h1 h2
    · exact h
    · exact ih _ _ _ a h k (by omega)
    · exact h

theorem TeachClosure_fuelMono (gr : Grammar) (items : Finset Lr0Item) :
    FuelMono (TeachClosure gr items) :=
  TeachClosureUtil_fuelMono gr items items.card ∅

theorem createAt_eq_create (A : String) (rule : List String) (h : rule ≠ [EPSILON_]) :
    Lr0Item.createAt A rule 0 = Lr0Item.create A rule := by
  unfold Lr0Item.createAt Lr0Item.create
  rw [if_neg]
  rintro ⟨h1, h2⟩
  apply h
  cases rule with
  | nil => cases h2
  | cons x rest =>
    simp only [List.length_cons, add_left_eq_self, List.length_eq_zero] at h1
    simp only [List.head?_cons, Option.some.injEq] at h2
    rw [h1, h2]

theorem teachExpand_eq (gr : Grammar) (h : ∀ r ∈ gr.g_, ∀ p ∈ r.2, p ≠ [EPSILON_])
    (next : String) : teachExpand gr next = closureExpand gr next := by
  unfold teachExpand closureExpand
  cases hr : gr.at? next with
  | none => rfl
  | some rules =>
    simp only
    congr 1
    apply List.map_congr_left
    intro rule hrule
    exact createAt_eq_create next rule (h _ (Grammar.at?_eq_some hr) rule hrule)

theorem TeachClosureUtil_eq (gr : Grammar) (h : ∀ r ∈ gr.g_, ∀ p ∈ r.2, p ≠ [EPSILON_]) :
    ∀ (n : Nat) (items : Finset Lr0Item) (size : Nat) (visited : Finset String),
      TeachClosureUtil gr n items size visited = ClosureUtil gr n items size visited := by
  have he : teachExpand gr = closureExpand gr := funext (teachExpand_eq gr h)
  intro n
  induction n with
  | zero => intro items size visited; rfl
  | succ n ih =>
    intro items size visited
    rw [TeachClosureUtil_succ, ClosureUtil_succ, he]
    simp only [ih]

/-- C40 fails: the constructor of `Lr0Item` with a dot, which `TeachClosure`
uses, assigns `1` to its parameter instead of the member `dot_`, so that the
item of a production that is only `EPSILON_` keeps the dot at `0`, where the
constructor used by `Closure` puts it at `1`.  For every grammar without a
production that is only `EPSILON_` the two closures leave the same item set
(and fail alike).  For `S -> A $`, `A -> EPSILON` and the item set holding
`S -> . A $`, `Closure` adds the item of `A -> EPSILON` with the dot at `1`
and `TeachClosure` adds it with the dot at `0`. -/
theorem C40_teach_closure_differs :
    (∀ gr : Grammar, (∀ r ∈ gr.g_, ∀ p ∈ r.2, p ≠ [EPSILON_]) →
      ∀ (I : Finset Lr0Item) (fuel : Nat), TeachClosure gr I fuel = Closure gr I fuel) ∧
    Lr0Item.create "A" ["EPSILON"] = ⟨"A", ["EPSILON"], 1⟩ ∧
    Lr0Item.createAt "A" ["EPSILON"] 0 = ⟨"A", ["EPSILON"], 0⟩ ∧
    Returns (Closure nullGrammar {⟨"S", ["A", "$"], 0⟩})
      (some {⟨"S", ["A", "$"], 0⟩, ⟨"A", ["EPSILON"], 1⟩}) ∧
    Returns (TeachClosure nullGrammar {⟨"S", ["A", "$"], 0⟩})
      (some {⟨"S", ["A", "$"], 0⟩, ⟨"A", ["EPSILON"], 0⟩}) ∧
    ({⟨"S", ["A", "$"], 0⟩, ⟨"A", ["EPSILON"], 1⟩} : Finset Lr0Item) ≠
      {⟨"S", ["A", "$"], 0⟩, ⟨"A", ["EPSILON"], 0⟩} := by
  refine ⟨fun gr h I fuel => TeachClosureUtil_eq gr h fuel I I.card ∅, by decide, rfl, ?_, ?_,
    by decide⟩
  · have e : ∃ r ∈ Closure nullGrammar {⟨"S", ["A", "$"], 0⟩} 5, ∃ J ∈ r,
        J = {⟨"S", ["A", "$"], 0⟩, ⟨"A", ["EPSILON"], 1⟩} := by decide
    obtain ⟨r, h, J, g, rfl⟩ := e
    have g' : r = some _ := g
    subst g'
    exact (Closure_fuelMono _ _).returns h
  · have e : ∃ r ∈ TeachClosure nullGrammar {⟨"S", ["A", "$"], 0⟩} 5, ∃ J ∈ r,
        J = {⟨"S", ["A", "$"], 0⟩, ⟨"A", ["EPSILON"], 0⟩} := by decide
    obtain ⟨r, h, J, g, rfl⟩ := e
    have g' : r = some _ := g
    subst g'
    exact (TeachClosure_fuelMono _ _).returns h

/-! ## `Closure` on the item sets of a grammar (C10) -/

/-- C10: for every grammar in which each non-terminal occurring in a
production is a key of the rule map, and every item set `I` of the grammar
(each item is a production of the grammar with a dot position), `Closure(I)`
returns the least set `J` containing `I` such that whenever an item of `J`
has a non-terminal `B` immediately after its dot, `J` contains the initial
item of every production of `B` (dot at 0, or the complete item for the
`EPSILON_` production). -/
theorem C10_closure_least_closed_set (gr : Grammar) (I : Finset Lr0Item)
    (hg : ∀ r ∈ gr.g_, ∀ p ∈ r.2, ∀ B ∈ p, B ≠ EPSILON_ → gr.st_.IsTerminal B = false →
      B ∈ gr.keys)
    (hI : I ⊆ SLR1Parser.AllItems gr) :
    ∃ J, Returns (Closure gr I) (some J) ∧ I ⊆ J ∧ ClosedItems gr J ∧
      ∀ J', I ⊆ J' → ClosedItems gr J' → J ⊆ J' :=
  Closure_least_of_knownNext gr I hg (knownNext_of_subset_AllItems hg hI)

/-- The hypotheses of C10 hold for `S -> A $`, `A -> a A | b` and the item
set of the initial item `S -> . A $`, whose closure adds `A -> . a A` and
`A -> . b`. -/
theorem C10_closure_least_closed_set_witness :
    (∀ r ∈ classicGrammar.g_, ∀ p ∈ r.2, ∀ B ∈ p, B ≠ EPSILON_ →
      classicGrammar.st_.IsTerminal B = false → B ∈ classicGrammar.keys) ∧
    ({Lr0Item.create "S" ["A", "$"]} : Finset Lr0Item) ⊆ SLR1Parser.AllItems classicGrammar ∧
    (∃ r ∈ Closure classicGrammar {Lr0Item.create "S" ["A", "$"]} 3, ∃ J ∈ r,
      J = {⟨"S", ["A", "$"], 0⟩, ⟨"A", ["a", "A"], 0⟩, ⟨"A", ["b"], 0⟩}) ∧
    ∃ J, Returns (Closure classicGrammar {Lr0Item.create "S" ["A", "$"]}) (some J) ∧
      {Lr0Item.create "S" ["A", "$"]} ⊆ J ∧ ClosedItems classicGrammar J ∧
      ∀ J', {Lr0Item.create "S" ["A", "$"]} ⊆ J' → ClosedItems classicGrammar J' → J ⊆ J' :=
  ⟨by decide, by decide, by decide,
   C10_closure_least_closed_set classicGrammar {Lr0Item.create "S" ["A", "$"]}
     (by decide) (by decide)⟩

/-- C20 as stated fails: in the grammar `S -> EPSILON` with the symbol table
that holds `S` besides the default entries, the rule key is a registered
non-terminal, and the only registered non-terminal `S` derives the empty
string, which is a string of terminals; yet `IsInfinite` returns true and
not false, since `EPSILON_` is not in `terminals_` and `S` is therefore not
generating. -/
theorem C20_epsilon_unregistered_counterexample :
    (∀ k ∈ epsilonOnlyGrammar.keys, k ∈ epsilonOnlyGrammar.st_.non_terminals_) ∧
    epsilonOnlyGrammar.st_.IsTerminal EPSILON_ = false ∧
    (∀ nt ∈ epsilonOnlyGrammar.st_.non_terminals_,
      ∃ w, epsilonOnlyGrammar.Derives [nt] w ∧
        ∀ y ∈ w, epsilonOnlyGrammar.st_.IsTerminal y = true) ∧
    Returns (IsInfinite epsilonOnlyGrammar) true ∧
    ¬ Returns (IsInfinite epsilonOnlyGrammar) false := by
  have hret : Returns (IsInfinite epsilonOnlyGrammar) true :=
    (IsInfinite_fuelMono epsilonOnlyGrammar).returns (n := 1) (by decide)
  refine ⟨by decide, by decide, fun nt hnt => ⟨[], ?_, fun y hy => by cases hy⟩, hret,
    fun h => ?_⟩
  · have hS : nt = "S" := by
      have h0 : epsilonOnlyGrammar.st_.non_terminals_ = {"S"} := by decide
      rw [h0] at hnt
      exact Finset.mem_singleton.mp hnt
    subst hS
    have hstep := @Grammar.Produces.step epsilonOnlyGrammar [] []
      ("S", [["EPSILON"]]) ["EPSILON"] (by decide) (by decide) (by decide)
    have hb : Grammar.body ["EPSILON"] = [] := by decide
    rw [hb] at hstep
    exact Relation.ReflTransGen.single hstep
  · have := Returns.unique hret h
    cases this

/-! ## `HasEmptyProduction` looks at the first symbol (C32) -/

/-- C32 fails: `HasEmptyProduction` compares the first symbol of each
production with `EPSILON_` and does not look at the length.  For every
grammar it fails with `std::out_of_range` for an antecedent that is not a
key, and for a key it returns true iff one of the productions of the
antecedent begins with `EPSILON_`; that is the documented value (one of them
is the one-symbol sequence `EPSILON_`) when `EPSILON_` begins no longer
production.  In the grammar `S -> A $`, `A -> EPSILON a`, whose productions
are not empty, it returns true for `A`, none of whose productions is the
one-symbol sequence `EPSILON_`. -/
theorem C32_has_empty_production_first_symbol :
    (∀ (gr : Grammar) (A : String),
      (A ∉ gr.keys → gr.HasEmptyProduction A = none) ∧
      (A ∈ gr.keys → ∃ ps b, gr.at? A = some ps ∧ (A, ps) ∈ gr.g_ ∧
        gr.HasEmptyProduction A = some b ∧
        (b = true ↔ ∃ p ∈ ps, ∃ rest, p = EPSILON_ :: rest) ∧
        ((∀ p ∈ ps, ∀ rest, p = EPSILON_ :: rest → rest = []) →
          (b = true ↔ [EPSILON_] ∈ ps)))) ∧
    epsilonPrefixGrammar.at? "A" = some [["EPSILON", "a"]] ∧
    (∀ r ∈ epsilonPrefixGrammar.g_, ∀ p ∈ r.2, p ≠ []) ∧
    [EPSILON_] ∉ [["EPSILON", "a"]] ∧
    epsilonPrefixGrammar.HasEmptyProduction "A" = some true := by
  refine ⟨fun gr A => ⟨(HasEmptyProduction_spec gr A).1, fun hA => ?_⟩,
    by decide, by decide, by decide, by decide⟩
  obtain ⟨ps, b, h1, h2, h3, h4⟩ := (HasEmptyProduction_spec gr A).2 hA
  refine ⟨ps, b, h1, h2, h3, h4, fun hlen => ?_⟩
  rw [h4]
  constructor
  · rintro ⟨p, hp, rest, rfl⟩
    rw [hlen _ hp rest rfl] at hp
    exact hp
  · intro h
    exact ⟨_, h, [], rfl⟩

/-! ## `LeftFactorize` returns after one factoring pass (C27) -/

theorem ruleAssign_factorFree {m : List (String × List production)} {k : String}
    {v : List production} (hm : ∀ e ∈ m, FactorFree e.2) (hv : FactorFree v) :
    ∀ e ∈ ruleAssign m k v, FactorFree e.2 := by
  intro e he
  rcases (ruleAssign_mem_iff m k v e).mp he with rfl | ⟨h, _⟩
  · exact hv
  · exact hm e h

/-- One rule of a pass: when the productions have no common prefix, or all
of them start with their longest common prefix and the remainders have no
common prefix, the rules of `new_rules` have no common prefixes
afterwards. -/
theorem factorRule_factorFree (s : FactorState) (r : String × List production)
    (hs : ∀ e ∈ s.new_rules, FactorFree e.2)
    (hr : FactorFree r.2 ∨ (LongestCommonPrefix r.2 ≠ [] ∧
      (∀ p ∈ r.2, StartsWith p (LongestCommonPrefix r.2) = true) ∧
      FactorFree (r.2.map (factorRemainder (LongestCommonPrefix r.2))))) :
    ∀ e ∈ (factorRule s r).new_rules, FactorFree e.2 := by
  rcases hr with hf | ⟨h1, h2, h3⟩
  · rw [factorRule_free s r hf]
    exact ruleAssign_factorFree hs hf
  · obtain ⟨a, b⟩ := factorWhile_head r.1 r.2 s h1 h2
    simp only [factorRule]
    rw [a, b]
    exact ruleAssign_factorFree (ruleAssign_factorFree hs h3)
      (factorFree_of_length_le_one (by simp))

theorem factorPass_factorFree :
    ∀ (l : List (String × List production)) (s : FactorState),
      (∀ e ∈ s.new_rules, FactorFree e.2) →
      (∀ r ∈ l, FactorFree r.2 ∨ (LongestCommonPrefix r.2 ≠ [] ∧
        (∀ p ∈ r.2, StartsWith p (LongestCommonPrefix r.2) = true) ∧
        FactorFree (r.2.map (factorRemainder (LongestCommonPrefix r.2))))) →
      ∀ e ∈ (l.foldl factorRule s).new_rules, FactorFree e.2 := by
  intro l
  induction l with
  | nil => intro s hs _; exact hs
  | cons r l ih =>
    intro s hs hl
    simp only [List.foldl_cons]
    exact ih _ (factorRule_factorFree s r hs (hl r (List.mem_cons_self _ _)))
      fun q hq => hl q (List.mem_cons_of_mem _ hq)

/-- On a grammar with registered keys in which every rule either has no
common prefix or is factored completely by one step, `LeftFactorize` returns
after at most two passes. -/
theorem LeftFactorize_returns_of_one_pass (gr : Grammar) (o : MapOrder) (ho : o.Valid)
    (hk : gr.KeysRegistered)
    (hr : ∀ r ∈ gr.g_, FactorFree r.2 ∨ (LongestCommonPrefix r.2 ≠ [] ∧
      (∀ p ∈ r.2, StartsWith p (LongestCommonPrefix r.2) = true) ∧
      FactorFree (r.2.map (factorRemainder (LongestCommonPrefix r.2))))) :
    ∃ gr', Returns (LeftFactorize gr o) gr' := by
  have hfree := factorPass_factorFree gr.g_ ⟨gr.st_, [], false⟩
    (fun e he => by cases he) hr
  have hreg := keysRegistered_pass gr o ho hk
  by_cases hc : (gr.g_.foldl factorRule ⟨gr.st_, [], false⟩).changed = true
  · have hfix := factorLoop_fixed o _ hreg.1
      (fun r hr' => hfree r ((ho _).mem_iff.mp hr')) 0
    have h2 : LeftFactorize gr o 2 = factorLoop o 1
        { gr with st_ := (gr.g_.foldl factorRule ⟨gr.st_, [], false⟩).st_,
                  g_ := o.order (gr.g_.foldl factorRule ⟨gr.st_, [], false⟩).new_rules } := by
      unfold LeftFactorize
      rw [factorLoop]
      simp only [hc, if_true]
    exact ⟨_, (LeftFactorize_fuelMono gr o).returns (n := 2) (h2.trans hfix)⟩
  · have h1 : LeftFactorize gr o 1 = some
        { gr with st_ := (gr.g_.foldl factorRule ⟨gr.st_, [], false⟩).st_,
                  g_ := o.order (gr.g_.foldl factorRule ⟨gr.st_, [], false⟩).new_rules } := by
      unfold LeftFactorize
      rw [factorLoop]
      simp only [hc, if_false]
      rfl
    exact ⟨_, (LeftFactorize_fuelMono gr o).returns (n := 1) h1⟩

/-- Total correctness of the factoring of one rule: when the other rules
have no common prefixes, `LeftFactorize` returns. -/
theorem LeftFactorize_returns_of_others_free (gr : Grammar) (o : MapOrder) (ho : o.Valid)
    (hk : gr.KeysRegistered) (A : String) (ps : List production) (pre : List String)
    (hA : (A, ps) ∈ gr.g_) (hpre : pre ≠ []) (hl : 2 ≤ ps.length)
    (hall : ∀ p ∈ ps, pre <+: p)
    (hd : (ps.map (factorRemainder pre)).Pairwise fun a b => a.head? ≠ b.head?)
    (hothers : ∀ r ∈ gr.g_, r.1 ≠ A → FactorFree r.2) :
    ∃ gr', Returns (LeftFactorize gr o) gr' := by
  have hlcp : LongestCommonPrefix ps = pre := LongestCommonPrefix_of_remainders hl hall hd
  apply LeftFactorize_returns_of_one_pass gr o ho hk
  intro r hr
  by_cases hrA : r.1 = A
  · right
    have h1 : gr.at? A = some ps := Grammar.at?_of_mem hk.1 hA
    have h2 : gr.at? A = some r.2 := Grammar.at?_of_mem hk.1 (by rw [← hrA]; exact hr)
    have e : r.2 = ps := Option.some.inj (h2.symm.trans h1)
    rw [e, hlcp]
    refine ⟨hpre, fun p hp => ?_, ?_⟩
    · obtain ⟨t, rfl⟩ := hall p hp
      exact StartsWith_append pre t
    · apply factorFree_of_distinctHeads
      exact List.Pairwise.imp (fun hne => Or.inr hne) hd
  · exact Or.inl (hothers r hr hrA)

/-- C27 fails: `LeftFactorize` need not return, and then replaces nothing.
For every grammar whose rule keys are different registered non-terminals, in
which the rule of `A` has at least two productions that all begin with `pre`
(not empty) and whose remainders after `pre` begin with pairwise different
symbols (an empty remainder counting as `EPSILON_`), for every traversal
order: a grammar that `LeftFactorize` returns has the single production
`pre A'` in the rule of `A` and one production per production of `A` in the
rule of `A'`, namely its remainder, or `EPSILON_` when the production is
`pre`, where `A'` is `A` followed by at least one prime and not a registered
non-terminal of the grammar; and `LeftFactorize` does return when no other
rule has a common prefix to factor.  The grammar `S -> A $`,
`A -> a b B | a b c` of the tests becomes `S -> A $`, `A -> a b A'`,
`A' -> B | c`.  The grammar `S -> A $`, `A -> a b | a c`, `B -> x | x` meets
the hypotheses with `pre = a`, and for every traversal order `LeftFactorize`
never returns on it, so the rule of `A` is not replaced. -/
theorem C27_left_factorize_may_not_return :
    (∀ (gr : Grammar) (o : MapOrder) (A : String) (ps : List production) (pre : List String),
      o.Valid → gr.KeysRegistered → (A, ps) ∈ gr.g_ → pre ≠ [] → 2 ≤ ps.length →
      (∀ p ∈ ps, pre <+: p) →
      (ps.map (factorRemainder pre)).Pairwise (fun a b => a.head? ≠ b.head?) →
      (∀ gr', Returns (LeftFactorize gr o) gr' →
        ∃ n, 0 < n ∧ addPrimes A n ∉ gr.st_.non_terminals_ ∧
          gr'.at? A = some [pre ++ [addPrimes A n]] ∧
          gr'.at? (addPrimes A n) = some (ps.map (factorRemainder pre))) ∧
      ((∀ r ∈ gr.g_, r.1 ≠ A → FactorFree r.2) →
        ∃ gr', Returns (LeftFactorize gr o) gr')) ∧
    (∃ gr', Returns (LeftFactorize factorGrammar insertionOrder) gr' ∧
      gr'.g_ = [("S", [["A", "$"]]), ("A'", [["B"], ["c"]]), ("A", [["a", "b", "A'"]])]) ∧
    stuckGrammar.g_ =
      [("S", [["A", "$"]]), ("A", [["a", "b"], ["a", "c"]]), ("B", [["x"], ["x"]])] ∧
    stuckGrammar.KeysRegistered ∧
    ["a"] ≠ ([] : List String) ∧ 2 ≤ [["a", "b"], ["a", "c"]].length ∧
    (∀ p ∈ [["a", "b"], ["a", "c"]], ["a"] <+: p) ∧
    ([["a", "b"], ["a", "c"]].map (factorRemainder ["a"])).Pairwise
      (fun a b => a.head? ≠ b.head?) ∧
    ∀ o : MapOrder, o.Valid → ∀ fuel, LeftFactorize stuckGrammar o fuel = none := by
  refine ⟨fun gr o A ps pre ho hk hA hpre hl hall hd =>
      ⟨fun gr' h => LeftFactorize_common_prefix gr gr' o ho hk A ps pre hA hpre hl hall hd h,
       fun hothers =>
        LeftFactorize_returns_of_others_free gr o ho hk A ps pre hA hpre hl hall hd hothers⟩,
    ⟨(LeftFactorize factorGrammar insertionOrder 3).getD factorGrammar,
      (LeftFactorize_fuelMono factorGrammar insertionOrder).returns
        (isSome_eq_getD (by decide) factorGrammar), by decide⟩,
    by decide, by decide, by decide, by decide, by decide, by decide, fun o ho fuel => ?_⟩
  exact factorLoop_diverges o ho fuel stuckGrammar (by decide) ⟨"B", ["x"], by decide, by decide⟩

end SyntaxTutor
